import Mathlib

/-!
A verification development for `malloclab/src/mm-2017-19651.c`

The allocator is a 32-bit segregated-free-list allocator with boundary tags.
It is embedded here as pure functions over an explicit heap state:

* memory is a map from byte addresses to bytes; a word access reads or
  writes four consecutive bytes, little endian;
* `size_t`, `unsigned int` and pointers are 32 bits wide: every arithmetic
  result of the C code is reduced modulo `2^32`;
* the two list-walking `while` loops take a fuel argument and yield `none`
  when the fuel runs out before the loop ends.
-/

namespace MM

/-! ## Machine words and memory -/

/-- Reduction of an arithmetic result to an unsigned 32-bit value. -/
def u32 (x : Nat) : Nat := x % 4294967296

/-- The heap state: the byte memory, the three globals of the memory system
(`mem_start_brk`, `mem_brk`, `mem_max_addr`) and the two globals of `mm.c`
(`heap_ptr`, `seg_list_ptr`). -/
structure Heap where
  mem : Nat → Nat
  mem_start_brk : Nat
  mem_brk : Nat
  mem_max_addr : Nat
  heap_ptr : Nat
  seg_list_ptr : Nat

/-- Little-endian read of the 32-bit word stored at byte address `p`. -/
def rd32 (m : Nat → Nat) (p : Nat) : Nat :=
  m p % 256 + 256 * (m (p + 1) % 256) + 65536 * (m (p + 2) % 256)
    + 16777216 * (m (p + 3) % 256)

/-- Little-endian write of the 32-bit word `v` at byte address `p`. -/
def wr32 (m : Nat → Nat) (p v : Nat) : Nat → Nat := fun a =>
  if a = p then v % 256
  else if a = p + 1 then v / 256 % 256
  else if a = p + 2 then v / 65536 % 256
  else if a = p + 3 then v / 16777216 % 256
  else m a

/-- The library routine `memmove(dst, src, n)`: the `n` bytes at `src` (as
they were before the call) are stored at `dst`. -/
def memmove (m : Nat → Nat) (dst src n : Nat) : Nat → Nat := fun a =>
  if dst ≤ a ∧ a < dst + n then m (src + (a - dst)) else m a

/-! ## Constants and macros of `mm.c` -/

def ALIGNMENT : Nat := 8
def WSIZE : Nat := 4
def DSIZE : Nat := 8
def CHUNKSIZE : Nat := 1 <<< 6
def DCHUNKSIZE : Nat := 1 <<< 12
def SEG_SIZE : Nat := 24
def MINSIZE : Nat := 200
def NULL : Nat := 0

/-- The mask `~0x7` as a 32-bit word. -/
def MASK7 : Nat := 0xFFFFFFF8

/-- `ALIGN(size) = ((size) + (ALIGNMENT-1)) & ~0x7`. -/
def ALIGN (size : Nat) : Nat := u32 (size + (ALIGNMENT - 1)) &&& MASK7

/-- `MAX(x, y) = ((x) > (y) ? (x) : (y))`. -/
def MAX (x y : Nat) : Nat := if x > y then x else y

/-- `PACK(size, alloc) = ((size) | (alloc))`. -/
def PACK (size alloc : Nat) : Nat := size ||| alloc

/-- `GET(p) = *(unsigned int *)(p)`. -/
def GET (s : Heap) (p : Nat) : Nat := rd32 s.mem p

/-- `PUT(p, val)`: `*(unsigned int *)(p) = (val)`. -/
def PUT (s : Heap) (p val : Nat) : Heap := { s with mem := wr32 s.mem p val }

/-- The heap state `s` with its memory replaced by `M`: the effect of a
library routine that writes memory. -/
def Heap.setMem (s : Heap) (M : Nat → Nat) : Heap := { s with mem := M }

/-- `GET_SIZE(p) = GET(p) & ~0x7`. -/
def GET_SIZE (s : Heap) (p : Nat) : Nat := GET s p &&& MASK7

/-- `GET_ALLOC(p) = GET(p) & 0x1`. -/
def GET_ALLOC (s : Heap) (p : Nat) : Nat := GET s p &&& 1

/-- `HDRP(bp) = (char *)(bp) - WSIZE`. -/
def HDRP (bp : Nat) : Nat := u32 (bp + 4294967296 - WSIZE)

/-- `FTRP(bp) = (char *)(bp) + GET_SIZE(HDRP(bp)) - DSIZE`. -/
def FTRP (s : Heap) (bp : Nat) : Nat := u32 (bp + GET_SIZE s (HDRP bp) + 4294967296 - DSIZE)

/-- `NEXT_BLKP(bp) = (char *)(bp) + GET_SIZE((char *)(bp) - WSIZE)`. -/
def NEXT_BLKP (s : Heap) (bp : Nat) : Nat := u32 (bp + GET_SIZE s (u32 (bp + 4294967296 - WSIZE)))

/-- `PREV_BLKP(bp) = (char *)(bp) - GET_SIZE((char *)(bp) - DSIZE)`. -/
def PREV_BLKP (s : Heap) (bp : Nat) : Nat :=
  u32 (bp + 4294967296 - GET_SIZE s (u32 (bp + 4294967296 - DSIZE)))

/-- `GET_BLK_SIZE(ptr) = GET_SIZE(HDRP(ptr))`. -/
def GET_BLK_SIZE (s : Heap) (ptr : Nat) : Nat := GET_SIZE s (HDRP ptr)

/-- `SET_SEG_LIST_PTR(ptr, idx, val)`: `*(GET_VAL(ptr) + idx) = val`. -/
def SET_SEG_LIST_PTR (s : Heap) (ptr idx val : Nat) : Heap := PUT s (u32 (ptr + WSIZE * idx)) val

/-- `GET_SEG_LIST_PTR(ptr, idx) = *(GET_VAL(ptr) + idx)`. -/
def GET_SEG_LIST_PTR (s : Heap) (ptr idx : Nat) : Nat := GET s (u32 (ptr + WSIZE * idx))

/-- `GET_SEG_PREV_ADR(bp) = (char *)(bp)`. -/
def GET_SEG_PREV_ADR (bp : Nat) : Nat := bp

/-- `GET_SEG_NEXT_ADR(bp) = (char *)(bp) + WSIZE`. -/
def GET_SEG_NEXT_ADR (bp : Nat) : Nat := u32 (bp + WSIZE)

/-- `SEG_PREV_BLKP(bp) = *(GET_VAL(bp))`. -/
def SEG_PREV_BLKP (s : Heap) (bp : Nat) : Nat := GET s bp

/-- `SEG_NEXT_BLKP(bp) = *(GET_VAL(GET_SEG_NEXT_ADR(bp)))`. -/
def SEG_NEXT_BLKP (s : Heap) (bp : Nat) : Nat := GET s (GET_SEG_NEXT_ADR bp)

/-! ## The region provider -/

/-- Modelled from the spec: the region provider `extend(n_bytes)` (the routine
`mem_sbrk` of the memory system, which is not part of the allocator source).
It returns the old break, the start of `incr` fresh bytes that follow all
previously granted space, or the failure value `(void *)-1` when the region
is exhausted. -/
def mem_sbrk (s : Heap) (incr : Nat) : Nat × Heap :=
  if s.mem_brk + incr > s.mem_max_addr then (4294967295, s)
  else (s.mem_brk, { s with mem_brk := s.mem_brk + incr })

/-! ## The segregated free lists -/

/-- The shift loop of `add_seglist` and `remove_seglist`:
`for (index = 0; index < SEG_SIZE - 1; index++) { if (size <= 1) break; size >>= 1; }`.
The first argument counts the iterations still allowed by the loop bound;
the result is the final `index` and the shifted `size`. -/
def seg_loop : Nat → Nat → Nat → Nat × Nat
  | 0, index, size => (index, size)
  | k + 1, index, size =>
    if size ≤ 1 then (index, size) else seg_loop k (index + 1) (size >>> 1)

/-- The insertion scan of `add_seglist`:
`while (curr != NULL && blk_size > GET_BLK_SIZE(curr)) { prev = curr; curr = SEG_PREV_BLKP(curr); }`. -/
def add_scan (s : Heap) (blk_size : Nat) : Nat → Nat → Nat → Option (Nat × Nat)
  | 0, _, _ => none
  | fuel + 1, prev, curr =>
    if curr ≠ NULL ∧ blk_size > GET_BLK_SIZE s curr then
      add_scan s blk_size fuel curr (SEG_PREV_BLKP s curr)
    else some (prev, curr)

/-- `add_seglist(bp, blk_size)`: add a new free block to its segregated list. -/
def add_seglist (fuel : Nat) (s : Heap) (bp blk_size : Nat) : Option Heap :=
  let (index, blk_size) := seg_loop (SEG_SIZE - 1) 0 blk_size
  let curr := GET_SEG_LIST_PTR s s.seg_list_ptr index
  match add_scan s blk_size fuel NULL curr with
  | none => none
  | some (prev, curr) =>
    if curr ≠ NULL ∧ prev ≠ NULL then
      let s := PUT s (GET_SEG_PREV_ADR prev) bp
      let s := PUT s (GET_SEG_NEXT_ADR bp) prev
      let s := PUT s (GET_SEG_PREV_ADR bp) curr
      let s := PUT s (GET_SEG_NEXT_ADR curr) bp
      some s
    else if curr ≠ NULL ∧ ¬ prev ≠ NULL then
      let s := PUT s (GET_SEG_NEXT_ADR curr) bp
      let s := PUT s (GET_SEG_PREV_ADR bp) curr
      let s := PUT s (GET_SEG_NEXT_ADR bp) NULL
      let s := SET_SEG_LIST_PTR s s.seg_list_ptr index bp
      some s
    else if ¬ curr ≠ NULL ∧ prev ≠ NULL then
      let s := PUT s (GET_SEG_NEXT_ADR bp) prev
      let s := PUT s (GET_SEG_PREV_ADR prev) bp
      let s := PUT s (GET_SEG_PREV_ADR bp) NULL
      some s
    else
      let s := PUT s (GET_SEG_NEXT_ADR bp) NULL
      let s := PUT s (GET_SEG_PREV_ADR bp) NULL
      let s := SET_SEG_LIST_PTR s s.seg_list_ptr index bp
      some s

/-- `remove_seglist(bp)`: unlink a block from its segregated list. -/
def remove_seglist (s : Heap) (bp : Nat) : Heap :=
  let prev := SEG_PREV_BLKP s bp
  let next := SEG_NEXT_BLKP s bp
  let size := GET_BLK_SIZE s bp
  let index := (seg_loop (SEG_SIZE - 1) 0 size).1
  if next = NULL then
    let s := SET_SEG_LIST_PTR s s.seg_list_ptr index prev
    let list_ptr := GET_SEG_LIST_PTR s s.seg_list_ptr index
    if list_ptr ≠ NULL then PUT s (GET_SEG_NEXT_ADR list_ptr) NULL else s
  else
    let s := PUT s (GET_SEG_PREV_ADR next) prev
    if prev ≠ NULL then PUT s (GET_SEG_NEXT_ADR prev) next else s

/-- The initialisation loop of `init_seglist`:
`for (int i = 0; i < SEG_SIZE; i++) SET_SEG_LIST_PTR(seg_list_ptr, i, NULL);`
(the first argument counts the iterations that remain). -/
def init_loop : Nat → Nat → Heap → Heap
  | 0, _, s => s
  | k + 1, i, s => init_loop k (i + 1) (SET_SEG_LIST_PTR s s.seg_list_ptr i NULL)

/-- `init_seglist()`: make space for the class table and clear it. -/
def init_seglist (s : Heap) : Heap :=
  let (p, s) := mem_sbrk s (SEG_SIZE * WSIZE)
  let s := { s with seg_list_ptr := p }
  init_loop SEG_SIZE 0 s

/-! ## Coalescing, heap growth, search and placement -/

/-- `coalesce(bp)`: merge the free block `bp` with its free neighbours. -/
def coalesce (fuel : Nat) (s : Heap) (bp : Nat) : Option (Nat × Heap) :=
  let prev_alloc := GET_ALLOC s (HDRP (PREV_BLKP s bp))
  let next_alloc := GET_ALLOC s (HDRP (NEXT_BLKP s bp))
  let size := GET_SIZE s (HDRP bp)
  if prev_alloc ≠ 0 ∧ next_alloc ≠ 0 then some (bp, s)
  else
    let s := remove_seglist s bp
    if prev_alloc ≠ 0 ∧ ¬ next_alloc ≠ 0 then
      let size := u32 (size + GET_SIZE s (HDRP (NEXT_BLKP s bp)))
      let s := remove_seglist s (NEXT_BLKP s bp)
      let s := PUT s (HDRP bp) (PACK size 0)
      let s := PUT s (FTRP s bp) (PACK size 0)
      (add_seglist fuel s bp size).map fun s => (bp, s)
    else if ¬ prev_alloc ≠ 0 ∧ next_alloc ≠ 0 then
      let s := remove_seglist s (PREV_BLKP s bp)
      let size := u32 (size + GET_SIZE s (HDRP (PREV_BLKP s bp)))
      let s := PUT s (FTRP s bp) (PACK size 0)
      let s := PUT s (HDRP (PREV_BLKP s bp)) (PACK size 0)
      let bp := PREV_BLKP s bp
      (add_seglist fuel s bp size).map fun s => (bp, s)
    else
      let size := u32 (size + GET_SIZE s (HDRP (PREV_BLKP s bp))
        + GET_SIZE s (FTRP s (NEXT_BLKP s bp)))
      let s := remove_seglist s (PREV_BLKP s bp)
      let s := remove_seglist s (NEXT_BLKP s bp)
      let s := PUT s (HDRP (PREV_BLKP s bp)) (PACK size 0)
      let s := PUT s (FTRP s (NEXT_BLKP s bp)) (PACK size 0)
      let bp := PREV_BLKP s bp
      (add_seglist fuel s bp size).map fun s => (bp, s)

/-- The byte count of `extend_heap(words)`:
`size = (words % 2) ? (words+1) * WSIZE : words * WSIZE`. -/
def extend_heap_size (words : Nat) : Nat :=
  if words % 2 ≠ 0 then u32 ((words + 1) * WSIZE) else u32 (words * WSIZE)

/-- `extend_heap(words)`: grow the heap by an even number of words and format
the new space as one free block followed by a new epilogue header. The
result `NULL` reports that the region provider failed. -/
def extend_heap (fuel : Nat) (s : Heap) (words : Nat) : Option (Nat × Heap) :=
  let size := extend_heap_size words
  let (bp, s) := mem_sbrk s size
  if bp = 4294967295 then some (NULL, s)
  else
    let s := PUT s (HDRP bp) (PACK size 0)
    let s := PUT s (FTRP s bp) (PACK size 0)
    let s := PUT s (HDRP (NEXT_BLKP s bp)) (PACK 0 1)
    match add_seglist fuel s bp size with
    | none => none
    | some s => coalesce fuel s bp

/-- The scan of one class list in `find_fit`:
`while (seg_ptr != NULL && (asize > GET_BLK_SIZE(seg_ptr))) seg_ptr = SEG_PREV_BLKP(seg_ptr);`. -/
def fit_scan (s : Heap) (asize : Nat) : Nat → Nat → Option Nat
  | 0, _ => none
  | fuel + 1, seg_ptr =>
    if seg_ptr ≠ NULL ∧ asize > GET_BLK_SIZE s seg_ptr then
      fit_scan s asize fuel (SEG_PREV_BLKP s seg_ptr)
    else some seg_ptr

/-- The recursion of `find_fit(asize, csize, index)`. The first argument
bounds the recursion depth; the recursion stops by itself as soon as
`index > SEG_SIZE`, so a depth of `SEG_SIZE + 2 - index` is never used up. -/
def find_fit_rec (fuel : Nat) (s : Heap) (asize : Nat) : Nat → Nat → Nat → Option Nat
  | 0, _, _ => none
  | depth + 1, csize, index =>
    if index > SEG_SIZE then some NULL
    else
      let seg_ptr := GET_SEG_LIST_PTR s s.seg_list_ptr index
      if csize ≤ 1 ∧ seg_ptr ≠ NULL then
        match fit_scan s asize fuel seg_ptr with
        | none => none
        | some seg_ptr =>
          if seg_ptr ≠ NULL then some seg_ptr
          else find_fit_rec fuel s asize depth (csize >>> 1) (index + 1)
      else find_fit_rec fuel s asize depth (csize >>> 1) (index + 1)

/-- `find_fit(asize, csize, index)`. -/
def find_fit (fuel : Nat) (s : Heap) (asize csize index : Nat) : Option Nat :=
  find_fit_rec fuel s asize (SEG_SIZE + 2 - index) csize index

/-- `place(bp, asize)`: take the free block `bp` for a request of adjusted
size `asize`, splitting it when the remainder is large enough. -/
def place (fuel : Nat) (s : Heap) (bp asize : Nat) : Option (Nat × Heap) :=
  let csize := GET_BLK_SIZE s bp
  let padding := u32 (csize + 4294967296 - asize)
  let s := remove_seglist s bp
  if padding < 2 * DSIZE then
    let s := PUT s (HDRP bp) (PACK csize 1)
    let s := PUT s (FTRP s bp) (PACK csize 1)
    some (bp, s)
  else if asize > MINSIZE then
    let s := PUT s (HDRP bp) (PACK asize 1)
    let s := PUT s (FTRP s bp) (PACK asize 1)
    let nbp := NEXT_BLKP s bp
    let s := PUT s (HDRP nbp) (PACK padding 0)
    let s := PUT s (FTRP s nbp) (PACK padding 0)
    (add_seglist fuel s nbp padding).map fun s => (bp, s)
  else
    let s := PUT s (HDRP bp) (PACK padding 0)
    let s := PUT s (FTRP s bp) (PACK padding 0)
    let nbp := NEXT_BLKP s bp
    let s := PUT s (HDRP nbp) (PACK asize 1)
    let s := PUT s (FTRP s nbp) (PACK asize 1)
    (add_seglist fuel s bp padding).map fun s => (nbp, s)

/-! ## The public operations -/

/-- `mm_init()`: build the class table, the prologue and epilogue, and a
first free block of `CHUNKSIZE` bytes. The result is `0` on success and
`-1` on failure. -/
def mm_init (fuel : Nat) (s : Heap) : Option (Int × Heap) :=
  let s := init_seglist s
  let (p, s) := mem_sbrk s (4 * WSIZE)
  let s := { s with heap_ptr := p }
  if s.heap_ptr = 4294967295 then some (-1, s)
  else
    let s := PUT s s.heap_ptr 0
    let s := PUT s (u32 (s.heap_ptr + 1 * WSIZE)) (PACK DSIZE 1)
    let s := PUT s (u32 (s.heap_ptr + 2 * WSIZE)) (PACK DSIZE 1)
    let s := PUT s (u32 (s.heap_ptr + 3 * WSIZE)) (PACK 0 1)
    let s := { s with heap_ptr := u32 (s.heap_ptr + 2 * WSIZE) }
    match extend_heap fuel s (CHUNKSIZE / WSIZE) with
    | none => none
    | some (bp, s) => if bp = NULL then some (-1, s) else some (0, s)

/-- The adjusted block size of `mm_malloc(size)`:
`asize = (size <= 2*DSIZE) ? 3*DSIZE : ALIGN(size + DSIZE)`. -/
def malloc_asize (size : Nat) : Nat :=
  if size ≤ 2 * DSIZE then 3 * DSIZE else ALIGN (u32 (size + DSIZE))

/-- `mm_malloc(size)`. The result `NULL` reports failure. -/
def mm_malloc (fuel : Nat) (s : Heap) (size : Nat) : Option (Nat × Heap) :=
  if size ≤ 0 then some (NULL, s)
  else
    let asize := malloc_asize size
    match find_fit fuel s asize asize 0 with
    | none => none
    | some bp =>
      if bp ≠ NULL then place fuel s bp asize
      else
        let extendsize := MAX asize DCHUNKSIZE
        match extend_heap fuel s (extendsize / WSIZE) with
        | none => none
        | some (bp, s) => if bp = NULL then some (NULL, s) else place fuel s bp asize

/-- `mm_free(bp)`. -/
def mm_free (fuel : Nat) (s : Heap) (bp : Nat) : Option Heap :=
  let size := GET_BLK_SIZE s bp
  let s := PUT s (HDRP bp) (PACK size 0)
  let s := PUT s (FTRP s bp) (PACK size 0)
  match add_seglist fuel s bp size with
  | none => none
  | some s => (coalesce fuel s bp).map fun r => r.2

/-- The library routine `memcpy(dst, src, n)`; the allocator only calls it on
a freshly allocated block and a live one. -/
def memcpy (m : Nat → Nat) (dst src n : Nat) : Nat → Nat := memmove m dst src n

/-- The locals of `mm_realloc` that survive its resize step: the heap, then
`new_ptr`, `realloced` and `padding`. -/
structure Resize where
  heap : Heap
  new_ptr : Nat
  realloced : Bool
  padding : Nat

/-- The branch `asize < csize` of `mm_realloc`, past its early return: the
block is retagged with the smaller size. -/
def realloc_shrink (s : Heap) (old_ptr csize asize : Nat) : Resize :=
  let padding := u32 (csize + 4294967296 - asize)
  let s := PUT s (HDRP old_ptr) (PACK (u32 (asize + DSIZE)) 1)
  let s := PUT s (FTRP s old_ptr) (PACK (u32 (asize + DSIZE)) 1)
  { heap := s, new_ptr := old_ptr, realloced := true, padding := padding }

/-- The branch `asize > csize` of `mm_realloc`: the three attempts to absorb
the physical neighbours. -/
def realloc_grow (s : Heap) (old_ptr csize asize : Nat) : Resize :=
  let next_ptr := NEXT_BLKP s old_ptr
  let prev_ptr := PREV_BLKP s old_ptr
  let nsize := if next_ptr ≠ NULL then GET_BLK_SIZE s next_ptr else 0
  let psize := if prev_ptr ≠ NULL then GET_BLK_SIZE s prev_ptr else 0
  let previous_merge := prev_ptr ≠ NULL ∧ GET_ALLOC s (HDRP prev_ptr) = 0
  let next_merge := next_ptr ≠ NULL ∧ GET_ALLOC s (HDRP next_ptr) = 0
  let r : Resize :=
    if previous_merge then
      if u32 (psize + csize) ≥ asize then
        let padding := u32 (csize + psize + 4294967296 - asize)
        let s := remove_seglist s prev_ptr
        let new_size := if padding > DSIZE then u32 (asize + DSIZE) else u32 (csize + psize + DSIZE)
        let new_ptr := prev_ptr
        let s := PUT s (HDRP new_ptr) (PACK new_size 1)
        let s := s.setMem (memmove s.mem new_ptr old_ptr (u32 (csize + DSIZE)))
        let s := PUT s (FTRP s new_ptr) (PACK new_size 1)
        { heap := s, new_ptr := new_ptr, realloced := true, padding := padding }
      else { heap := s, new_ptr := NULL, realloced := false, padding := 0 }
    else if next_merge then
      if u32 (nsize + csize) ≥ asize then
        let padding := u32 (csize + nsize + 4294967296 - asize)
        let s := remove_seglist s next_ptr
        let new_size := if padding > DSIZE then u32 (asize + DSIZE) else u32 (csize + nsize + DSIZE)
        let s := PUT s (HDRP old_ptr) (PACK new_size 1)
        let s := PUT s (FTRP s old_ptr) (PACK new_size 1)
        { heap := s, new_ptr := old_ptr, realloced := true, padding := padding }
      else { heap := s, new_ptr := NULL, realloced := false, padding := 0 }
    else { heap := s, new_ptr := NULL, realloced := false, padding := 0 }
  let s := r.heap
  let previous_next_merge :=
    GET_ALLOC s (HDRP prev_ptr) = 0 ∧ GET_ALLOC s (HDRP next_ptr) = 0
  if previous_next_merge then
    if u32 (psize + nsize + csize) ≥ asize then
      let padding := u32 (csize + psize + nsize + 4294967296 - asize)
      let s := remove_seglist s next_ptr
      let s := remove_seglist s prev_ptr
      let new_size :=
        if padding > DSIZE then u32 (asize + DSIZE) else u32 (csize + psize + nsize + DSIZE)
      let new_ptr := prev_ptr
      let s := PUT s (HDRP new_ptr) (PACK new_size 1)
      let s := s.setMem (memmove s.mem new_ptr old_ptr (u32 (csize + DSIZE)))
      let s := PUT s (FTRP s new_ptr) (PACK new_size 1)
      { heap := s, new_ptr := new_ptr, realloced := true, padding := padding }
    else r
  else r

/-- The last part of `mm_realloc`: either the remainder of an in-place resize
is turned into a free block, or the block is moved with
`mm_malloc`, `memcpy` and `mm_free`. -/
def realloc_finish (fuel : Nat) (r : Resize) (old_ptr size csize : Nat) :
    Option (Nat × Heap) :=
  let s := r.heap
  if r.realloced then
    if r.padding > DSIZE then
      let ret := NEXT_BLKP s r.new_ptr
      let s := PUT s (HDRP ret) (PACK r.padding 0)
      let s := PUT s (FTRP s ret) (PACK r.padding 0)
      match add_seglist fuel s ret (GET_BLK_SIZE s ret) with
      | none => none
      | some s => (coalesce fuel s ret).map fun c => (r.new_ptr, c.2)
    else some (r.new_ptr, s)
  else
    match mm_malloc fuel s size with
    | none => none
    | some (new_ptr, s) =>
      if new_ptr = NULL then some (NULL, s)
      else
        let s := s.setMem (memcpy s.mem new_ptr old_ptr (u32 (csize + DSIZE)))
        (mm_free fuel s old_ptr).map fun s => (new_ptr, s)

/-- `mm_realloc(ptr, size)`. The result `NULL` reports failure. -/
def mm_realloc (fuel : Nat) (s : Heap) (ptr size : Nat) : Option (Nat × Heap) :=
  let old_ptr := ptr
  if ptr = NULL then mm_malloc fuel s size
  else if size = 0 then (mm_free fuel s ptr).map fun s => (ptr, s)
  else
    let csize := u32 (GET_BLK_SIZE s ptr + 4294967296 - DSIZE)
    let asize := ALIGN size
    if asize = csize then some (old_ptr, s)
    else if asize < csize then
      if u32 (csize + 4294967296 - asize) ≤ DSIZE then some (old_ptr, s)
      else realloc_finish fuel (realloc_shrink s old_ptr csize asize) old_ptr size csize
    else if asize > csize then
      realloc_finish fuel (realloc_grow s old_ptr csize asize) old_ptr size csize
    else
      realloc_finish fuel
        { heap := s, new_ptr := NULL, realloced := false, padding := 0 } old_ptr size csize

/-! ## The abstract view of a heap state -/

/-- A block as its boundary tags describe it: the payload address `bp` (the
address the macros of `mm.c` work with), the size in bytes and the
allocation flag. The block occupies the bytes `[bp - 4, bp + size - 4)`. -/
structure Blk where
  bp : Nat
  size : Nat
  alloc : Bool
deriving DecidableEq

/-- The tag word of a block, `PACK(size, alloc)`. -/
def Blk.tag (b : Blk) : Nat := b.size + (if b.alloc then 1 else 0)

/-- The blocks of `bl` lie one after the other, the first with payload
address `a`, and the payload address after the last one is `e`; every size
is a multiple of 8 and at least 16. -/
def Layout : Nat → List Blk → Nat → Prop
  | a, [], e => a = e
  | a, b :: bs, e => b.bp = a ∧ 16 ≤ b.size ∧ b.size % 8 = 0 ∧ Layout (a + b.size) bs e

/-- The members of a class list are doubly linked: the word at `x + 4` of a
member `x` holds the member before it (`t` for the first), the word at `x`
holds the member after it (`0` for the last). -/
def Links (m : Nat → Nat) : Nat → List Nat → Prop
  | _, [] => True
  | t, x :: xs => rd32 m (x + 4) = t ∧ rd32 m x = xs.headD 0 ∧ Links m x xs

/-- The class index that the shift loop of `add_seglist` and
`remove_seglist` computes for a block size. -/
def classOf (size : Nat) : Nat := (seg_loop (SEG_SIZE - 1) 0 size).1

/-- Well-formedness of a heap state with respect to a list of blocks `bl`
(in address order) and the contents `fl i` of the class lists: the region
holds the class table, the padding word, the prologue, the blocks of `bl`
with matching header and footer, and the epilogue header; every class list
is a doubly linked list of distinct free blocks of `bl` of that class. -/
structure WF (s : Heap) (bl : List Blk) (fl : Nat → List Nat) : Prop where
  start : s.mem_start_brk = s.seg_list_ptr
  hp : s.heap_ptr = s.seg_list_ptr + 104
  brk_le : s.mem_brk ≤ s.mem_max_addr
  max_lt : s.mem_max_addr < 4294967296
  pad : rd32 s.mem (s.seg_list_ptr + 96) = 0
  pro_h : rd32 s.mem (s.seg_list_ptr + 100) = 9
  pro_f : rd32 s.mem (s.seg_list_ptr + 104) = 9
  layout : Layout (s.seg_list_ptr + 112) bl s.mem_brk
  epi : rd32 s.mem (s.mem_brk - 4) = 1
  tags : ∀ b ∈ bl, rd32 s.mem (b.bp - 4) = b.tag ∧ rd32 s.mem (b.bp + b.size - 8) = b.tag
  heads : ∀ i, i < 24 → rd32 s.mem (s.seg_list_ptr + 4 * i) = (fl i).headD 0
  links : ∀ i, i < 24 → Links s.mem 0 (fl i)
  sound : ∀ i, i < 24 → ∀ x ∈ fl i, ∃ b ∈ bl, b.bp = x ∧ b.alloc = false ∧ classOf b.size = i
  nodup : ∀ i, i < 24 → (fl i).Nodup

/-- The bytes that the list operations leave alone: every byte outside the
class table and outside the two link words at the start of the payload of a
free block. -/
def Untouched (s : Heap) (bl : List Blk) (a : Nat) : Prop :=
  (a < s.seg_list_ptr ∨ s.seg_list_ptr + 96 ≤ a) ∧
    ∀ d ∈ bl, d.alloc = false → a < d.bp ∨ d.bp + 8 ≤ a

/-- A wrapper that keeps a fact out of sight of the arithmetic decision
procedure until it is asked for. -/
structure Hid (p : Prop) : Prop where
  out : p

/-- Every free block of `bl` is a member of the class list of its size. -/
def Complete (bl : List Blk) (fl : Nat → List Nat) : Prop :=
  ∀ b ∈ bl, b.alloc = false → b.bp ∈ fl (classOf b.size)

/-- No two consecutive blocks of `bl` are both free. -/
def NoAdjFree (bl : List Blk) : Prop :=
  List.Chain' (fun b c : Blk => b.alloc = true ∨ c.alloc = true) bl

/-- A payload byte of an allocated block of `bl`. -/
def InAlloc (bl : List Blk) (a : Nat) : Prop :=
  ∃ c ∈ bl, c.alloc = true ∧ c.bp ≤ a ∧ a < c.bp + c.size - 8

/-- The free block `b` absorbs the block after it when that block is free:
the result is the merged block and the blocks that follow it. -/
def mergeNext (b : Blk) : List Blk → Blk × List Blk
  | [] => (b, [])
  | c :: r => if c.alloc then (b, c :: r) else (⟨b.bp, b.size + c.size, false⟩, r)

/-- The free block `b` is absorbed by the block before it when that block is
free. The blocks before `b` are given nearest first; the result is the
remaining blocks before (nearest first) and the merged block. -/
def mergePrev (b : Blk) : List Blk → List Blk × Blk
  | [] => ([], b)
  | a :: r => if a.alloc then (a :: r, b) else (r, ⟨a.bp, a.size + b.size, false⟩)

/-- The free block that coalescing `b` produces, between the blocks `pre`
before it and the blocks `post` after it. -/
def mergedBlk (pre : List Blk) (b : Blk) (post : List Blk) : Blk :=
  (mergePrev (mergeNext b post).1 pre.reverse).2

/-- The block list after coalescing the free block `b`. -/
def coalesced (pre : List Blk) (b : Blk) (post : List Blk) : List Blk :=
  (mergePrev (mergeNext b post).1 pre.reverse).1.reverse ++
    mergedBlk pre b post :: (mergeNext b post).2

/-! ## Concrete runs -/

/-- Modelled from the spec: the state in which the region provider starts, an
empty region at `base` that may grow up to `max`; no byte has been written
and both globals of `mm.c` are null. -/
def emptyHeap (base max : Nat) : Heap :=
  { mem := fun _ => 0, mem_start_brk := base, mem_brk := base, mem_max_addr := max,
    heap_ptr := 0, seg_list_ptr := 0 }

/-- The state after a successful `mm_init()` on the empty region at `base`. -/
def initHeap (base max : Nat) : Option Heap :=
  (mm_init 16 (emptyHeap base max)).bind fun r => if r.1 = 0 then some r.2 else none

/-- The call `p = mm_malloc(n)` followed by the rest of a run `k p`. -/
def thenMalloc {α : Type} (s : Heap) (n : Nat) (k : Nat → Heap → Option α) : Option α :=
  (mm_malloc 16 s n).bind fun r => k r.1 r.2

/-- The call `mm_free(p)` followed by the rest of a run. -/
def thenFree {α : Type} (s : Heap) (p : Nat) (k : Heap → Option α) : Option α :=
  (mm_free 16 s p).bind k

/-- The call `q = mm_realloc(p, n)` followed by the rest of a run. -/
def thenRealloc {α : Type} (s : Heap) (p n : Nat) (k : Nat → Heap → Option α) : Option α :=
  (mm_realloc 16 s p n).bind fun r => k r.1 r.2

/-- The scenario `p1 = mm_malloc(100); p2 = mm_malloc(200); mm_free(p1);
p3 = mm_malloc(50)` on a fresh heap at address 4096; the result is
`(p1, p2, p3)`. -/
def reuseRun : Option (Nat × Nat × Nat) :=
  (initHeap 4096 1052672).bind fun s =>
  thenMalloc s 100 fun p1 s =>
  thenMalloc s 200 fun p2 s =>
  thenFree s p1 fun s =>
  thenMalloc s 50 fun p3 _ => some (p1, p2, p3)

/-- Five allocations `m1 .. m5` of 56, 104, 56, 56 and 56 bytes on a fresh
heap at address 4096, then `mm_free(m4)` and `mm_free(m2)`: the blocks of
`m4` (64 bytes) and `m2` (112 bytes) are free, belong to class 6 and have
allocated neighbours. The result is `(m2, m4, s)`. -/
def twoFreeRun : Option (Nat × Nat × Heap) :=
  (initHeap 4096 1052672).bind fun s =>
  thenMalloc s 56 fun _ s =>
  thenMalloc s 104 fun m2 s =>
  thenMalloc s 56 fun _ s =>
  thenMalloc s 56 fun m4 s =>
  thenMalloc s 56 fun _ s =>
  thenFree s m4 fun s =>
  thenFree s m2 fun s => some (m2, m4, s)

/-- A heap that cannot grow: the region ends where the heap of `mm_init`
ends. -/
def fullHeap : Heap := (initHeap 4096 4272).getD (emptyHeap 0 0)

/-- The state after `mm_init(); p = mm_malloc(40)` on a fresh heap, with `p`. -/
def oneBlockRun : Option (Nat × Heap) :=
  (initHeap 4096 1052672).bind fun s => thenMalloc s 40 fun p s => some (p, s)

/-- The state of `oneBlockRun`. -/
def oneBlockHeap : Heap := (oneBlockRun.map Prod.snd).getD (emptyHeap 0 0)

/-- A free block of more than `2^24` bytes: `a = mm_malloc(2^24);
mm_malloc(8); mm_free(a)` on a fresh heap. The result is `(a, s)`. -/
def bigFreeRun : Option (Nat × Heap) :=
  (initHeap 4096 67112960).bind fun s =>
  thenMalloc s 16777216 fun a s =>
  thenMalloc s 8 fun _ s =>
  thenFree s a fun s => some (a, s)

/-- The heap state `s` with its break moved to `b`. -/
def Heap.setBrk (s : Heap) (b : Nat) : Heap := { s with mem_brk := b }

/-- The blocks that `place(b, asize)` leaves in the extent of the free block
`b`, with the payload address that it returns. -/
def placeBlocks (b : Blk) (asize : Nat) : List Blk × Nat :=
  if b.size - asize < 16 then ([⟨b.bp, b.size, true⟩], b.bp)
  else if asize > 200 then
    ([⟨b.bp, asize, true⟩, ⟨b.bp + asize, b.size - asize, false⟩], b.bp)
  else
    ([⟨b.bp, b.size - asize, false⟩, ⟨b.bp + (b.size - asize), asize, true⟩],
      b.bp + (b.size - asize))

/-- The heap invariant: the abstract view `bl`, `fl` describes the memory
(`WF`), every free block is on the list of its class, no two neighbours are
both free, and the heap starts at a multiple of 8. -/
structure Inv (s : Heap) (bl : List Blk) (fl : Nat → List Nat) : Prop where
  wf : WF s bl fl
  complete : Complete bl fl
  noadj : NoAdjFree bl
  aligned : s.seg_list_ptr % 8 = 0

/-- Modelled from the spec: the state in which the region provider hands the
region to `mm_init`. The region is empty, starts at a multiple of 8, lies in
the 32-bit address space and has room for the class table (the one request
whose failure `mm_init` does not check). -/
def Fresh (s : Heap) : Prop :=
  s.mem_brk = s.mem_start_brk ∧ s.mem_start_brk % 8 = 0 ∧ s.mem_max_addr < 4294967296 ∧
    s.mem_brk + 96 ≤ s.mem_max_addr

/-- The heap walk of `mm_check`:
`curr = heap_ptr; while (curr != NULL && GET_SIZE(HDRP(curr)) != 0) curr = NEXT_BLKP(curr);`
started at `curr`, yielding the block pointers it visits. -/
def heap_chain (s : Heap) : Nat → Nat → Option (List Nat)
  | 0, _ => none
  | fuel + 1, curr =>
    if curr ≠ NULL ∧ GET_SIZE s (HDRP curr) ≠ 0 then
      (heap_chain s fuel (NEXT_BLKP s curr)).map fun l => curr :: l
    else some []

/-! ## Reachable states -/

/-- What a successful `mm_realloc(c.bp, m)` guarantees for the allocated block
`c` between the blocks `pre` and `post`, when it returns `q` in state `s'` with
block list `bl'`: the payloads of the other allocated blocks are untouched and
these blocks are still there, `q` is the payload of an allocated block of at
least `m + 8` bytes, and the old payload bytes (up to `m`) are now at `q`. -/
def ReallocOK (s : Heap) (pre post : List Blk) (c : Blk) (m q : Nat) (s' : Heap)
    (bl' : List Blk) : Prop :=
  (∀ x, InAlloc (pre ++ post) x → s'.mem x = s.mem x) ∧
  (∀ d ∈ pre ++ post, d.alloc = true → d ∈ bl' ∧ d.bp ≠ q) ∧
  (∃ c' ∈ bl', c'.bp = q ∧ c'.alloc = true ∧ m + 8 ≤ c'.size) ∧
  (∀ i, i < c.size - 8 → i < m → s'.mem (q + i) = s.mem (c.bp + i)) ∧
  s'.seg_list_ptr = s.seg_list_ptr ∧ s'.mem_max_addr = s.mem_max_addr ∧
  s.mem_brk ≤ s'.mem_brk

/-- The live allocations `L` (payload address and requested size) sit at
distinct addresses, each in an allocated block of `bl` that holds the
requested bytes between its tags. -/
def LiveOK (bl : List Blk) (L : List (Nat × Nat)) : Prop :=
  (L.map Prod.fst).Nodup ∧
    ∀ e ∈ L, ∃ c ∈ bl, c.bp = e.1 ∧ c.alloc = true ∧ e.2 + 8 ≤ c.size

/-- The live allocations that remain when the one at `p` is released. -/
def dropLive (L : List (Nat × Nat)) (p : Nat) : List (Nat × Nat) :=
  L.filter fun e => e.1 ≠ p

/-- The states a client reaches without misuse, each with its live
allocations (payload address and requested size): `mm_init` on a fresh
region, then `mm_malloc`, `mm_free` and `mm_realloc` calls on live addresses
with request sizes of at most `2^32 - 16` bytes, and stores into the
requested bytes of a live allocation. The list walks get more fuel than the
heap has bytes. -/
inductive Reachable : Heap → List (Nat × Nat) → Prop
  | init (s0 s : Heap) (fuel : Nat) : Fresh s0 → 1 ≤ fuel → mm_init fuel s0 = some (0, s) →
      Reachable s []
  | malloc (s s' : Heap) (L : List (Nat × Nat)) (n p fuel : Nat) : Reachable s L →
      n ≤ 4294967280 → s.mem_brk < fuel → mm_malloc fuel s n = some (p, s') →
      Reachable s' (if p = NULL then L else (p, n) :: L)
  | free (s s' : Heap) (L : List (Nat × Nat)) (p fuel : Nat) : Reachable s L →
      p ∈ L.map Prod.fst → s.mem_brk < fuel → mm_free fuel s p = some s' →
      Reachable s' (dropLive L p)
  | realloc (s s' : Heap) (L : List (Nat × Nat)) (p m q fuel : Nat) : Reachable s L →
      p ∈ L.map Prod.fst → m ≤ 4294967280 → s.mem_brk < fuel →
      mm_realloc fuel s p m = some (q, s') →
      Reachable s' (if m = 0 then dropLive L p else if q = NULL then L
        else (q, m) :: dropLive L p)
  | realloc_null (s s' : Heap) (L : List (Nat × Nat)) (n p fuel : Nat) : Reachable s L →
      n ≤ 4294967280 → s.mem_brk < fuel → mm_realloc fuel s NULL n = some (p, s') →
      Reachable s' (if p = NULL then L else (p, n) :: L)
  | write (s : Heap) (L : List (Nat × Nat)) (p n i v : Nat) : Reachable s L →
      (p, n) ∈ L → i < n →
      Reachable (s.setMem fun a => if a = p + i then v else s.mem a) L

/-! ## More concrete runs -/

/-- The class-list walk of `mm_check`:
`while (blkp != NULL) { ...; blkp = SEG_PREV_BLKP(blkp); }`
started at `blkp`, yielding the members it visits. -/
def seg_chain (s : Heap) : Nat → Nat → Option (List Nat)
  | 0, _ => none
  | fuel + 1, blkp =>
    if blkp ≠ NULL then (seg_chain s fuel (SEG_PREV_BLKP s blkp)).map fun l => blkp :: l
    else some []

/-- The start of the free block that the spec expects after `mm_free(p)`:
the start of the previous physical block if that block is free, else `p`. -/
def mergedStart (s : Heap) (p : Nat) : Nat :=
  if GET_ALLOC s (HDRP (PREV_BLKP s p)) = 0 then PREV_BLKP s p else p

/-- The size of the free block that the spec expects after `mm_free(p)`: the
size of the block of `p` plus the size of each physical neighbour that is
free. -/
def mergedSize (s : Heap) (p : Nat) : Nat :=
  GET_BLK_SIZE s p
    + (if GET_ALLOC s (HDRP (PREV_BLKP s p)) = 0 then GET_BLK_SIZE s (PREV_BLKP s p) else 0)
    + (if GET_ALLOC s (HDRP (NEXT_BLKP s p)) = 0 then GET_BLK_SIZE s (NEXT_BLKP s p) else 0)

/-- A store of the byte `v` at address `a` by the client. -/
def storeByte (s : Heap) (a v : Nat) : Heap := s.setMem fun x => if x = a then v else s.mem x

/-- The state after `mm_init()` on the empty region at 4096. -/
def reachInit : Heap := ((mm_init 16 (emptyHeap 4096 1052672)).map Prod.snd).getD (emptyHeap 0 0)

/-- The state after `mm_init(); a = mm_malloc(300)` on the empty region at
4096: the block of `a = 4208` has 312 bytes, the previous block is the
prologue and the next block is free. -/
def reachBig : Heap := ((mm_malloc 4273 reachInit 300).map Prod.snd).getD (emptyHeap 0 0)

/-- The run `x = mm_malloc(40); y = mm_malloc(2^32 - 8)` on a fresh heap at
4096, with the result `(x, y)`. -/
def overlapRun : Option (Nat × Nat) :=
  (initHeap 4096 1052672).bind fun s =>
  thenMalloc s 40 fun x s =>
  thenMalloc s 4294967288 fun y _ => some (x, y)

/-- The run `y = mm_malloc(2^32 - 8)` on a fresh heap at 4096, with the
result `(y, s)`. -/
def hugeRun : Option (Nat × Heap) :=
  (initHeap 4096 1052672).bind fun s =>
  thenMalloc s 4294967288 fun y s => some (y, s)

/-- The run `x = mm_malloc(40); y = mm_realloc(x, 2^32 - 1)` on a fresh heap
at 4096, with the result `(x, y, s)`. -/
def wrapRun : Option (Nat × Nat × Heap) :=
  (initHeap 4096 1052672).bind fun s =>
  thenMalloc s 40 fun x s =>
  thenRealloc s x 4294967295 fun y s => some (x, y, s)

/-- The run of `wrapRun` followed by `mm_free(y)`, with the state before the
call and the state after it. -/
def wrapFreeRun : Option (Nat × Heap × Heap) :=
  wrapRun.bind fun r => thenFree r.2.2 r.2.1 fun s => some (r.2.1, r.2.2, s)

/-- The run `x = mm_malloc(40); y = mm_malloc(2^32 - 8); mm_free(x)`, two
stores into the bytes `y[0]` and `y[1]` of the second allocation, then
`z = mm_malloc(2^32 - 8); w = mm_malloc(2^32 - 8)`, with the result
`(x, y, z, w)`. -/
def unalignedRun : Option (Nat × Nat × Nat × Nat) :=
  (initHeap 4096 1052672).bind fun s =>
  thenMalloc s 40 fun x s =>
  thenMalloc s 4294967288 fun y s =>
  thenFree s x fun s =>
  thenMalloc (storeByte (storeByte s y 0x89) (y + 1) 0x10) 4294967288 fun z s =>
  thenMalloc s 4294967288 fun w _ => some (x, y, z, w)

/-- The run `x = mm_malloc(40)`, a store of the byte 170 at `x[0]`, then
`y = mm_realloc(x, 2^32 - 1)`, with the result `(x, y, b, b')` where `b` is the
byte at `x` before the call and `b'` the byte at `y` after it. -/
def clobberRun : Option (Nat × Nat × Nat × Nat) :=
  (initHeap 4096 1052672).bind fun s =>
  thenMalloc s 40 fun x s =>
  thenRealloc (storeByte s x 170) x 4294967295 fun y t =>
    some (x, y, (storeByte s x 170).mem x % 256, t.mem y % 256)

/-- Four allocations `a, b, c, d` of 300 bytes on a fresh heap at 4096, then
`mm_free(a); mm_free(c)`: both neighbours of the block of `b` are free. The
result is `(a, b, s)`. -/
def sandwichRun : Option (Nat × Nat × Heap) :=
  (initHeap 4096 1052672).bind fun s =>
  thenMalloc s 300 fun a s =>
  thenMalloc s 300 fun b s =>
  thenMalloc s 300 fun c s =>
  thenMalloc s 300 fun _ s =>
  thenFree s a fun s =>
  thenFree s c fun s => some (a, b, s)

/-! ## The consistency checker -/

/-- Modelled from the spec: `mem_heap_lo()` of the memory system, the address
of the first byte of the region. -/
def mem_heap_lo (s : Heap) : Nat := s.mem_start_brk

/-- Modelled from the spec: `mem_heap_hi()` of the memory system, the address
of the last byte of the region handed out so far. -/
def mem_heap_hi (s : Heap) : Nat := s.mem_brk - 1

/-- The first loop of `mm_check`, over the blocks of the heap:
`while (curr != NULL && GET_SIZE(HDRP(curr)) != 0) { ...; curr = NEXT_BLKP(curr); }`.
The two tag comparisons set `errno = -1`; the address test only prints. -/
def check_heap (s : Heap) : Nat → Nat → Int → Option Int
  | 0, _, _ => none
  | fuel + 1, curr, errno =>
    if curr ≠ NULL ∧ GET_SIZE s (HDRP curr) ≠ 0 then
      let errno := if GET_ALLOC s (HDRP curr) ≠ GET_ALLOC s (FTRP s curr) then -1 else errno
      let errno := if GET_SIZE s (HDRP curr) ≠ GET_SIZE s (FTRP s curr) then -1 else errno
      check_heap s fuel (NEXT_BLKP s curr) errno
    else some errno

/-- The inner loop of the second part of `mm_check`, over the members of one
class list: `while (blkp != NULL) { ...; blkp = nblkp; }`. The tests are, in
this order: `blkp < mem_heap_lo() || blkp > mem_heap_hi()`, `GET_ALLOC(blkp)`,
`GET_SIZE(HDRP(blkp)) != GET_SIZE(FTRP(blkp))`, `UNSIGN(blkp) % DSIZE != 0` and
`nblkp != NULL && HDRP(blkp) - FTRP(blkp) == DSIZE`. -/
def check_list (s : Heap) : Nat → Nat → Int → Option Int
  | 0, _, _ => none
  | fuel + 1, blkp, errno =>
    if blkp ≠ NULL then
      let errno := if blkp < mem_heap_lo s ∨ blkp > mem_heap_hi s then -1 else errno
      let errno := if GET_ALLOC s blkp ≠ 0 then -1 else errno
      let errno := if GET_SIZE s (HDRP blkp) ≠ GET_SIZE s (FTRP s blkp) then -1 else errno
      let errno := if blkp % DSIZE ≠ 0 then -1 else errno
      let nblkp := SEG_PREV_BLKP s blkp
      let errno :=
        if nblkp ≠ NULL ∧ u32 (HDRP blkp + 4294967296 - FTRP s blkp) = DSIZE then -1 else errno
      check_list s fuel nblkp errno
    else some errno

/-- The outer loop of the second part of `mm_check`:
`for (int i = 0; i < SEG_SIZE; i++) { blkp = GET_SEG_LIST_PTR(seg_list_ptr, i); ... }`.
The first argument counts the iterations that are left. -/
def check_lists (fuel : Nat) (s : Heap) : Nat → Nat → Int → Option Int
  | 0, _, errno => some errno
  | k + 1, i, errno =>
    match check_list s fuel (GET_SEG_LIST_PTR s s.seg_list_ptr i) errno with
    | none => none
    | some errno => check_lists fuel s k (i + 1) errno

/-- `mm_check()`: the result is `errno`, 0 when no test has failed and -1
otherwise. -/
def mm_check (fuel : Nat) (s : Heap) : Option Int :=
  match check_heap s fuel s.heap_ptr 0 with
  | none => none
  | some errno => check_lists fuel s SEG_SIZE 0 errno

/-! ## Well-formed states -/

/-- The heap invariant holds in `s` for some list of blocks and some contents
of the class lists. -/
def WellFormed (s : Heap) : Prop := ∃ bl fl, Inv s bl fl

/-- The address `x` is a member of class list `i`, as the list walk of
`mm_check` finds it. -/
def onList (s : Heap) (fuel i x : Nat) : Prop :=
  ∃ l, seg_chain s fuel (GET_SEG_LIST_PTR s s.seg_list_ptr i) = some l ∧ x ∈ l

/-! ## Runs for the later claims -/

/-- The state of `reachInit` in which the header and the footer of its one
free block, the member 4208 of class list 6, carry the allocation bit. -/
def markedHeap : Heap :=
  let s := PUT reachInit (HDRP 4208) (PACK 64 1)
  PUT s (FTRP s 4208) (PACK 64 1)

/-- The state of `oneBlockHeap` (blocks of 16 bytes, free, at 4208 and of 48
bytes, allocated, at 4224) after the block at 4224 has been tagged free and
put on its class list without coalescing. -/
def uncoalescedHeap : Heap :=
  let s := PUT oneBlockHeap (HDRP 4224) (PACK 48 0)
  let s := PUT s (FTRP s 4224) (PACK 48 0)
  (add_seglist 16 s 4224 48).getD (emptyHeap 0 0)

/-- The run `p = mm_malloc(2^24); mm_free(p); q = mm_malloc(2^24)` on a fresh
heap at 4096, with the result `(p, q, b1, b2)` where `b1` and `b2` are the heap
break before and after the second `mm_malloc`. -/
def regrowRun : Option (Nat × Nat × Nat × Nat) :=
  (initHeap 4096 67112960).bind fun s =>
  thenMalloc s 16777216 fun p s =>
  thenFree s p fun s =>
  thenMalloc s 16777216 fun q t => some (p, q, s.mem_brk, t.mem_brk)

/-- The run on a fresh heap at 4096 of the steps that `mm_malloc(2^24)` takes
when `find_fit` misses, with the specified retry: `find_fit(a, a, 0)`,
`bp = extend_heap(max(a, 4096) / 4)`, `find_fit(a, a, 0)` for
`a = malloc_asize(2^24)`. The result is the two results of `find_fit`, `bp`
and the size of the block of `bp`. -/
def retryRun : Option (Nat × Nat × Nat × Nat) :=
  (initHeap 4096 67112960).bind fun s =>
  (find_fit 16 s (malloc_asize 16777216) (malloc_asize 16777216) 0).bind fun r1 =>
  (extend_heap 16 s (MAX (malloc_asize 16777216) DCHUNKSIZE / WSIZE)).bind fun e =>
  (find_fit 16 e.2 (malloc_asize 16777216) (malloc_asize 16777216) 0).bind fun r2 =>
    some (r1, e.1, r2, GET_BLK_SIZE e.2 e.1)

/-- The state after `mm_malloc(n)` in state `s` (fuel for a heap of up to
8368 bytes). -/
def afterMalloc (s : Heap) (n : Nat) : Heap :=
  ((mm_malloc 8369 s n).map Prod.snd).getD (emptyHeap 0 0)

/-- The recursion of `find_fit(asize, csize, index)` (see `find_fit_rec`),
recording instead of the result the indices `index` of the list heads it reads
with `GET_SEG_LIST_PTR(seg_list_ptr, index)`, in the order of the reads. -/
def find_fit_reads_rec (fuel : Nat) (s : Heap) (asize : Nat) : Nat → Nat → Nat → Option (List Nat)
  | 0, _, _ => none
  | depth + 1, csize, index =>
    if index > SEG_SIZE then some []
    else
      let seg_ptr := GET_SEG_LIST_PTR s s.seg_list_ptr index
      if csize ≤ 1 ∧ seg_ptr ≠ NULL then
        match fit_scan s asize fuel seg_ptr with
        | none => none
        | some seg_ptr =>
          if seg_ptr ≠ NULL then some [index]
          else (find_fit_reads_rec fuel s asize depth (csize >>> 1) (index + 1)).map
            fun l => index :: l
      else (find_fit_reads_rec fuel s asize depth (csize >>> 1) (index + 1)).map
        fun l => index :: l

/-- The indices of the list heads that `find_fit(asize, csize, index)` reads. -/
def find_fit_reads (fuel : Nat) (s : Heap) (asize csize index : Nat) : Option (List Nat) :=
  find_fit_reads_rec fuel s asize (SEG_SIZE + 2 - index) csize index

/-- The state after `mm_init(); mm_malloc(2^32 - 8)` on the empty region at
4096. -/
def hugeHeap : Heap := afterMalloc reachInit 4294967288

/-! ## The class lists on their own -/

/-- The class lists as a memory `M` holds them, apart from the blocks of the
heap: slot `i` of the table at `seg` holds the first member of `fl i`, the
members of `fl i` are doubly linked, no member occurs twice, two members are
at least 16 bytes apart, and every member lies behind the table, the padding
word and the prologue. -/
structure ListsOK (M : Nat → Nat) (seg : Nat) (fl : Nat → List Nat) : Prop where
  heads : ∀ i, i < 24 → rd32 M (seg + 4 * i) = (fl i).headD 0
  links : ∀ i, i < 24 → Links M 0 (fl i)
  nodup : ∀ i, i < 24 → (fl i).Nodup
  sep : ∀ i j, i < 24 → j < 24 → ∀ x ∈ fl i, ∀ y ∈ fl j,
    (x = y ∧ i = j) ∨ x + 16 ≤ y ∨ y + 16 ≤ x
  bnd : ∀ i, i < 24 → ∀ x ∈ fl i, seg + 112 ≤ x ∧ x + 16 < 4294967296

/-! ## The resize paths of `mm_realloc`, read off the tags -/

/-- The state after `mm_realloc(p, n)` in state `s`. -/
def afterRealloc (s : Heap) (p n : Nat) : Heap :=
  ((mm_realloc 8369 s p n).map Prod.snd).getD (emptyHeap 0 0)

/-- The state after `mm_init(); x = mm_malloc(8); y = mm_malloc(100);
z = mm_realloc(y, 2^32 - 8); mm_realloc(z, 100)` on the empty region at 4096.
The wrapped request makes `z = x = 4248`; the block of 4248 then has 112
bytes and overlaps the free block at 4272. -/
def wrappedHeap : Heap :=
  afterRealloc (afterRealloc (afterMalloc (afterMalloc reachInit 8) 100) 8256 4294967288)
    4248 100

/-! ## Lemmas -/

theorem and_MASK7 (x : Nat) (h : x < 4294967296) : x &&& MASK7 = x - x % 8 := by
  have e1 : MASK7 = (2 ^ 29 - 1) <<< 3 := by decide
  have e2 : x - x % 8 = (x >>> 3) <<< 3 := by
    rw [Nat.shiftRight_eq_div_pow, Nat.shiftLeft_eq]; omega
  rw [e1, e2]
  apply Nat.eq_of_testBit_eq
  intro j
  simp only [Nat.testBit_and, Nat.testBit_shiftLeft, Nat.testBit_two_pow_sub_one,
    Nat.testBit_shiftRight]
  by_cases h3 : 3 ≤ j
  · have e3 : 3 + (j - 3) = j := by omega
    by_cases h32 : j - 3 < 29
    · simp [h3, h32, e3]
    · have : x.testBit j = false := by
        apply Nat.testBit_lt_two_pow
        calc x < 2 ^ 32 := h
          _ ≤ 2 ^ j := Nat.pow_le_pow_right (by decide) (by omega)
      simp [h3, h32, e3, this]
  · simp [h3]

theorem PACK_zero (size : Nat) : PACK size 0 = size := by
  simp [PACK]

theorem PACK_one (size : Nat) (h : size % 8 = 0) : PACK size 1 = size + 1 := by
  unfold PACK
  obtain ⟨k, rfl⟩ : ∃ k, size = 2 ^ 3 * k := ⟨size / 8, by omega⟩
  exact (Nat.mul_add_lt_is_or (by decide) k).symm

theorem rd32_lt (m : Nat → Nat) (p : Nat) : rd32 m p < 4294967296 := by
  unfold rd32; omega

theorem rd32_wr32_same (m : Nat → Nat) (p v : Nat) (h : v < 4294967296) :
    rd32 (wr32 m p v) p = v := by
  unfold rd32 wr32
  simp
  omega

theorem wr32_outside (m : Nat → Nat) (p v a : Nat) (h : a < p ∨ p + 4 ≤ a) :
    wr32 m p v a = m a := by
  unfold wr32
  have h0 : a ≠ p := by omega
  have h1 : a ≠ p + 1 := by omega
  have h2 : a ≠ p + 2 := by omega
  have h3 : a ≠ p + 3 := by omega
  simp [h0, h1, h2, h3]

theorem rd32_congr (m m' : Nat → Nat) (a : Nat)
    (h : ∀ i, i < 4 → m' (a + i) = m (a + i)) : rd32 m' a = rd32 m a := by
  unfold rd32
  have h0 := h 0 (by omega)
  simp only [Nat.add_zero] at h0
  rw [h0, h 1 (by omega), h 2 (by omega), h 3 (by omega)]

theorem rd32_wr32_disj (m : Nat → Nat) (p v a : Nat) (h : a + 4 ≤ p ∨ p + 4 ≤ a) :
    rd32 (wr32 m p v) a = rd32 m a := by
  apply rd32_congr
  intro i hi
  apply wr32_outside
  omega

theorem memmove_outside (m : Nat → Nat) (dst src n a : Nat) (h : a < dst ∨ dst + n ≤ a) :
    memmove m dst src n a = m a := by
  unfold memmove
  have : ¬ (dst ≤ a ∧ a < dst + n) := by omega
  simp [this]

theorem memmove_inside (m : Nat → Nat) (dst src n a : Nat) (h : dst ≤ a ∧ a < dst + n) :
    memmove m dst src n a = m (src + (a - dst)) := by
  unfold memmove
  simp [h]

theorem rd32_memmove_disj (m : Nat → Nat) (dst src n a : Nat) (h : a + 4 ≤ dst ∨ dst + n ≤ a) :
    rd32 (memmove m dst src n) a = rd32 m a := by
  apply rd32_congr
  intro i hi
  apply memmove_outside
  omega

theorem Layout_nil {a e : Nat} : Layout a [] e ↔ a = e := Iff.rfl

theorem Layout_cons {a e : Nat} {b : Blk} {bs : List Blk} :
    Layout a (b :: bs) e ↔
      b.bp = a ∧ 16 ≤ b.size ∧ b.size % 8 = 0 ∧ Layout (a + b.size) bs e := Iff.rfl

theorem Layout.append {l1 l2 : List Blk} {a e : Nat} :
    Layout a (l1 ++ l2) e ↔ ∃ mid, Layout a l1 mid ∧ Layout mid l2 e := by
  induction l1 generalizing a with
  | nil => simp [Layout_nil]
  | cons b bs ih =>
    rw [List.cons_append, Layout_cons, ih]
    constructor
    · rintro ⟨h1, h2, h3, mid, h4, h5⟩
      exact ⟨mid, ⟨h1, h2, h3, h4⟩, h5⟩
    · rintro ⟨mid, ⟨h1, h2, h3, h4⟩, h5⟩
      exact ⟨h1, h2, h3, mid, h4, h5⟩

theorem Layout.le {l : List Blk} {a e : Nat} (h : Layout a l e) : a ≤ e := by
  induction l generalizing a with
  | nil => simp [Layout] at h; omega
  | cons b bs ih =>
    obtain ⟨_, _, _, h4⟩ := h
    have := ih h4
    omega

theorem Layout.end_unique {l : List Blk} {a e e' : Nat} (h : Layout a l e) (h' : Layout a l e') :
    e = e' := by
  induction l generalizing a with
  | nil => simp [Layout] at h h'; omega
  | cons b bs ih => exact ih h.2.2.2 h'.2.2.2

theorem Layout.mem_bounds {l : List Blk} {a e : Nat} (h : Layout a l e) {b : Blk} (hb : b ∈ l) :
    a ≤ b.bp ∧ b.bp + b.size ≤ e ∧ 16 ≤ b.size ∧ b.size % 8 = 0 := by
  induction l generalizing a with
  | nil => simp at hb
  | cons c cs ih =>
    obtain ⟨h1, h2, h3, h4⟩ := h
    rcases List.mem_cons.1 hb with rfl | hb
    · have := Layout.le h4
      omega
    · have := ih h4 hb
      omega

theorem Layout.split {l : List Blk} {a e : Nat} (h : Layout a l e) {b : Blk} (hb : b ∈ l) :
    ∃ pre post, l = pre ++ b :: post ∧ Layout a pre b.bp ∧ Layout (b.bp + b.size) post e := by
  obtain ⟨pre, post, rfl⟩ := List.append_of_mem hb
  refine ⟨pre, post, rfl, ?_⟩
  obtain ⟨mid, h1, h2⟩ := Layout.append.1 h
  obtain ⟨h3, _, _, h4⟩ := h2
  subst h3
  exact ⟨h1, h4⟩

theorem Layout.disj {l : List Blk} {a e : Nat} (h : Layout a l e) {b c : Blk}
    (hb : b ∈ l) (hc : c ∈ l) : b = c ∨ b.bp + b.size ≤ c.bp ∨ c.bp + c.size ≤ b.bp := by
  obtain ⟨pre, post, rfl, h1, h2⟩ := Layout.split h hb
  rcases List.mem_append.1 hc with hc | hc
  · have := Layout.mem_bounds h1 hc
    omega
  · rcases List.mem_cons.1 hc with rfl | hc
    · exact Or.inl rfl
    · have := Layout.mem_bounds h2 hc
      omega

theorem Layout.bp_inj {l : List Blk} {a e : Nat} (h : Layout a l e) {b c : Blk}
    (hb : b ∈ l) (hc : c ∈ l) (hbc : b.bp = c.bp) : b = c := by
  have h1 := Layout.mem_bounds h hb
  have h2 := Layout.mem_bounds h hc
  rcases Layout.disj h hb hc with h3 | h3 | h3
  · exact h3
  · omega
  · omega

theorem Layout.aligned {l : List Blk} {a e : Nat} (h : Layout a l e) (ha : a % 8 = 0)
    {b : Blk} (hb : b ∈ l) : b.bp % 8 = 0 := by
  induction l generalizing a with
  | nil => simp at hb
  | cons c cs ih =>
    obtain ⟨h1, h2, h3, h4⟩ := h
    rcases List.mem_cons.1 hb with rfl | hb
    · omega
    · exact ih h4 (by omega) hb

/-- Replacing a run of blocks by another run with the same extent. -/
theorem Layout.replace {pre mid mid' post : List Blk} {a e lo hi : Nat}
    (h : Layout a (pre ++ mid ++ post) e) (hmid : Layout lo mid hi)
    (hpre : Layout a pre lo) (hmid' : Layout lo mid' hi) :
    Layout a (pre ++ mid' ++ post) e := by
  rw [List.append_assoc] at h ⊢
  obtain ⟨m1, h1, h2⟩ := Layout.append.1 h
  obtain ⟨m2, h3, h4⟩ := Layout.append.1 h2
  have e1 : m1 = lo := Layout.end_unique h1 hpre
  subst e1
  have e2 : m2 = hi := Layout.end_unique h3 hmid
  subst e2
  exact Layout.append.2 ⟨_, h1, Layout.append.2 ⟨_, hmid', h4⟩⟩

theorem seg_loop_spec (k idx sz : Nat) :
    ∃ j, j ≤ k ∧ seg_loop k idx sz = (idx + j, sz >>> j) ∧ (j = k ∨ sz >>> j ≤ 1) ∧
      (∀ j', j' < j → 1 < sz >>> j') := by
  induction k generalizing idx sz with
  | zero => exact ⟨0, le_refl _, by simp [seg_loop], Or.inl rfl, by simp⟩
  | succ k ih =>
    by_cases h : sz ≤ 1
    · exact ⟨0, by omega, by simp [seg_loop, h], Or.inr (by simpa using h), by simp⟩
    · obtain ⟨j, hj, he, hor, hall⟩ := ih (idx + 1) (sz >>> 1)
      refine ⟨j + 1, by omega, ?_, ?_, ?_⟩
      · simp only [seg_loop, h, if_false, he]
        rw [← Nat.shiftRight_add, Nat.add_comm 1 j]
        congr 1
        omega
      · rw [← Nat.shiftRight_add, Nat.add_comm 1 j] at hor
        rcases hor with hor | hor
        · exact Or.inl (by omega)
        · exact Or.inr hor
      · intro j' hj'
        rcases Nat.eq_zero_or_pos j' with rfl | hpos
        · simpa using h
        · have := hall (j' - 1) (by omega)
          rw [← Nat.shiftRight_add] at this
          have e : 1 + (j' - 1) = j' := by omega
          rwa [e] at this

theorem classOf_le (sz : Nat) : classOf sz ≤ 23 := by
  obtain ⟨j, hj, he, _, _⟩ := seg_loop_spec (SEG_SIZE - 1) 0 sz
  simp only [classOf, he, SEG_SIZE] at *
  omega

theorem classOf_lt (sz : Nat) : classOf sz < 24 := by
  have := classOf_le sz
  omega

/-- The pair computed by the shift loop: the class index and the shifted size. -/
theorem seg_loop_eq (sz : Nat) :
    seg_loop (SEG_SIZE - 1) 0 sz = (classOf sz, sz >>> classOf sz) := by
  obtain ⟨j, hj, he, _, _⟩ := seg_loop_spec (SEG_SIZE - 1) 0 sz
  simp only [classOf, he, Nat.zero_add]

theorem classOf_pow_le (sz : Nat) (h : 1 ≤ sz) : 2 ^ classOf sz ≤ sz := by
  obtain ⟨j, hj, he, _, hall⟩ := seg_loop_spec (SEG_SIZE - 1) 0 sz
  have hc : classOf sz = j := by simp [classOf, he]
  rw [hc]
  rcases Nat.eq_zero_or_pos j with rfl | hpos
  · simpa using h
  · have h1 := hall (j - 1) (by omega)
    rw [Nat.shiftRight_eq_div_pow] at h1
    have h2 : 2 * 2 ^ (j - 1) ≤ sz := by
      have := (Nat.le_div_iff_mul_le (Nat.pos_pow_of_pos _ (by decide))).1 h1
      omega
    have e : 2 ^ j = 2 * 2 ^ (j - 1) := by
      conv_lhs => rw [show j = (j - 1) + 1 by omega]
      rw [Nat.pow_succ]; omega
    omega

/-- The shifted size that the insertion scan of `add_seglist` compares with
the sizes of list members never exceeds the size of a member of the class. -/
theorem shifted_le (sz c : Nat) (hsz : sz < 4294967296) (hc : 16 ≤ c)
    (hcl : classOf c = classOf sz) : sz >>> classOf sz ≤ c := by
  obtain ⟨j, hj, he, hor, _⟩ := seg_loop_spec (SEG_SIZE - 1) 0 sz
  have hcj : classOf sz = j := by simp [classOf, he]
  rw [hcj] at hcl ⊢
  rcases hor with hor | hor
  · have h1 : 2 ^ 23 ≤ c := by
      have := classOf_pow_le c (by omega)
      rw [hcl, hor] at this
      simpa [SEG_SIZE] using this
    have h2 : sz >>> j < 512 := by
      rw [hor, Nat.shiftRight_eq_div_pow]
      simp only [SEG_SIZE]
      omega
    omega
  · omega

@[simp] theorem PUT_mem (s : Heap) (p v : Nat) : (PUT s p v).mem = wr32 s.mem p v := rfl
@[simp] theorem PUT_start (s : Heap) (p v : Nat) : (PUT s p v).mem_start_brk = s.mem_start_brk := rfl
@[simp] theorem PUT_brk (s : Heap) (p v : Nat) : (PUT s p v).mem_brk = s.mem_brk := rfl
@[simp] theorem PUT_max (s : Heap) (p v : Nat) : (PUT s p v).mem_max_addr = s.mem_max_addr := rfl
@[simp] theorem PUT_hp (s : Heap) (p v : Nat) : (PUT s p v).heap_ptr = s.heap_ptr := rfl
@[simp] theorem PUT_seg (s : Heap) (p v : Nat) : (PUT s p v).seg_list_ptr = s.seg_list_ptr := rfl

@[simp] theorem setMem_mem (s : Heap) (M : Nat → Nat) : (s.setMem M).mem = M := rfl
@[simp] theorem setMem_start (s : Heap) (M : Nat → Nat) :
    (s.setMem M).mem_start_brk = s.mem_start_brk := rfl
@[simp] theorem setMem_brk (s : Heap) (M : Nat → Nat) : (s.setMem M).mem_brk = s.mem_brk := rfl
@[simp] theorem setMem_max (s : Heap) (M : Nat → Nat) :
    (s.setMem M).mem_max_addr = s.mem_max_addr := rfl
@[simp] theorem setMem_hp (s : Heap) (M : Nat → Nat) : (s.setMem M).heap_ptr = s.heap_ptr := rfl
@[simp] theorem setMem_seg (s : Heap) (M : Nat → Nat) :
    (s.setMem M).seg_list_ptr = s.seg_list_ptr := rfl
@[simp] theorem setMem_setMem (s : Heap) (M M' : Nat → Nat) :
    (s.setMem M).setMem M' = s.setMem M' := rfl
theorem PUT_eq (s : Heap) (p v : Nat) : PUT s p v = s.setMem (wr32 s.mem p v) := rfl

theorem HDRP_eq (bp : Nat) (h1 : 4 ≤ bp) (h2 : bp < 4294967296) : HDRP bp = bp - 4 := by
  unfold HDRP u32 WSIZE; omega

theorem NEXT_ADR_eq (bp : Nat) (h2 : bp + 4 < 4294967296) : GET_SEG_NEXT_ADR bp = bp + 4 := by
  unfold GET_SEG_NEXT_ADR u32 WSIZE; omega

theorem tag_and_MASK7 (sz a : Nat) (h1 : sz % 8 = 0) (h2 : a ≤ 1) (h3 : sz + a < 4294967296) :
    (sz + a) &&& MASK7 = sz := by
  rw [and_MASK7 _ h3]; omega

theorem tag_and_one (sz a : Nat) (h1 : sz % 8 = 0) (h2 : a ≤ 1) : (sz + a) &&& 1 = a := by
  rw [Nat.and_one_is_mod]; omega

theorem Blk.tag_size (b : Blk) (h1 : b.size % 8 = 0) (h3 : b.size + 1 < 4294967296) :
    b.tag &&& MASK7 = b.size := by
  unfold Blk.tag
  apply tag_and_MASK7 _ _ h1
  · split <;> omega
  · split <;> omega

theorem Blk.tag_alloc (b : Blk) (h1 : b.size % 8 = 0) :
    b.tag &&& 1 = if b.alloc then 1 else 0 := by
  unfold Blk.tag
  apply tag_and_one _ _ h1
  split <;> omega

theorem Blk.tag_lt (b : Blk) (h3 : b.size + 1 < 4294967296) : b.tag < 4294967296 := by
  unfold Blk.tag
  split <;> omega

/-! ### Basic consequences of well-formedness -/

theorem WF.bounds {s : Heap} {bl : List Blk} {fl : Nat → List Nat} (h : WF s bl fl)
    {b : Blk} (hb : b ∈ bl) :
    s.seg_list_ptr + 112 ≤ b.bp ∧ b.bp + b.size ≤ s.mem_brk ∧ s.mem_brk < 4294967296 ∧
      16 ≤ b.size ∧ b.size % 8 = 0 := by
  have := Layout.mem_bounds h.layout hb
  have := h.brk_le
  have := h.max_lt
  omega

theorem WF.brk_ge {s : Heap} {bl : List Blk} {fl : Nat → List Nat} (h : WF s bl fl) :
    s.seg_list_ptr + 112 ≤ s.mem_brk ∧ s.mem_brk < 4294967296 := by
  have := Layout.le h.layout
  have := h.brk_le
  have := h.max_lt
  omega

theorem WF.blk_disj {s : Heap} {bl : List Blk} {fl : Nat → List Nat} (h : WF s bl fl)
    {b c : Blk} (hb : b ∈ bl) (hc : c ∈ bl) :
    b = c ∨ b.bp + b.size ≤ c.bp ∨ c.bp + c.size ≤ b.bp :=
  Layout.disj h.layout hb hc

theorem WF.blk_size {s : Heap} {bl : List Blk} {fl : Nat → List Nat} (h : WF s bl fl)
    {b : Blk} (hb : b ∈ bl) : GET_BLK_SIZE s b.bp = b.size := by
  have hbd := h.bounds hb
  unfold GET_BLK_SIZE GET_SIZE GET
  rw [HDRP_eq _ (by omega) (by omega), (h.tags b hb).1]
  exact b.tag_size hbd.2.2.2.2 (by omega)

theorem WF.blk_alloc {s : Heap} {bl : List Blk} {fl : Nat → List Nat} (h : WF s bl fl)
    {b : Blk} (hb : b ∈ bl) : GET_ALLOC s (HDRP b.bp) = if b.alloc then 1 else 0 := by
  have hbd := h.bounds hb
  unfold GET_ALLOC GET
  rw [HDRP_eq _ (by omega) (by omega), (h.tags b hb).1]
  exact b.tag_alloc hbd.2.2.2.2

/-- A member of a class list is the payload address of a free block. -/
theorem WF.member {s : Heap} {bl : List Blk} {fl : Nat → List Nat} (h : WF s bl fl)
    {i x : Nat} (hi : i < 24) (hx : x ∈ fl i) :
    ∃ b ∈ bl, b.bp = x ∧ b.alloc = false ∧ classOf b.size = i := h.sound i hi x hx

/-- Two list members are equal or at least 16 bytes apart. -/
theorem WF.member_sep {s : Heap} {bl : List Blk} {fl : Nat → List Nat} (h : WF s bl fl)
    {i j x y : Nat} (hi : i < 24) (hj : j < 24) (hx : x ∈ fl i) (hy : y ∈ fl j) :
    (x = y ∧ i = j) ∨ x + 16 ≤ y ∨ y + 16 ≤ x := by
  obtain ⟨b, hb, rfl, _, hcb⟩ := h.member hi hx
  obtain ⟨c, hc, rfl, _, hcc⟩ := h.member hj hy
  have h1 := h.bounds hb
  have h2 := h.bounds hc
  rcases h.blk_disj hb hc with h3 | h3 | h3
  · subst h3
    exact Or.inl ⟨rfl, by omega⟩
  · omega
  · omega

theorem untouched_word {s : Heap} {bl : List Blk}
    {M : Nat → Nat} (hM : ∀ a, Untouched s bl a → M a = s.mem a) (p : Nat)
    (hp : ∀ i, i < 4 → Untouched s bl (p + i)) : rd32 M p = rd32 s.mem p :=
  rd32_congr _ _ _ fun i hi => hM _ (hp i hi)

theorem WF.untouched_tag {s : Heap} {bl : List Blk} {fl : Nat → List Nat} (h : WF s bl fl)
    {M : Nat → Nat} (hM : ∀ a, Untouched s bl a → M a = s.mem a) {c : Blk} (hc : c ∈ bl) :
    rd32 M (c.bp - 4) = c.tag ∧ rd32 M (c.bp + c.size - 8) = c.tag := by
  have hcb := h.bounds hc
  have key : ∀ p, c.bp - 4 ≤ p → p < c.bp + c.size - 4 → (p < c.bp ∨ c.bp + c.size - 8 ≤ p) →
      Untouched s bl p := by
    intro p h1 h2 h4
    refine ⟨by omega, ?_⟩
    intro d hd _
    have hdb := h.bounds hd
    rcases h.blk_disj hc hd with h3 | h3 | h3
    · subst h3; omega
    · omega
    · omega
  constructor
  · rw [← (h.tags c hc).1]
    exact untouched_word hM _ fun i hi => key _ (by omega) (by omega) (by omega)
  · rw [← (h.tags c hc).2]
    exact untouched_word hM _ fun i hi => key _ (by omega) (by omega) (by omega)

theorem WF.untouched_fixed {s : Heap} {bl : List Blk} {fl : Nat → List Nat} (h : WF s bl fl)
    {M : Nat → Nat} (hM : ∀ a, Untouched s bl a → M a = s.mem a) :
    rd32 M (s.seg_list_ptr + 96) = 0 ∧ rd32 M (s.seg_list_ptr + 100) = 9 ∧
      rd32 M (s.seg_list_ptr + 104) = 9 ∧ rd32 M (s.mem_brk - 4) = 1 := by
  have hbr := h.brk_ge
  have key : ∀ p, s.seg_list_ptr + 96 ≤ p → (p < s.seg_list_ptr + 112 ∨ s.mem_brk - 4 ≤ p) →
      Untouched s bl p := by
    intro p h1 h2
    refine ⟨by omega, ?_⟩
    intro d hd _
    have hdb := h.bounds hd
    omega
  refine ⟨?_, ?_, ?_, ?_⟩
  · rw [← h.pad]
    exact untouched_word hM _ fun i hi => key _ (by omega) (by omega)
  · rw [← h.pro_h]
    exact untouched_word hM _ fun i hi => key _ (by omega) (by omega)
  · rw [← h.pro_f]
    exact untouched_word hM _ fun i hi => key _ (by omega) (by omega)
  · rw [← h.epi]
    exact untouched_word hM _ fun i hi => key _ (by omega) (by omega)

theorem Links_nil {m : Nat → Nat} {t : Nat} : Links m t [] ↔ True := Iff.rfl

theorem Links_cons {m : Nat → Nat} {t x : Nat} {xs : List Nat} :
    Links m t (x :: xs) ↔ rd32 m (x + 4) = t ∧ rd32 m x = xs.headD 0 ∧ Links m x xs := Iff.rfl

theorem Links.frame {m m' : Nat → Nat} {t : Nat} {l : List Nat} (h : Links m t l)
    (hf : ∀ y ∈ l, rd32 m' y = rd32 m y ∧ rd32 m' (y + 4) = rd32 m (y + 4)) : Links m' t l := by
  induction l generalizing t with
  | nil => trivial
  | cons x xs ih =>
    obtain ⟨h1, h2, h3⟩ := Links_cons.1 h
    have hx := hf x (List.mem_cons_self _ _)
    refine Links_cons.2 ⟨by rw [hx.2, h1], by rw [hx.1, h2], ih h3 ?_⟩
    intro y hy
    exact hf y (List.mem_cons_of_mem _ hy)

/-- Changing the member that precedes a list. -/
theorem Links.retarget {m m' : Nat → Nat} {t t' : Nat} {l : List Nat} (h : Links m t l)
    (hp : ∀ y ∈ l, rd32 m' y = rd32 m y)
    (hn : ∀ y ∈ l.tail, rd32 m' (y + 4) = rd32 m (y + 4))
    (hh : ∀ y, l.head? = some y → rd32 m' (y + 4) = t') : Links m' t' l := by
  cases l with
  | nil => trivial
  | cons x xs =>
    obtain ⟨_, h2, h3⟩ := Links_cons.1 h
    refine Links_cons.2 ⟨hh x rfl, by rw [hp x (List.mem_cons_self _ _), h2], ?_⟩
    apply h3.frame
    intro y hy
    exact ⟨hp y (List.mem_cons_of_mem _ hy), hn y hy⟩

/-- The links of a member in the middle of a list. -/
theorem Links.read {m : Nat → Nat} {t x : Nat} {pre post : List Nat}
    (h : Links m t (pre ++ x :: post)) :
    Links m x post ∧ rd32 m x = post.headD 0 ∧ rd32 m (x + 4) = pre.getLastD t := by
  induction pre generalizing t with
  | nil =>
    obtain ⟨h1, h2, h3⟩ := Links_cons.1 h
    exact ⟨h3, h2, h1⟩
  | cons p ps ih =>
    obtain ⟨_, _, h3⟩ := Links_cons.1 h
    have := ih h3
    rw [List.getLastD_cons]
    exact this

/-- Unlinking the member `x` that follows `nx`. -/
theorem Links.unlink {m m' : Nat → Nat} {t nx x : Nat} {pre post : List Nat}
    (h : Links m t (pre ++ nx :: x :: post))
    (hpre : ∀ y ∈ pre, rd32 m' y = rd32 m y ∧ rd32 m' (y + 4) = rd32 m (y + 4))
    (hnx4 : rd32 m' (nx + 4) = rd32 m (nx + 4))
    (hnx : rd32 m' nx = post.headD 0)
    (hpost : Links m' nx post) : Links m' t (pre ++ nx :: post) := by
  induction pre generalizing t with
  | nil =>
    obtain ⟨h1, _, _⟩ := Links_cons.1 h
    exact Links_cons.2 ⟨by rw [hnx4, h1], hnx, hpost⟩
  | cons p ps ih =>
    obtain ⟨h1, h2, h3⟩ := Links_cons.1 h
    have hp := hpre p (List.mem_cons_self _ _)
    refine Links_cons.2 ⟨by rw [hp.2, h1], ?_, ih h3 fun y hy => hpre y (List.mem_cons_of_mem _ hy)⟩
    rw [hp.1, h2]
    cases ps <;> rfl

/-- The generic step that rebuilds well-formedness after one class list has
been changed. -/
theorem WF.list_update {s : Heap} {bl : List Blk} {fl : Nat → List Nat} (h : WF s bl fl)
    (M : Nat → Nat) (i : Nat) (l' : List Nat)
    (hU : ∀ a, Untouched s bl a → M a = s.mem a)
    (hslot : rd32 M (s.seg_list_ptr + 4 * i) = l'.headD 0)
    (hslots : ∀ j, j < 24 → j ≠ i →
      rd32 M (s.seg_list_ptr + 4 * j) = rd32 s.mem (s.seg_list_ptr + 4 * j))
    (hlinks : Links M 0 l')
    (hother : ∀ j, j < 24 → j ≠ i → ∀ y ∈ fl j,
      rd32 M y = rd32 s.mem y ∧ rd32 M (y + 4) = rd32 s.mem (y + 4))
    (hsound : ∀ x ∈ l', ∃ b ∈ bl, b.bp = x ∧ b.alloc = false ∧ classOf b.size = i)
    (hnodup : l'.Nodup) :
    WF (s.setMem M) bl (Function.update fl i l') := by
  obtain ⟨f1, f2, f3, f4⟩ := h.untouched_fixed hU
  refine ⟨h.start, h.hp, h.brk_le, h.max_lt, f1, f2, f3, h.layout, f4,
    fun b hb => h.untouched_tag hU hb, ?_, ?_, ?_, ?_⟩
  · intro j hj
    by_cases hji : j = i
    · subst hji; simpa using hslot
    · rw [Function.update_noteq hji]
      show rd32 M (s.seg_list_ptr + 4 * j) = _
      rw [hslots j hj hji]
      exact h.heads j hj
  · intro j hj
    by_cases hji : j = i
    · subst hji; simpa using hlinks
    · rw [Function.update_noteq hji]
      exact (h.links j hj).frame (hother j hj hji)
  · intro j hj
    by_cases hji : j = i
    · subst hji; simpa using hsound
    · rw [Function.update_noteq hji]
      exact h.sound j hj
  · intro j hj
    by_cases hji : j = i
    · subst hji; simpa using hnodup
    · rw [Function.update_noteq hji]
      exact h.nodup j hj

/-- Well-formedness after a list operation that wrote only the head slot of
class `i` and link words of the members of the new list `l'` of that class. -/
theorem WF.list_write {s : Heap} {bl : List Blk} {fl : Nat → List Nat} (h : WF s bl fl)
    (i : Nat) (hi : i < 24) (l' : List Nat)
    (hsound : ∀ x ∈ l', ∃ b ∈ bl, b.bp = x ∧ b.alloc = false ∧ classOf b.size = i)
    (hnodup : l'.Nodup) (M : Nat → Nat) (W : List Nat)
    (hA : ∀ a, (∀ p ∈ W, a < p ∨ p + 4 ≤ a) → M a = s.mem a)
    (hW : ∀ p ∈ W, p = s.seg_list_ptr + 4 * i ∨ ∃ z ∈ l', p = z ∨ p = z + 4)
    (hslot : rd32 M (s.seg_list_ptr + 4 * i) = l'.headD 0)
    (hlinks : Links M 0 l') :
    WF (s.setMem M) bl (Function.update fl i l') ∧
      ∀ a, Untouched s bl a → M a = s.mem a := by
  have hU : ∀ a, Untouched s bl a → M a = s.mem a := by
    intro a ha
    apply hA
    intro p hp
    rcases hW p hp with rfl | ⟨z, hz, hpz⟩
    · have := ha.1; omega
    · obtain ⟨b, hb, rfl, hfree, _⟩ := hsound z hz
      have := ha.2 b hb hfree
      omega
  refine ⟨h.list_update M i l' hU hslot ?_ hlinks ?_ hsound hnodup, hU⟩
  · intro j hj hji
    apply rd32_congr
    intro k hk
    apply hA
    intro p hp
    rcases hW p hp with rfl | ⟨z, hz, hpz⟩
    · omega
    · obtain ⟨b, hb, rfl, _, _⟩ := hsound z hz
      have := h.bounds hb
      omega
  · intro j hj hji y hy
    obtain ⟨c, hc, rfl, _, hcc⟩ := h.member hj hy
    have hcb := h.bounds hc
    have key : ∀ a, c.bp ≤ a → a < c.bp + 8 → M a = s.mem a := by
      intro a h1 h2
      apply hA
      intro p hp
      rcases hW p hp with rfl | ⟨z, hz, hpz⟩
      · omega
      · obtain ⟨b, hb, rfl, _, hbc⟩ := hsound z hz
        have hbb := h.bounds hb
        rcases h.blk_disj hb hc with h3 | h3 | h3
        · subst h3; omega
        · omega
        · omega
    constructor
    · exact rd32_congr _ _ _ fun k hk => key _ (by omega) (by omega)
    · exact rd32_congr _ _ _ fun k hk => key _ (by omega) (by omega)

theorem agree_one (m : Nat → Nat) (p v : Nat) :
    ∀ a, (∀ q ∈ [p], a < q ∨ q + 4 ≤ a) → wr32 m p v a = m a := by
  intro a ha
  exact wr32_outside _ _ _ _ (ha p (by simp))

theorem agree_two (m : Nat → Nat) (p v p' v' : Nat) :
    ∀ a, (∀ q ∈ [p, p'], a < q ∨ q + 4 ≤ a) → wr32 (wr32 m p v) p' v' a = m a := by
  intro a ha
  rw [wr32_outside _ _ _ _ (ha p' (by simp)), wr32_outside _ _ _ _ (ha p (by simp))]

theorem agree_three (m : Nat → Nat) (p v p' v' p'' v'' : Nat) :
    ∀ a, (∀ q ∈ [p, p', p''], a < q ∨ q + 4 ≤ a) →
      wr32 (wr32 (wr32 m p v) p' v') p'' v'' a = m a := by
  intro a ha
  rw [wr32_outside _ _ _ _ (ha p'' (by simp)), wr32_outside _ _ _ _ (ha p' (by simp)),
    wr32_outside _ _ _ _ (ha p (by simp))]

theorem agree_four (m : Nat → Nat) (p v p' v' p'' v'' p3 v3 : Nat) :
    ∀ a, (∀ q ∈ [p, p', p'', p3], a < q ∨ q + 4 ≤ a) →
      wr32 (wr32 (wr32 (wr32 m p v) p' v') p'' v'') p3 v3 a = m a := by
  intro a ha
  rw [wr32_outside _ _ _ _ (ha p3 (by simp)), wr32_outside _ _ _ _ (ha p'' (by simp)),
    wr32_outside _ _ _ _ (ha p' (by simp)), wr32_outside _ _ _ _ (ha p (by simp))]

/-- The memory that `remove_seglist` leaves, in terms of the two links of the
block and its class. -/
theorem remove_seglist_eq (s : Heap) (x prev next i : Nat)
    (hprev : rd32 s.mem x = prev) (hnext : rd32 s.mem (x + 4) = next)
    (hx : x + 4 < 4294967296) (hcl : classOf (GET_BLK_SIZE s x) = i)
    (hslot : s.seg_list_ptr + 4 * i < 4294967296) (hp4 : prev + 4 < 4294967296) :
    remove_seglist s x =
      if next = 0 then
        if prev ≠ 0 then
          (s.setMem (wr32 (wr32 s.mem (s.seg_list_ptr + 4 * i) prev) (prev + 4) 0))
        else (s.setMem (wr32 s.mem (s.seg_list_ptr + 4 * i) prev))
      else
        if prev ≠ 0 then (s.setMem (wr32 (wr32 s.mem next prev) (prev + 4) next))
        else (s.setMem (wr32 s.mem next prev)) := by
  have hplt : prev < 4294967296 := by rw [← hprev]; exact rd32_lt _ _
  have e1 : SEG_PREV_BLKP s x = prev := hprev
  have e2 : SEG_NEXT_BLKP s x = next := by
    unfold SEG_NEXT_BLKP GET
    rw [NEXT_ADR_eq _ hx, hnext]
  have e3 : (seg_loop (SEG_SIZE - 1) 0 (GET_BLK_SIZE s x)).1 = i := hcl
  have e4 : u32 (s.seg_list_ptr + WSIZE * i) = s.seg_list_ptr + 4 * i := by
    unfold u32 WSIZE; omega
  have e5 : GET_SEG_NEXT_ADR prev = prev + 4 := NEXT_ADR_eq _ hp4
  unfold remove_seglist
  simp only [e1, e2, e3, NULL, SET_SEG_LIST_PTR, GET_SEG_LIST_PTR, e4, GET, PUT_mem, PUT_seg,
    rd32_wr32_same _ _ _ hplt, GET_SEG_PREV_ADR, e5]
  split_ifs <;> rfl

theorem remove_seglist_spec {s : Heap} {bl : List Blk} {fl : Nat → List Nat} (h : WF s bl fl)
    {b : Blk} (hb : b ∈ bl) (hx : b.bp ∈ fl (classOf b.size)) :
    ∃ M, remove_seglist s b.bp = (s.setMem M) ∧
      WF (s.setMem M) bl
        (Function.update fl (classOf b.size) ((fl (classOf b.size)).erase b.bp)) ∧
      ∀ a, Untouched s bl a → M a = s.mem a := by
  have hi := classOf_lt b.size
  have hbb := h.bounds hb
  obtain ⟨pre, post, hl⟩ := List.append_of_mem hx
  have hnd : (pre ++ b.bp :: post).Nodup := hl ▸ h.nodup _ hi
  have hlk : Links s.mem 0 (pre ++ b.bp :: post) := hl ▸ h.links _ hi
  obtain ⟨hpostL, hprev, hnext⟩ := hlk.read
  have hnotpre : b.bp ∉ pre := fun hm => by
    have := (List.nodup_append.1 hnd).2.2 hm (List.mem_cons_self _ _)
    exact this
  have herase : (fl (classOf b.size)).erase b.bp = pre ++ post := by
    rw [hl, List.erase_append_right _ hnotpre, List.erase_cons_head]
  have hmem : ∀ y ∈ pre ++ b.bp :: post, y ∈ fl (classOf b.size) := fun y hy => hl ▸ hy
  have hsub : ∀ y ∈ pre ++ post, y ∈ pre ++ b.bp :: post := by
    intro y hy
    rcases List.mem_append.1 hy with hy | hy
    · exact List.mem_append_left _ hy
    · exact List.mem_append_right _ (List.mem_cons_of_mem _ hy)
  have hsound : ∀ y ∈ pre ++ post, ∃ c ∈ bl, c.bp = y ∧ c.alloc = false ∧
      classOf c.size = classOf b.size := fun y hy => h.member hi (hmem y (hsub y hy))
  have hnd' : (pre ++ post).Nodup := by
    have := List.nodup_middle.1 hnd
    exact (List.nodup_cons.1 this).2
  have hsep : ∀ u ∈ pre ++ b.bp :: post, ∀ v ∈ pre ++ b.bp :: post,
      u = v ∨ u + 16 ≤ v ∨ v + 16 ≤ u := by
    intro u hu v hv
    rcases h.member_sep hi hi (hmem u hu) (hmem v hv) with h1 | h1 | h1
    · exact Or.inl h1.1
    · exact Or.inr (Or.inl h1)
    · exact Or.inr (Or.inr h1)
  have hbnd : ∀ y ∈ pre ++ b.bp :: post, s.seg_list_ptr + 112 ≤ y ∧ y + 16 ≤ s.mem_brk := by
    intro y hy
    obtain ⟨c, hc, rfl, _, _⟩ := h.member hi (hmem y hy)
    have := h.bounds hc
    omega
  have hbrk := h.brk_ge
  have hprevlt : post.headD 0 + 4 < 4294967296 := by
    cases post with
    | nil => simp
    | cons y r =>
      have := hbnd y (by simp)
      simp only [List.headD_cons]; omega
  have heq := remove_seglist_eq s b.bp _ _ _ hprev hnext (by omega) (by rw [h.blk_size hb])
    (by omega) hprevlt
  rw [herase]
  rcases List.eq_nil_or_concat pre with rfl | ⟨pre', nx, rfl⟩
  · -- the block is the head of its list
    cases post with
    | nil =>
      refine ⟨wr32 s.mem (s.seg_list_ptr + 4 * classOf b.size) 0, by rw [heq]; simp, ?_⟩
      apply h.list_write _ hi [] (by simp) (by simp) _ [s.seg_list_ptr + 4 * classOf b.size]
        (agree_one _ _ _) (by simp)
      · rw [rd32_wr32_same _ _ _ (by simp)]; rfl
      · trivial
    | cons y r =>
      have hy := hbnd y (by simp)
      have hyb := hsep y (by simp) b.bp (by simp)
      have hyne : y ≠ b.bp := fun e => by
        rw [e] at hnd
        simp at hnd
      have hy0 : y ≠ 0 := by omega
      refine ⟨wr32 (wr32 s.mem (s.seg_list_ptr + 4 * classOf b.size) y) (y + 4) 0,
        by rw [heq]; simp [hy0], ?_⟩
      apply h.list_write _ hi (y :: r) hsound hnd' _ [s.seg_list_ptr + 4 * classOf b.size, y + 4]
        (agree_two _ _ _ _ _)
      · intro p hp
        simp only [List.mem_cons, List.mem_singleton, List.not_mem_nil, or_false] at hp
        rcases hp with rfl | rfl
        · exact Or.inl rfl
        · exact Or.inr ⟨y, by simp, Or.inr rfl⟩
      · rw [rd32_wr32_disj _ _ _ _ (by omega), rd32_wr32_same _ _ _ (by omega)]
        rfl
      · apply hpostL.retarget
        · intro z hz
          have hzm : z ∈ [] ++ b.bp :: y :: r := List.mem_cons_of_mem _ hz
          have hzb := hbnd z hzm
          have hzy := hsep z hzm y (by simp)
          rw [rd32_wr32_disj _ _ _ _ (by omega), rd32_wr32_disj _ _ _ _ (by omega)]
        · intro z hz
          simp only [List.tail_cons] at hz
          have hzm : z ∈ [] ++ b.bp :: y :: r :=
            List.mem_cons_of_mem _ (List.mem_cons_of_mem _ hz)
          have hzb := hbnd z hzm
          have hzy := hsep z hzm y (by simp)
          have hzne : z ≠ y := fun e => by
            rw [e] at hz
            simp only [List.nil_append, List.nodup_cons] at hnd'
            exact hnd'.1 hz
          rw [rd32_wr32_disj _ _ _ _ (by omega), rd32_wr32_disj _ _ _ _ (by omega)]
        · intro z hz
          simp only [List.head?_cons, Option.some.injEq] at hz
          subst hz
          rw [rd32_wr32_same _ _ _ (by omega)]
  · -- the block has a predecessor `nx` in its list
    simp only [List.concat_eq_append, List.append_assoc, List.singleton_append] at *
    have hnxv : (pre' ++ [nx]).getLastD 0 = nx := List.getLastD_concat _ _ _
    rw [hnxv] at heq hnext
    have hnxb := hbnd nx (by simp)
    have hnx0 : nx ≠ 0 := by omega
    have hnxne : nx ≠ b.bp := fun e => hnotpre (by simp [e])
    have hslot0 : rd32 s.mem (s.seg_list_ptr + 4 * classOf b.size) = (pre' ++ nx :: post).headD 0 := by
      rw [h.heads _ hi, hl]
      cases pre' <;> rfl
    have hpre' : ∀ z ∈ pre', z ≠ nx ∧ z ∈ pre' ++ nx :: b.bp :: post := by
      intro z hz
      refine ⟨fun e => ?_, by simp [hz]⟩
      subst e
      exact (List.nodup_append.1 hnd).2.2 hz (List.mem_cons_self _ _)
    cases post with
    | nil =>
      refine ⟨wr32 s.mem nx 0, by rw [heq]; simp [hnx0], ?_⟩
      apply h.list_write _ hi (pre' ++ [nx]) hsound hnd' _ [nx] (agree_one _ _ _)
      · intro p hp
        simp only [List.mem_singleton] at hp
        subst hp
        exact Or.inr ⟨p, by simp, Or.inl rfl⟩
      · rw [rd32_wr32_disj _ _ _ _ (by omega)]
        exact hslot0
      · apply hlk.unlink
        · intro z hz
          have hzb := hbnd z (hpre' z hz).2
          have hzn := hsep z (hpre' z hz).2 nx (by simp)
          have := (hpre' z hz).1
          rw [rd32_wr32_disj _ _ _ _ (by omega), rd32_wr32_disj _ _ _ _ (by omega)]
          exact ⟨rfl, rfl⟩
        · rw [rd32_wr32_disj _ _ _ _ (by omega)]
        · rw [rd32_wr32_same _ _ _ (by omega)]; rfl
        · trivial
    | cons y r =>
      have hy := hbnd y (by simp)
      have hy0 : y ≠ 0 := by omega
      have hynx := hsep y (by simp) nx (by simp)
      have hynx' : y ≠ nx := fun e => by
        subst e
        exact (List.nodup_cons.1 (List.nodup_append.1 hnd').2.1).1 (by simp)
      refine ⟨wr32 (wr32 s.mem nx y) (y + 4) nx, by rw [heq]; simp [hnx0, hy0], ?_⟩
      apply h.list_write _ hi (pre' ++ nx :: y :: r) hsound hnd' _ [nx, y + 4]
        (agree_two _ _ _ _ _)
      · intro p hp
        simp only [List.mem_cons, List.mem_singleton, List.not_mem_nil, or_false] at hp
        rcases hp with rfl | rfl
        · exact Or.inr ⟨p, by simp, Or.inl rfl⟩
        · exact Or.inr ⟨y, by simp, Or.inr rfl⟩
      · rw [rd32_wr32_disj _ _ _ _ (by omega), rd32_wr32_disj _ _ _ _ (by omega)]
        rw [hslot0]
      · apply hlk.unlink
        · intro z hz
          have hzb := hbnd z (hpre' z hz).2
          have hzn := hsep z (hpre' z hz).2 nx (by simp)
          have hzy := hsep z (hpre' z hz).2 y (by simp)
          have := (hpre' z hz).1
          have hzy' : z ≠ y := fun e => by
            subst e
            exact (List.nodup_append.1 hnd').2.2 hz
              (List.mem_cons_of_mem _ (List.mem_cons_self _ _))
          rw [rd32_wr32_disj _ _ _ _ (by omega), rd32_wr32_disj _ _ _ _ (by omega),
            rd32_wr32_disj _ _ _ _ (by omega), rd32_wr32_disj _ _ _ _ (by omega)]
          exact ⟨rfl, rfl⟩
        · rw [rd32_wr32_disj _ _ _ _ (by omega), rd32_wr32_disj _ _ _ _ (by omega)]
        · rw [rd32_wr32_disj _ _ _ _ (by omega), rd32_wr32_same _ _ _ (by omega)]; rfl
        · apply hpostL.retarget
          · intro z hz
            have hzm : z ∈ pre' ++ nx :: b.bp :: y :: r :=
              List.mem_append_right _ (List.mem_cons_of_mem _ (List.mem_cons_of_mem _ hz))
            have hzb := hbnd z hzm
            have hzy := hsep z hzm y (by simp)
            have hzn := hsep z hzm nx (by simp)
            have hzne : z ≠ nx := fun e => by
              subst e
              have := List.nodup_append.1 hnd'
              have h2 := List.nodup_cons.1 this.2.1
              exact h2.1 hz
            rw [rd32_wr32_disj _ _ _ _ (by omega), rd32_wr32_disj _ _ _ _ (by omega)]
          · intro z hz
            simp only [List.tail_cons] at hz
            have hzm : z ∈ pre' ++ nx :: b.bp :: y :: r :=
              List.mem_append_right _ (List.mem_cons_of_mem _ (List.mem_cons_of_mem _
                (List.mem_cons_of_mem _ hz)))
            have hzb := hbnd z hzm
            have hzy := hsep z hzm y (by simp)
            have hzn := hsep z hzm nx (by simp)
            have hnd3 := List.nodup_append.1 hnd'
            have h2 := List.nodup_cons.1 hnd3.2.1
            have h3 := List.nodup_cons.1 h2.2
            have hzne : z ≠ nx := fun e => by
              subst e
              exact h2.1 (List.mem_cons_of_mem _ hz)
            have hzne' : z ≠ y := fun e => by
              subst e
              exact h3.1 hz
            rw [rd32_wr32_disj _ _ _ _ (by omega), rd32_wr32_disj _ _ _ _ (by omega)]
          · intro z hz
            simp only [List.head?_cons, Option.some.injEq] at hz
            subst hz
            rw [rd32_wr32_same _ _ _ (by omega)]

theorem add_scan_stop (s : Heap) (r fuel curr : Nat) (hfuel : 1 ≤ fuel)
    (hstop : curr = 0 ∨ r ≤ GET_BLK_SIZE s curr) :
    add_scan s r fuel NULL curr = some (0, curr) := by
  obtain ⟨f, rfl⟩ : ∃ f, fuel = f + 1 := ⟨fuel - 1, by omega⟩
  unfold add_scan
  have : ¬ (curr ≠ NULL ∧ r > GET_BLK_SIZE s curr) := by
    unfold NULL
    rintro ⟨h1, h2⟩
    rcases hstop with h3 | h3
    · exact h1 h3
    · omega
  rw [if_neg this]
  rfl

/-- The result of `add_seglist` when the insertion scan stops at the head of
the class list. -/
theorem add_seglist_eq (fuel : Nat) (s : Heap) (bp size curr : Nat) (hfuel : 1 ≤ fuel)
    (hcurr : rd32 s.mem (s.seg_list_ptr + 4 * classOf size) = curr)
    (hslot : s.seg_list_ptr + 4 * classOf size < 4294967296)
    (hstop : curr = 0 ∨ size >>> classOf size ≤ GET_BLK_SIZE s curr)
    (hbp : bp + 4 < 4294967296) (hc : curr + 4 < 4294967296) :
    add_seglist fuel s bp size = some
      (if curr ≠ 0 then
        (s.setMem ((wr32 (wr32 (wr32 (wr32 s.mem (curr + 4) bp) bp curr) (bp + 4) 0)
            (s.seg_list_ptr + 4 * classOf size) bp)))
      else
        (s.setMem ((wr32 (wr32 (wr32 s.mem (bp + 4) 0) bp 0)
            (s.seg_list_ptr + 4 * classOf size) bp)))) := by
  have e4 : u32 (s.seg_list_ptr + WSIZE * classOf size) = s.seg_list_ptr + 4 * classOf size := by
    unfold u32 WSIZE; omega
  have e5 : GET_SEG_NEXT_ADR bp = bp + 4 := NEXT_ADR_eq _ hbp
  have e6 : GET_SEG_NEXT_ADR curr = curr + 4 := NEXT_ADR_eq _ hc
  have e7 : GET_SEG_LIST_PTR s s.seg_list_ptr (classOf size) = curr := by
    unfold GET_SEG_LIST_PTR GET
    rw [e4, hcurr]
  unfold add_seglist
  rw [seg_loop_eq]
  simp only [e7, add_scan_stop s _ fuel curr hfuel hstop]
  by_cases h0 : curr = 0
  · simp [h0, NULL, SET_SEG_LIST_PTR, e4, e5, GET_SEG_PREV_ADR, PUT]
    rfl
  · simp [h0, NULL, SET_SEG_LIST_PTR, e4, e5, e6, GET_SEG_PREV_ADR, PUT]
    rfl

theorem add_seglist_spec {s : Heap} {bl : List Blk} {fl : Nat → List Nat} (h : WF s bl fl)
    {b : Blk} (hb : b ∈ bl) (hfree : b.alloc = false) (hnot : ∀ j, j < 24 → b.bp ∉ fl j)
    (fuel : Nat) (hfuel : 1 ≤ fuel) :
    ∃ M, add_seglist fuel s b.bp b.size = some (s.setMem M) ∧
      WF (s.setMem M) bl
        (Function.update fl (classOf b.size) (b.bp :: fl (classOf b.size))) ∧
      ∀ a, Untouched s bl a → M a = s.mem a := by
  have hi := classOf_lt b.size
  have hbb := h.bounds hb
  have hbrk := h.brk_ge
  have hsound : ∀ x ∈ b.bp :: fl (classOf b.size),
      ∃ c ∈ bl, c.bp = x ∧ c.alloc = false ∧ classOf c.size = classOf b.size := by
    intro x hx
    rcases List.mem_cons.1 hx with rfl | hx
    · exact ⟨b, hb, rfl, hfree, rfl⟩
    · exact h.member hi hx
  have hnd : (b.bp :: fl (classOf b.size)).Nodup :=
    List.nodup_cons.2 ⟨hnot _ hi, h.nodup _ hi⟩
  have hsepb : ∀ z ∈ fl (classOf b.size),
      s.seg_list_ptr + 112 ≤ z ∧ z + 16 ≤ s.mem_brk ∧ (z + 16 ≤ b.bp ∨ b.bp + 16 ≤ z) := by
    intro z hz
    obtain ⟨c, hc, rfl, _, _⟩ := h.member hi hz
    have hcb := h.bounds hc
    rcases h.blk_disj hc hb with h3 | h3 | h3
    · subst h3; exact absurd hz (hnot _ hi)
    · omega
    · omega
  have hsep : ∀ u ∈ fl (classOf b.size), ∀ v ∈ fl (classOf b.size),
      u = v ∨ u + 16 ≤ v ∨ v + 16 ≤ u := by
    intro u hu v hv
    rcases h.member_sep hi hi hu hv with h1 | h1 | h1
    · exact Or.inl h1.1
    · exact Or.inr (Or.inl h1)
    · exact Or.inr (Or.inr h1)
  have hhead := h.heads _ hi
  have hlk := h.links _ hi
  have hndl := h.nodup _ hi
  generalize hl : fl (classOf b.size) = l at *
  cases l with
  | nil =>
    have heq := add_seglist_eq fuel s b.bp b.size 0 hfuel hhead (by omega) (Or.inl rfl)
      (by omega) (by omega)
    refine ⟨wr32 (wr32 (wr32 s.mem (b.bp + 4) 0) b.bp 0) (s.seg_list_ptr + 4 * classOf b.size)
      b.bp, by rw [heq]; simp, ?_⟩
    apply h.list_write _ hi [b.bp] hsound hnd _ [b.bp + 4, b.bp, s.seg_list_ptr + 4 * classOf b.size]
      (agree_three _ _ _ _ _ _ _)
    · intro p hp
      simp only [List.mem_cons, List.mem_singleton, List.not_mem_nil, or_false] at hp
      rcases hp with rfl | rfl | rfl
      · exact Or.inr ⟨b.bp, by simp, Or.inr rfl⟩
      · exact Or.inr ⟨b.bp, by simp, Or.inl rfl⟩
      · exact Or.inl rfl
    · rw [rd32_wr32_same _ _ _ (by omega)]; rfl
    · refine Links_cons.2 ⟨?_, ?_, trivial⟩
      · rw [rd32_wr32_disj _ _ _ _ (by omega), rd32_wr32_disj _ _ _ _ (by omega),
          rd32_wr32_same _ _ _ (by omega)]
      · rw [rd32_wr32_disj _ _ _ _ (by omega), rd32_wr32_same _ _ _ (by omega)]; rfl
  | cons c r =>
    have hcs := hsepb c (by simp)
    obtain ⟨cb, hcb, hcbp, _, hcc⟩ := hsound c (by simp)
    have hcbb := h.bounds hcb
    have hstop : c = 0 ∨ b.size >>> classOf b.size ≤ GET_BLK_SIZE s c := by
      right
      rw [← hcbp, h.blk_size hcb]
      exact shifted_le _ _ (by omega) (by omega) hcc
    have heq := add_seglist_eq fuel s b.bp b.size c hfuel hhead (by omega) hstop
      (by omega) (by omega)
    have hc0 : c ≠ 0 := by omega
    refine ⟨wr32 (wr32 (wr32 (wr32 s.mem (c + 4) b.bp) b.bp c) (b.bp + 4) 0)
      (s.seg_list_ptr + 4 * classOf b.size) b.bp, by rw [heq]; simp [hc0], ?_⟩
    apply h.list_write _ hi (b.bp :: c :: r) hsound hnd _
      [c + 4, b.bp, b.bp + 4, s.seg_list_ptr + 4 * classOf b.size] (agree_four _ _ _ _ _ _ _ _ _)
    · intro p hp
      simp only [List.mem_cons, List.mem_singleton, List.not_mem_nil, or_false] at hp
      rcases hp with rfl | rfl | rfl | rfl
      · exact Or.inr ⟨c, by simp, Or.inr rfl⟩
      · exact Or.inr ⟨b.bp, by simp, Or.inl rfl⟩
      · exact Or.inr ⟨b.bp, by simp, Or.inr rfl⟩
      · exact Or.inl rfl
    · rw [rd32_wr32_same _ _ _ (by omega)]; rfl
    · refine Links_cons.2 ⟨?_, ?_, ?_⟩
      · rw [rd32_wr32_disj _ _ _ _ (by omega), rd32_wr32_same _ _ _ (by omega)]
      · rw [rd32_wr32_disj _ _ _ _ (by omega), rd32_wr32_disj _ _ _ _ (by omega),
          rd32_wr32_same _ _ _ (by omega)]
        rfl
      · apply hlk.retarget
        · intro z hz
          have hzb := hsepb z hz
          have hzc := hsep z hz c (by simp)
          rw [rd32_wr32_disj _ _ _ _ (by omega), rd32_wr32_disj _ _ _ _ (by omega),
            rd32_wr32_disj _ _ _ _ (by omega), rd32_wr32_disj _ _ _ _ (by omega)]
        · intro z hz
          simp only [List.tail_cons] at hz
          have hzb := hsepb z (List.mem_cons_of_mem _ hz)
          have hzc := hsep z (List.mem_cons_of_mem _ hz) c (by simp)
          have hzne : z ≠ c := fun e => by
            subst e
            exact (List.nodup_cons.1 hndl).1 hz
          rw [rd32_wr32_disj _ _ _ _ (by omega), rd32_wr32_disj _ _ _ _ (by omega),
            rd32_wr32_disj _ _ _ _ (by omega), rd32_wr32_disj _ _ _ _ (by omega)]
        · intro z hz
          simp only [List.head?_cons, Option.some.injEq] at hz
          subst hz
          rw [rd32_wr32_disj _ _ _ _ (by omega), rd32_wr32_disj _ _ _ _ (by omega),
            rd32_wr32_disj _ _ _ _ (by omega), rd32_wr32_same _ _ _ (by omega)]

/-- Well-formedness after a change of memory that is confined to the extent
of a run `mid` of blocks none of which is on a class list, and that leaves
there the tags of a run `mid'` with the same extent. -/
theorem WF.retag {s : Heap} {pre mid post : List Blk} {fl : Nat → List Nat}
    (h : WF s (pre ++ mid ++ post) fl) (mid' : List Blk) {lo hi : Nat}
    (hpre : Layout (s.seg_list_ptr + 112) pre lo) (hmid : Layout lo mid hi)
    (hmid' : Layout lo mid' hi) (M : Nat → Nat)
    (hM : ∀ a, a < lo - 4 ∨ hi - 4 ≤ a → M a = s.mem a)
    (htags : ∀ b ∈ mid', rd32 M (b.bp - 4) = b.tag ∧ rd32 M (b.bp + b.size - 8) = b.tag)
    (hnomem : ∀ i, i < 24 → ∀ x ∈ fl i, ∀ b ∈ mid, b.bp ≠ x) :
    WF (s.setMem M) (pre ++ mid' ++ post) fl := by
  have hlay := h.layout
  have hpost : Layout hi post s.mem_brk := by
    rw [List.append_assoc] at hlay
    obtain ⟨m1, h1, h2⟩ := Layout.append.1 hlay
    obtain ⟨m2, h3, h4⟩ := Layout.append.1 h2
    have e1 : m1 = lo := Layout.end_unique h1 hpre
    subst e1
    have e2 : m2 = hi := Layout.end_unique h3 hmid
    subst e2
    exact h4
  have hlo := Layout.le hpre
  have hlh := Layout.le hmid
  have hhi := Layout.le hpost
  have hbrk := h.brk_ge
  have hword : ∀ p, p + 4 ≤ lo - 4 ∨ hi - 4 ≤ p → rd32 M p = rd32 s.mem p := by
    intro p hp
    apply rd32_congr
    intro i hi
    apply hM
    omega
  have hinpre : ∀ b ∈ pre, b.bp + b.size ≤ lo ∧ s.seg_list_ptr + 112 ≤ b.bp ∧ 16 ≤ b.size :=
    fun b hb => by
      have := Layout.mem_bounds hpre hb
      omega
  have hinpost : ∀ b ∈ post, hi ≤ b.bp ∧ 16 ≤ b.size := fun b hb => by
    have := Layout.mem_bounds hpost hb
    omega
  refine ⟨h.start, h.hp, h.brk_le, h.max_lt, ?_, ?_, ?_, Layout.replace hlay hmid hpre hmid', ?_,
    ?_, ?_, ?_, ?_, h.nodup⟩
  · show rd32 M (s.seg_list_ptr + 96) = 0
    rw [hword _ (by omega)]; exact h.pad
  · show rd32 M (s.seg_list_ptr + 100) = 9
    rw [hword _ (by omega)]; exact h.pro_h
  · show rd32 M (s.seg_list_ptr + 104) = 9
    rw [hword _ (by omega)]; exact h.pro_f
  · show rd32 M (s.mem_brk - 4) = 1
    rw [hword _ (by omega)]; exact h.epi
  · intro b hb
    show rd32 M _ = _ ∧ rd32 M _ = _
    rw [List.append_assoc] at hb
    rcases List.mem_append.1 hb with hb | hb
    · have := hinpre b hb
      rw [hword _ (by omega), hword _ (by omega)]
      exact h.tags b (by simp [hb])
    · rcases List.mem_append.1 hb with hb | hb
      · exact htags b hb
      · have := hinpost b hb
        rw [hword _ (by omega), hword _ (by omega)]
        exact h.tags b (by simp [hb])
  · intro i hi
    show rd32 M (s.seg_list_ptr + 4 * i) = _
    rw [hword _ (by omega)]
    exact h.heads i hi
  · intro i hi
    apply (h.links i hi).frame
    intro x hx
    obtain ⟨c, hc, rfl, _, _⟩ := h.member hi hx
    show rd32 M c.bp = rd32 s.mem c.bp ∧ rd32 M (c.bp + 4) = rd32 s.mem (c.bp + 4)
    rw [List.append_assoc] at hc
    rcases List.mem_append.1 hc with hc | hc
    · have := hinpre c hc
      rw [hword _ (by omega), hword _ (by omega)]
      exact ⟨rfl, rfl⟩
    · rcases List.mem_append.1 hc with hc | hc
      · exact absurd rfl (hnomem i hi _ hx c hc)
      · have := hinpost c hc
        rw [hword _ (by omega), hword _ (by omega)]
        exact ⟨rfl, rfl⟩
  · intro i hi x hx
    obtain ⟨c, hc, rfl, hfree, hcl⟩ := h.member hi hx
    refine ⟨c, ?_, rfl, hfree, hcl⟩
    rw [List.append_assoc] at hc ⊢
    rcases List.mem_append.1 hc with hc | hc
    · exact List.mem_append_left _ hc
    · rcases List.mem_append.1 hc with hc | hc
      · exact absurd rfl (hnomem i hi _ hx c hc)
      · exact List.mem_append_right _ (List.mem_append_right _ hc)

/-! ### The physical neighbours of a block -/

theorem WF.split_layout {s : Heap} {pre post : List Blk} {b : Blk} {fl : Nat → List Nat}
    (h : WF s (pre ++ b :: post) fl) :
    Layout (s.seg_list_ptr + 112) pre b.bp ∧ Layout (b.bp + b.size) post s.mem_brk ∧
      16 ≤ b.size ∧ b.size % 8 = 0 := by
  obtain ⟨mid, h1, h2⟩ := Layout.append.1 h.layout
  obtain ⟨h3, h4, h5, h6⟩ := Layout_cons.1 h2
  subst h3
  exact ⟨h1, h6, h4, h5⟩

theorem WF.next_nil {s : Heap} {pre : List Blk} {b : Blk} {fl : Nat → List Nat}
    (h : WF s (pre ++ [b]) fl) :
    NEXT_BLKP s b.bp = s.mem_brk ∧ b.bp + b.size = s.mem_brk ∧
      GET_ALLOC s (HDRP s.mem_brk) = 1 ∧ GET_SIZE s (HDRP s.mem_brk) = 0 := by
  have hb : b ∈ pre ++ [b] := by simp
  have hbb := h.bounds hb
  obtain ⟨_, h2, _, _⟩ := h.split_layout
  have e : b.bp + b.size = s.mem_brk := Layout_nil.1 h2
  have hs := h.blk_size hb
  have e1 : NEXT_BLKP s b.bp = s.mem_brk := by
    unfold NEXT_BLKP
    have : u32 (b.bp + 4294967296 - WSIZE) = HDRP b.bp := rfl
    rw [this]
    unfold GET_BLK_SIZE at hs
    rw [hs]
    unfold u32; omega
  refine ⟨e1, e, ?_, ?_⟩
  · unfold GET_ALLOC GET
    rw [HDRP_eq _ (by omega) (by omega), h.epi]
    rfl
  · unfold GET_SIZE GET
    rw [HDRP_eq _ (by omega) (by omega), h.epi]
    rfl

theorem WF.next_cons {s : Heap} {pre post : List Blk} {b c : Blk} {fl : Nat → List Nat}
    (h : WF s (pre ++ b :: c :: post) fl) :
    NEXT_BLKP s b.bp = c.bp ∧ c.bp = b.bp + b.size := by
  have hb : b ∈ pre ++ b :: c :: post := by simp
  have hbb := h.bounds hb
  obtain ⟨_, h2, _, _⟩ := h.split_layout
  have e : c.bp = b.bp + b.size := (Layout_cons.1 h2).1
  have hs := h.blk_size hb
  refine ⟨?_, e⟩
  unfold NEXT_BLKP
  have : u32 (b.bp + 4294967296 - WSIZE) = HDRP b.bp := rfl
  rw [this]
  unfold GET_BLK_SIZE at hs
  rw [hs]
  unfold u32; omega

theorem WF.prev_nil {s : Heap} {post : List Blk} {b : Blk} {fl : Nat → List Nat}
    (h : WF s (b :: post) fl) :
    PREV_BLKP s b.bp = s.seg_list_ptr + 104 ∧ b.bp = s.seg_list_ptr + 112 ∧
      GET_ALLOC s (HDRP (s.seg_list_ptr + 104)) = 1 := by
  have hb : b ∈ b :: post := by simp
  have hbb := h.bounds hb
  have e : b.bp = s.seg_list_ptr + 112 := (Layout_cons.1 h.layout).1
  refine ⟨?_, e, ?_⟩
  · unfold PREV_BLKP GET_SIZE GET
    have : u32 (b.bp + 4294967296 - DSIZE) = s.seg_list_ptr + 104 := by
      unfold u32 DSIZE; omega
    rw [this, h.pro_f]
    have : (9 : Nat) &&& MASK7 = 8 := by decide
    rw [this]
    unfold u32; omega
  · unfold GET_ALLOC GET
    rw [HDRP_eq _ (by omega) (by omega)]
    have : s.seg_list_ptr + 104 - 4 = s.seg_list_ptr + 100 := by omega
    rw [this, h.pro_h]
    rfl

theorem WF.prev_concat {s : Heap} {pre post : List Blk} {a b : Blk} {fl : Nat → List Nat}
    (h : WF s (pre ++ a :: b :: post) fl) :
    PREV_BLKP s b.bp = a.bp ∧ b.bp = a.bp + a.size := by
  have ha : a ∈ pre ++ a :: b :: post := by simp
  have hab := h.bounds ha
  obtain ⟨_, h2, _, _⟩ := h.split_layout
  have e : b.bp = a.bp + a.size := (Layout_cons.1 h2).1
  refine ⟨?_, e⟩
  unfold PREV_BLKP GET_SIZE GET
  have : u32 (b.bp + 4294967296 - DSIZE) = a.bp + a.size - 8 := by
    unfold u32 DSIZE; omega
  rw [this, (h.tags a ha).2, a.tag_size hab.2.2.2.2 (by omega)]
  unfold u32; omega

theorem coalesce_eval1 (fuel : Nat) (s : Heap) (bp : Nat)
    (hpa : GET_ALLOC s (HDRP (PREV_BLKP s bp)) ≠ 0)
    (hna : GET_ALLOC s (HDRP (NEXT_BLKP s bp)) ≠ 0) :
    coalesce fuel s bp = some (bp, s) := by
  unfold coalesce
  simp [hpa, hna]

theorem coalesce_eval2 (fuel : Nat) (s s1 s2 s3 s4 : Heap) (bp nbp size : Nat)
    (hpa : GET_ALLOC s (HDRP (PREV_BLKP s bp)) ≠ 0)
    (hna : GET_ALLOC s (HDRP (NEXT_BLKP s bp)) = 0)
    (hs1 : remove_seglist s bp = s1) (hnx : NEXT_BLKP s1 bp = nbp)
    (hsz : u32 (GET_SIZE s (HDRP bp) + GET_SIZE s1 (HDRP nbp)) = size)
    (hs2 : remove_seglist s1 nbp = s2)
    (hs3 : PUT s2 (HDRP bp) (PACK size 0) = s3)
    (hs4 : PUT s3 (FTRP s3 bp) (PACK size 0) = s4) :
    coalesce fuel s bp = (add_seglist fuel s4 bp size).map fun s => (bp, s) := by
  subst hs1 hnx hsz hs2 hs3 hs4
  unfold coalesce
  simp [hpa, hna]

theorem coalesce_eval3 (fuel : Nat) (s s1 s2 s3 s4 : Heap) (bp pbp size : Nat)
    (hpa : GET_ALLOC s (HDRP (PREV_BLKP s bp)) = 0)
    (hna : GET_ALLOC s (HDRP (NEXT_BLKP s bp)) ≠ 0)
    (hs1 : remove_seglist s bp = s1) (hpv : PREV_BLKP s1 bp = pbp)
    (hs2 : remove_seglist s1 pbp = s2) (hpv2 : PREV_BLKP s2 bp = pbp)
    (hsz : u32 (GET_SIZE s (HDRP bp) + GET_SIZE s2 (HDRP pbp)) = size)
    (hs3 : PUT s2 (FTRP s2 bp) (PACK size 0) = s3) (hpv3 : PREV_BLKP s3 bp = pbp)
    (hs4 : PUT s3 (HDRP pbp) (PACK size 0) = s4) (hpv4 : PREV_BLKP s4 bp = pbp) :
    coalesce fuel s bp = (add_seglist fuel s4 pbp size).map fun s => (pbp, s) := by
  subst hs1 hs2 hs3 hs4
  unfold coalesce
  simp only [hpa, hna, hpv, hpv2, hpv3, hpv4, hsz]
  simp [hna]

theorem coalesce_eval4 (fuel : Nat) (s s1 s2 s3 s4 s5 : Heap) (bp pbp nbp size : Nat)
    (hpa : GET_ALLOC s (HDRP (PREV_BLKP s bp)) = 0)
    (hna : GET_ALLOC s (HDRP (NEXT_BLKP s bp)) = 0)
    (hs1 : remove_seglist s bp = s1) (hpv : PREV_BLKP s1 bp = pbp) (hnx : NEXT_BLKP s1 bp = nbp)
    (hsz : u32 (GET_SIZE s (HDRP bp) + GET_SIZE s1 (HDRP pbp)
      + GET_SIZE s1 (FTRP s1 nbp)) = size)
    (hs2 : remove_seglist s1 pbp = s2) (hnx2 : NEXT_BLKP s2 bp = nbp)
    (hs3 : remove_seglist s2 nbp = s3) (hpv3 : PREV_BLKP s3 bp = pbp)
    (hs4 : PUT s3 (HDRP pbp) (PACK size 0) = s4) (hnx4 : NEXT_BLKP s4 bp = nbp)
    (hs5 : PUT s4 (FTRP s4 nbp) (PACK size 0) = s5) (hpv5 : PREV_BLKP s5 bp = pbp) :
    coalesce fuel s bp = (add_seglist fuel s5 pbp size).map fun s => (pbp, s) := by
  subst hs1 hs2 hs3 hs4 hs5
  unfold coalesce
  simp only [hpa, hna, hpv, hnx, hnx2, hpv3, hnx4, hpv5, hsz]
  simp [hna]

theorem remove_seglist_mem {s : Heap} {bl : List Blk} {fl : Nat → List Nat} (h : WF s bl fl)
    {b : Blk} (hb : b ∈ bl) (hx : b.bp ∈ fl (classOf b.size)) :
    ∃ M fl', remove_seglist s b.bp = (s.setMem M) ∧
      WF (s.setMem M) bl fl' ∧
      (∀ a, Untouched s bl a → M a = s.mem a) ∧
      (∀ j, j < 24 → ∀ x, x ∈ fl' j ↔ x ≠ b.bp ∧ x ∈ fl j) := by
  obtain ⟨M, h1, h2, h3⟩ := remove_seglist_spec h hb hx
  refine ⟨M, _, h1, h2, h3, ?_⟩
  intro j hj x
  by_cases hji : j = classOf b.size
  · subst hji
    rw [Function.update_same]
    exact (h.nodup _ hj).mem_erase_iff
  · rw [Function.update_noteq hji]
    constructor
    · intro hxj
      refine ⟨fun e => ?_, hxj⟩
      subst e
      obtain ⟨c, hc, hcb, _, hcl⟩ := h.member hj hxj
      have := Layout.bp_inj h.layout hc hb hcb
      subst this
      exact hji hcl.symm
    · exact fun hx => hx.2

theorem add_seglist_mem {s : Heap} {bl : List Blk} {fl : Nat → List Nat} (h : WF s bl fl)
    {b : Blk} (hb : b ∈ bl) (hfree : b.alloc = false) (hnot : ∀ j, j < 24 → b.bp ∉ fl j)
    (fuel : Nat) (hfuel : 1 ≤ fuel) :
    ∃ M fl', add_seglist fuel s b.bp b.size = some (s.setMem M) ∧
      WF (s.setMem M) bl fl' ∧
      (∀ a, Untouched s bl a → M a = s.mem a) ∧
      (∀ j, j < 24 → ∀ x, x ∈ fl' j ↔ (x = b.bp ∧ j = classOf b.size) ∨ x ∈ fl j) ∧
      fl' (classOf b.size) = b.bp :: fl (classOf b.size) := by
  obtain ⟨M, h1, h2, h3⟩ := add_seglist_spec h hb hfree hnot fuel hfuel
  refine ⟨M, _, h1, h2, h3, ?_, by simp⟩
  intro j hj x
  by_cases hji : j = classOf b.size
  · subst hji
    rw [Function.update_same, List.mem_cons]
    tauto
  · rw [Function.update_noteq hji]
    tauto

theorem WF.inAlloc_untouched {s : Heap} {bl : List Blk} {fl : Nat → List Nat} (h : WF s bl fl)
    {a : Nat} (ha : InAlloc bl a) : Untouched s bl a := by
  obtain ⟨c, hc, hca, h1, h2⟩ := ha
  have hcb := h.bounds hc
  refine ⟨by omega, ?_⟩
  intro d hd hdf
  have hdb := h.bounds hd
  rcases h.blk_disj hc hd with h3 | h3 | h3
  · subst h3; rw [hca] at hdf; exact absurd hdf (by simp)
  · omega
  · omega

/-- A run of blocks is given new tags and its only free block `f` is put on
its class list. -/
theorem WF.retag_add {s : Heap} {pre mid post : List Blk} {fl : Nat → List Nat}
    (h : WF s (pre ++ mid ++ post) fl) (mid' : List Blk) {lo hi : Nat}
    (hpre : Layout (s.seg_list_ptr + 112) pre lo) (hmid : Layout lo mid hi)
    (hmid' : Layout lo mid' hi) (M : Nat → Nat)
    (hM : ∀ a, a < lo - 4 ∨ hi - 4 ≤ a → M a = s.mem a)
    (htags : ∀ b ∈ mid', rd32 M (b.bp - 4) = b.tag ∧ rd32 M (b.bp + b.size - 8) = b.tag)
    (hnomem : ∀ i, i < 24 → ∀ x ∈ fl i, ∀ b ∈ mid, b.bp ≠ x)
    (hcomp : ∀ d ∈ pre ++ post, d.alloc = false → d.bp ∈ fl (classOf d.size))
    (f : Blk) (hf : f ∈ mid') (hfree : f.alloc = false)
    (hrest : ∀ d ∈ mid', d ≠ f → d.alloc = true) (fuel : Nat) (hfuel : 1 ≤ fuel) :
    ∃ M' fl', add_seglist fuel (s.setMem M) f.bp f.size = some (s.setMem M') ∧
      WF (s.setMem M') (pre ++ mid' ++ post) fl' ∧
      Complete (pre ++ mid' ++ post) fl' ∧
      (∀ a, Untouched (s.setMem M) (pre ++ mid' ++ post) a → M' a = M a) := by
  have hw := h.retag mid' hpre hmid hmid' M hM htags hnomem
  have hfm : f ∈ pre ++ mid' ++ post := by simp [hf]
  have hlo := Layout.mem_bounds hmid' hf
  have hnot : ∀ j, j < 24 → f.bp ∉ fl j := by
    intro j hj hx
    obtain ⟨c, hc, hcb, _, _⟩ := h.member hj hx
    have hcbd := h.bounds hc
    rw [List.append_assoc] at hc
    rcases List.mem_append.1 hc with hc | hc
    · have := Layout.mem_bounds hpre hc
      omega
    · rcases List.mem_append.1 hc with hc | hc
      · exact hnomem j hj _ hx c hc hcb
      · have := hw.layout
        rw [List.append_assoc] at this
        obtain ⟨m1, h1, h2⟩ := Layout.append.1 this
        obtain ⟨m2, h3, h4⟩ := Layout.append.1 h2
        have e1 : m1 = lo := Layout.end_unique h1 hpre
        subst e1
        have e2 : m2 = hi := Layout.end_unique h3 hmid'
        subst e2
        have := Layout.mem_bounds h4 hc
        omega
  obtain ⟨M', fl', h1, h2, h3, h4, _⟩ := add_seglist_mem hw hfm hfree hnot fuel hfuel
  refine ⟨M', fl', h1, h2, ?_, h3⟩
  intro d hd hdf
  rw [h4 _ (classOf_lt _)]
  rw [List.append_assoc] at hd
  rcases List.mem_append.1 hd with hd' | hd'
  · exact Or.inr (hcomp d (List.mem_append_left _ hd') hdf)
  · rcases List.mem_append.1 hd' with hd' | hd'
    · by_cases hdf' : d = f
      · subst hdf'; exact Or.inl ⟨rfl, rfl⟩
      · have := hrest d hd' hdf'
        rw [this] at hdf
        exact absurd hdf (by simp)
    · exact Or.inr (hcomp d (List.mem_append_right _ hd') hdf)

theorem FTRP_eq (s : Heap) (bp size : Nat) (_h4 : 4 ≤ bp) (h8 : 8 ≤ bp + size)
    (hlt : bp + size < 4294967296) (hsz : GET_SIZE s (HDRP bp) = size) :
    FTRP s bp = bp + size - 8 := by
  unfold FTRP
  rw [hsz]
  unfold u32 DSIZE
  omega

theorem GET_SIZE_wr (m : Nat → Nat) (s : Heap) (p size a : Nat) (hsz : size % 8 = 0)
    (ha : a ≤ 1) (hlt : size + a < 4294967296) :
    GET_SIZE (s.setMem (wr32 m p (size + a))) p = size := by
  unfold GET_SIZE GET
  rw [setMem_mem, rd32_wr32_same _ _ _ hlt]
  exact tag_and_MASK7 _ _ hsz ha hlt

/-- Writing the header of a block and then its footer through `FTRP`. -/
theorem put_hdr_ftr (s : Heap) (bp size : Nat) (h4 : 4 ≤ bp) (h8 : 8 ≤ size)
    (hlt : bp + size < 4294967296) (hsz : size % 8 = 0) :
    (PUT (PUT s (HDRP bp) (PACK size 0)) (FTRP (PUT s (HDRP bp) (PACK size 0)) bp)
        (PACK size 0) = (s.setMem (wr32 (wr32 s.mem (bp - 4) size) (bp + size - 8) size))) ∧
    (PUT (PUT s (HDRP bp) (PACK size 1)) (FTRP (PUT s (HDRP bp) (PACK size 1)) bp)
        (PACK size 1) =
      (s.setMem (wr32 (wr32 s.mem (bp - 4) (size + 1)) (bp + size - 8) (size + 1)))) := by
  have e : HDRP bp = bp - 4 := HDRP_eq _ h4 (by omega)
  constructor
  · rw [PACK_zero, e]
    have := GET_SIZE_wr s.mem s (bp - 4) size 0 hsz (by omega) (by omega)
    rw [FTRP_eq _ bp size h4 (by omega) hlt (by rw [e]; exact this)]
    rfl
  · rw [PACK_one _ hsz, e]
    have := GET_SIZE_wr s.mem s (bp - 4) size 1 hsz (by omega) (by omega)
    rw [FTRP_eq _ bp size h4 (by omega) hlt (by rw [e]; exact this)]
    rfl

theorem mem_outer {pre post : List Blk} (mid : List Blk) {d : Blk} (h : d ∈ pre ++ post) :
    d ∈ pre ++ mid ++ post := by
  rcases List.mem_append.1 h with h | h
  · exact List.mem_append_left _ (List.mem_append_left _ h)
  · exact List.mem_append_right _ h

theorem WF.disj_ne {s : Heap} {bl : List Blk} {fl : Nat → List Nat} (h : WF s bl fl)
    {b c : Blk} (hb : b ∈ bl) (hc : c ∈ bl) (hne : b ≠ c) :
    b.bp + b.size ≤ c.bp ∨ c.bp + c.size ≤ b.bp := by
  rcases h.blk_disj hb hc with h3 | h3
  · exact absurd h3 hne
  · exact h3

theorem coalesce_case1 {s : Heap} {bl : List Blk} {fl : Nat → List Nat} (h : WF s bl fl)
    (fuel : Nat) (bp : Nat)
    (hpa : GET_ALLOC s (HDRP (PREV_BLKP s bp)) ≠ 0)
    (hna : GET_ALLOC s (HDRP (NEXT_BLKP s bp)) ≠ 0) :
    ∃ M, coalesce fuel s bp = some (bp, (s.setMem M)) ∧
      WF (s.setMem M) bl fl ∧ (∀ a, InAlloc bl a → M a = s.mem a) :=
  ⟨s.mem, coalesce_eval1 fuel s bp hpa hna, h, fun _ _ => rfl⟩

theorem coalesce_case2 {s : Heap} {pre r : List Blk} {b c : Blk} {fl : Nat → List Nat}
    (h : WF s (pre ++ [b, c] ++ r) fl) (hcomp : Complete (pre ++ [b, c] ++ r) fl)
    (hb : b.alloc = false) (hc : c.alloc = false)
    (hpa : GET_ALLOC s (HDRP (PREV_BLKP s b.bp)) ≠ 0) (fuel : Nat) (hfuel : 1 ≤ fuel) :
    ∃ M fl', coalesce fuel s b.bp = some (b.bp, (s.setMem M)) ∧
      WF (s.setMem M) (pre ++ [⟨b.bp, b.size + c.size, false⟩] ++ r) fl' ∧
      Complete (pre ++ [⟨b.bp, b.size + c.size, false⟩] ++ r) fl' ∧
      (∀ a, InAlloc (pre ++ [b, c] ++ r) a → M a = s.mem a) := by
  have hbm : b ∈ pre ++ [b, c] ++ r := by simp
  have hcm : c ∈ pre ++ [b, c] ++ r := by simp
  have hbb := h.bounds hbm
  have hcb := h.bounds hcm
  have e0 : pre ++ [b, c] ++ r = pre ++ b :: c :: r := by simp
  have h' : WF s (pre ++ b :: c :: r) fl := e0 ▸ h
  obtain ⟨hlpre, hlpost, _, _⟩ := h'.split_layout
  have hcbp : c.bp = b.bp + b.size := (Layout_cons.1 hlpost).1
  have hna : GET_ALLOC s (HDRP (NEXT_BLKP s b.bp)) = 0 := by
    rw [h'.next_cons.1, h.blk_alloc hcm, hc]; rfl
  obtain ⟨M1, fl1, e1, w1, u1, m1⟩ := remove_seglist_mem h hbm (hcomp b hbm hb)
  have w1' : WF (s.setMem M1) (pre ++ b :: c :: r) fl1 := e0 ▸ w1
  have hnx : NEXT_BLKP (s.setMem M1) b.bp = c.bp := w1'.next_cons.1
  have hcin : c.bp ∈ fl1 (classOf c.size) :=
    (m1 _ (classOf_lt _) _).2 ⟨by omega, hcomp c hcm hc⟩
  obtain ⟨M2, fl2, e2, w2, u2, m2⟩ := remove_seglist_mem w1 hcm hcin
  simp only [setMem_setMem, setMem_mem] at e2 w2 u2
  have hsz : u32 (GET_SIZE s (HDRP b.bp) + GET_SIZE (s.setMem M1) (HDRP c.bp))
      = b.size + c.size := by
    have h1 : GET_SIZE s (HDRP b.bp) = b.size := h.blk_size hbm
    have h2 : GET_SIZE (s.setMem M1) (HDRP c.bp) = c.size := w1.blk_size hcm
    rw [h1, h2]; unfold u32; omega
  have hput := (put_hdr_ftr (s.setMem M2) b.bp (b.size + c.size) (by omega) (by omega)
    (by omega) (by omega)).1
  simp only [setMem_setMem, setMem_mem] at hput
  have hev := coalesce_eval2 fuel s _ _ _ _ b.bp c.bp (b.size + c.size) hpa hna e1 hnx hsz e2
    rfl hput
  have hmid : Layout b.bp [b, c] (b.bp + (b.size + c.size)) := by
    refine Layout_cons.2 ⟨rfl, by omega, by omega, Layout_cons.2 ⟨hcbp, by omega, by omega, ?_⟩⟩
    exact Layout_nil.2 (by omega)
  have hmid' : Layout b.bp [(⟨b.bp, b.size + c.size, false⟩ : Blk)] (b.bp + (b.size + c.size)) :=
    Layout_cons.2 ⟨rfl, (by show 16 ≤ b.size + c.size; omega),
      (by show (b.size + c.size) % 8 = 0; omega), Layout_nil.2 rfl⟩
  obtain ⟨M', fl', a1, a2, a3, a4⟩ := w2.retag_add [⟨b.bp, b.size + c.size, false⟩] hlpre hmid
    hmid' (wr32 (wr32 M2 (b.bp - 4) (b.size + c.size)) (b.bp + (b.size + c.size) - 8)
      (b.size + c.size))
    (by
      intro a ha
      rw [wr32_outside _ _ _ _ (by omega), wr32_outside _ _ _ _ (by omega)]
      rfl)
    (by
      intro d hd
      simp only [List.mem_singleton] at hd
      subst hd
      simp only [Blk.tag, Bool.false_eq_true, if_false, Nat.add_zero]
      constructor
      · rw [rd32_wr32_disj _ _ _ _ (by omega), rd32_wr32_same _ _ _ (by omega)]
      · rw [rd32_wr32_same _ _ _ (by omega)])
    (by
      intro i hi x hx d hd
      have hx1 := (m2 i hi x).1 hx
      have hx2 := (m1 i hi x).1 hx1.2
      simp only [List.mem_cons, List.mem_singleton, List.not_mem_nil, or_false] at hd
      rcases hd with rfl | rfl
      · exact fun e => hx2.1 e.symm
      · exact fun e => hx1.1 e.symm)
    (by
      intro d hd hdf
      have hdm : d ∈ pre ++ [b, c] ++ r := mem_outer _ hd
      have hdin := hcomp d hdm hdf
      have hne : d.bp ≠ b.bp ∧ d.bp ≠ c.bp := by
        have hdb := h.bounds hdm
        rcases List.mem_append.1 hd with hd | hd
        · have := Layout.mem_bounds hlpre hd
          omega
        · have := Layout.mem_bounds (Layout_cons.1 hlpost).2.2.2 hd
          omega
      exact (m2 _ (classOf_lt _) _).2 ⟨hne.2, (m1 _ (classOf_lt _) _).2 ⟨hne.1, hdin⟩⟩)
    ⟨b.bp, b.size + c.size, false⟩ (List.mem_singleton_self _) rfl
    (fun d hd hne => absurd (List.mem_singleton.1 hd) hne) fuel hfuel
  simp only [setMem_setMem, setMem_mem, setMem_seg] at a1 a2 a4
  refine ⟨M', fl', ?_, a2, a3, ?_⟩
  · rw [hev, a1]; rfl
  · intro a ha
    have hin' : InAlloc (pre ++ [⟨b.bp, b.size + c.size, false⟩] ++ r) a := by
      obtain ⟨d, hd, hda, h1, h2⟩ := ha
      refine ⟨d, ?_, hda, h1, h2⟩
      simp only [List.mem_append, List.mem_cons, List.mem_singleton, List.not_mem_nil,
        or_false] at hd ⊢
      rcases hd with (hd | hd | hd) | hd
      · exact Or.inl (Or.inl hd)
      · subst hd; rw [hb] at hda; exact absurd hda (by simp)
      · subst hd; rw [hc] at hda; exact absurd hda (by simp)
      · exact Or.inr hd
    have hu' := a2.inAlloc_untouched hin'
    rw [a4 a ⟨hu'.1, hu'.2⟩]
    show wr32 (wr32 M2 (b.bp - 4) (b.size + c.size)) (b.bp + (b.size + c.size) - 8)
      (b.size + c.size) a = s.mem a
    obtain ⟨d, hd, hda, h1, h2⟩ := ha
    have hdb := h.bounds hd
    have hdb' : d ≠ b := fun e => by subst e; rw [hb] at hda; exact absurd hda (by simp)
    have hdc' : d ≠ c := fun e => by subst e; rw [hc] at hda; exact absurd hda (by simp)
    have hdis1 := h.disj_ne hd hbm hdb'
    have hdis2 := h.disj_ne hd hcm hdc'
    rw [wr32_outside _ _ _ _ (by omega), wr32_outside _ _ _ _ (by omega)]
    exact (u2 a (w1.inAlloc_untouched ⟨d, hd, hda, h1, h2⟩)).trans
      (u1 a (h.inAlloc_untouched ⟨d, hd, hda, h1, h2⟩))

theorem inAlloc_outer {pre mid post : List Blk} {a : Nat}
    (hmid : ∀ d ∈ mid, d.alloc = false) (h : InAlloc (pre ++ mid ++ post) a) (mid' : List Blk) :
    InAlloc (pre ++ mid' ++ post) a := by
  obtain ⟨d, hd, hda, h1, h2⟩ := h
  refine ⟨d, ?_, hda, h1, h2⟩
  rw [List.append_assoc] at hd ⊢
  rcases List.mem_append.1 hd with hd | hd
  · exact List.mem_append_left _ hd
  · rcases List.mem_append.1 hd with hd | hd
    · rw [hmid d hd] at hda; exact absurd hda (by simp)
    · exact List.mem_append_right _ (List.mem_append_right _ hd)

/-- A run `mid` of free blocks that are on no class list becomes one free
block: its header and footer are written and it is put on its class list. -/
theorem WF.merge_add {s : Heap} {pre mid post : List Blk} {fl : Nat → List Nat}
    (h : WF s (pre ++ mid ++ post) fl) {lo hi : Nat}
    (hpre : Layout (s.seg_list_ptr + 112) pre lo) (hmid : Layout lo mid hi)
    (hne : mid ≠ []) (hfree : ∀ d ∈ mid, d.alloc = false)
    (hnomem : ∀ i, i < 24 → ∀ x ∈ fl i, ∀ b ∈ mid, b.bp ≠ x)
    (hcomp : ∀ d ∈ pre ++ post, d.alloc = false → d.bp ∈ fl (classOf d.size))
    (M : Nat → Nat)
    (hM : ∀ a, (a < lo - 4 ∨ lo ≤ a) → (a < hi - 8 ∨ hi - 4 ≤ a) → M a = s.mem a)
    (hh : rd32 M (lo - 4) = hi - lo) (hf : rd32 M (hi - 8) = hi - lo)
    (fuel : Nat) (hfuel : 1 ≤ fuel) :
    ∃ M' fl', add_seglist fuel (s.setMem M) lo (hi - lo) = some (s.setMem M') ∧
      WF (s.setMem M') (pre ++ [⟨lo, hi - lo, false⟩] ++ post) fl' ∧
      Complete (pre ++ [⟨lo, hi - lo, false⟩] ++ post) fl' ∧
      (∀ a, InAlloc (pre ++ mid ++ post) a → M' a = s.mem a) := by
  obtain ⟨b0, rest, rfl⟩ := List.exists_cons_of_ne_nil hne
  have hb0 := Layout.mem_bounds hmid (List.mem_cons_self b0 rest)
  have hlo : b0.bp = lo := (Layout_cons.1 hmid).1
  have hb0m : b0 ∈ pre ++ b0 :: rest ++ post := by simp
  have hb0b := h.bounds hb0m
  have hlh : lo + 16 ≤ hi := by omega
  have hmid' : Layout lo [(⟨lo, hi - lo, false⟩ : Blk)] hi := by
    refine Layout_cons.2 ⟨rfl, (by show 16 ≤ hi - lo; omega), ?_, Layout_nil.2 ?_⟩
    · show (hi - lo) % 8 = 0
      have : ∀ (l : List Blk) (a e : Nat), Layout a l e → (e - a) % 8 = 0 := by
        intro l
        induction l with
        | nil => intro a e h; have := Layout_nil.1 h; omega
        | cons x xs ih =>
          intro a e h
          obtain ⟨_, _, h3, h4⟩ := Layout_cons.1 h
          have := ih _ _ h4
          have := Layout.le h4
          omega
      exact this _ _ _ hmid
    · show lo + (hi - lo) = hi
      omega
  obtain ⟨M', fl', a1, a2, a3, a4⟩ := h.retag_add [⟨lo, hi - lo, false⟩] hpre hmid hmid' M
    (by
      intro a ha
      exact hM a (by omega) (by omega))
    (by
      intro d hd
      simp only [List.mem_singleton] at hd
      subst hd
      simp only [Blk.tag, Bool.false_eq_true, if_false, Nat.add_zero]
      refine ⟨hh, ?_⟩
      have : lo + (hi - lo) - 8 = hi - 8 := by omega
      rw [this]; exact hf)
    hnomem hcomp ⟨lo, hi - lo, false⟩ (List.mem_singleton_self _) rfl
    (fun d hd hne => absurd (List.mem_singleton.1 hd) hne) fuel hfuel
  refine ⟨M', fl', a1, a2, a3, ?_⟩
  intro a ha
  have hin' := inAlloc_outer hfree ha [⟨lo, hi - lo, false⟩]
  have hu' := a2.inAlloc_untouched hin'
  rw [a4 a ⟨hu'.1, hu'.2⟩]
  apply hM
  · obtain ⟨d, hd, hda, h1, h2⟩ := ha
    have hdb := h.bounds hd
    rw [List.append_assoc] at hd
    rcases List.mem_append.1 hd with hd | hd
    · have := Layout.mem_bounds hpre hd
      omega
    · rcases List.mem_append.1 hd with hd | hd
      · rw [hfree d hd] at hda; exact absurd hda (by simp)
      · right
        have hl := h.layout
        rw [List.append_assoc] at hl
        obtain ⟨m1, q1, q2⟩ := Layout.append.1 hl
        obtain ⟨m2, q3, q4⟩ := Layout.append.1 q2
        have e1 : m1 = lo := Layout.end_unique q1 hpre
        subst e1
        have e2 : m2 = hi := Layout.end_unique q3 hmid
        subst e2
        have := Layout.mem_bounds q4 hd
        omega
  · obtain ⟨d, hd, hda, h1, h2⟩ := ha
    have hdb := h.bounds hd
    rw [List.append_assoc] at hd
    rcases List.mem_append.1 hd with hd | hd
    · have := Layout.mem_bounds hpre hd
      omega
    · rcases List.mem_append.1 hd with hd | hd
      · rw [hfree d hd] at hda; exact absurd hda (by simp)
      · right
        have hl := h.layout
        rw [List.append_assoc] at hl
        obtain ⟨m1, q1, q2⟩ := Layout.append.1 hl
        obtain ⟨m2, q3, q4⟩ := Layout.append.1 q2
        have e1 : m1 = lo := Layout.end_unique q1 hpre
        subst e1
        have e2 : m2 = hi := Layout.end_unique q3 hmid
        subst e2
        have := Layout.mem_bounds q4 hd
        omega

theorem remove_seglist_frame {s : Heap} {bl : List Blk} {fl : Nat → List Nat} (h : WF s bl fl)
    {b : Blk} (hb : b ∈ bl) (hx : b.bp ∈ fl (classOf b.size)) :
    ∃ M fl', remove_seglist s b.bp = s.setMem M ∧
      WF (s.setMem M) bl fl' ∧
      (∀ a, InAlloc bl a → M a = s.mem a) ∧
      (∀ j, j < 24 → ∀ x, x ∈ fl' j ↔ x ≠ b.bp ∧ x ∈ fl j) := by
  obtain ⟨M, fl', h1, h2, h3, h4⟩ := remove_seglist_mem h hb hx
  exact ⟨M, fl', h1, h2, fun a ha => h3 a (h.inAlloc_untouched ha), h4⟩

theorem GET_SIZE_congr (s s' : Heap) (p : Nat) (h : rd32 s'.mem p = rd32 s.mem p) :
    GET_SIZE s' p = GET_SIZE s p := by
  unfold GET_SIZE GET; rw [h]

theorem PREV_BLKP_congr (s s' : Heap) (bp : Nat) (h8 : 8 ≤ bp) (hlt : bp < 4294967296)
    (h : rd32 s'.mem (bp - 8) = rd32 s.mem (bp - 8)) : PREV_BLKP s' bp = PREV_BLKP s bp := by
  unfold PREV_BLKP
  have : u32 (bp + 4294967296 - DSIZE) = bp - 8 := by unfold u32 DSIZE; omega
  rw [this, GET_SIZE_congr s s' _ h]

theorem NEXT_BLKP_congr (s s' : Heap) (bp : Nat) (h8 : 4 ≤ bp) (hlt : bp < 4294967296)
    (h : rd32 s'.mem (bp - 4) = rd32 s.mem (bp - 4)) : NEXT_BLKP s' bp = NEXT_BLKP s bp := by
  unfold NEXT_BLKP
  have : u32 (bp + 4294967296 - WSIZE) = bp - 4 := by unfold u32 WSIZE; omega
  rw [this, GET_SIZE_congr s s' _ h]


theorem coalesce_case3 {s : Heap} {pre post : List Blk} {a b : Blk} {fl : Nat → List Nat}
    (h : WF s (pre ++ [a, b] ++ post) fl) (hcomp : Complete (pre ++ [a, b] ++ post) fl)
    (ha : a.alloc = false) (hb : b.alloc = false)
    (hna : GET_ALLOC s (HDRP (NEXT_BLKP s b.bp)) ≠ 0) (fuel : Nat) (hfuel : 1 ≤ fuel) :
    ∃ M fl', coalesce fuel s b.bp = some (a.bp, s.setMem M) ∧
      WF (s.setMem M) (pre ++ [⟨a.bp, a.size + b.size, false⟩] ++ post) fl' ∧
      Complete (pre ++ [⟨a.bp, a.size + b.size, false⟩] ++ post) fl' ∧
      (∀ x, InAlloc (pre ++ [a, b] ++ post) x → M x = s.mem x) := by
  have ham : a ∈ pre ++ [a, b] ++ post := by simp
  have hbm : b ∈ pre ++ [a, b] ++ post := by simp
  have e0 : pre ++ [a, b] ++ post = pre ++ a :: b :: post := by simp
  have h' : WF s (pre ++ a :: b :: post) fl := e0 ▸ h
  obtain ⟨hlpre, hlpost, _, _⟩ := h'.split_layout
  have G : Hid ((s.seg_list_ptr + 112 ≤ a.bp ∧ a.bp + a.size ≤ s.mem_brk ∧
      s.mem_brk < 4294967296 ∧ 16 ≤ a.size ∧ a.size % 8 = 0) ∧
      (s.seg_list_ptr + 112 ≤ b.bp ∧ b.bp + b.size ≤ s.mem_brk ∧
      s.mem_brk < 4294967296 ∧ 16 ≤ b.size ∧ b.size % 8 = 0) ∧ b.bp = a.bp + a.size) :=
    ⟨⟨h.bounds ham, h.bounds hbm, (Layout_cons.1 hlpost).1⟩⟩
  have hbbp : b.bp = a.bp + a.size := G.out.2.2
  have hpa : GET_ALLOC s (HDRP (PREV_BLKP s b.bp)) = 0 := by
    rw [h'.prev_concat.1, h.blk_alloc ham, ha]; rfl
  obtain ⟨M1, fl1, e1, w1, u1, m1⟩ := remove_seglist_frame h hbm (hcomp b hbm hb)
  have w1' : WF (s.setMem M1) (pre ++ a :: b :: post) fl1 := e0 ▸ w1
  have hpv : PREV_BLKP (s.setMem M1) b.bp = a.bp := w1'.prev_concat.1
  have hain : a.bp ∈ fl1 (classOf a.size) :=
    (m1 _ (classOf_lt _) _).2 ⟨by have G' := G.out; clear * - G'; omega, hcomp a ham ha⟩
  obtain ⟨M2, fl2, e2, w2, u2, m2⟩ := remove_seglist_frame w1 ham hain
  simp only [setMem_setMem, setMem_mem] at e2 w2 u2
  have w2' : WF (s.setMem M2) (pre ++ a :: b :: post) fl2 := e0 ▸ w2
  have hpv2 : PREV_BLKP (s.setMem M2) b.bp = a.bp := w2'.prev_concat.1
  have hsz : u32 (GET_SIZE s (HDRP b.bp) + GET_SIZE (s.setMem M2) (HDRP a.bp))
      = a.size + b.size := by
    have h1 : GET_SIZE s (HDRP b.bp) = b.size := h.blk_size hbm
    have h2 : GET_SIZE (s.setMem M2) (HDRP a.bp) = a.size := w2.blk_size ham
    rw [h1, h2]; unfold u32; have G' := G.out; clear * - G'; omega
  have hft : FTRP (s.setMem M2) b.bp = b.bp + b.size - 8 :=
    FTRP_eq _ _ _ (by have G' := G.out; clear * - G'; omega) (by have G' := G.out; clear * - G'; omega) (by have G' := G.out; clear * - G'; omega) (w2.blk_size hbm)
  have hs3 : PUT (s.setMem M2) (FTRP (s.setMem M2) b.bp) (PACK (a.size + b.size) 0)
      = s.setMem (wr32 M2 (b.bp + b.size - 8) (a.size + b.size)) := by
    rw [hft, PACK_zero]; rfl
  have hpv3 : PREV_BLKP (s.setMem (wr32 M2 (b.bp + b.size - 8) (a.size + b.size))) b.bp
      = a.bp := by
    rw [PREV_BLKP_congr (s.setMem M2) _ _ (by have G' := G.out; clear * - G'; omega) (by have G' := G.out; clear * - G'; omega), hpv2]
    simp only [setMem_mem]
    rw [rd32_wr32_disj _ _ _ _ (by have G' := G.out; clear * - G'; omega)]
  have hs4 : PUT (s.setMem (wr32 M2 (b.bp + b.size - 8) (a.size + b.size))) (HDRP a.bp)
      (PACK (a.size + b.size) 0)
      = s.setMem (wr32 (wr32 M2 (b.bp + b.size - 8) (a.size + b.size)) (a.bp - 4)
        (a.size + b.size)) := by
    rw [HDRP_eq _ (by have G' := G.out; clear * - G'; omega) (by have G' := G.out; clear * - G'; omega), PACK_zero]; rfl
  have hpv4 : PREV_BLKP (s.setMem (wr32 (wr32 M2 (b.bp + b.size - 8) (a.size + b.size))
      (a.bp - 4) (a.size + b.size))) b.bp = a.bp := by
    rw [PREV_BLKP_congr (s.setMem M2) _ _ (by have G' := G.out; clear * - G'; omega) (by have G' := G.out; clear * - G'; omega), hpv2]
    simp only [setMem_mem]
    rw [rd32_wr32_disj _ _ _ _ (by have G' := G.out; clear * - G'; omega), rd32_wr32_disj _ _ _ _ (by have G' := G.out; clear * - G'; omega)]
  have hev := coalesce_eval3 fuel s _ _ _ _ b.bp a.bp (a.size + b.size) hpa hna e1 hpv e2 hpv2
    hsz hs3 hpv3 hs4 hpv4
  have hmid : Layout a.bp [a, b] (b.bp + b.size) := by
    refine Layout_cons.2 ⟨rfl, by have G' := G.out; clear * - G'; omega, by have G' := G.out; clear * - G'; omega, Layout_cons.2 ⟨hbbp, by have G' := G.out; clear * - G'; omega, by have G' := G.out; clear * - G'; omega, ?_⟩⟩
    exact Layout_nil.2 (by have G' := G.out; clear * - G'; omega)
  have hdiff : b.bp + b.size - a.bp = a.size + b.size := by have G' := G.out; clear * - G'; omega
  obtain ⟨M', fl', a1, a2, a3, a4⟩ := w2.merge_add hlpre hmid (by simp)
    (by
      intro d hd
      simp only [List.mem_cons, List.mem_singleton, List.not_mem_nil, or_false] at hd
      rcases hd with rfl | rfl
      · exact ha
      · exact hb)
    (by
      intro i hi x hx d hd
      have hx1 := (m2 i hi x).1 hx
      have hx2 := (m1 i hi x).1 hx1.2
      simp only [List.mem_cons, List.mem_singleton, List.not_mem_nil, or_false] at hd
      rcases hd with rfl | rfl
      · exact fun e => hx1.1 e.symm
      · exact fun e => hx2.1 e.symm)
    (by
      intro d hd hdf
      have hdm : d ∈ pre ++ [a, b] ++ post := mem_outer _ hd
      have hdin := hcomp d hdm hdf
      have hne : d.bp ≠ a.bp ∧ d.bp ≠ b.bp := by
        have G' := G.out
        rcases List.mem_append.1 hd with hd | hd
        · have := Layout.mem_bounds hlpre hd
          clear * - G' this
          constructor <;> omega
        · have := Layout.mem_bounds (Layout_cons.1 hlpost).2.2.2 hd
          clear * - G' this
          constructor <;> omega
      exact (m2 _ (classOf_lt _) _).2 ⟨hne.1, (m1 _ (classOf_lt _) _).2 ⟨hne.2, hdin⟩⟩)
    (wr32 (wr32 M2 (b.bp + b.size - 8) (a.size + b.size)) (a.bp - 4) (a.size + b.size))
    (by
      intro x hx1 hx2
      rw [wr32_outside _ _ _ _ (by have G' := G.out; clear * - G' hx1 hx2; omega),
        wr32_outside _ _ _ _ (by have G' := G.out; clear * - G' hx1 hx2; omega)]
      rfl)
    (by rw [rd32_wr32_same _ _ _ (by have G' := G.out; clear * - G'; omega)]; have G' := G.out; clear * - G'; omega)
    (by
      rw [rd32_wr32_disj _ _ _ _ (by have G' := G.out; clear * - G'; omega),
        rd32_wr32_same _ _ _ (by have G' := G.out; clear * - G'; omega)]
      have G' := G.out; clear * - G'; omega)
    fuel hfuel
  simp only [setMem_setMem, setMem_mem, setMem_seg, hdiff] at a1 a2 a3 a4
  refine ⟨M', fl', ?_, a2, a3, ?_⟩
  · rw [hev, a1]; rfl
  · intro x hx
    rw [a4 x hx]
    exact (u2 x hx).trans (u1 x hx)

theorem outer_bp_ne {pre post : List Blk} {base lo hi e x : Nat} {d : Blk}
    (hpre : Layout base pre lo) (hpost : Layout hi post e) (hx : lo ≤ x ∧ x < hi)
    (hd : d ∈ pre ++ post) : d.bp ≠ x := by
  rcases List.mem_append.1 hd with hd | hd
  · have := Layout.mem_bounds hpre hd
    omega
  · have := Layout.mem_bounds hpost hd
    omega


theorem coalesce_case4 {s : Heap} {pre r : List Blk} {a b c : Blk} {fl : Nat → List Nat}
    (h : WF s (pre ++ [a, b, c] ++ r) fl) (hcomp : Complete (pre ++ [a, b, c] ++ r) fl)
    (ha : a.alloc = false) (hb : b.alloc = false) (hc : c.alloc = false)
    (fuel : Nat) (hfuel : 1 ≤ fuel) :
    ∃ M fl', coalesce fuel s b.bp = some (a.bp, s.setMem M) ∧
      WF (s.setMem M) (pre ++ [⟨a.bp, a.size + b.size + c.size, false⟩] ++ r) fl' ∧
      Complete (pre ++ [⟨a.bp, a.size + b.size + c.size, false⟩] ++ r) fl' ∧
      (∀ x, InAlloc (pre ++ [a, b, c] ++ r) x → M x = s.mem x) := by
  have ham : a ∈ pre ++ [a, b, c] ++ r := by simp
  have hbm : b ∈ pre ++ [a, b, c] ++ r := by simp
  have hcm : c ∈ pre ++ [a, b, c] ++ r := by simp
  have e0 : pre ++ [a, b, c] ++ r = pre ++ a :: b :: c :: r := by simp
  have e0' : pre ++ [a, b, c] ++ r = (pre ++ [a]) ++ b :: c :: r := by simp
  have h' : WF s (pre ++ a :: b :: c :: r) fl := e0 ▸ h
  have h'' : WF s ((pre ++ [a]) ++ b :: c :: r) fl := e0' ▸ h
  obtain ⟨hlpre, hlpost, _, _⟩ := h'.split_layout
  have G : Hid ((s.seg_list_ptr + 112 ≤ a.bp ∧ 16 ≤ a.size ∧ a.size % 8 = 0) ∧
      (16 ≤ b.size ∧ b.size % 8 = 0) ∧
      (c.bp + c.size ≤ s.mem_brk ∧ s.mem_brk < 4294967296 ∧ 16 ≤ c.size ∧ c.size % 8 = 0) ∧
      b.bp = a.bp + a.size ∧ c.bp = b.bp + b.size) := by
    have h1 := h.bounds ham
    have h2 := h.bounds hbm
    have h3 := h.bounds hcm
    exact ⟨⟨⟨h1.1, h1.2.2.2⟩, h2.2.2.2, ⟨h3.2.1, h3.2.2⟩, (Layout_cons.1 hlpost).1,
      h''.next_cons.2⟩⟩
  have hbbp : b.bp = a.bp + a.size := G.out.2.2.2.1
  have hcbp : c.bp = b.bp + b.size := G.out.2.2.2.2
  have hlr : Layout (c.bp + c.size) r s.mem_brk := by
    have := (Layout_cons.1 (Layout_cons.1 hlpost).2.2.2).2.2.2
    have e : a.bp + a.size + b.size + c.size = c.bp + c.size := by
      have G' := G.out; clear * - G'; omega
    rwa [e] at this
  have hpa : GET_ALLOC s (HDRP (PREV_BLKP s b.bp)) = 0 := by
    rw [h'.prev_concat.1, h.blk_alloc ham, ha]; rfl
  have hna : GET_ALLOC s (HDRP (NEXT_BLKP s b.bp)) = 0 := by
    rw [h''.next_cons.1, h.blk_alloc hcm, hc]; rfl
  obtain ⟨M1, fl1, e1, w1, u1, m1⟩ := remove_seglist_frame h hbm (hcomp b hbm hb)
  have w1' : WF (s.setMem M1) (pre ++ a :: b :: c :: r) fl1 := e0 ▸ w1
  have w1'' : WF (s.setMem M1) ((pre ++ [a]) ++ b :: c :: r) fl1 := e0' ▸ w1
  have hpv : PREV_BLKP (s.setMem M1) b.bp = a.bp := w1'.prev_concat.1
  have hnx : NEXT_BLKP (s.setMem M1) b.bp = c.bp := w1''.next_cons.1
  have hain : a.bp ∈ fl1 (classOf a.size) :=
    (m1 _ (classOf_lt _) _).2 ⟨by have G' := G.out; clear * - G'; omega, hcomp a ham ha⟩
  obtain ⟨M2, fl2, e2, w2, u2, m2⟩ := remove_seglist_frame w1 ham hain
  simp only [setMem_setMem, setMem_mem] at e2 w2 u2
  have w2'' : WF (s.setMem M2) ((pre ++ [a]) ++ b :: c :: r) fl2 := e0' ▸ w2
  have hnx2 : NEXT_BLKP (s.setMem M2) b.bp = c.bp := w2''.next_cons.1
  have hcin : c.bp ∈ fl2 (classOf c.size) :=
    (m2 _ (classOf_lt _) _).2 ⟨by have G' := G.out; clear * - G'; omega, (m1 _ (classOf_lt _) _).2 ⟨by have G' := G.out; clear * - G'; omega, hcomp c hcm hc⟩⟩
  obtain ⟨M3, fl3, e3, w3, u3, m3⟩ := remove_seglist_frame w2 hcm hcin
  simp only [setMem_setMem, setMem_mem] at e3 w3 u3
  have w3' : WF (s.setMem M3) (pre ++ a :: b :: c :: r) fl3 := e0 ▸ w3
  have w3'' : WF (s.setMem M3) ((pre ++ [a]) ++ b :: c :: r) fl3 := e0' ▸ w3
  have hpv3 : PREV_BLKP (s.setMem M3) b.bp = a.bp := w3'.prev_concat.1
  have hnx3 : NEXT_BLKP (s.setMem M3) b.bp = c.bp := w3''.next_cons.1
  have hsz : u32 (GET_SIZE s (HDRP b.bp) + GET_SIZE (s.setMem M1) (HDRP a.bp)
      + GET_SIZE (s.setMem M1) (FTRP (s.setMem M1) c.bp)) = a.size + b.size + c.size := by
    have h1 : GET_SIZE s (HDRP b.bp) = b.size := h.blk_size hbm
    have h2 : GET_SIZE (s.setMem M1) (HDRP a.bp) = a.size := w1.blk_size ham
    have h3 : FTRP (s.setMem M1) c.bp = c.bp + c.size - 8 :=
      FTRP_eq _ _ _ (by have G' := G.out; clear * - G'; omega) (by have G' := G.out; clear * - G'; omega) (by have G' := G.out; clear * - G'; omega) (w1.blk_size hcm)
    have h4 : GET_SIZE (s.setMem M1) (c.bp + c.size - 8) = c.size := by
      unfold GET_SIZE GET
      rw [(w1.tags c hcm).2]
      exact c.tag_size G.out.2.2.1.2.2.2 (by have G' := G.out; clear * - G'; omega)
    rw [h1, h2, h3, h4]; unfold u32; have G' := G.out; clear * - G'; omega
  have hs4 : PUT (s.setMem M3) (HDRP a.bp) (PACK (a.size + b.size + c.size) 0)
      = s.setMem (wr32 M3 (a.bp - 4) (a.size + b.size + c.size)) := by
    rw [HDRP_eq _ (by have G' := G.out; clear * - G'; omega) (by have G' := G.out; clear * - G'; omega), PACK_zero]; rfl
  have hnx4 : NEXT_BLKP (s.setMem (wr32 M3 (a.bp - 4) (a.size + b.size + c.size))) b.bp
      = c.bp := by
    rw [NEXT_BLKP_congr (s.setMem M3) _ _ (by have G' := G.out; clear * - G'; omega) (by have G' := G.out; clear * - G'; omega), hnx3]
    simp only [setMem_mem]
    rw [rd32_wr32_disj _ _ _ _ (by have G' := G.out; clear * - G'; omega)]
  have hft : FTRP (s.setMem (wr32 M3 (a.bp - 4) (a.size + b.size + c.size))) c.bp
      = c.bp + c.size - 8 := by
    apply FTRP_eq _ _ _ (by have G' := G.out; clear * - G'; omega) (by have G' := G.out; clear * - G'; omega) (by have G' := G.out; clear * - G'; omega)
    have := w3.blk_size hcm
    unfold GET_BLK_SIZE at this
    rw [← this]
    apply GET_SIZE_congr
    simp only [setMem_mem]
    rw [HDRP_eq _ (by have G' := G.out; clear * - G'; omega) (by have G' := G.out; clear * - G'; omega), rd32_wr32_disj _ _ _ _ (by have G' := G.out; clear * - G'; omega)]
  have hs5 : PUT (s.setMem (wr32 M3 (a.bp - 4) (a.size + b.size + c.size)))
      (FTRP (s.setMem (wr32 M3 (a.bp - 4) (a.size + b.size + c.size))) c.bp)
      (PACK (a.size + b.size + c.size) 0)
      = s.setMem (wr32 (wr32 M3 (a.bp - 4) (a.size + b.size + c.size)) (c.bp + c.size - 8)
        (a.size + b.size + c.size)) := by
    rw [hft, PACK_zero]; rfl
  have hpv5 : PREV_BLKP (s.setMem (wr32 (wr32 M3 (a.bp - 4) (a.size + b.size + c.size))
      (c.bp + c.size - 8) (a.size + b.size + c.size))) b.bp = a.bp := by
    rw [PREV_BLKP_congr (s.setMem M3) _ _ (by have G' := G.out; clear * - G'; omega) (by have G' := G.out; clear * - G'; omega), hpv3]
    simp only [setMem_mem]
    rw [rd32_wr32_disj _ _ _ _ (by have G' := G.out; clear * - G'; omega), rd32_wr32_disj _ _ _ _ (by have G' := G.out; clear * - G'; omega)]
  have hev : coalesce fuel s b.bp = (add_seglist fuel (s.setMem (wr32 (wr32 M3 (a.bp - 4) (a.size + b.size + c.size)) (c.bp + c.size - 8)
        (a.size + b.size + c.size))) a.bp (a.size + b.size + c.size)).map fun s => (a.bp, s) := by
    refine coalesce_eval4 fuel s (s.setMem M1) (s.setMem M2) (s.setMem M3)
      (s.setMem (wr32 M3 (a.bp - 4) (a.size + b.size + c.size)))
      (s.setMem (wr32 (wr32 M3 (a.bp - 4) (a.size + b.size + c.size)) (c.bp + c.size - 8)
        (a.size + b.size + c.size)))
      b.bp a.bp c.bp (a.size + b.size + c.size) hpa hna ?_ ?_ ?_ ?_ ?_ ?_ ?_ ?_ ?_ ?_ ?_ ?_
    · exact e1
    · exact hpv
    · exact hnx
    · exact hsz
    · exact e2
    · exact hnx2
    · exact e3
    · exact hpv3
    · exact hs4
    · exact hnx4
    · exact hs5
    · exact hpv5
  have hmid : Layout a.bp [a, b, c] (c.bp + c.size) := by
    refine Layout_cons.2 ⟨rfl, by have G' := G.out; clear * - G'; omega, by have G' := G.out; clear * - G'; omega, Layout_cons.2 ⟨hbbp, by have G' := G.out; clear * - G'; omega, by have G' := G.out; clear * - G'; omega,
      Layout_cons.2 ⟨by have G' := G.out; clear * - G'; omega, by have G' := G.out; clear * - G'; omega, by have G' := G.out; clear * - G'; omega, ?_⟩⟩⟩
    exact Layout_nil.2 (by have G' := G.out; clear * - G'; omega)
  have hdiff : c.bp + c.size - a.bp = a.size + b.size + c.size := by have G' := G.out; clear * - G'; omega
  obtain ⟨M', fl', a1, a2, a3, a4⟩ := w3.merge_add hlpre hmid (by simp)
    (by
      intro d hd
      simp only [List.mem_cons, List.mem_singleton, List.not_mem_nil, or_false] at hd
      rcases hd with rfl | rfl | rfl
      · exact ha
      · exact hb
      · exact hc)
    (by
      intro i hi x hx d hd
      have hx1 := (m3 i hi x).1 hx
      have hx2 := (m2 i hi x).1 hx1.2
      have hx3 := (m1 i hi x).1 hx2.2
      simp only [List.mem_cons, List.mem_singleton, List.not_mem_nil, or_false] at hd
      rcases hd with rfl | rfl | rfl
      · exact fun e => hx2.1 e.symm
      · exact fun e => hx3.1 e.symm
      · exact fun e => hx1.1 e.symm)
    (by
      intro d hd hdf
      have hdm : d ∈ pre ++ [a, b, c] ++ r := mem_outer _ hd
      have hdin := hcomp d hdm hdf
      have hne : d.bp ≠ a.bp ∧ d.bp ≠ b.bp ∧ d.bp ≠ c.bp :=
        ⟨outer_bp_ne hlpre hlr (by have G' := G.out; clear * - G'; omega) hd, outer_bp_ne hlpre hlr (by have G' := G.out; clear * - G'; omega) hd,
          outer_bp_ne hlpre hlr (by have G' := G.out; clear * - G'; omega) hd⟩
      exact (m3 _ (classOf_lt _) _).2 ⟨hne.2.2, (m2 _ (classOf_lt _) _).2
        ⟨hne.1, (m1 _ (classOf_lt _) _).2 ⟨hne.2.1, hdin⟩⟩⟩)
    (wr32 (wr32 M3 (a.bp - 4) (a.size + b.size + c.size)) (c.bp + c.size - 8)
      (a.size + b.size + c.size))
    (by
      intro x hx1 hx2
      rw [wr32_outside _ _ _ _ (by have G' := G.out; clear * - G' hx1 hx2; omega),
        wr32_outside _ _ _ _ (by have G' := G.out; clear * - G' hx1 hx2; omega)]
      rfl)
    (by
      rw [rd32_wr32_disj _ _ _ _ (by have G' := G.out; clear * - G'; omega),
        rd32_wr32_same _ _ _ (by have G' := G.out; clear * - G'; omega)]
      have G' := G.out; clear * - G'; omega)
    (by
      rw [rd32_wr32_same _ _ _ (by have G' := G.out; clear * - G'; omega)]
      have G' := G.out; clear * - G'; omega)
    fuel hfuel
  simp only [setMem_setMem, setMem_mem, setMem_seg, hdiff] at a1 a2 a3 a4
  refine ⟨M', fl', ?_, a2, a3, ?_⟩
  · rw [hev, a1]; rfl
  · intro x hx
    rw [a4 x hx]
    exact (u3 x hx).trans ((u2 x hx).trans (u1 x hx))

theorem list_nil_or_snoc {α : Type} (l : List α) : l = [] ∨ ∃ L b, l = L ++ [b] := by
  rcases List.eq_nil_or_concat l with h | ⟨L, b, h⟩
  · exact Or.inl h
  · exact Or.inr ⟨L, b, by rw [h, List.concat_eq_append]⟩

theorem prev_bit_nil {s : Heap} {post : List Blk} {b : Blk} {fl : Nat → List Nat}
    (h : WF s ([] ++ b :: post) fl) : GET_ALLOC s (HDRP (PREV_BLKP s b.bp)) ≠ 0 := by
  have := WF.prev_nil h
  rw [this.1, this.2.2]; decide

theorem prev_bit_concat {s : Heap} {pre post : List Blk} {a b : Blk} {fl : Nat → List Nat}
    (h : WF s ((pre ++ [a]) ++ b :: post) fl) :
    GET_ALLOC s (HDRP (PREV_BLKP s b.bp)) = if a.alloc then 1 else 0 := by
  have h' : WF s (pre ++ a :: b :: post) fl := by simpa using h
  rw [(WF.prev_concat h').1]
  exact h'.blk_alloc (by simp)

theorem next_bit_nil {s : Heap} {pre : List Blk} {b : Blk} {fl : Nat → List Nat}
    (h : WF s (pre ++ b :: []) fl) : GET_ALLOC s (HDRP (NEXT_BLKP s b.bp)) ≠ 0 := by
  have := WF.next_nil h
  rw [this.1, this.2.2.1]; decide

theorem next_bit_cons {s : Heap} {pre r : List Blk} {b c : Blk} {fl : Nat → List Nat}
    (h : WF s (pre ++ b :: c :: r) fl) :
    GET_ALLOC s (HDRP (NEXT_BLKP s b.bp)) = if c.alloc then 1 else 0 := by
  rw [(WF.next_cons h).1]
  exact h.blk_alloc (by simp)

/-- The neighbour bits that `coalesce` reads, in terms of the block list. -/
theorem coalesce_bits {s : Heap} {pre post : List Blk} {b : Blk} {fl : Nat → List Nat}
    (h : WF s (pre ++ b :: post) fl) :
    (GET_ALLOC s (HDRP (PREV_BLKP s b.bp)) ≠ 0 ↔ ∀ a ∈ pre.getLast?, a.alloc = true) ∧
    (GET_ALLOC s (HDRP (NEXT_BLKP s b.bp)) ≠ 0 ↔ ∀ c ∈ post.head?, c.alloc = true) := by
  constructor
  · rcases list_nil_or_snoc pre with rfl | ⟨pre', a, rfl⟩
    · simpa using prev_bit_nil h
    · rw [prev_bit_concat h]
      cases ha : a.alloc <;> simp [ha]
  · rcases post with _ | ⟨c, r⟩
    · simpa using next_bit_nil h
    · rw [next_bit_cons h]
      cases hc : c.alloc <;> simp [hc]

theorem coalesce_spec {s : Heap} {pre post : List Blk} {b : Blk} {fl : Nat → List Nat}
    (h : WF s (pre ++ b :: post) fl) (hcomp : Complete (pre ++ b :: post) fl)
    (hb : b.alloc = false) (fuel : Nat) (hfuel : 1 ≤ fuel) :
    ∃ M fl', coalesce fuel s b.bp = some ((mergedBlk pre b post).bp, s.setMem M) ∧
      WF (s.setMem M) (coalesced pre b post) fl' ∧ Complete (coalesced pre b post) fl' ∧
      (∀ x, InAlloc (pre ++ b :: post) x → M x = s.mem x) := by
  obtain ⟨hp, hn⟩ := coalesce_bits h
  rcases list_nil_or_snoc pre with rfl | ⟨pre', a, rfl⟩
  · rcases post with _ | ⟨c, r⟩
    · obtain ⟨M, h1, h2, h3⟩ := coalesce_case1 h fuel b.bp (hp.2 (by simp)) (hn.2 (by simp))
      exact ⟨M, fl, by simpa [mergedBlk, mergeNext, mergePrev] using h1,
        by simpa [coalesced, mergedBlk, mergeNext, mergePrev] using h2,
        by simpa [coalesced, mergedBlk, mergeNext, mergePrev] using hcomp, h3⟩
    · cases hc : c.alloc
      · obtain ⟨M, fl', h1, h2, h3, h4⟩ := @coalesce_case2 _ [] r b c _
          (by simpa using h) (by simpa using hcomp) hb hc (hp.2 (by simp)) fuel hfuel
        exact ⟨M, fl', by simpa [mergedBlk, mergeNext, mergePrev, hc] using h1,
          by simpa [coalesced, mergedBlk, mergeNext, mergePrev, hc] using h2,
          by simpa [coalesced, mergedBlk, mergeNext, mergePrev, hc] using h3,
          by simpa using h4⟩
      · obtain ⟨M, h1, h2, h3⟩ := coalesce_case1 h fuel b.bp (hp.2 (by simp))
          (hn.2 (by simp [hc]))
        exact ⟨M, fl, by simpa [mergedBlk, mergeNext, mergePrev, hc] using h1,
          by simpa [coalesced, mergedBlk, mergeNext, mergePrev, hc] using h2,
          by simpa [coalesced, mergedBlk, mergeNext, mergePrev, hc] using hcomp, h3⟩
  · cases ha : a.alloc
    · rcases post with _ | ⟨c, r⟩
      · obtain ⟨M, fl', h1, h2, h3, h4⟩ := @coalesce_case3 _ pre' [] a b _ (by simpa using h) (by simpa using hcomp) ha hb (hn.2 (by simp)) fuel hfuel
        exact ⟨M, fl', by simpa [mergedBlk, mergeNext, mergePrev, ha] using h1,
          by simpa [coalesced, mergedBlk, mergeNext, mergePrev, ha] using h2,
          by simpa [coalesced, mergedBlk, mergeNext, mergePrev, ha] using h3,
          by simpa using h4⟩
      · cases hc : c.alloc
        · obtain ⟨M, fl', h1, h2, h3, h4⟩ := @coalesce_case4 _ pre' r a b c _ (by simpa using h) (by simpa using hcomp) ha hb hc fuel hfuel
          exact ⟨M, fl', by simpa [mergedBlk, mergeNext, mergePrev, ha, hc] using h1,
            by simpa [coalesced, mergedBlk, mergeNext, mergePrev, ha, hc, Nat.add_assoc] using h2,
            by simpa [coalesced, mergedBlk, mergeNext, mergePrev, ha, hc, Nat.add_assoc] using h3,
            by simpa using h4⟩
        · obtain ⟨M, fl', h1, h2, h3, h4⟩ := @coalesce_case3 _ pre' (c :: r) a b _ (by simpa using h) (by simpa using hcomp) ha hb
            (hn.2 (by simp [hc])) fuel hfuel
          exact ⟨M, fl', by simpa [mergedBlk, mergeNext, mergePrev, ha, hc] using h1,
            by simpa [coalesced, mergedBlk, mergeNext, mergePrev, ha, hc] using h2,
            by simpa [coalesced, mergedBlk, mergeNext, mergePrev, ha, hc] using h3,
            by simpa using h4⟩
    · rcases post with _ | ⟨c, r⟩
      · obtain ⟨M, h1, h2, h3⟩ := coalesce_case1 h fuel b.bp (hp.2 (by simp [ha]))
          (hn.2 (by simp))
        exact ⟨M, fl, by simpa [mergedBlk, mergeNext, mergePrev, ha] using h1,
          by simpa [coalesced, mergedBlk, mergeNext, mergePrev, ha] using h2,
          by simpa [coalesced, mergedBlk, mergeNext, mergePrev, ha] using hcomp, h3⟩
      · cases hc : c.alloc
        · obtain ⟨M, fl', h1, h2, h3, h4⟩ := @coalesce_case2 _ (pre' ++ [a]) r b c _ (by simpa using h) (by simpa using hcomp) hb hc
            (hp.2 (by simp [ha])) fuel hfuel
          exact ⟨M, fl', by simpa [mergedBlk, mergeNext, mergePrev, ha, hc] using h1,
            by simpa [coalesced, mergedBlk, mergeNext, mergePrev, ha, hc] using h2,
            by simpa [coalesced, mergedBlk, mergeNext, mergePrev, ha, hc] using h3,
            by simpa using h4⟩
        · obtain ⟨M, h1, h2, h3⟩ := coalesce_case1 h fuel b.bp (hp.2 (by simp [ha]))
            (hn.2 (by simp [hc]))
          exact ⟨M, fl, by simpa [mergedBlk, mergeNext, mergePrev, ha, hc] using h1,
            by simpa [coalesced, mergedBlk, mergeNext, mergePrev, ha, hc] using h2,
            by simpa [coalesced, mergedBlk, mergeNext, mergePrev, ha, hc] using hcomp, h3⟩

theorem noAdjFree_coalesced {pre post : List Blk} (b : Blk)
    (hpre : NoAdjFree pre) (hpost : NoAdjFree post) : NoAdjFree (coalesced pre b post) := by
  unfold NoAdjFree at *
  have key : ∀ (l1 l2 : List Blk) (m : Blk), List.Chain' (fun b c : Blk => b.alloc = true ∨ c.alloc = true) l1 →
      List.Chain' (fun b c : Blk => b.alloc = true ∨ c.alloc = true) l2 →
      (∀ x ∈ l1.getLast?, x.alloc = true) → (∀ y ∈ l2.head?, y.alloc = true) →
      List.Chain' (fun b c : Blk => b.alloc = true ∨ c.alloc = true) (l1 ++ m :: l2) := by
    intro l1 l2 m h1 h2 h3 h4
    rw [List.chain'_append]
    refine ⟨h1, ?_, ?_⟩
    · rw [List.chain'_cons']
      exact ⟨fun y hy => Or.inr (h4 y hy), h2⟩
    · intro x hx y hy
      simp only [List.head?_cons, Option.mem_def, Option.some.injEq] at hy
      exact Or.inl (h3 x hx)
  have hnext : List.Chain' (fun b c : Blk => b.alloc = true ∨ c.alloc = true) (mergeNext b post).2 ∧
      ∀ y ∈ (mergeNext b post).2.head?, y.alloc = true := by
    rcases post with _ | ⟨c, r⟩
    · simp [mergeNext]
    · cases hc : c.alloc
      · simp only [mergeNext, hc, Bool.false_eq_true, if_false]
        rw [List.chain'_cons'] at hpost
        exact ⟨hpost.2, fun y hy => by simpa [hc] using hpost.1 y hy⟩
      · simp only [mergeNext, hc, if_true]
        exact ⟨hpost, by simp [hc]⟩
  have hprev : ∀ m : Blk, List.Chain' (fun b c : Blk => b.alloc = true ∨ c.alloc = true)
        (mergePrev m pre.reverse).1.reverse ∧
      ∀ x ∈ (mergePrev m pre.reverse).1.reverse.getLast?, x.alloc = true := by
    intro m
    rcases list_nil_or_snoc pre with rfl | ⟨pre', a, rfl⟩
    · simp [mergePrev]
    · cases ha : a.alloc
      · simp only [List.reverse_append, List.reverse_cons, List.reverse_nil, List.nil_append,
          List.singleton_append, mergePrev, ha, Bool.false_eq_true, if_false, List.reverse_reverse]
        rw [List.chain'_append] at hpre
        exact ⟨hpre.1, fun x hx => by simpa [ha] using hpre.2.2 x hx a (by simp)⟩
      · simp only [List.reverse_append, List.reverse_cons, List.reverse_nil, List.nil_append,
          List.singleton_append, mergePrev, ha, if_true, List.reverse_reverse]
        refine ⟨by simpa using hpre, by simp [ha]⟩
  unfold coalesced
  exact key _ _ _ (hprev _).1 hnext.1 (hprev _).2 hnext.2

theorem NEXT_BLKP_tag (s : Heap) (bp size a : Nat) (h4 : 4 ≤ bp) (hlt : bp + size < 4294967296)
    (hsz : size % 8 = 0) (ha : a ≤ 1) (hr : rd32 s.mem (bp - 4) = size + a) :
    NEXT_BLKP s bp = bp + size := by
  have e : HDRP bp = bp - 4 := HDRP_eq _ h4 (by omega)
  show u32 (bp + GET_SIZE s (HDRP bp)) = bp + size
  rw [e]
  unfold GET_SIZE GET
  rw [hr, tag_and_MASK7 _ _ hsz ha (by omega)]
  exact Nat.mod_eq_of_lt hlt

theorem WF.post_layout {s : Heap} {pre mid post : List Blk} {fl : Nat → List Nat}
    (h : WF s (pre ++ mid ++ post) fl) {lo hi : Nat}
    (hpre : Layout (s.seg_list_ptr + 112) pre lo) (hmid : Layout lo mid hi) :
    Layout hi post s.mem_brk := by
  obtain ⟨m1, h1, h2⟩ := Layout.append.1 h.layout
  obtain ⟨m0, h3, h4⟩ := Layout.append.1 h1
  have e0 : m0 = lo := Layout.end_unique h3 hpre
  subst e0
  have e1 : m1 = hi := Layout.end_unique h4 hmid
  subst e1
  exact h2

theorem WF.retag_add_frame {s : Heap} {pre mid post : List Blk} {fl : Nat → List Nat}
    (h : WF s (pre ++ mid ++ post) fl) (mid' : List Blk) {lo hi : Nat}
    (hpre : Layout (s.seg_list_ptr + 112) pre lo) (hmid : Layout lo mid hi)
    (hmid' : Layout lo mid' hi) (M : Nat → Nat)
    (hM : ∀ a, a < lo - 4 ∨ hi - 4 ≤ a → M a = s.mem a)
    (htags : ∀ b ∈ mid', rd32 M (b.bp - 4) = b.tag ∧ rd32 M (b.bp + b.size - 8) = b.tag)
    (hnomem : ∀ i, i < 24 → ∀ x ∈ fl i, ∀ b ∈ mid, b.bp ≠ x)
    (hcomp : ∀ d ∈ pre ++ post, d.alloc = false → d.bp ∈ fl (classOf d.size))
    (f : Blk) (hf : f ∈ mid') (hfree : f.alloc = false)
    (hrest : ∀ d ∈ mid', d ≠ f → d.alloc = true) (fuel : Nat) (hfuel : 1 ≤ fuel) :
    ∃ M' fl', add_seglist fuel (s.setMem M) f.bp f.size = some (s.setMem M') ∧
      WF (s.setMem M') (pre ++ mid' ++ post) fl' ∧
      Complete (pre ++ mid' ++ post) fl' ∧
      (∀ a, InAlloc (pre ++ post) a → M' a = s.mem a) ∧
      (∀ a, InAlloc mid' a → M' a = M a) := by
  obtain ⟨M', fl', a1, a2, a3, a4⟩ := h.retag_add mid' hpre hmid hmid' M hM htags hnomem hcomp
    f hf hfree hrest fuel hfuel
  have hpost := h.post_layout hpre hmid
  refine ⟨M', fl', a1, a2, a3, ?_, ?_⟩
  · intro a ha
    obtain ⟨d, hd, hda, h1, h2⟩ := ha
    have hu := a2.inAlloc_untouched ⟨d, mem_outer mid' hd, hda, h1, h2⟩
    rw [a4 a ⟨hu.1, hu.2⟩]
    apply hM
    rcases List.mem_append.1 hd with hd | hd
    · have := Layout.mem_bounds hpre hd
      left; omega
    · have := Layout.mem_bounds hpost hd
      right; omega
  · intro a ha
    obtain ⟨d, hd, hda, h1, h2⟩ := ha
    have hu := a2.inAlloc_untouched
      ⟨d, List.mem_append_left _ (List.mem_append_right _ hd), hda, h1, h2⟩
    exact a4 a ⟨hu.1, hu.2⟩

theorem WF.retag_frame {s : Heap} {pre mid post : List Blk} {fl : Nat → List Nat}
    (h : WF s (pre ++ mid ++ post) fl) (mid' : List Blk) {lo hi : Nat}
    (hpre : Layout (s.seg_list_ptr + 112) pre lo) (hmid : Layout lo mid hi)
    (hmid' : Layout lo mid' hi) (M : Nat → Nat)
    (hM : ∀ a, a < lo - 4 ∨ hi - 4 ≤ a → M a = s.mem a)
    (htags : ∀ b ∈ mid', rd32 M (b.bp - 4) = b.tag ∧ rd32 M (b.bp + b.size - 8) = b.tag)
    (hnomem : ∀ i, i < 24 → ∀ x ∈ fl i, ∀ b ∈ mid, b.bp ≠ x)
    (hcomp : ∀ d ∈ pre ++ post, d.alloc = false → d.bp ∈ fl (classOf d.size))
    (hall : ∀ d ∈ mid', d.alloc = true) :
    WF (s.setMem M) (pre ++ mid' ++ post) fl ∧ Complete (pre ++ mid' ++ post) fl ∧
      (∀ a, InAlloc (pre ++ post) a → M a = s.mem a) := by
  have hpost := h.post_layout hpre hmid
  refine ⟨h.retag mid' hpre hmid hmid' M hM htags hnomem, ?_, ?_⟩
  · intro d hd hdf
    rcases List.mem_append.1 hd with hd | hd
    · rcases List.mem_append.1 hd with hd | hd
      · exact hcomp d (List.mem_append_left _ hd) hdf
      · rw [hall d hd] at hdf; exact absurd hdf (by simp)
    · exact hcomp d (List.mem_append_right _ hd) hdf
  · intro a ha
    obtain ⟨d, hd, hda, h1, h2⟩ := ha
    apply hM
    rcases List.mem_append.1 hd with hd | hd
    · have := Layout.mem_bounds hpre hd
      left; omega
    · have := Layout.mem_bounds hpost hd
      right; omega

/-- The allocated payload bytes outside a run of free blocks. -/
theorem inAlloc_drop {pre mid post : List Blk} {a : Nat} (hmid : ∀ d ∈ mid, d.alloc = false)
    (h : InAlloc (pre ++ mid ++ post) a) : InAlloc (pre ++ post) a := by
  obtain ⟨d, hd, hda, h1, h2⟩ := h
  refine ⟨d, ?_, hda, h1, h2⟩
  rcases List.mem_append.1 hd with hd | hd
  · rcases List.mem_append.1 hd with hd | hd
    · exact List.mem_append_left _ hd
    · rw [hmid d hd] at hda; exact absurd hda (by simp)
  · exact List.mem_append_right _ hd

theorem place_eval1 (fuel : Nat) (s s1 s2 : Heap) (bp asize csize : Nat)
    (hc : GET_BLK_SIZE s bp = csize) (hp : u32 (csize + 4294967296 - asize) < 16)
    (hs1 : remove_seglist s bp = s1)
    (hs2 : PUT (PUT s1 (HDRP bp) (PACK csize 1)) (FTRP (PUT s1 (HDRP bp) (PACK csize 1)) bp)
      (PACK csize 1) = s2) :
    place fuel s bp asize = some (bp, s2) := by
  subst hc hs1 hs2
  unfold place
  simp [hp, DSIZE]

theorem place_eval2 (fuel : Nat) (s s1 s2 s3 : Heap) (bp asize csize padding nbp : Nat)
    (hc : GET_BLK_SIZE s bp = csize) (hpad : u32 (csize + 4294967296 - asize) = padding)
    (hp : ¬ padding < 16) (hgt : asize > 200)
    (hs1 : remove_seglist s bp = s1)
    (hs2 : PUT (PUT s1 (HDRP bp) (PACK asize 1)) (FTRP (PUT s1 (HDRP bp) (PACK asize 1)) bp)
      (PACK asize 1) = s2)
    (hn : NEXT_BLKP s2 bp = nbp)
    (hs3 : PUT (PUT s2 (HDRP nbp) (PACK padding 0))
      (FTRP (PUT s2 (HDRP nbp) (PACK padding 0)) nbp) (PACK padding 0) = s3) :
    place fuel s bp asize = (add_seglist fuel s3 nbp padding).map fun s => (bp, s) := by
  subst hc hpad hs1 hs2 hn hs3
  unfold place
  simp [hp, hgt, DSIZE, MINSIZE]

theorem place_eval3 (fuel : Nat) (s s1 s2 s3 : Heap) (bp asize csize padding nbp : Nat)
    (hc : GET_BLK_SIZE s bp = csize) (hpad : u32 (csize + 4294967296 - asize) = padding)
    (hp : ¬ padding < 16) (hgt : ¬ asize > 200)
    (hs1 : remove_seglist s bp = s1)
    (hs2 : PUT (PUT s1 (HDRP bp) (PACK padding 0))
      (FTRP (PUT s1 (HDRP bp) (PACK padding 0)) bp) (PACK padding 0) = s2)
    (hn : NEXT_BLKP s2 bp = nbp)
    (hs3 : PUT (PUT s2 (HDRP nbp) (PACK asize 1))
      (FTRP (PUT s2 (HDRP nbp) (PACK asize 1)) nbp) (PACK asize 1) = s3) :
    place fuel s bp asize = (add_seglist fuel s3 bp padding).map fun s => (nbp, s) := by
  subst hc hpad hs1 hs2 hn hs3
  unfold place
  simp [hp, hgt, DSIZE, MINSIZE]

/-- Taking the free block `b` off its class list: the facts that every
caller of `remove_seglist` needs afterwards. -/
theorem WF.take_free {s : Heap} {pre post : List Blk} {b : Blk} {fl : Nat → List Nat}
    (h : WF s (pre ++ b :: post) fl) (hcomp : Complete (pre ++ b :: post) fl)
    (hb : b.alloc = false) :
    ∃ M1 fl1, remove_seglist s b.bp = s.setMem M1 ∧
      WF (s.setMem M1) (pre ++ [b] ++ post) fl1 ∧
      (∀ a, InAlloc (pre ++ b :: post) a → M1 a = s.mem a) ∧
      (∀ i, i < 24 → ∀ x ∈ fl1 i, ∀ d ∈ [b], d.bp ≠ x) ∧
      (∀ d ∈ pre ++ post, d.alloc = false → d.bp ∈ fl1 (classOf d.size)) ∧
      Layout (s.seg_list_ptr + 112) pre b.bp ∧ Layout b.bp [b] (b.bp + b.size) ∧
      Hid (s.seg_list_ptr + 112 ≤ b.bp ∧ b.bp + b.size ≤ s.mem_brk ∧
        s.mem_brk < 4294967296 ∧ 16 ≤ b.size ∧ b.size % 8 = 0) := by
  have hbm : b ∈ pre ++ b :: post := by simp
  have hbb := h.bounds hbm
  obtain ⟨hlpre, hlpost, _, _⟩ := h.split_layout
  obtain ⟨M1, fl1, e1, w1, u1, m1⟩ := remove_seglist_frame h hbm (hcomp b hbm hb)
  refine ⟨M1, fl1, e1, by simpa using w1, u1, ?_, ?_, hlpre, ?_, ⟨hbb⟩⟩
  · intro i hi x hx d hd
    rw [List.mem_singleton.1 hd]
    exact fun e => ((m1 i hi x).1 hx).1 e.symm
  · intro d hd hdf
    have hne : d.bp ≠ b.bp := outer_bp_ne hlpre hlpost ⟨le_refl _, by omega⟩ hd
    have hdm : d ∈ pre ++ b :: post := by
      rcases List.mem_append.1 hd with hd | hd
      · exact List.mem_append_left _ hd
      · exact List.mem_append_right _ (List.mem_cons_of_mem _ hd)
    exact (m1 _ (classOf_lt _) _).2 ⟨hne, hcomp d hdm hdf⟩
  · exact Layout_cons.2 ⟨rfl, hbb.2.2.2.1, hbb.2.2.2.2, Layout_nil.2 rfl⟩

theorem place_whole {s : Heap} {pre post : List Blk} {b : Blk} {fl : Nat → List Nat}
    (h : WF s (pre ++ b :: post) fl) (hcomp : Complete (pre ++ b :: post) fl)
    (hb : b.alloc = false) (asize : Nat) (hle : asize ≤ b.size) (hpad : b.size - asize < 16)
    (fuel : Nat) :
    ∃ M fl', place fuel s b.bp asize = some (b.bp, s.setMem M) ∧
      WF (s.setMem M) (pre ++ [⟨b.bp, b.size, true⟩] ++ post) fl' ∧
      Complete (pre ++ [⟨b.bp, b.size, true⟩] ++ post) fl' ∧
      (∀ a, InAlloc (pre ++ b :: post) a → M a = s.mem a) := by
  obtain ⟨M1, fl1, e1, w1, u1, hnm, hc1, hlpre, hmid, G⟩ := h.take_free hcomp hb
  have hcs : GET_BLK_SIZE s b.bp = b.size := h.blk_size (by simp)
  have hpd : u32 (b.size + 4294967296 - asize) < 16 := by
    have G' := G.out; clear * - G' hle hpad; unfold u32; omega
  have hput := (put_hdr_ftr (s.setMem M1) b.bp b.size
    (by have G' := G.out; clear * - G'; omega) (by have G' := G.out; clear * - G'; omega)
    (by have G' := G.out; clear * - G'; omega) G.out.2.2.2.2).2
  simp only [setMem_setMem, setMem_mem] at hput
  have hev := place_eval1 fuel s _ _ b.bp asize b.size hcs hpd e1 hput
  have hmid' : Layout b.bp [(⟨b.bp, b.size, true⟩ : Blk)] (b.bp + b.size) :=
    Layout_cons.2 ⟨rfl, G.out.2.2.2.1, G.out.2.2.2.2, Layout_nil.2 rfl⟩
  obtain ⟨a2, a3, a4⟩ := w1.retag_frame [⟨b.bp, b.size, true⟩] hlpre hmid hmid'
    (wr32 (wr32 M1 (b.bp - 4) (b.size + 1)) (b.bp + b.size - 8) (b.size + 1))
    (by
      intro a ha
      have G' := G.out
      rw [wr32_outside _ _ _ _ (by clear * - G' ha; omega),
        wr32_outside _ _ _ _ (by clear * - G' ha; omega)]
      rfl)
    (by
      intro d hd
      rw [List.mem_singleton.1 hd]
      have G' := G.out
      simp only [Blk.tag, if_true]
      constructor
      · rw [rd32_wr32_disj _ _ _ _ (by clear * - G'; omega),
          rd32_wr32_same _ _ _ (by clear * - G'; omega)]
      · rw [rd32_wr32_same _ _ _ (by clear * - G'; omega)])
    hnm hc1 (by intro d hd; rw [List.mem_singleton.1 hd])
  simp only [setMem_setMem, setMem_mem] at a2 a4
  refine ⟨_, fl1, hev, a2, a3, fun a ha => ?_⟩
  rw [a4 a (@inAlloc_drop _ [b] _ _ (by intro d hd; rw [List.mem_singleton.1 hd]; exact hb)
    (by simpa using ha))]
  exact u1 a ha

theorem place_front {s : Heap} {pre post : List Blk} {b : Blk} {fl : Nat → List Nat}
    (h : WF s (pre ++ b :: post) fl) (hcomp : Complete (pre ++ b :: post) fl)
    (hb : b.alloc = false) (asize : Nat) (h16 : 16 ≤ asize) (h8 : asize % 8 = 0)
    (hle : asize ≤ b.size) (hpad : ¬ b.size - asize < 16) (hgt : asize > 200)
    (fuel : Nat) (hfuel : 1 ≤ fuel) :
    ∃ M fl', place fuel s b.bp asize = some (b.bp, s.setMem M) ∧
      WF (s.setMem M)
        (pre ++ [⟨b.bp, asize, true⟩, ⟨b.bp + asize, b.size - asize, false⟩] ++ post) fl' ∧
      Complete (pre ++ [⟨b.bp, asize, true⟩, ⟨b.bp + asize, b.size - asize, false⟩] ++ post)
        fl' ∧
      (∀ a, InAlloc (pre ++ b :: post) a → M a = s.mem a) := by
  obtain ⟨M1, fl1, e1, w1, u1, hnm, hc1, hlpre, hmid, G0⟩ := h.take_free hcomp hb
  have G : Hid ((s.seg_list_ptr + 112 ≤ b.bp ∧ b.bp + b.size ≤ s.mem_brk ∧
      s.mem_brk < 4294967296 ∧ 16 ≤ b.size ∧ b.size % 8 = 0) ∧
      16 ≤ asize ∧ asize % 8 = 0 ∧ asize ≤ b.size ∧ ¬ b.size - asize < 16) :=
    ⟨⟨G0.out, h16, h8, hle, hpad⟩⟩
  have hcs : GET_BLK_SIZE s b.bp = b.size := h.blk_size (by simp)
  have hpd : u32 (b.size + 4294967296 - asize) = b.size - asize := by
    have G' := G.out; clear * - G'; unfold u32; omega
  have hput1 := (put_hdr_ftr (s.setMem M1) b.bp asize
    (by have G' := G.out; clear * - G'; omega) (by have G' := G.out; clear * - G'; omega)
    (by have G' := G.out; clear * - G'; omega) h8).2
  simp only [setMem_setMem, setMem_mem] at hput1
  have hn : NEXT_BLKP (s.setMem (wr32 (wr32 M1 (b.bp - 4) (asize + 1)) (b.bp + asize - 8)
      (asize + 1))) b.bp = b.bp + asize :=
    NEXT_BLKP_tag _ _ asize 1 (by have G' := G.out; clear * - G'; omega)
      (by have G' := G.out; clear * - G'; omega) h8 (by omega)
      (by
        show rd32 (wr32 (wr32 M1 (b.bp - 4) (asize + 1)) (b.bp + asize - 8) (asize + 1))
          (b.bp - 4) = asize + 1
        have G' := G.out
        rw [rd32_wr32_disj _ _ _ _ (by clear * - G'; omega),
          rd32_wr32_same _ _ _ (by clear * - G'; omega)])
  have hput2 := (put_hdr_ftr (s.setMem (wr32 (wr32 M1 (b.bp - 4) (asize + 1))
    (b.bp + asize - 8) (asize + 1))) (b.bp + asize) (b.size - asize)
    (by have G' := G.out; clear * - G'; omega) (by have G' := G.out; clear * - G'; omega)
    (by have G' := G.out; clear * - G'; omega) (by have G' := G.out; clear * - G'; omega)).1
  simp only [setMem_setMem, setMem_mem] at hput2
  have hev := place_eval2 fuel s _ _ _ b.bp asize b.size (b.size - asize) (b.bp + asize)
    hcs hpd hpad hgt e1 hput1 hn hput2
  have hmid' : Layout b.bp [(⟨b.bp, asize, true⟩ : Blk), ⟨b.bp + asize, b.size - asize, false⟩]
      (b.bp + b.size) := by
    have G' := G.out
    refine Layout_cons.2 ⟨rfl, h16, h8, Layout_cons.2 ⟨rfl, ?_, ?_, Layout_nil.2 ?_⟩⟩
    · show 16 ≤ b.size - asize
      clear * - G'; omega
    · show (b.size - asize) % 8 = 0
      clear * - G'; omega
    · show b.bp + asize + (b.size - asize) = b.bp + b.size
      clear * - G'; omega
  obtain ⟨M', fl', a1, a2, a3, a4, _⟩ := w1.retag_add_frame
    [⟨b.bp, asize, true⟩, ⟨b.bp + asize, b.size - asize, false⟩] hlpre hmid hmid'
    (wr32 (wr32 (wr32 (wr32 M1 (b.bp - 4) (asize + 1)) (b.bp + asize - 8) (asize + 1))
      (b.bp + asize - 4) (b.size - asize)) (b.bp + asize + (b.size - asize) - 8)
      (b.size - asize))
    (by
      intro a ha
      have G' := G.out
      rw [wr32_outside _ _ _ _ (by clear * - G' ha; omega),
        wr32_outside _ _ _ _ (by clear * - G' ha; omega),
        wr32_outside _ _ _ _ (by clear * - G' ha; omega),
        wr32_outside _ _ _ _ (by clear * - G' ha; omega)]
      rfl)
    (by
      intro d hd
      have G' := G.out
      simp only [List.mem_cons, List.mem_singleton, List.not_mem_nil, or_false] at hd
      rcases hd with rfl | rfl
      · simp only [Blk.tag, if_true]
        constructor
        · rw [rd32_wr32_disj _ _ _ _ (by clear * - G'; omega),
            rd32_wr32_disj _ _ _ _ (by clear * - G'; omega),
            rd32_wr32_disj _ _ _ _ (by clear * - G'; omega),
            rd32_wr32_same _ _ _ (by clear * - G'; omega)]
        · rw [rd32_wr32_disj _ _ _ _ (by clear * - G'; omega),
            rd32_wr32_disj _ _ _ _ (by clear * - G'; omega),
            rd32_wr32_same _ _ _ (by clear * - G'; omega)]
      · simp only [Blk.tag, Bool.false_eq_true, if_false, Nat.add_zero]
        constructor
        · rw [rd32_wr32_disj _ _ _ _ (by clear * - G'; omega),
            rd32_wr32_same _ _ _ (by clear * - G'; omega)]
        · rw [rd32_wr32_same _ _ _ (by clear * - G'; omega)])
    hnm hc1 ⟨b.bp + asize, b.size - asize, false⟩ (by simp) rfl
    (by
      intro d hd hne
      simp only [List.mem_cons, List.mem_singleton, List.not_mem_nil, or_false] at hd
      rcases hd with rfl | rfl
      · rfl
      · exact absurd rfl hne)
    fuel hfuel
  simp only [setMem_setMem, setMem_mem] at a1 a2 a4
  refine ⟨M', fl', by rw [hev, a1]; rfl, a2, a3, fun a ha => ?_⟩
  rw [a4 a (@inAlloc_drop _ [b] _ _ (by intro d hd; rw [List.mem_singleton.1 hd]; exact hb)
    (by simpa using ha))]
  exact u1 a ha

theorem place_back {s : Heap} {pre post : List Blk} {b : Blk} {fl : Nat → List Nat}
    (h : WF s (pre ++ b :: post) fl) (hcomp : Complete (pre ++ b :: post) fl)
    (hb : b.alloc = false) (asize : Nat) (h16 : 16 ≤ asize) (h8 : asize % 8 = 0)
    (hle : asize ≤ b.size) (hpad : ¬ b.size - asize < 16) (hgt : ¬ asize > 200)
    (fuel : Nat) (hfuel : 1 ≤ fuel) :
    ∃ M fl', place fuel s b.bp asize = some (b.bp + (b.size - asize), s.setMem M) ∧
      WF (s.setMem M)
        (pre ++ [⟨b.bp, b.size - asize, false⟩, ⟨b.bp + (b.size - asize), asize, true⟩] ++ post)
        fl' ∧
      Complete
        (pre ++ [⟨b.bp, b.size - asize, false⟩, ⟨b.bp + (b.size - asize), asize, true⟩] ++ post)
        fl' ∧
      (∀ a, InAlloc (pre ++ b :: post) a → M a = s.mem a) := by
  obtain ⟨M1, fl1, e1, w1, u1, hnm, hc1, hlpre, hmid, G0⟩ := h.take_free hcomp hb
  have G : Hid ((s.seg_list_ptr + 112 ≤ b.bp ∧ b.bp + b.size ≤ s.mem_brk ∧
      s.mem_brk < 4294967296 ∧ 16 ≤ b.size ∧ b.size % 8 = 0) ∧
      16 ≤ asize ∧ asize % 8 = 0 ∧ asize ≤ b.size ∧ ¬ b.size - asize < 16) :=
    ⟨⟨G0.out, h16, h8, hle, hpad⟩⟩
  have hcs : GET_BLK_SIZE s b.bp = b.size := h.blk_size (by simp)
  have hpd : u32 (b.size + 4294967296 - asize) = b.size - asize := by
    have G' := G.out; clear * - G'; unfold u32; omega
  have hput1 := (put_hdr_ftr (s.setMem M1) b.bp (b.size - asize)
    (by have G' := G.out; clear * - G'; omega) (by have G' := G.out; clear * - G'; omega)
    (by have G' := G.out; clear * - G'; omega) (by have G' := G.out; clear * - G'; omega)).1
  simp only [setMem_setMem, setMem_mem] at hput1
  have hn : NEXT_BLKP (s.setMem (wr32 (wr32 M1 (b.bp - 4) (b.size - asize))
      (b.bp + (b.size - asize) - 8) (b.size - asize))) b.bp = b.bp + (b.size - asize) :=
    NEXT_BLKP_tag _ _ (b.size - asize) 0 (by have G' := G.out; clear * - G'; omega)
      (by have G' := G.out; clear * - G'; omega) (by have G' := G.out; clear * - G'; omega)
      (by omega)
      (by
        show rd32 (wr32 (wr32 M1 (b.bp - 4) (b.size - asize)) (b.bp + (b.size - asize) - 8)
          (b.size - asize)) (b.bp - 4) = b.size - asize + 0
        have G' := G.out
        rw [rd32_wr32_disj _ _ _ _ (by clear * - G'; omega),
          rd32_wr32_same _ _ _ (by clear * - G'; omega)]
        rfl)
  have hput2 := (put_hdr_ftr (s.setMem (wr32 (wr32 M1 (b.bp - 4) (b.size - asize))
    (b.bp + (b.size - asize) - 8) (b.size - asize))) (b.bp + (b.size - asize)) asize
    (by have G' := G.out; clear * - G'; omega) (by have G' := G.out; clear * - G'; omega)
    (by have G' := G.out; clear * - G'; omega) h8).2
  simp only [setMem_setMem, setMem_mem] at hput2
  have hev := place_eval3 fuel s _ _ _ b.bp asize b.size (b.size - asize)
    (b.bp + (b.size - asize)) hcs hpd hpad hgt e1 hput1 hn hput2
  have hmid' : Layout b.bp [(⟨b.bp, b.size - asize, false⟩ : Blk),
      ⟨b.bp + (b.size - asize), asize, true⟩] (b.bp + b.size) := by
    have G' := G.out
    refine Layout_cons.2 ⟨rfl, ?_, ?_, Layout_cons.2 ⟨rfl, h16, h8, Layout_nil.2 ?_⟩⟩
    · show 16 ≤ b.size - asize
      clear * - G'; omega
    · show (b.size - asize) % 8 = 0
      clear * - G'; omega
    · show b.bp + (b.size - asize) + asize = b.bp + b.size
      clear * - G'; omega
  obtain ⟨M', fl', a1, a2, a3, a4, _⟩ := w1.retag_add_frame
    [⟨b.bp, b.size - asize, false⟩, ⟨b.bp + (b.size - asize), asize, true⟩] hlpre hmid hmid'
    (wr32 (wr32 (wr32 (wr32 M1 (b.bp - 4) (b.size - asize)) (b.bp + (b.size - asize) - 8)
      (b.size - asize)) (b.bp + (b.size - asize) - 4) (asize + 1))
      (b.bp + (b.size - asize) + asize - 8) (asize + 1))
    (by
      intro a ha
      have G' := G.out
      rw [wr32_outside _ _ _ _ (by clear * - G' ha; omega),
        wr32_outside _ _ _ _ (by clear * - G' ha; omega),
        wr32_outside _ _ _ _ (by clear * - G' ha; omega),
        wr32_outside _ _ _ _ (by clear * - G' ha; omega)]
      rfl)
    (by
      intro d hd
      have G' := G.out
      simp only [List.mem_cons, List.mem_singleton, List.not_mem_nil, or_false] at hd
      rcases hd with rfl | rfl
      · simp only [Blk.tag, Bool.false_eq_true, if_false, Nat.add_zero]
        constructor
        · rw [rd32_wr32_disj _ _ _ _ (by clear * - G'; omega),
            rd32_wr32_disj _ _ _ _ (by clear * - G'; omega),
            rd32_wr32_disj _ _ _ _ (by clear * - G'; omega),
            rd32_wr32_same _ _ _ (by clear * - G'; omega)]
        · rw [rd32_wr32_disj _ _ _ _ (by clear * - G'; omega),
            rd32_wr32_disj _ _ _ _ (by clear * - G'; omega),
            rd32_wr32_same _ _ _ (by clear * - G'; omega)]
      · simp only [Blk.tag, if_true]
        constructor
        · rw [rd32_wr32_disj _ _ _ _ (by clear * - G'; omega),
            rd32_wr32_same _ _ _ (by clear * - G'; omega)]
        · rw [rd32_wr32_same _ _ _ (by clear * - G'; omega)])
    hnm hc1 ⟨b.bp, b.size - asize, false⟩ (by simp) rfl
    (by
      intro d hd hne
      simp only [List.mem_cons, List.mem_singleton, List.not_mem_nil, or_false] at hd
      rcases hd with rfl | rfl
      · exact absurd rfl hne
      · rfl)
    fuel hfuel
  simp only [setMem_setMem, setMem_mem] at a1 a2 a4
  refine ⟨M', fl', by rw [hev, a1]; rfl, a2, a3, fun a ha => ?_⟩
  rw [a4 a (@inAlloc_drop _ [b] _ _ (by intro d hd; rw [List.mem_singleton.1 hd]; exact hb)
    (by simpa using ha))]
  exact u1 a ha

theorem place_spec {s : Heap} {pre post : List Blk} {b : Blk} {fl : Nat → List Nat}
    (h : WF s (pre ++ b :: post) fl) (hcomp : Complete (pre ++ b :: post) fl)
    (hb : b.alloc = false) (asize : Nat) (h16 : 16 ≤ asize) (h8 : asize % 8 = 0)
    (hle : asize ≤ b.size) (fuel : Nat) (hfuel : 1 ≤ fuel) :
    ∃ M fl', place fuel s b.bp asize = some ((placeBlocks b asize).2, s.setMem M) ∧
      WF (s.setMem M) (pre ++ (placeBlocks b asize).1 ++ post) fl' ∧
      Complete (pre ++ (placeBlocks b asize).1 ++ post) fl' ∧
      (∀ a, InAlloc (pre ++ b :: post) a → M a = s.mem a) := by
  unfold placeBlocks
  by_cases hpad : b.size - asize < 16
  · simp only [hpad, if_true]
    exact place_whole h hcomp hb asize hle hpad fuel
  · by_cases hgt : asize > 200
    · simp only [hpad, hgt, if_true, if_false]
      exact place_front h hcomp hb asize h16 h8 hle hpad hgt fuel hfuel
    · simp only [hpad, hgt, if_false]
      exact place_back h hcomp hb asize h16 h8 hle hpad hgt fuel hfuel

theorem chain_replace {R : Blk → Blk → Prop} {pre post mid mid' : List Blk}
    (h : List.Chain' R (pre ++ mid ++ post)) (hm : List.Chain' R mid')
    (hne : mid' ≠ [])
    (hl : ∀ x ∈ pre.getLast?, ∀ y ∈ mid'.head?, R x y)
    (hr : ∀ x ∈ mid'.getLast?, ∀ y ∈ post.head?, R x y) :
    List.Chain' R (pre ++ mid' ++ post) := by
  rw [List.chain'_append] at h ⊢
  obtain ⟨h1, h2, _⟩ := h
  rw [List.chain'_append] at h1 ⊢
  refine ⟨⟨h1.1, hm, hl⟩, h2, ?_⟩
  intro x hx y hy
  rw [List.getLast?_append_of_ne_nil _ hne] at hx
  exact hr x hx y hy

theorem noAdjFree_place {pre post : List Blk} {b : Blk} (asize : Nat)
    (h : NoAdjFree (pre ++ b :: post)) (hb : b.alloc = false) :
    NoAdjFree (pre ++ (placeBlocks b asize).1 ++ post) := by
  unfold NoAdjFree at *
  have h0 : List.Chain' (fun b c : Blk => b.alloc = true ∨ c.alloc = true)
      (pre ++ [b] ++ post) := by simpa using h
  have hl : ∀ x ∈ pre.getLast?, x.alloc = true := by
    intro x hx
    have := (List.chain'_append.1 (List.chain'_append.1 h0).1).2.2 x hx b (by simp)
    simpa [hb] using this
  have hr : ∀ y ∈ post.head?, y.alloc = true := by
    intro y hy
    have := (List.chain'_append.1 h0).2.2 b (by simp) y hy
    simpa [hb] using this
  apply chain_replace h0
  · unfold placeBlocks
    split
    · simp
    · split <;> simp
  · unfold placeBlocks
    split
    · simp
    · split <;> simp
  · intro x hx y _
    exact Or.inl (hl x hx)
  · intro x _ y hy
    exact Or.inr (hr y hy)

theorem placeBlocks_ret (b : Blk) (asize : Nat) (hle : asize ≤ b.size) :
    ∃ c ∈ (placeBlocks b asize).1, c.bp = (placeBlocks b asize).2 ∧ c.alloc = true ∧
      asize ≤ c.size := by
  unfold placeBlocks
  split
  · exact ⟨_, List.mem_singleton_self _, rfl, rfl, hle⟩
  · split
    · exact ⟨⟨b.bp, asize, true⟩, by simp, rfl, rfl, le_refl _⟩
    · exact ⟨⟨b.bp + (b.size - asize), asize, true⟩, by simp, rfl, rfl, le_refl _⟩

@[simp] theorem setBrk_mem (s : Heap) (b : Nat) : (s.setBrk b).mem = s.mem := rfl
@[simp] theorem setBrk_brk (s : Heap) (b : Nat) : (s.setBrk b).mem_brk = b := rfl
@[simp] theorem setBrk_seg (s : Heap) (b : Nat) : (s.setBrk b).seg_list_ptr = s.seg_list_ptr := rfl
@[simp] theorem setBrk_max (s : Heap) (b : Nat) : (s.setBrk b).mem_max_addr = s.mem_max_addr := rfl
@[simp] theorem setBrk_hp (s : Heap) (b : Nat) : (s.setBrk b).heap_ptr = s.heap_ptr := rfl
@[simp] theorem setBrk_start (s : Heap) (b : Nat) :
    (s.setBrk b).mem_start_brk = s.mem_start_brk := rfl

/-- Growing the heap by one well-tagged free block and a new epilogue. -/
theorem WF.extend {s : Heap} {bl : List Blk} {fl : Nat → List Nat} (h : WF s bl fl)
    (size : Nat) (h16 : 16 ≤ size) (h8 : size % 8 = 0)
    (hmax : s.mem_brk + size ≤ s.mem_max_addr) (M : Nat → Nat)
    (hM : ∀ a, a < s.mem_brk - 4 → M a = s.mem a)
    (hh : rd32 M (s.mem_brk - 4) = size) (hf : rd32 M (s.mem_brk + size - 8) = size)
    (he : rd32 M (s.mem_brk + size - 4) = 1) :
    WF ((s.setBrk (s.mem_brk + size)).setMem M) (bl ++ [⟨s.mem_brk, size, false⟩]) fl := by
  have hb := h.brk_ge
  have rdlow : ∀ p, p + 4 ≤ s.mem_brk - 4 → rd32 M p = rd32 s.mem p :=
    fun p hp => rd32_congr _ _ _ (fun i hi => hM _ (by omega))
  exact {
    start := h.start
    hp := h.hp
    brk_le := hmax
    max_lt := h.max_lt
    pad := by
      show rd32 M (s.seg_list_ptr + 96) = 0
      rw [rdlow _ (by omega)]; exact h.pad
    pro_h := by
      show rd32 M (s.seg_list_ptr + 100) = 9
      rw [rdlow _ (by omega)]; exact h.pro_h
    pro_f := by
      show rd32 M (s.seg_list_ptr + 104) = 9
      rw [rdlow _ (by omega)]; exact h.pro_f
    layout := Layout.append.2 ⟨s.mem_brk, h.layout,
      Layout_cons.2 ⟨rfl, h16, h8, Layout_nil.2 rfl⟩⟩
    epi := he
    tags := by
      intro b hbm
      rcases List.mem_append.1 hbm with hbm | hbm
      · have := h.bounds hbm
        show rd32 M (b.bp - 4) = b.tag ∧ rd32 M (b.bp + b.size - 8) = b.tag
        rw [rdlow _ (by omega), rdlow _ (by omega)]
        exact h.tags b hbm
      · rw [List.mem_singleton.1 hbm]
        simp only [Blk.tag, Bool.false_eq_true, if_false, Nat.add_zero]
        exact ⟨hh, hf⟩
    heads := by
      intro i hi
      show rd32 M (s.seg_list_ptr + 4 * i) = _
      rw [rdlow _ (by omega)]; exact h.heads i hi
    links := by
      intro i hi
      refine (h.links i hi).frame (fun y hy => ?_)
      obtain ⟨d, hd, rfl, _, _⟩ := h.member hi hy
      have := h.bounds hd
      exact ⟨rdlow _ (by omega), rdlow _ (by omega)⟩
    sound := by
      intro i hi x hx
      obtain ⟨d, hd, r⟩ := h.sound i hi x hx
      exact ⟨d, List.mem_append_left _ hd, r⟩
    nodup := h.nodup }

theorem extend_heap_fail (fuel : Nat) (s : Heap) (words : Nat)
    (h : s.mem_brk + extend_heap_size words > s.mem_max_addr) :
    extend_heap fuel s words = some (NULL, s) := by
  simp [extend_heap, mem_sbrk, h]

theorem extend_heap_eval (fuel : Nat) (s s2 s3 : Heap) (words size : Nat)
    (hsz : extend_heap_size words = size) (hok : ¬ s.mem_brk + size > s.mem_max_addr)
    (hne : s.mem_brk ≠ 4294967295)
    (hs2 : PUT (PUT (PUT (s.setBrk (s.mem_brk + size)) (HDRP s.mem_brk) (PACK size 0))
      (FTRP (PUT (s.setBrk (s.mem_brk + size)) (HDRP s.mem_brk) (PACK size 0)) s.mem_brk)
        (PACK size 0))
      (HDRP (NEXT_BLKP (PUT (PUT (s.setBrk (s.mem_brk + size)) (HDRP s.mem_brk) (PACK size 0))
      (FTRP (PUT (s.setBrk (s.mem_brk + size)) (HDRP s.mem_brk) (PACK size 0)) s.mem_brk)
        (PACK size 0)) s.mem_brk)) (PACK 0 1) = s2)
    (hadd : add_seglist fuel s2 s.mem_brk size = some s3) :
    extend_heap fuel s words = coalesce fuel s3 s.mem_brk := by
  subst hsz hs2
  unfold extend_heap mem_sbrk
  simp only [hok, if_false, hne]
  simp only [Heap.setBrk] at hadd
  rw [hadd]

theorem extend_heap_spec {s : Heap} {bl : List Blk} {fl : Nat → List Nat} (h : WF s bl fl)
    (hcomp : Complete bl fl) (words size : Nat) (hsz : extend_heap_size words = size)
    (h16 : 16 ≤ size) (h8 : size % 8 = 0) (hok : s.mem_brk + size ≤ s.mem_max_addr)
    (fuel : Nat) (hfuel : 1 ≤ fuel) :
    ∃ M fl', extend_heap fuel s words =
        some ((mergedBlk bl ⟨s.mem_brk, size, false⟩ []).bp,
          (s.setBrk (s.mem_brk + size)).setMem M) ∧
      WF ((s.setBrk (s.mem_brk + size)).setMem M) (coalesced bl ⟨s.mem_brk, size, false⟩ []) fl' ∧
      Complete (coalesced bl ⟨s.mem_brk, size, false⟩ []) fl' ∧
      (∀ a, InAlloc bl a → M a = s.mem a) := by
  have G : Hid (s.seg_list_ptr + 112 ≤ s.mem_brk ∧ s.mem_brk + size ≤ s.mem_max_addr ∧
      s.mem_max_addr < 4294967296 ∧ 16 ≤ size ∧ size % 8 = 0) :=
    ⟨⟨h.brk_ge.1, hok, h.max_lt, h16, h8⟩⟩
  have hput := (put_hdr_ftr (s.setBrk (s.mem_brk + size)) s.mem_brk size
    (by have G' := G.out; clear * - G'; omega) (by have G' := G.out; clear * - G'; omega)
    (by have G' := G.out; clear * - G'; omega) h8).1
  simp only [setBrk_mem] at hput
  have hn : NEXT_BLKP ((s.setBrk (s.mem_brk + size)).setMem
      (wr32 (wr32 s.mem (s.mem_brk - 4) size) (s.mem_brk + size - 8) size)) s.mem_brk
        = s.mem_brk + size :=
    NEXT_BLKP_tag _ _ size 0 (by have G' := G.out; clear * - G'; omega)
      (by have G' := G.out; clear * - G'; omega) h8 (by omega)
      (by
        show rd32 (wr32 (wr32 s.mem (s.mem_brk - 4) size) (s.mem_brk + size - 8) size)
          (s.mem_brk - 4) = size + 0
        have G' := G.out
        rw [rd32_wr32_disj _ _ _ _ (by clear * - G'; omega),
          rd32_wr32_same _ _ _ (by clear * - G'; omega)]
        rfl)
  have hhd : HDRP (s.mem_brk + size) = s.mem_brk + size - 4 :=
    HDRP_eq _ (by have G' := G.out; clear * - G'; omega)
      (by have G' := G.out; clear * - G'; omega)
  have hs2 : PUT (PUT (PUT (s.setBrk (s.mem_brk + size)) (HDRP s.mem_brk) (PACK size 0))
      (FTRP (PUT (s.setBrk (s.mem_brk + size)) (HDRP s.mem_brk) (PACK size 0)) s.mem_brk)
        (PACK size 0))
      (HDRP (NEXT_BLKP (PUT (PUT (s.setBrk (s.mem_brk + size)) (HDRP s.mem_brk) (PACK size 0))
      (FTRP (PUT (s.setBrk (s.mem_brk + size)) (HDRP s.mem_brk) (PACK size 0)) s.mem_brk)
        (PACK size 0)) s.mem_brk)) (PACK 0 1) =
      (s.setBrk (s.mem_brk + size)).setMem
        (wr32 (wr32 (wr32 s.mem (s.mem_brk - 4) size) (s.mem_brk + size - 8) size)
          (s.mem_brk + size - 4) 1) := by
    rw [hput, hn, hhd, PUT_eq]
    rfl
  have w1 := h.extend size h16 h8 hok
    (wr32 (wr32 (wr32 s.mem (s.mem_brk - 4) size) (s.mem_brk + size - 8) size)
      (s.mem_brk + size - 4) 1)
    (by
      intro a ha
      have G' := G.out
      rw [wr32_outside _ _ _ _ (by clear * - G' ha; omega),
        wr32_outside _ _ _ _ (by clear * - G' ha; omega),
        wr32_outside _ _ _ _ (by clear * - G' ha; omega)])
    (by
      have G' := G.out
      rw [rd32_wr32_disj _ _ _ _ (by clear * - G'; omega),
        rd32_wr32_disj _ _ _ _ (by clear * - G'; omega),
        rd32_wr32_same _ _ _ (by clear * - G'; omega)])
    (by
      have G' := G.out
      rw [rd32_wr32_disj _ _ _ _ (by clear * - G'; omega),
        rd32_wr32_same _ _ _ (by clear * - G'; omega)])
    (by
      rw [rd32_wr32_same _ _ _ (by omega)])
  have hnot : ∀ j, j < 24 → (⟨s.mem_brk, size, false⟩ : Blk).bp ∉ fl j := by
    intro j hj hx
    obtain ⟨d, hd, e, _, _⟩ := h.member hj hx
    have := h.bounds hd
    have e' : d.bp = s.mem_brk := e
    omega
  obtain ⟨M4, fl4, e4, w4, u4, m4, _⟩ := add_seglist_mem w1
    (b := ⟨s.mem_brk, size, false⟩) (by simp) rfl hnot fuel hfuel
  simp only [setMem_setMem, setMem_mem] at e4 w4 u4
  have hcomp4 : Complete (bl ++ [⟨s.mem_brk, size, false⟩]) fl4 := by
    intro d hd hdf
    rcases List.mem_append.1 hd with hd | hd
    · exact (m4 _ (classOf_lt _) _).2 (Or.inr (hcomp d hd hdf))
    · rw [List.mem_singleton.1 hd]
      exact (m4 _ (classOf_lt _) _).2 (Or.inl ⟨rfl, rfl⟩)
  obtain ⟨M5, fl5, e5, w5, c5, u5⟩ := @coalesce_spec _ bl [] ⟨s.mem_brk, size, false⟩ _ w4 hcomp4 rfl fuel hfuel
  simp only [setMem_setMem, setMem_mem] at e5 w5 u5
  have hne : s.mem_brk ≠ 4294967295 := by
    have G' := G.out; clear * - G'; omega
  have hev := extend_heap_eval fuel s _ _ words size hsz
    (by have G' := G.out; clear * - G'; omega) hne hs2 e4
  refine ⟨M5, fl5, by rw [hev]; exact e5, w5, c5, fun a ha => ?_⟩
  have ha1 : InAlloc (bl ++ [⟨s.mem_brk, size, false⟩]) a := by
    obtain ⟨d, hd, r⟩ := ha
    exact ⟨d, List.mem_append_left _ hd, r⟩
  rw [u5 a ha1, u4 a (w1.inAlloc_untouched ha1)]
  obtain ⟨d, hd, _, _, h2⟩ := ha
  have hdb := h.bounds hd
  have G' := G.out
  rw [wr32_outside _ _ _ _ (by clear * - G' hdb h2; omega),
    wr32_outside _ _ _ _ (by clear * - G' hdb h2; omega),
    wr32_outside _ _ _ _ (by clear * - G' hdb h2; omega)]

theorem GET_SEG_LIST_PTR_eq (s : Heap) (i : Nat) (h : s.seg_list_ptr + 4 * i < 4294967296) :
    GET_SEG_LIST_PTR s s.seg_list_ptr i = rd32 s.mem (s.seg_list_ptr + 4 * i) := by
  unfold GET_SEG_LIST_PTR GET u32 WSIZE
  rw [Nat.mod_eq_of_lt h]

theorem fit_scan_spec (s : Heap) (asize : Nat) : ∀ (l : List Nat) (t fuel : Nat),
    Links s.mem t l → (∀ x ∈ l, x ≠ 0) → l.length < fuel →
    ∃ r, fit_scan s asize fuel (l.headD 0) = some r ∧
      ((r = 0 ∧ ∀ x ∈ l, asize > GET_BLK_SIZE s x) ∨ (r ∈ l ∧ asize ≤ GET_BLK_SIZE s r))
  | [], _, fuel, _, _, hf => by
    obtain ⟨k, rfl⟩ : ∃ k, fuel = k + 1 := ⟨fuel - 1, by simp at hf; omega⟩
    exact ⟨0, by simp [fit_scan, NULL], Or.inl ⟨rfl, by simp⟩⟩
  | x :: xs, _, fuel, hl, hnz, hf => by
    obtain ⟨k, rfl⟩ : ∃ k, fuel = k + 1 := ⟨fuel - 1, by simp at hf; omega⟩
    obtain ⟨_, h2, h3⟩ := Links_cons.1 hl
    have hx : x ≠ 0 := hnz x (List.mem_cons_self _ _)
    by_cases hc : asize > GET_BLK_SIZE s x
    · obtain ⟨r, hr, hres⟩ := fit_scan_spec s asize xs x k h3
        (fun y hy => hnz y (List.mem_cons_of_mem _ hy)) (by simp at hf; omega)
      refine ⟨r, ?_, ?_⟩
      · have e : SEG_PREV_BLKP s x = xs.headD 0 := h2
        simp only [List.headD_cons, fit_scan, NULL, ne_eq, hx, not_false_eq_true, hc, and_self,
          if_true, e]
        exact hr
      · rcases hres with ⟨h0, hall⟩ | ⟨hm, hsz⟩
        · refine Or.inl ⟨h0, fun y hy => ?_⟩
          rcases List.mem_cons.1 hy with rfl | hy
          · exact hc
          · exact hall y hy
        · exact Or.inr ⟨List.mem_cons_of_mem _ hm, hsz⟩
    · refine ⟨x, ?_, Or.inr ⟨List.mem_cons_self _ _, by omega⟩⟩
      simp [fit_scan, hc]

theorem WF.list_length_le {s : Heap} {bl : List Blk} {fl : Nat → List Nat} (h : WF s bl fl)
    (i : Nat) (hi : i < 24) : (fl i).length ≤ bl.length := by
  have hsub : fl i ⊆ bl.map Blk.bp := by
    intro x hx
    obtain ⟨b, hb, e, _, _⟩ := h.member hi hx
    exact List.mem_map.2 ⟨b, hb, e⟩
  have := (List.subperm_of_subset (h.nodup i hi) hsub).length_le
  simpa using this

theorem find_fit_rec_spec {s : Heap} {bl : List Blk} {fl : Nat → List Nat} (h : WF s bl fl)
    (asize fuel : Nat) (hfuel : bl.length < fuel) :
    ∀ depth csize index, 1 ≤ depth → 26 ≤ index + depth →
      ∃ r, find_fit_rec fuel s asize depth csize index = some r ∧
        (r = 0 ∨ ∃ i, i < 24 ∧ r ∈ fl i ∧ asize ≤ GET_BLK_SIZE s r) := by
  intro depth
  induction depth with
  | zero => intro _ _ h1 _; omega
  | succ depth ih =>
    intro csize index _ h26
    by_cases hi : index > SEG_SIZE
    · exact ⟨0, by simp [find_fit_rec, hi, NULL], Or.inl rfl⟩
    · have hi24 : index ≤ 24 := by simp only [SEG_SIZE] at hi; omega
      obtain ⟨r', hr', hres'⟩ := ih (csize >>> 1) (index + 1) (by omega) (by omega)
      have hbrk := h.brk_ge
      by_cases hcond : csize ≤ 1 ∧ GET_SEG_LIST_PTR s s.seg_list_ptr index ≠ NULL
      · have hlt : index < 24 := by
          by_contra hge
          have e : index = 24 := by omega
          apply hcond.2
          rw [e, GET_SEG_LIST_PTR_eq _ _ (by omega)]
          exact h.pad
        have hhead : GET_SEG_LIST_PTR s s.seg_list_ptr index = (fl index).headD 0 := by
          rw [GET_SEG_LIST_PTR_eq _ _ (by omega)]
          exact h.heads index hlt
        obtain ⟨r, hr, hres⟩ := fit_scan_spec s asize (fl index) 0 fuel (h.links index hlt)
          (by
            intro x hx
            obtain ⟨b, hb, e, _, _⟩ := h.member hlt hx
            have := h.bounds hb
            omega)
          (lt_of_le_of_lt (h.list_length_le index hlt) hfuel)
        rw [← hhead] at hr
        by_cases hr0 : r = 0
        · refine ⟨r', ?_, hres'⟩
          subst hr0
          simp [find_fit_rec, hi, hcond, hr, hr', NULL]
        · refine ⟨r, ?_, Or.inr ⟨index, hlt, ?_⟩⟩
          · have hsp : GET_SEG_LIST_PTR s s.seg_list_ptr index ≠ 0 := hcond.2
            simp [find_fit_rec, hi, hcond.1, hsp, hr, hr0, NULL]
          · rcases hres with ⟨h0, _⟩ | hm
            · exact absurd h0 hr0
            · exact hm
      · refine ⟨r', ?_, hres'⟩
        simp only [find_fit_rec, hi, if_false, hcond]
        exact hr'

theorem find_fit_spec {s : Heap} {bl : List Blk} {fl : Nat → List Nat} (h : WF s bl fl)
    (asize csize fuel : Nat) (hfuel : bl.length < fuel) :
    ∃ r, find_fit fuel s asize csize 0 = some r ∧
      (r = 0 ∨ ∃ b ∈ bl, b.bp = r ∧ b.alloc = false ∧ asize ≤ b.size) := by
  obtain ⟨r, hr, hres⟩ := find_fit_rec_spec h asize fuel hfuel (SEG_SIZE + 2 - 0) csize 0
    (by simp [SEG_SIZE]) (by simp [SEG_SIZE])
  refine ⟨r, hr, ?_⟩
  rcases hres with h0 | ⟨i, hi, hm, hsz⟩
  · exact Or.inl h0
  · obtain ⟨b, hb, e, hf, _⟩ := h.member hi hm
    refine Or.inr ⟨b, hb, e, hf, ?_⟩
    rw [← e, h.blk_size hb] at hsz
    exact hsz

theorem heap_chain_blocks {s : Heap} {bl : List Blk} {fl : Nat → List Nat} (h : WF s bl fl) :
    ∀ (l : List Blk) (a fuel : Nat), Layout a l s.mem_brk → (∀ b ∈ l, b ∈ bl) →
      s.seg_list_ptr + 112 ≤ a → l.length < fuel →
      heap_chain s fuel a = some (l.map Blk.bp)
  | [], a, fuel, hl, _, ha, hf => by
    obtain ⟨k, rfl⟩ : ∃ k, fuel = k + 1 := ⟨fuel - 1, by simp at hf; omega⟩
    have e : a = s.mem_brk := Layout_nil.1 hl
    have hb := h.brk_ge
    have hz : GET_SIZE s (HDRP a) = 0 := by
      rw [e, HDRP_eq _ (by omega) (by omega)]
      unfold GET_SIZE GET
      rw [h.epi]; decide
    simp [heap_chain, hz]
  | b :: bs, a, fuel, hl, hsub, ha, hf => by
    obtain ⟨k, rfl⟩ : ∃ k, fuel = k + 1 := ⟨fuel - 1, by simp at hf; omega⟩
    obtain ⟨e, h16, h8, hl'⟩ := Layout_cons.1 hl
    have hbm : b ∈ bl := hsub b (List.mem_cons_self _ _)
    have hbb := h.bounds hbm
    have hsz : GET_SIZE s (HDRP b.bp) = b.size := h.blk_size hbm
    have hnx : NEXT_BLKP s b.bp = b.bp + b.size :=
      NEXT_BLKP_tag s b.bp b.size (if b.alloc then 1 else 0) (by omega) (by omega) h8
        (by split <;> omega) (h.tags b hbm).1
    have ih := heap_chain_blocks h bs (b.bp + b.size) k (e ▸ hl')
      (fun c hc => hsub c (List.mem_cons_of_mem _ hc)) (by omega) (by simp at hf; omega)
    subst e
    have hne : b.bp ≠ NULL := by unfold NULL; omega
    have hsz0 : GET_SIZE s (HDRP b.bp) ≠ 0 := by rw [hsz]; omega
    simp [heap_chain, hne, hsz0, hnx, ih]

/-- The walk of `mm_check` visits the prologue and then exactly the blocks of
the abstract block list. -/
theorem WF.heap_chain_eq {s : Heap} {bl : List Blk} {fl : Nat → List Nat} (h : WF s bl fl)
    (fuel : Nat) (hf : bl.length + 1 < fuel) :
    heap_chain s fuel s.heap_ptr = some (s.heap_ptr :: bl.map Blk.bp) := by
  obtain ⟨k, rfl⟩ : ∃ k, fuel = k + 1 := ⟨fuel - 1, by omega⟩
  have hb := h.brk_ge
  have hhp := h.hp
  have e : HDRP s.heap_ptr = s.seg_list_ptr + 100 := by
    rw [HDRP_eq _ (by omega) (by omega)]; omega
  have hsz : GET_SIZE s (HDRP s.heap_ptr) = 8 := by
    rw [e]; unfold GET_SIZE GET; rw [h.pro_h]; decide
  have hnx : NEXT_BLKP s s.heap_ptr = s.seg_list_ptr + 112 := by
    show u32 (s.heap_ptr + GET_SIZE s (HDRP s.heap_ptr)) = _
    rw [hsz]; unfold u32; omega
  have ih := heap_chain_blocks h bl (s.seg_list_ptr + 112) k h.layout (fun _ hb => hb)
    (le_refl _) (by omega)
  have hne : s.heap_ptr ≠ NULL := by unfold NULL; omega
  simp [heap_chain, hne, hsz, hnx, ih]

theorem init_loop_spec : ∀ (k i : Nat) (s : Heap), s.seg_list_ptr + 4 * (i + k) < 4294967296 →
    ∃ M, init_loop k i s = s.setMem M ∧
      (∀ j, i ≤ j → j < i + k → rd32 M (s.seg_list_ptr + 4 * j) = 0) ∧
      (∀ a, a < s.seg_list_ptr + 4 * i ∨ s.seg_list_ptr + 4 * (i + k) ≤ a → M a = s.mem a)
  | 0, i, s, _ => ⟨s.mem, rfl, fun j h1 h2 => by omega, fun _ _ => rfl⟩
  | k + 1, i, s, hlt => by
    have e : SET_SEG_LIST_PTR s s.seg_list_ptr i NULL
        = s.setMem (wr32 s.mem (s.seg_list_ptr + 4 * i) 0) := by
      unfold SET_SEG_LIST_PTR u32 WSIZE NULL
      rw [Nat.mod_eq_of_lt (by omega), PUT_eq]
    obtain ⟨M, h1, h2, h3⟩ := init_loop_spec k (i + 1)
      (s.setMem (wr32 s.mem (s.seg_list_ptr + 4 * i) 0)) (by
        show s.seg_list_ptr + 4 * (i + 1 + k) < 4294967296
        omega)
    simp only [setMem_setMem, setMem_seg, setMem_mem] at h1 h2 h3
    refine ⟨M, by simp only [init_loop, e, h1], ?_, ?_⟩
    · intro j hj1 hj2
      rcases Nat.lt_or_ge i j with hij | hij
      · exact h2 j (by omega) (by omega)
      · have : j = i := by omega
        subst this
        rw [rd32_congr _ _ _ (fun t ht => h3 _ (Or.inl (by omega)))]
        exact rd32_wr32_same _ _ _ (by omega)
    · intro a ha
      rw [h3 a (by omega)]
      exact wr32_outside _ _ _ _ (by omega)

theorem init_seglist_eq (s0 : Heap) (h96 : s0.mem_brk + 96 ≤ s0.mem_max_addr)
    (hmax : s0.mem_max_addr < 4294967296) :
    ∃ M0, init_seglist s0 =
        { mem := M0, mem_start_brk := s0.mem_start_brk, mem_brk := s0.mem_brk + 96,
          mem_max_addr := s0.mem_max_addr, heap_ptr := s0.heap_ptr,
          seg_list_ptr := s0.mem_brk } ∧
      ∀ j, j < 24 → rd32 M0 (s0.mem_brk + 4 * j) = 0 := by
  obtain ⟨M0, l1, l2, _⟩ := init_loop_spec SEG_SIZE 0
    { mem := s0.mem, mem_start_brk := s0.mem_start_brk, mem_brk := s0.mem_brk + 96,
      mem_max_addr := s0.mem_max_addr, heap_ptr := s0.heap_ptr, seg_list_ptr := s0.mem_brk }
    (by show s0.mem_brk + 4 * (0 + SEG_SIZE) < 4294967296; unfold SEG_SIZE; omega)
  refine ⟨M0, ?_, fun j hj => l2 j (by omega) (by unfold SEG_SIZE; omega)⟩
  unfold init_seglist mem_sbrk
  have hc : ¬ s0.mem_brk + SEG_SIZE * WSIZE > s0.mem_max_addr := by
    unfold SEG_SIZE WSIZE; omega
  simp only [hc, if_false]
  exact l1

/-- The state that `mm_init` builds before it asks for the first free block:
the cleared class table, the padding word, the prologue and the epilogue. -/
theorem mm_init_prefix (fuel : Nat) (s0 : Heap) (hf : Fresh s0)
    (hcap : s0.mem_brk + 112 ≤ s0.mem_max_addr) :
    ∃ s1, mm_init fuel s0 =
        (match extend_heap fuel s1 (CHUNKSIZE / WSIZE) with
          | none => none
          | some (bp, s) => if bp = NULL then some (-1, s) else some (0, s)) ∧
      WF s1 [] (fun _ => []) ∧ s1.seg_list_ptr = s0.mem_brk ∧
      s1.mem_brk = s0.mem_brk + 112 ∧ s1.mem_max_addr = s0.mem_max_addr := by
  obtain ⟨hb, h8, hmax, h96⟩ := hf
  obtain ⟨M0, e1, l2⟩ := init_seglist_eq s0 h96 hmax
  generalize hM1 : wr32 (wr32 (wr32 (wr32 M0 (s0.mem_brk + 96) 0) (s0.mem_brk + 100) 9)
      (s0.mem_brk + 104) 9) (s0.mem_brk + 108) 1 = M1
  refine ⟨
    { mem := M1, mem_start_brk := s0.mem_start_brk,
      mem_brk := s0.mem_brk + 112, mem_max_addr := s0.mem_max_addr,
      heap_ptr := s0.mem_brk + 104, seg_list_ptr := s0.mem_brk }, ?_, ?_, rfl, rfl, rfl⟩
  · unfold mm_init
    rw [e1]
    unfold mem_sbrk
    have hc : ¬ s0.mem_brk + 96 + 4 * WSIZE > s0.mem_max_addr := by unfold WSIZE; omega
    have hne : s0.mem_brk + 96 ≠ 4294967295 := by omega
    have u1 : u32 (s0.mem_brk + 96 + 1 * WSIZE) = s0.mem_brk + 100 := by
      unfold u32 WSIZE; omega
    have u2 : u32 (s0.mem_brk + 96 + 2 * WSIZE) = s0.mem_brk + 104 := by
      unfold u32 WSIZE; omega
    have u3 : u32 (s0.mem_brk + 96 + 3 * WSIZE) = s0.mem_brk + 108 := by
      unfold u32 WSIZE; omega
    have p1 : PACK DSIZE 1 = 9 := by decide
    have p2 : PACK 0 1 = 1 := by decide
    have e4 : s0.mem_brk + 96 + 4 * WSIZE = s0.mem_brk + 112 := by unfold WSIZE; omega
    simp only [hc, if_false, hne, PUT, u1, u2, u3, p1, p2, hM1]
    rw [e4]
  · subst hM1
    have rdM0 : ∀ p, p + 4 ≤ s0.mem_brk + 96 → ∀ m v1 v2 v3 v4,
        m = wr32 (wr32 (wr32 (wr32 M0 (s0.mem_brk + 96) v1) (s0.mem_brk + 100) v2)
          (s0.mem_brk + 104) v3) (s0.mem_brk + 108) v4 → rd32 m p = rd32 M0 p := by
      intro p hp m v1 v2 v3 v4 hm
      subst hm
      rw [rd32_wr32_disj _ _ _ _ (by omega), rd32_wr32_disj _ _ _ _ (by omega),
        rd32_wr32_disj _ _ _ _ (by omega), rd32_wr32_disj _ _ _ _ (by omega)]
    exact {
      start := hb.symm
      hp := rfl
      brk_le := hcap
      max_lt := hmax
      pad := by
        show rd32 _ (s0.mem_brk + 96) = 0
        rw [rd32_wr32_disj _ _ _ _ (by omega), rd32_wr32_disj _ _ _ _ (by omega),
          rd32_wr32_disj _ _ _ _ (by omega), rd32_wr32_same _ _ _ (by omega)]
      pro_h := by
        show rd32 _ (s0.mem_brk + 100) = 9
        rw [rd32_wr32_disj _ _ _ _ (by omega), rd32_wr32_disj _ _ _ _ (by omega),
          rd32_wr32_same _ _ _ (by omega)]
      pro_f := by
        show rd32 _ (s0.mem_brk + 104) = 9
        rw [rd32_wr32_disj _ _ _ _ (by omega), rd32_wr32_same _ _ _ (by omega)]
      layout := Layout_nil.2 rfl
      epi := by
        show rd32 _ (s0.mem_brk + 112 - 4) = 1
        have e : s0.mem_brk + 112 - 4 = s0.mem_brk + 108 := by omega
        rw [e, rd32_wr32_same _ _ _ (by omega)]
      tags := by intro b hb; simp at hb
      heads := by
        intro i hi
        show rd32 _ (s0.mem_brk + 4 * i) = _
        rw [rdM0 _ (by omega) _ _ _ _ _ rfl]
        exact l2 i hi
      links := by intro i _; exact Links_nil.2 trivial
      sound := by intro i _ x hx; simp at hx
      nodup := by intro i _; exact List.nodup_nil }

theorem mm_init_spec (fuel : Nat) (hfuel : 1 ≤ fuel) (s0 : Heap) (hf : Fresh s0) :
    (s0.mem_brk + 176 ≤ s0.mem_max_addr →
      ∃ s fl, mm_init fuel s0 = some (0, s) ∧ Inv s [⟨s0.mem_brk + 112, 64, false⟩] fl ∧
        s.seg_list_ptr = s0.mem_brk ∧ s.mem_brk = s0.mem_brk + 176 ∧
        s.mem_max_addr = s0.mem_max_addr) ∧
    (¬ s0.mem_brk + 176 ≤ s0.mem_max_addr → ∀ s, mm_init fuel s0 ≠ some (0, s)) := by
  have hf' := hf
  obtain ⟨hb, h8, hmax, h96⟩ := hf
  constructor
  · intro hcap
    obtain ⟨s1, e1, w1, hseg, hbrk, hmx⟩ := mm_init_prefix fuel s0 hf' (by omega)
    obtain ⟨M, fl', e2, w2, c2, _⟩ := extend_heap_spec w1 (fun d hd => by simp at hd)
      (CHUNKSIZE / WSIZE) 64 (by decide) (by omega) (by omega) (by rw [hbrk, hmx]; omega)
      fuel hfuel
    have hco : coalesced [] (⟨s1.mem_brk, 64, false⟩ : Blk) [] = [⟨s0.mem_brk + 112, 64, false⟩] := by
      simp [coalesced, mergedBlk, mergeNext, mergePrev, hbrk]
    have hmb : (mergedBlk [] (⟨s1.mem_brk, 64, false⟩ : Blk) []).bp = s0.mem_brk + 112 := by
      simp [mergedBlk, mergeNext, mergePrev, hbrk]
    rw [hco] at w2 c2
    rw [hmb] at e2
    refine ⟨_, fl', ?_, ⟨w2, c2, ?_, ?_⟩, hseg, ?_, hmx⟩
    · rw [e1, e2]
      have : s0.mem_brk + 112 ≠ NULL := by unfold NULL; omega
      simp [this]
    · unfold NoAdjFree; simp
    · show s1.seg_list_ptr % 8 = 0
      rw [hseg, hb]; exact h8
    · show s1.mem_brk + 64 = s0.mem_brk + 176
      omega
  · intro hcap s hs
    by_cases h112 : s0.mem_brk + 112 ≤ s0.mem_max_addr
    · obtain ⟨s1, e1, w1, hseg, hbrk, hmx⟩ := mm_init_prefix fuel s0 hf' h112
      have hfail := extend_heap_fail fuel s1 (CHUNKSIZE / WSIZE) (by
        have e : extend_heap_size (CHUNKSIZE / WSIZE) = 64 := by decide
        rw [e, hbrk, hmx]; omega)
      rw [e1, hfail] at hs
      simp at hs
    · have hc : s0.mem_brk + 96 + 4 * WSIZE > s0.mem_max_addr := by unfold WSIZE; omega
      obtain ⟨M0, e1, _⟩ := init_seglist_eq s0 h96 hmax
      unfold mm_init at hs
      rw [e1] at hs
      unfold mem_sbrk at hs
      simp [hc] at hs

theorem malloc_asize_props (n : Nat) (h0 : 0 < n) (hn : n ≤ 4294967280) :
    24 ≤ malloc_asize n ∧ malloc_asize n % 8 = 0 ∧ n + 8 ≤ malloc_asize n ∧
      malloc_asize n < 4294967296 := by
  by_cases h : n ≤ 16
  · have e : malloc_asize n = 24 := by
      unfold malloc_asize DSIZE
      rw [if_pos (by omega)]
    rw [e]; omega
  · have e : malloc_asize n = n + 15 - (n + 15) % 8 := by
      unfold malloc_asize DSIZE
      rw [if_neg (by omega)]
      have e1 : u32 (n + 8) = n + 8 := by unfold u32; omega
      unfold ALIGN ALIGNMENT
      rw [e1]
      have e2 : u32 (n + 8 + (8 - 1)) = n + 15 := by unfold u32; omega
      rw [e2, and_MASK7 _ (by omega)]
    rw [e]; omega

theorem extend_size_max (asize : Nat) (h8 : asize % 8 = 0) (hlt : asize < 4294967296) :
    extend_heap_size (MAX asize DCHUNKSIZE / WSIZE) = MAX asize DCHUNKSIZE ∧
      asize ≤ MAX asize DCHUNKSIZE ∧ 16 ≤ MAX asize DCHUNKSIZE ∧
      MAX asize DCHUNKSIZE % 8 = 0 := by
  have hd : DCHUNKSIZE = 4096 := by decide
  unfold MAX extend_heap_size WSIZE u32
  rw [hd]
  split <;> (refine ⟨?_, ?_, ?_, ?_⟩ <;> try split) <;> omega

/-- The blocks before the merged block. -/
theorem coalesced_eq (pre : List Blk) (b : Blk) (post : List Blk) :
    coalesced pre b post =
      (mergePrev (mergeNext b post).1 pre.reverse).1.reverse ++
        mergedBlk pre b post :: (mergeNext b post).2 := rfl

theorem mergedBlk_free (pre : List Blk) (b : Blk) (post : List Blk) (hb : b.alloc = false) :
    (mergedBlk pre b post).alloc = false ∧ b.size ≤ (mergedBlk pre b post).size := by
  have h1 : (mergeNext b post).1.alloc = false ∧ b.size ≤ (mergeNext b post).1.size := by
    rcases post with _ | ⟨c, r⟩
    · exact ⟨hb, le_refl _⟩
    · cases hc : c.alloc <;> simp [mergeNext, hc, hb]
  unfold mergedBlk
  generalize (mergeNext b post).1 = m at h1
  rcases pre.reverse with _ | ⟨a, r⟩
  · exact h1
  · cases ha : a.alloc
    · simp only [mergePrev, ha, Bool.false_eq_true, if_false]
      exact ⟨trivial, le_trans h1.2 (Nat.le_add_left _ _)⟩
    · simp only [mergePrev, ha, if_true]
      exact h1

theorem coalesced_alloc_mem {pre post : List Blk} (b : Blk) {d : Blk} (hda : d.alloc = true) :
    d ∈ (mergePrev (mergeNext b post).1 pre.reverse).1.reverse ++ (mergeNext b post).2 ↔
      d ∈ pre ++ post := by
  have h2 : d ∈ (mergeNext b post).2 ↔ d ∈ post := by
    rcases post with _ | ⟨c, r⟩
    · simp [mergeNext]
    · cases hc : c.alloc
      · simp only [mergeNext, hc, Bool.false_eq_true, if_false, List.mem_cons]
        constructor
        · exact fun h => Or.inr h
        · rintro (h | h)
          · subst h; rw [hc] at hda; exact absurd hda (by simp)
          · exact h
      · simp [mergeNext, hc]
  have h1 : ∀ m : Blk, d ∈ (mergePrev m pre.reverse).1.reverse ↔ d ∈ pre := by
    intro m
    rcases list_nil_or_snoc pre with rfl | ⟨pre', a, rfl⟩
    · simp [mergePrev]
    · cases ha : a.alloc
      · simp only [List.reverse_append, List.reverse_cons, List.reverse_nil, List.nil_append,
          List.singleton_append, mergePrev, ha, Bool.false_eq_true, if_false,
          List.reverse_reverse, List.mem_append, List.mem_singleton]
        constructor
        · exact fun h => Or.inl h
        · rintro (h | h)
          · exact h
          · subst h; rw [ha] at hda; exact absurd hda (by simp)
      · simp [mergePrev, ha]
  simp only [List.mem_append, h1, h2]

theorem placeBlocks_ret2 (b : Blk) (asize : Nat) (hle : asize ≤ b.size) :
    ∃ c ∈ (placeBlocks b asize).1, c.bp = (placeBlocks b asize).2 ∧ c.alloc = true ∧
      asize ≤ c.size ∧ b.bp ≤ c.bp ∧ c.bp + c.size ≤ b.bp + b.size := by
  unfold placeBlocks
  split
  · exact ⟨_, List.mem_singleton_self _, rfl, rfl, hle, le_refl _, le_refl _⟩
  · split
    · exact ⟨⟨b.bp, asize, true⟩, by simp, rfl, rfl, le_refl _, le_refl _, by
        show b.bp + asize ≤ b.bp + b.size
        omega⟩
    · exact ⟨⟨b.bp + (b.size - asize), asize, true⟩, by simp, rfl, rfl, le_refl _, by
        show b.bp ≤ b.bp + (b.size - asize)
        omega, by
        show b.bp + (b.size - asize) + asize ≤ b.bp + b.size
        omega⟩

/-- Placing a request in the free block `b` of a heap that satisfies the
invariant. -/
theorem place_inv {s : Heap} {pre post : List Blk} {b : Blk} {fl : Nat → List Nat}
    (h : Inv s (pre ++ b :: post) fl) (hb : b.alloc = false) (asize : Nat) (h16 : 16 ≤ asize)
    (h8 : asize % 8 = 0) (hle : asize ≤ b.size) (fuel : Nat) (hfuel : 1 ≤ fuel) :
    ∃ p M bl' fl', place fuel s b.bp asize = some (p, s.setMem M) ∧
      Inv (s.setMem M) bl' fl' ∧
      (∀ a, InAlloc (pre ++ b :: post) a → M a = s.mem a) ∧
      (∀ d ∈ pre ++ b :: post, d.alloc = true → d ∈ bl' ∧ d.bp ≠ p) ∧
      (∃ c ∈ bl', c.bp = p ∧ c.alloc = true ∧ asize ≤ c.size) := by
  obtain ⟨M, fl', e, w, c, u⟩ := place_spec h.wf h.complete hb asize h16 h8 hle fuel hfuel
  obtain ⟨cb, hcm, hcp, hca, hcs, hlo, hhi⟩ := placeBlocks_ret2 b asize hle
  obtain ⟨hlpre, hlpost, hb16, _⟩ := h.wf.split_layout
  refine ⟨_, M, _, fl', e, ⟨w, c, noAdjFree_place asize h.noadj hb, h.aligned⟩, u, ?_,
    ⟨cb, List.mem_append_left _ (List.mem_append_right _ hcm), hcp, hca, hcs⟩⟩
  intro d hd hda
  have hd' : d ∈ pre ++ post := by
    rcases List.mem_append.1 hd with hd | hd
    · exact List.mem_append_left _ hd
    · rcases List.mem_cons.1 hd with hd | hd
      · subst hd; rw [hb] at hda; exact absurd hda (by simp)
      · exact List.mem_append_right _ hd
  refine ⟨mem_outer _ hd', ?_⟩
  rw [← hcp]
  exact outer_bp_ne hlpre hlpost ⟨hlo, by omega⟩ hd'

theorem mm_malloc_spec {s : Heap} {bl : List Blk} {fl : Nat → List Nat} (h : Inv s bl fl)
    (n : Nat) (hn : n ≤ 4294967280) (fuel : Nat) (hfuel : bl.length < fuel) :
    ∃ p s' bl' fl', mm_malloc fuel s n = some (p, s') ∧ Inv s' bl' fl' ∧
      (∀ a, InAlloc bl a → s'.mem a = s.mem a) ∧
      (∀ d ∈ bl, d.alloc = true → d ∈ bl' ∧ d.bp ≠ p) ∧
      (p = NULL → s' = s ∧ bl' = bl ∧ fl' = fl) ∧
      (p ≠ NULL → 0 < n ∧ ∃ c ∈ bl', c.bp = p ∧ c.alloc = true ∧ malloc_asize n ≤ c.size) ∧
      s'.seg_list_ptr = s.seg_list_ptr ∧ s'.mem_max_addr = s.mem_max_addr ∧
      s.mem_brk ≤ s'.mem_brk := by
  have hnz : ∀ d ∈ bl, d.bp ≠ NULL := by
    intro d hd
    have := h.wf.bounds hd
    unfold NULL; omega
  have hfail : mm_malloc fuel s n = some (NULL, s) →
      ∃ p s' bl' fl', mm_malloc fuel s n = some (p, s') ∧ Inv s' bl' fl' ∧
      (∀ a, InAlloc bl a → s'.mem a = s.mem a) ∧
      (∀ d ∈ bl, d.alloc = true → d ∈ bl' ∧ d.bp ≠ p) ∧
      (p = NULL → s' = s ∧ bl' = bl ∧ fl' = fl) ∧
      (p ≠ NULL → 0 < n ∧ ∃ c ∈ bl', c.bp = p ∧ c.alloc = true ∧ malloc_asize n ≤ c.size) ∧
      s'.seg_list_ptr = s.seg_list_ptr ∧ s'.mem_max_addr = s.mem_max_addr ∧
      s.mem_brk ≤ s'.mem_brk :=
    fun e => ⟨NULL, s, bl, fl, e, h, fun _ _ => rfl, fun d hd _ => ⟨hd, hnz d hd⟩,
      fun _ => ⟨rfl, rfl, rfl⟩, fun hp => absurd rfl hp, rfl, rfl, le_refl _⟩
  rcases Nat.eq_zero_or_pos n with h0 | h0
  · exact hfail (by subst h0; simp [mm_malloc])
  obtain ⟨a24, a8, an, alt⟩ := malloc_asize_props n h0 hn
  obtain ⟨r, hr, hres⟩ := find_fit_spec h.wf (malloc_asize n) (malloc_asize n) fuel hfuel
  have hn0 : ¬ n ≤ 0 := by omega
  have hfuel1 : 1 ≤ fuel := by omega
  rcases hres with hr0 | ⟨b, hb, hbp, hbf, hbs⟩
  · -- no fit: the heap is extended
    obtain ⟨x1, x2, x3, x4⟩ := extend_size_max (malloc_asize n) a8 (by omega)
    by_cases hcap : s.mem_brk + MAX (malloc_asize n) DCHUNKSIZE ≤ s.mem_max_addr
    · obtain ⟨M1, fl1, e1, w1, c1, u1⟩ := extend_heap_spec h.wf h.complete
        (MAX (malloc_asize n) DCHUNKSIZE / WSIZE) (MAX (malloc_asize n) DCHUNKSIZE) x1 x3 x4
        hcap fuel hfuel1
      obtain ⟨mf, ms⟩ := mergedBlk_free bl
        (⟨s.mem_brk, MAX (malloc_asize n) DCHUNKSIZE, false⟩ : Blk) [] rfl
      have hna : NoAdjFree (coalesced bl
          (⟨s.mem_brk, MAX (malloc_asize n) DCHUNKSIZE, false⟩ : Blk) []) :=
        noAdjFree_coalesced _ h.noadj (by unfold NoAdjFree; simp)
      rw [coalesced_eq] at w1 c1 hna
      have hmem : mergedBlk bl (⟨s.mem_brk, MAX (malloc_asize n) DCHUNKSIZE, false⟩ : Blk) [] ∈
          (mergePrev (mergeNext (⟨s.mem_brk, MAX (malloc_asize n) DCHUNKSIZE, false⟩ : Blk) []).1
            bl.reverse).1.reverse ++ mergedBlk bl
              (⟨s.mem_brk, MAX (malloc_asize n) DCHUNKSIZE, false⟩ : Blk) [] ::
              (mergeNext (⟨s.mem_brk, MAX (malloc_asize n) DCHUNKSIZE, false⟩ : Blk) []).2 := by
        simp
      have hbnz : (mergedBlk bl (⟨s.mem_brk, MAX (malloc_asize n) DCHUNKSIZE, false⟩ : Blk) []).bp
          ≠ NULL := by
        have := w1.bounds hmem
        unfold NULL
        have e : ((s.setBrk (s.mem_brk + MAX (malloc_asize n) DCHUNKSIZE)).setMem M1).seg_list_ptr
          = s.seg_list_ptr := rfl
        rw [e] at this
        omega
      obtain ⟨p, M2, bl2, fl2, e2, i2, u2, k2, r2⟩ := place_inv
        (s := (s.setBrk (s.mem_brk + MAX (malloc_asize n) DCHUNKSIZE)).setMem M1)
        ⟨w1, c1, hna, h.aligned⟩ mf (malloc_asize n) (by omega) a8 (le_trans x2 ms) fuel hfuel1
      have hkeep : ∀ d ∈ bl, d.alloc = true → d ∈
          (mergePrev (mergeNext (⟨s.mem_brk, MAX (malloc_asize n) DCHUNKSIZE, false⟩ : Blk) []).1
            bl.reverse).1.reverse ++ mergedBlk bl
              (⟨s.mem_brk, MAX (malloc_asize n) DCHUNKSIZE, false⟩ : Blk) [] ::
              (mergeNext (⟨s.mem_brk, MAX (malloc_asize n) DCHUNKSIZE, false⟩ : Blk) []).2 := by
        intro d hd hda
        have := (@coalesced_alloc_mem bl []
          (⟨s.mem_brk, MAX (malloc_asize n) DCHUNKSIZE, false⟩ : Blk) _ hda).2 (by simpa using hd)
        rcases List.mem_append.1 this with h1 | h1
        · exact List.mem_append_left _ h1
        · exact List.mem_append_right _ (List.mem_cons_of_mem _ h1)
      have hp0 : p ≠ NULL := by
        obtain ⟨c, hc, hcp, _, _⟩ := r2
        have := i2.wf.bounds hc
        rw [hcp] at this
        have e : (((s.setBrk (s.mem_brk + MAX (malloc_asize n) DCHUNKSIZE)).setMem M1).setMem
          M2).seg_list_ptr = s.seg_list_ptr := rfl
        rw [e] at this
        unfold NULL; omega
      refine ⟨p, _, bl2, fl2, ?_, i2, ?_, ?_, fun hp => absurd hp hp0, fun _ => ⟨h0, r2⟩,
        rfl, rfl, ?_⟩
      · simp only [mm_malloc, hn0, if_false, hr, hr0, NULL, ne_eq, not_true_eq_false, e1]
        have hb0 : (mergedBlk bl (⟨s.mem_brk, MAX (malloc_asize n) DCHUNKSIZE, false⟩ : Blk)
          []).bp ≠ 0 := hbnz
        simp only [hb0, if_false]
        exact e2
      · intro a ha
        have ha1 : InAlloc ((mergePrev (mergeNext
            (⟨s.mem_brk, MAX (malloc_asize n) DCHUNKSIZE, false⟩ : Blk) []).1
            bl.reverse).1.reverse ++ mergedBlk bl
              (⟨s.mem_brk, MAX (malloc_asize n) DCHUNKSIZE, false⟩ : Blk) [] ::
              (mergeNext (⟨s.mem_brk, MAX (malloc_asize n) DCHUNKSIZE, false⟩ : Blk) []).2) a := by
          obtain ⟨d, hd, hda, r⟩ := ha
          exact ⟨d, hkeep d hd hda, hda, r⟩
        exact (u2 a ha1).trans (u1 a ha)
      · intro d hd hda
        exact k2 d (hkeep d hd hda) hda
      · show s.mem_brk ≤ s.mem_brk + MAX (malloc_asize n) DCHUNKSIZE
        omega
    · apply hfail
      have hf := extend_heap_fail fuel s (MAX (malloc_asize n) DCHUNKSIZE / WSIZE)
        (by rw [x1]; omega)
      simp [mm_malloc, hn0, hr, hr0, NULL, hf]
  · -- a fit
    obtain ⟨pre, post, rfl⟩ := List.append_of_mem hb
    obtain ⟨p, M2, bl2, fl2, e2, i2, u2, k2, r2⟩ := place_inv h hbf (malloc_asize n)
      (by omega) a8 hbs fuel hfuel1
    have hp0 : p ≠ NULL := by
      obtain ⟨c, hc, hcp, _, _⟩ := r2
      have := i2.wf.bounds hc
      rw [hcp] at this
      have e : (s.setMem M2).seg_list_ptr = s.seg_list_ptr := rfl
      rw [e] at this
      unfold NULL; omega
    have hr1 : r ≠ NULL := by rw [← hbp]; exact hnz b hb
    refine ⟨p, _, bl2, fl2, ?_, i2, u2, k2, fun hp => absurd hp hp0, fun _ => ⟨h0, r2⟩,
      rfl, rfl, le_refl _⟩
    simp only [mm_malloc, hn0, if_false, hr, hr1, ne_eq, not_false_eq_true, if_true]
    rw [← hbp]; exact e2

theorem mm_free_eval (fuel : Nat) (s s2 s3 : Heap) (bp size : Nat)
    (hsz : GET_BLK_SIZE s bp = size)
    (hs2 : PUT (PUT s (HDRP bp) (PACK size 0)) (FTRP (PUT s (HDRP bp) (PACK size 0)) bp)
      (PACK size 0) = s2)
    (hadd : add_seglist fuel s2 bp size = some s3) :
    mm_free fuel s bp = (coalesce fuel s3 bp).map fun r => r.2 := by
  subst hsz hs2
  unfold mm_free
  simp only [hadd]

/-- An allocated block is on no class list. -/
theorem WF.alloc_not_listed {s : Heap} {bl : List Blk} {fl : Nat → List Nat} (h : WF s bl fl)
    {c : Blk} (hc : c ∈ bl) (hca : c.alloc = true) :
    ∀ i, i < 24 → ∀ x ∈ fl i, c.bp ≠ x := by
  intro i hi x hx e
  obtain ⟨d, hd, hdx, hdf, _⟩ := h.member hi hx
  have := Layout.bp_inj h.layout hc hd (e.trans hdx.symm)
  subst this
  rw [hca] at hdf
  exact absurd hdf (by simp)

theorem noAdjFree_split {pre post : List Blk} {c : Blk} (h : NoAdjFree (pre ++ c :: post)) :
    NoAdjFree pre ∧ NoAdjFree post := by
  unfold NoAdjFree at *
  have h1 := List.chain'_append.1 h
  exact ⟨h1.1, (List.chain'_cons'.1 h1.2.1).2⟩

theorem complete_outer {pre post : List Blk} {c : Blk} {fl : Nat → List Nat}
    (h : Complete (pre ++ c :: post) fl) :
    ∀ d ∈ pre ++ post, d.alloc = false → d.bp ∈ fl (classOf d.size) := by
  intro d hd hdf
  apply h d _ hdf
  rcases List.mem_append.1 hd with hd | hd
  · exact List.mem_append_left _ hd
  · exact List.mem_append_right _ (List.mem_cons_of_mem _ hd)

theorem mm_free_spec {s : Heap} {pre post : List Blk} {c : Blk} {fl : Nat → List Nat}
    (h : Inv s (pre ++ c :: post) fl) (hc : c.alloc = true) (fuel : Nat) (hfuel : 1 ≤ fuel) :
    ∃ M fl', mm_free fuel s c.bp = some (s.setMem M) ∧
      Inv (s.setMem M) (coalesced pre ⟨c.bp, c.size, false⟩ post) fl' ∧
      (∀ a, InAlloc (pre ++ post) a → M a = s.mem a) := by
  have hcm : c ∈ pre ++ c :: post := by simp
  have hcb := h.wf.bounds hcm
  have G : Hid (s.seg_list_ptr + 112 ≤ c.bp ∧ c.bp + c.size ≤ s.mem_brk ∧
      s.mem_brk < 4294967296 ∧ 16 ≤ c.size ∧ c.size % 8 = 0) := ⟨hcb⟩
  obtain ⟨hlpre, hlpost, _, _⟩ := h.wf.split_layout
  have hmid : Layout c.bp [c] (c.bp + c.size) :=
    Layout_cons.2 ⟨rfl, hcb.2.2.2.1, hcb.2.2.2.2, Layout_nil.2 rfl⟩
  have hmid' : Layout c.bp [(⟨c.bp, c.size, false⟩ : Blk)] (c.bp + c.size) :=
    Layout_cons.2 ⟨rfl, hcb.2.2.2.1, hcb.2.2.2.2, Layout_nil.2 rfl⟩
  have hsz : GET_BLK_SIZE s c.bp = c.size := h.wf.blk_size hcm
  have hput := (put_hdr_ftr s c.bp c.size
    (by have G' := G.out; clear * - G'; omega) (by have G' := G.out; clear * - G'; omega)
    (by have G' := G.out; clear * - G'; omega) hcb.2.2.2.2).1
  have w0 : WF s (pre ++ [c] ++ post) fl := by simpa using h.wf
  obtain ⟨M2, fl2, e2, w2, c2, u2, _⟩ := w0.retag_add_frame [⟨c.bp, c.size, false⟩] hlpre hmid
    hmid' (wr32 (wr32 s.mem (c.bp - 4) c.size) (c.bp + c.size - 8) c.size)
    (by
      intro a ha
      have G' := G.out
      rw [wr32_outside _ _ _ _ (by clear * - G' ha; omega),
        wr32_outside _ _ _ _ (by clear * - G' ha; omega)])
    (by
      intro d hd
      rw [List.mem_singleton.1 hd]
      have G' := G.out
      simp only [Blk.tag, Bool.false_eq_true, if_false, Nat.add_zero]
      constructor
      · rw [rd32_wr32_disj _ _ _ _ (by clear * - G'; omega),
          rd32_wr32_same _ _ _ (by clear * - G'; omega)]
      · rw [rd32_wr32_same _ _ _ (by clear * - G'; omega)])
    (by
      intro i hi x hx d hd
      rw [List.mem_singleton.1 hd]
      exact h.wf.alloc_not_listed hcm hc i hi x hx)
    (complete_outer h.complete) ⟨c.bp, c.size, false⟩ (List.mem_singleton_self _) rfl
    (fun d hd hne => absurd (List.mem_singleton.1 hd) hne) fuel hfuel
  simp only [setMem_setMem, setMem_mem] at e2 w2
  have w2' : WF (s.setMem M2) (pre ++ (⟨c.bp, c.size, false⟩ : Blk) :: post) fl2 := by
    simpa using w2
  have c2' : Complete (pre ++ (⟨c.bp, c.size, false⟩ : Blk) :: post) fl2 := by
    simpa using c2
  obtain ⟨M3, fl3, e3, w3, c3, u3⟩ := coalesce_spec w2' c2' rfl fuel hfuel
  simp only [setMem_setMem, setMem_mem] at e3 w3 u3
  have hev := mm_free_eval fuel s _ _ c.bp c.size hsz hput e2
  obtain ⟨n1, n2⟩ := noAdjFree_split h.noadj
  refine ⟨M3, fl3, ?_, ⟨w3, c3, noAdjFree_coalesced _ n1 n2, h.aligned⟩, fun a ha => ?_⟩
  · rw [hev]
    have : coalesce fuel (s.setMem M2) c.bp = some ((mergedBlk pre ⟨c.bp, c.size, false⟩ post).bp,
        s.setMem M3) := e3
    rw [this]; rfl
  · have ha1 : InAlloc (pre ++ (⟨c.bp, c.size, false⟩ : Blk) :: post) a := by
      obtain ⟨d, hd, r⟩ := ha
      refine ⟨d, ?_, r⟩
      rcases List.mem_append.1 hd with hd | hd
      · exact List.mem_append_left _ hd
      · exact List.mem_append_right _ (List.mem_cons_of_mem _ hd)
    rw [u3 a ha1, u2 a ha]

/-- Retagging the extent of the run `mid` as one allocated block. -/
theorem WF.resize_whole {s1 : Heap} {pre mid post : List Blk} {fl1 : Nat → List Nat}
    (w1 : WF s1 (pre ++ mid ++ post) fl1) {q hi : Nat}
    (hpre : Layout (s1.seg_list_ptr + 112) pre q) (hmid : Layout q mid hi)
    (hnomem : ∀ i, i < 24 → ∀ x ∈ fl1 i, ∀ b ∈ mid, b.bp ≠ x)
    (hcomp : ∀ d ∈ pre ++ post, d.alloc = false → d.bp ∈ fl1 (classOf d.size))
    (T : Nat) (hT16 : 16 ≤ T) (hT8 : T % 8 = 0) (hT : q + T = hi)
    (Mmv : Nat → Nat) (hmv : ∀ a, a < q - 4 ∨ hi - 4 ≤ a → Mmv a = s1.mem a)
    (hhdr : rd32 Mmv (q - 4) = T + 1) :
    WF (s1.setMem (wr32 Mmv (q + T - 8) (T + 1))) (pre ++ [⟨q, T, true⟩] ++ post) fl1 ∧
      Complete (pre ++ [⟨q, T, true⟩] ++ post) fl1 ∧
      (∀ a, InAlloc (pre ++ post) a → wr32 Mmv (q + T - 8) (T + 1) a = s1.mem a) ∧
      (∀ a, q ≤ a → a < q + T - 8 → wr32 Mmv (q + T - 8) (T + 1) a = Mmv a) := by
  have hq := Layout.le hpre
  have hbrk := (w1.post_layout hpre hmid).le
  have G : Hid (s1.seg_list_ptr + 112 ≤ q ∧ hi ≤ s1.mem_brk ∧ s1.mem_brk < 4294967296 ∧
      16 ≤ T ∧ T % 8 = 0 ∧ q + T = hi) := ⟨⟨hq, hbrk, w1.brk_ge.2, hT16, hT8, hT⟩⟩
  have hmid' : Layout q [(⟨q, T, true⟩ : Blk)] hi :=
    Layout_cons.2 ⟨rfl, hT16, hT8, Layout_nil.2 hT⟩
  obtain ⟨a2, a3, a4⟩ := w1.retag_frame [⟨q, T, true⟩] hpre hmid hmid'
    (wr32 Mmv (q + T - 8) (T + 1))
    (by
      intro a ha
      have G' := G.out
      rw [wr32_outside _ _ _ _ (by clear * - G' ha; omega)]
      exact hmv a ha)
    (by
      intro d hd
      rw [List.mem_singleton.1 hd]
      have G' := G.out
      simp only [Blk.tag, if_true]
      constructor
      · rw [rd32_wr32_disj _ _ _ _ (by clear * - G'; omega)]
        exact hhdr
      · rw [rd32_wr32_same _ _ _ (by clear * - G'; omega)])
    hnomem hcomp (by intro d hd; rw [List.mem_singleton.1 hd])
  refine ⟨a2, a3, a4, fun a _ h2 => wr32_outside _ _ _ _ (Or.inl h2)⟩

/-- Retagging the extent of the run `mid` as an allocated block followed by a
free remainder, which is then put on its list and coalesced. -/
theorem WF.resize_rem {s1 : Heap} {pre mid post : List Blk} {fl1 : Nat → List Nat}
    (w1 : WF s1 (pre ++ mid ++ post) fl1) {q hi : Nat}
    (hpre : Layout (s1.seg_list_ptr + 112) pre q) (hmid : Layout q mid hi)
    (hnomem : ∀ i, i < 24 → ∀ x ∈ fl1 i, ∀ b ∈ mid, b.bp ≠ x)
    (hcomp : ∀ d ∈ pre ++ post, d.alloc = false → d.bp ∈ fl1 (classOf d.size))
    (ns pad : Nat) (hns16 : 16 ≤ ns) (hns8 : ns % 8 = 0) (hpad16 : 16 ≤ pad)
    (hpad8 : pad % 8 = 0) (hT : q + ns + pad = hi)
    (Mmv : Nat → Nat) (hmv : ∀ a, a < q - 4 ∨ hi - 4 ≤ a → Mmv a = s1.mem a)
    (hhdr : rd32 Mmv (q - 4) = ns + 1) (fuel : Nat) (hfuel : 1 ≤ fuel) :
    ∃ M2 M' fl',
      add_seglist fuel (s1.setMem (wr32 (wr32 (wr32 Mmv (q + ns - 8) (ns + 1)) (q + ns - 4) pad)
        (q + ns + pad - 8) pad)) (q + ns) pad = some (s1.setMem M2) ∧
      coalesce fuel (s1.setMem M2) (q + ns) =
        some ((mergedBlk (pre ++ [⟨q, ns, true⟩]) ⟨q + ns, pad, false⟩ post).bp,
          s1.setMem M') ∧
      WF (s1.setMem M') (coalesced (pre ++ [⟨q, ns, true⟩]) ⟨q + ns, pad, false⟩ post) fl' ∧
      Complete (coalesced (pre ++ [⟨q, ns, true⟩]) ⟨q + ns, pad, false⟩ post) fl' ∧
      (∀ a, InAlloc (pre ++ post) a → M' a = s1.mem a) ∧
      (∀ a, q ≤ a → a < q + ns - 8 → M' a = Mmv a) := by
  have hq := Layout.le hpre
  have hbrk := (w1.post_layout hpre hmid).le
  have G : Hid (s1.seg_list_ptr + 112 ≤ q ∧ hi ≤ s1.mem_brk ∧ s1.mem_brk < 4294967296 ∧
      16 ≤ ns ∧ ns % 8 = 0 ∧ 16 ≤ pad ∧ pad % 8 = 0 ∧ q + ns + pad = hi) :=
    ⟨⟨hq, hbrk, w1.brk_ge.2, hns16, hns8, hpad16, hpad8, hT⟩⟩
  have hmid' : Layout q [(⟨q, ns, true⟩ : Blk), ⟨q + ns, pad, false⟩] hi :=
    Layout_cons.2 ⟨rfl, hns16, hns8, Layout_cons.2 ⟨rfl, hpad16, hpad8, Layout_nil.2 hT⟩⟩
  obtain ⟨M2, fl2, a1, a2, a3, a4, a5⟩ := w1.retag_add_frame
    [⟨q, ns, true⟩, ⟨q + ns, pad, false⟩] hpre hmid hmid'
    (wr32 (wr32 (wr32 Mmv (q + ns - 8) (ns + 1)) (q + ns - 4) pad) (q + ns + pad - 8) pad)
    (by
      intro a ha
      have G' := G.out
      rw [wr32_outside _ _ _ _ (by clear * - G' ha; omega),
        wr32_outside _ _ _ _ (by clear * - G' ha; omega),
        wr32_outside _ _ _ _ (by clear * - G' ha; omega)]
      exact hmv a ha)
    (by
      intro d hd
      have G' := G.out
      simp only [List.mem_cons, List.mem_singleton, List.not_mem_nil, or_false] at hd
      rcases hd with rfl | rfl
      · simp only [Blk.tag, if_true]
        constructor
        · rw [rd32_wr32_disj _ _ _ _ (by clear * - G'; omega),
            rd32_wr32_disj _ _ _ _ (by clear * - G'; omega),
            rd32_wr32_disj _ _ _ _ (by clear * - G'; omega)]
          exact hhdr
        · rw [rd32_wr32_disj _ _ _ _ (by clear * - G'; omega),
            rd32_wr32_disj _ _ _ _ (by clear * - G'; omega),
            rd32_wr32_same _ _ _ (by clear * - G'; omega)]
      · simp only [Blk.tag, Bool.false_eq_true, if_false, Nat.add_zero]
        constructor
        · rw [rd32_wr32_disj _ _ _ _ (by clear * - G'; omega),
            rd32_wr32_same _ _ _ (by clear * - G'; omega)]
        · rw [rd32_wr32_same _ _ _ (by clear * - G'; omega)])
    hnomem hcomp ⟨q + ns, pad, false⟩ (by simp) rfl
    (by
      intro d hd hne
      simp only [List.mem_cons, List.mem_singleton, List.not_mem_nil, or_false] at hd
      rcases hd with rfl | rfl
      · rfl
      · exact absurd rfl hne)
    fuel hfuel
  have e0 : pre ++ [(⟨q, ns, true⟩ : Blk), ⟨q + ns, pad, false⟩] ++ post
      = (pre ++ [⟨q, ns, true⟩]) ++ (⟨q + ns, pad, false⟩ : Blk) :: post := by simp
  rw [e0] at a2 a3
  obtain ⟨M3, fl3, e3, w3, c3, u3⟩ := coalesce_spec a2 a3 rfl fuel hfuel
  simp only [setMem_setMem, setMem_mem] at e3 w3 u3
  refine ⟨M2, M3, fl3, a1, e3, w3, c3, ?_, ?_⟩
  · intro a ha
    rw [u3 a (by
      obtain ⟨d, hd, r⟩ := ha
      refine ⟨d, ?_, r⟩
      rcases List.mem_append.1 hd with hd | hd
      · exact List.mem_append_left _ (List.mem_append_left _ hd)
      · exact List.mem_append_right _ (List.mem_cons_of_mem _ hd))]
    exact a4 a ha
  · intro a h1 h2
    rw [u3 a ⟨⟨q, ns, true⟩, by simp, rfl, h1, h2⟩,
      a5 a ⟨⟨q, ns, true⟩, by simp, rfl, h1, h2⟩]
    have G' := G.out
    rw [wr32_outside _ _ _ _ (by clear * - G' h2; omega),
      wr32_outside _ _ _ _ (by clear * - G' h2; omega),
      wr32_outside _ _ _ _ (by clear * - G' h2; omega)]

theorem realloc_finish_rem (fuel : Nat) (r : Resize) (s2 s3 : Heap)
    (old size csize q pad ret : Nat) (hre : r.realloced = true) (hpad : r.padding = pad)
    (h8 : pad > 8) (hq : r.new_ptr = q) (hn : NEXT_BLKP r.heap q = ret)
    (hs2 : PUT (PUT r.heap (HDRP ret) (PACK pad 0))
      (FTRP (PUT r.heap (HDRP ret) (PACK pad 0)) ret) (PACK pad 0) = s2)
    (hsz : GET_BLK_SIZE s2 ret = pad) (hadd : add_seglist fuel s2 ret pad = some s3) :
    realloc_finish fuel r old size csize = (coalesce fuel s3 ret).map fun c => (q, c.2) := by
  subst hpad hq hn hs2
  unfold realloc_finish
  simp only [hre, if_true, h8, DSIZE, hsz, hadd]

theorem realloc_finish_norem (fuel : Nat) (r : Resize) (old size csize : Nat)
    (hre : r.realloced = true) (h8 : ¬ r.padding > 8) :
    realloc_finish fuel r old size csize = some (r.new_ptr, r.heap) := by
  unfold realloc_finish
  simp only [hre, if_true, DSIZE, h8, if_false]

theorem realloc_finish_null (fuel : Nat) (s : Heap) (old size csize : Nat)
    (hm : mm_malloc fuel s size = some (NULL, s)) :
    realloc_finish fuel { heap := s, new_ptr := NULL, realloced := false, padding := 0 }
      old size csize = some (NULL, s) := by
  unfold realloc_finish
  simp [hm]

theorem realloc_finish_move (fuel : Nat) (s s' : Heap) (old size csize q : Nat) (hq : q ≠ NULL)
    (hm : mm_malloc fuel s size = some (q, s')) :
    realloc_finish fuel { heap := s, new_ptr := NULL, realloced := false, padding := 0 }
      old size csize =
        (mm_free fuel (s'.setMem (memcpy s'.mem q old (u32 (csize + DSIZE)))) old).map
          fun t => (q, t) := by
  unfold realloc_finish
  simp [hm, hq]

theorem noAdjFree_outer {pre mid post : List Blk} (h : NoAdjFree (pre ++ mid ++ post)) :
    NoAdjFree pre ∧ NoAdjFree post := by
  unfold NoAdjFree at *
  have h1 := List.chain'_append.1 h
  exact ⟨(List.chain'_append.1 h1.1).1, h1.2.1⟩

theorem noAdjFree_snoc_alloc {pre : List Blk} (c : Blk) (h : NoAdjFree pre)
    (hc : c.alloc = true) : NoAdjFree (pre ++ [c]) := by
  unfold NoAdjFree at *
  rw [List.chain'_append]
  exact ⟨h, List.chain'_singleton _, fun x _ y hy => by
    simp only [List.head?_cons, Option.mem_def, Option.some.injEq] at hy
    subst hy; exact Or.inr hc⟩

theorem noAdjFree_mid_alloc {pre post : List Blk} (c : Blk) (h1 : NoAdjFree pre)
    (h2 : NoAdjFree post) (hc : c.alloc = true) : NoAdjFree (pre ++ [c] ++ post) := by
  have h3 := noAdjFree_snoc_alloc c h1 hc
  unfold NoAdjFree at *
  rw [List.chain'_append]
  refine ⟨h3, h2, fun x hx y _ => ?_⟩
  rw [List.getLast?_append_of_ne_nil _ (by simp)] at hx
  simp only [List.getLast?_singleton, Option.mem_def, Option.some.injEq] at hx
  subst hx; exact Or.inl hc

/-- The last part of an in-place resize: the block at `q` keeps `asize + 8`
bytes of the extent `tot` when more than 8 bytes are left over, and the whole
extent otherwise; the remainder becomes a free block. -/
theorem resize_finish_spec {s1 : Heap} {pre mid post : List Blk} {fl1 : Nat → List Nat}
    (w1 : WF s1 (pre ++ mid ++ post) fl1) {q hi : Nat}
    (hpre : Layout (s1.seg_list_ptr + 112) pre q) (hmid : Layout q mid hi)
    (hnomem : ∀ i, i < 24 → ∀ x ∈ fl1 i, ∀ b ∈ mid, b.bp ≠ x)
    (hcomp : ∀ d ∈ pre ++ post, d.alloc = false → d.bp ∈ fl1 (classOf d.size))
    (n1 : NoAdjFree pre) (n2 : NoAdjFree post)
    (asize tot : Nat) (h8 : asize % 8 = 0) (ha8 : 8 ≤ asize) (hle : asize + 8 ≤ tot)
    (htot8 : tot % 8 = 0) (hT : q + tot = hi)
    (Mmv : Nat → Nat) (hmv : ∀ a, a < q - 4 ∨ hi - 4 ≤ a → Mmv a = s1.mem a)
    (hhdr : rd32 Mmv (q - 4) = (if tot - 8 - asize > 8 then asize + 8 else tot) + 1)
    (r : Resize)
    (hheap : r.heap = s1.setMem (wr32 Mmv
        (q + (if tot - 8 - asize > 8 then asize + 8 else tot) - 8)
        ((if tot - 8 - asize > 8 then asize + 8 else tot) + 1)))
    (hnp : r.new_ptr = q) (hre : r.realloced = true) (hpd : r.padding = tot - 8 - asize)
    (fuel : Nat) (hfuel : 1 ≤ fuel) (old size csize : Nat) :
    ∃ M' bl' fl', realloc_finish fuel r old size csize = some (q, s1.setMem M') ∧
      WF (s1.setMem M') bl' fl' ∧ Complete bl' fl' ∧ NoAdjFree bl' ∧
      (∀ a, InAlloc (pre ++ post) a → M' a = s1.mem a) ∧
      (∀ d ∈ pre ++ post, d.alloc = true → d ∈ bl' ∧ d.bp ≠ q) ∧
      (∃ c' ∈ bl', c'.bp = q ∧ c'.alloc = true ∧ asize + 8 ≤ c'.size) ∧
      (∀ a, q ≤ a → a < q + asize → M' a = Mmv a) ∧
      bl' = (if tot - 8 - asize > 8 then
        coalesced (pre ++ [⟨q, asize + 8, true⟩]) ⟨q + (asize + 8), tot - 8 - asize, false⟩ post
        else pre ++ [⟨q, tot, true⟩] ++ post) := by
  have hq := Layout.le hpre
  have hpost := w1.post_layout hpre hmid
  have hbrk := hpost.le
  have G : Hid (s1.seg_list_ptr + 112 ≤ q ∧ hi ≤ s1.mem_brk ∧ s1.mem_brk < 4294967296 ∧
      asize % 8 = 0 ∧ 8 ≤ asize ∧ asize + 8 ≤ tot ∧ tot % 8 = 0 ∧ q + tot = hi) :=
    ⟨⟨hq, hbrk, w1.brk_ge.2, h8, ha8, hle, htot8, hT⟩⟩
  have hne : ∀ d ∈ pre ++ post, d.bp ≠ q := fun d hd =>
    outer_bp_ne hpre hpost ⟨le_refl _, by have G' := G.out; clear * - G'; omega⟩ hd
  by_cases hp : tot - 8 - asize > 8
  · simp only [hp, if_true] at hhdr hheap
    obtain ⟨M2, M', fl', e2, e3, w3, c3, u3, v3⟩ := w1.resize_rem hpre hmid hnomem hcomp
      (asize + 8) (tot - 8 - asize) (by omega)
      (by have G' := G.out; clear * - G'; omega) (by have G' := G.out; clear * - G' hp; omega)
      (by have G' := G.out; clear * - G'; omega) (by have G' := G.out; clear * - G'; omega)
      Mmv hmv hhdr fuel hfuel
    have hn : NEXT_BLKP r.heap q = q + (asize + 8) := by
      rw [hheap]
      refine NEXT_BLKP_tag _ _ (asize + 8) 1 (by have G' := G.out; clear * - G'; omega)
        (by have G' := G.out; clear * - G'; omega) (by have G' := G.out; clear * - G'; omega)
        (by omega) ?_
      show rd32 (wr32 Mmv (q + (asize + 8) - 8) (asize + 8 + 1)) (q - 4) = asize + 8 + 1
      rw [rd32_wr32_disj _ _ _ _ (by have G' := G.out; clear * - G'; omega)]
      exact hhdr
    have hput := (put_hdr_ftr r.heap (q + (asize + 8)) (tot - 8 - asize)
      (by have G' := G.out; clear * - G'; omega) (by have G' := G.out; clear * - G' hp; omega)
      (by
        have G' := G.out
        clear * - G' hp; omega)
      (by have G' := G.out; clear * - G'; omega)).1
    have hmem : r.heap.mem = wr32 Mmv (q + (asize + 8) - 8) (asize + 8 + 1) := by
      rw [hheap]; rfl
    have hset : r.heap.setMem (wr32 (wr32 r.heap.mem (q + (asize + 8) - 4) (tot - 8 - asize))
        (q + (asize + 8) + (tot - 8 - asize) - 8) (tot - 8 - asize)) =
        s1.setMem (wr32 (wr32 (wr32 Mmv (q + (asize + 8) - 8) (asize + 8 + 1))
          (q + (asize + 8) - 4) (tot - 8 - asize)) (q + (asize + 8) + (tot - 8 - asize) - 8)
          (tot - 8 - asize)) := by
      rw [hmem, hheap]; rfl
    rw [hset] at hput
    have hsz : GET_BLK_SIZE (s1.setMem (wr32 (wr32 (wr32 Mmv (q + (asize + 8) - 8)
        (asize + 8 + 1)) (q + (asize + 8) - 4) (tot - 8 - asize))
        (q + (asize + 8) + (tot - 8 - asize) - 8) (tot - 8 - asize))) (q + (asize + 8))
        = tot - 8 - asize := by
      unfold GET_BLK_SIZE GET_SIZE GET
      rw [HDRP_eq _ (by have G' := G.out; clear * - G'; omega)
        (by have G' := G.out; clear * - G'; omega)]
      show rd32 (wr32 (wr32 (wr32 Mmv (q + (asize + 8) - 8)
        (asize + 8 + 1)) (q + (asize + 8) - 4) (tot - 8 - asize))
        (q + (asize + 8) + (tot - 8 - asize) - 8) (tot - 8 - asize)) (q + (asize + 8) - 4)
        &&& MASK7 = _
      rw [rd32_wr32_disj _ _ _ _ (by have G' := G.out; clear * - G' hp; omega),
        rd32_wr32_same _ _ _ (by have G' := G.out; clear * - G'; omega)]
      rw [and_MASK7 _ (by have G' := G.out; clear * - G'; omega)]
      have G' := G.out
      clear * - G'
      omega
    have hev := realloc_finish_rem fuel r _ _ old size csize q (tot - 8 - asize)
      (q + (asize + 8)) hre hpd hp hnp hn hput hsz e2
    have hkeep : ∀ d ∈ pre ++ post, d.alloc = true →
        d ∈ coalesced (pre ++ [⟨q, asize + 8, true⟩]) ⟨q + (asize + 8), tot - 8 - asize, false⟩
          post := by
      intro d hd hda
      have hd1 : d ∈ (pre ++ [(⟨q, asize + 8, true⟩ : Blk)]) ++ post := by
        rcases List.mem_append.1 hd with hd | hd
        · exact List.mem_append_left _ (List.mem_append_left _ hd)
        · exact List.mem_append_right _ hd
      have := (@coalesced_alloc_mem (pre ++ [(⟨q, asize + 8, true⟩ : Blk)]) post
        (⟨q + (asize + 8), tot - 8 - asize, false⟩ : Blk) _ hda).2 hd1
      rw [coalesced_eq]
      rcases List.mem_append.1 this with h1 | h1
      · exact List.mem_append_left _ h1
      · exact List.mem_append_right _ (List.mem_cons_of_mem _ h1)
    have hnew : (⟨q, asize + 8, true⟩ : Blk) ∈ coalesced (pre ++ [⟨q, asize + 8, true⟩])
        ⟨q + (asize + 8), tot - 8 - asize, false⟩ post := by
      have := (@coalesced_alloc_mem (pre ++ [(⟨q, asize + 8, true⟩ : Blk)]) post
        (⟨q + (asize + 8), tot - 8 - asize, false⟩ : Blk)
        ⟨q, asize + 8, true⟩ rfl).2 (by simp)
      rw [coalesced_eq]
      rcases List.mem_append.1 this with h1 | h1
      · exact List.mem_append_left _ h1
      · exact List.mem_append_right _ (List.mem_cons_of_mem _ h1)
    refine ⟨M', _, fl', ?_, w3, c3,
      noAdjFree_coalesced _ (noAdjFree_snoc_alloc _ n1 rfl) n2, u3,
      fun d hd hda => ⟨hkeep d hd hda, hne d hd⟩,
      ⟨⟨q, asize + 8, true⟩, hnew, rfl, rfl, le_refl _⟩,
      fun a h1 h2 => v3 a h1 (by omega), by rw [if_pos hp]⟩
    rw [hev, e3]; rfl
  · simp only [hp, if_false] at hhdr hheap
    obtain ⟨a2, a3, a4, a5⟩ := w1.resize_whole hpre hmid hnomem hcomp tot
      (by have G' := G.out; clear * - G'; omega) htot8 hT Mmv hmv hhdr
    have hev := realloc_finish_norem fuel r old size csize hre
      (by rw [hpd]; exact hp)
    refine ⟨_, _, fl1, ?_, a2, a3, noAdjFree_mid_alloc _ n1 n2 rfl, a4,
      fun d hd hda => ⟨mem_outer _ hd, hne d hd⟩,
      ⟨⟨q, tot, true⟩, by simp, rfl, rfl, hle⟩,
      fun a h1 h2 => a5 a h1 (by have G' := G.out; clear * - G' h2; omega), by rw [if_neg hp]⟩
    rw [hev, hnp, hheap]

theorem ALIGN_props (m : Nat) (h0 : 0 < m) (hm : m ≤ 4294967280) :
    8 ≤ ALIGN m ∧ ALIGN m % 8 = 0 ∧ m ≤ ALIGN m ∧ ALIGN m ≤ 4294967280 ∧
      (16 < m → malloc_asize m = ALIGN m + 8) := by
  have e : ALIGN m = m + 7 - (m + 7) % 8 := by
    unfold ALIGN ALIGNMENT
    have e2 : u32 (m + (8 - 1)) = m + 7 := by unfold u32; omega
    rw [e2, and_MASK7 _ (by omega)]
  refine ⟨by omega, by omega, by omega, by omega, fun h16 => ?_⟩
  unfold malloc_asize DSIZE
  rw [if_neg (by omega)]
  have e1 : u32 (m + 8) = m + 8 := by unfold u32; omega
  rw [e1]
  have e3 : ALIGN (m + 8) = m + 15 - (m + 15) % 8 := by
    unfold ALIGN ALIGNMENT
    have e2 : u32 (m + 8 + (8 - 1)) = m + 15 := by unfold u32; omega
    rw [e2, and_MASK7 _ (by omega)]
  rw [e3, e]; omega

theorem mm_realloc_keep (fuel : Nat) (s : Heap) (p m csize : Nat) (hp : p ≠ NULL) (hm : m ≠ 0)
    (hc : u32 (GET_BLK_SIZE s p + 4294967296 - DSIZE) = csize) (h1 : ALIGN m ≤ csize)
    (h2 : csize - ALIGN m ≤ 8) : mm_realloc fuel s p m = some (p, s) := by
  have hlt : csize < 4294967296 := by rw [← hc]; exact Nat.mod_lt _ (by decide)
  have hu : u32 (csize + 4294967296 - ALIGN m) = csize - ALIGN m := by unfold u32; omega
  unfold mm_realloc
  simp only [hp, if_false, hm, hc]
  by_cases he : ALIGN m = csize
  · simp only [he, if_true]
  · have hl : ALIGN m < csize := by omega
    simp only [he, if_false, hl, if_true, hu, DSIZE, h2]

theorem mm_realloc_shrink_eval (fuel : Nat) (s : Heap) (p m csize : Nat) (hp : p ≠ NULL)
    (hm : m ≠ 0) (hc : u32 (GET_BLK_SIZE s p + 4294967296 - DSIZE) = csize)
    (h1 : ALIGN m < csize) (h2 : ¬ csize - ALIGN m ≤ 8) :
    mm_realloc fuel s p m =
      realloc_finish fuel (realloc_shrink s p csize (ALIGN m)) p m csize := by
  have hlt : csize < 4294967296 := by rw [← hc]; exact Nat.mod_lt _ (by decide)
  have hu : u32 (csize + 4294967296 - ALIGN m) = csize - ALIGN m := by unfold u32; omega
  have he : ALIGN m ≠ csize := by omega
  unfold mm_realloc
  simp only [hp, if_false, hm, hc]
  simp only [he, if_false, h1, if_true, hu, DSIZE, h2]

theorem mm_realloc_grow_eval (fuel : Nat) (s : Heap) (p m csize : Nat) (hp : p ≠ NULL)
    (hm : m ≠ 0) (hc : u32 (GET_BLK_SIZE s p + 4294967296 - DSIZE) = csize)
    (h1 : ALIGN m > csize) :
    mm_realloc fuel s p m =
      realloc_finish fuel (realloc_grow s p csize (ALIGN m)) p m csize := by
  have he : ALIGN m ≠ csize := by omega
  have hl : ¬ ALIGN m < csize := by omega
  unfold mm_realloc
  simp only [hp, if_false, hm, hc]
  simp only [he, if_false, hl, h1, if_true]

theorem put_ftr_after (s : Heap) (Mmv : Nat → Nat) (q ns : Nat) (h4 : 4 ≤ q) (h8 : 8 ≤ ns)
    (hlt : q + ns < 4294967296) (hsz : ns % 8 = 0) (hhdr : rd32 Mmv (q - 4) = ns + 1) :
    PUT (s.setMem Mmv) (FTRP (s.setMem Mmv) q) (PACK ns 1) =
      s.setMem (wr32 Mmv (q + ns - 8) (ns + 1)) := by
  have e : HDRP q = q - 4 := HDRP_eq _ h4 (by omega)
  have hg : GET_SIZE (s.setMem Mmv) (HDRP q) = ns := by
    rw [e]; unfold GET_SIZE GET
    show rd32 Mmv (q - 4) &&& MASK7 = ns
    rw [hhdr]
    exact tag_and_MASK7 _ _ hsz (by omega) (by omega)
  rw [FTRP_eq _ q ns h4 (by omega) hlt hg, PACK_one _ hsz, PUT_eq]
  rfl

theorem csize_eq {s : Heap} {bl : List Blk} {fl : Nat → List Nat} (h : WF s bl fl) {c : Blk}
    (hc : c ∈ bl) : u32 (GET_BLK_SIZE s c.bp + 4294967296 - DSIZE) = c.size - 8 := by
  have hb := h.bounds hc
  rw [h.blk_size hc]
  unfold u32 DSIZE
  omega

/-- The shrinking path of `mm_realloc`. -/
theorem realloc_shrink_spec {s : Heap} {pre post : List Blk} {c : Blk} {fl : Nat → List Nat}
    (h : Inv s (pre ++ c :: post) fl) (hca : c.alloc = true) (m : Nat) (h0 : 0 < m)
    (hm : m ≤ 4294967280) (h1 : ALIGN m < c.size - 8) (h2 : ¬ c.size - 8 - ALIGN m ≤ 8)
    (fuel : Nat) (hfuel : 1 ≤ fuel) :
    ∃ M' bl' fl', mm_realloc fuel s c.bp m = some (c.bp, s.setMem M') ∧
      WF (s.setMem M') bl' fl' ∧ Complete bl' fl' ∧ NoAdjFree bl' ∧
      (∀ a, InAlloc (pre ++ post) a → M' a = s.mem a) ∧
      (∀ d ∈ pre ++ post, d.alloc = true → d ∈ bl' ∧ d.bp ≠ c.bp) ∧
      (∃ c' ∈ bl', c'.bp = c.bp ∧ c'.alloc = true ∧ ALIGN m + 8 ≤ c'.size) ∧
      (∀ i, i < c.size - 8 → i < ALIGN m → M' (c.bp + i) = s.mem (c.bp + i)) ∧
      bl' = coalesced (pre ++ [⟨c.bp, ALIGN m + 8, true⟩])
        ⟨c.bp + (ALIGN m + 8), c.size - 8 - ALIGN m, false⟩ post := by
  have hcm : c ∈ pre ++ c :: post := by simp
  have hcb := h.wf.bounds hcm
  obtain ⟨a8, am8, _, _, _⟩ := ALIGN_props m h0 hm
  have G : Hid ((s.seg_list_ptr + 112 ≤ c.bp ∧ c.bp + c.size ≤ s.mem_brk ∧
      s.mem_brk < 4294967296 ∧ 16 ≤ c.size ∧ c.size % 8 = 0) ∧ 8 ≤ ALIGN m ∧
      ALIGN m % 8 = 0 ∧ ALIGN m < c.size - 8 ∧ ¬ c.size - 8 - ALIGN m ≤ 8) :=
    ⟨⟨hcb, a8, am8, h1, h2⟩⟩
  obtain ⟨hlpre, hlpost, _, _⟩ := h.wf.split_layout
  have hmid : Layout c.bp [c] (c.bp + c.size) :=
    Layout_cons.2 ⟨rfl, hcb.2.2.2.1, hcb.2.2.2.2, Layout_nil.2 rfl⟩
  have w0 : WF s (pre ++ [c] ++ post) fl := by simpa using h.wf
  have hp0 : c.bp ≠ NULL := by unfold NULL; omega
  have hcs := csize_eq h.wf hcm
  have hev := mm_realloc_shrink_eval fuel s c.bp m (c.size - 8) hp0 (by omega) hcs h1 h2
  have hpd : c.size - 8 - ALIGN m > 8 := by omega
  obtain ⟨n1, n2⟩ := noAdjFree_split h.noadj
  have hu1 : u32 (ALIGN m + DSIZE) = ALIGN m + 8 := by
    have G' := G.out; clear * - G'; unfold u32 DSIZE; omega
  have hput := (put_hdr_ftr s c.bp (ALIGN m + 8)
    (by have G' := G.out; clear * - G'; omega) (by have G' := G.out; clear * - G'; omega)
    (by have G' := G.out; clear * - G'; omega) (by have G' := G.out; clear * - G'; omega)).2
  obtain ⟨M', bl', fl', e1, e2, e3, e4, e5, e6, e7, e8, e9⟩ := resize_finish_spec w0 hlpre hmid
    (by
      intro i hi x hx d hd
      rw [List.mem_singleton.1 hd]
      exact h.wf.alloc_not_listed hcm hca i hi x hx)
    (complete_outer h.complete) n1 n2 (ALIGN m) c.size am8 a8
    (by have G' := G.out; clear * - G'; omega) hcb.2.2.2.2 rfl
    (wr32 s.mem (c.bp - 4) (ALIGN m + 8 + 1))
    (by
      intro a ha
      have G' := G.out
      exact wr32_outside _ _ _ _ (by clear * - G' ha; omega))
    (by
      rw [if_pos hpd]
      exact rd32_wr32_same _ _ _ (by have G' := G.out; clear * - G'; omega))
    (realloc_shrink s c.bp (c.size - 8) (ALIGN m))
    (by
      rw [if_pos hpd]
      unfold realloc_shrink
      simp only [hu1]
      exact hput)
    rfl rfl
    (by
      show u32 (c.size - 8 + 4294967296 - ALIGN m) = c.size - 8 - ALIGN m
      have G' := G.out; clear * - G'; unfold u32; omega)
    fuel hfuel c.bp m (c.size - 8)
  refine ⟨M', bl', fl', by rw [hev]; exact e1, e2, e3, e4, e5, e6, e7, fun i _ hi2 => ?_,
    by rw [e9, if_pos hpd]⟩
  rw [e8 (c.bp + i) (by omega) (by omega)]
  exact wr32_outside _ _ _ _ (by have G' := G.out; clear * - G'; omega)

theorem realloc_grow_next (s heap' : Heap) (p csize asize q nx nsize : Nat)
    (hq : PREV_BLKP s p = q) (hnx : NEXT_BLKP s p = nx) (hnx0 : nx ≠ NULL)
    (hpa : GET_ALLOC s (HDRP q) ≠ 0) (hna : GET_ALLOC s (HDRP nx) = 0)
    (hns : GET_BLK_SIZE s nx = nsize) (hfit : u32 (nsize + csize) ≥ asize)
    (hh : PUT (PUT (remove_seglist s nx) (HDRP p)
        (PACK (if u32 (csize + nsize + 4294967296 - asize) > DSIZE then u32 (asize + DSIZE)
          else u32 (csize + nsize + DSIZE)) 1))
      (FTRP (PUT (remove_seglist s nx) (HDRP p)
        (PACK (if u32 (csize + nsize + 4294967296 - asize) > DSIZE then u32 (asize + DSIZE)
          else u32 (csize + nsize + DSIZE)) 1)) p)
      (PACK (if u32 (csize + nsize + 4294967296 - asize) > DSIZE then u32 (asize + DSIZE)
          else u32 (csize + nsize + DSIZE)) 1) = heap')
    (hpost : GET_ALLOC heap' (HDRP q) ≠ 0) :
    realloc_grow s p csize asize =
      { heap := heap', new_ptr := p, realloced := true,
        padding := u32 (csize + nsize + 4294967296 - asize) } := by
  subst hq hnx hns hh
  unfold realloc_grow
  simp [hnx0, hpa, hna, hfit, hpost]

theorem realloc_grow_none (s : Heap) (p csize asize q nx psize nsize : Nat)
    (hq : PREV_BLKP s p = q) (hnx : NEXT_BLKP s p = nx) (hq0 : q ≠ NULL) (hnx0 : nx ≠ NULL)
    (hps : GET_BLK_SIZE s q = psize) (hns : GET_BLK_SIZE s nx = nsize)
    (h : (GET_ALLOC s (HDRP q) = 0 ∧ ¬ u32 (psize + csize) ≥ asize ∧
        (GET_ALLOC s (HDRP nx) ≠ 0 ∨ ¬ u32 (psize + nsize + csize) ≥ asize)) ∨
      (GET_ALLOC s (HDRP q) ≠ 0 ∧
        (GET_ALLOC s (HDRP nx) ≠ 0 ∨ ¬ u32 (nsize + csize) ≥ asize))) :
    realloc_grow s p csize asize =
      { heap := s, new_ptr := NULL, realloced := false, padding := 0 } := by
  subst hq hnx hps hns
  unfold realloc_grow
  rcases h with ⟨a, b, c | c⟩ | ⟨a, c | c⟩
  · simp [hq0, hnx0, a, b, c]
  · simp [hq0, hnx0, a, b, c]
  · simp [hq0, hnx0, a, c]
  · by_cases d : GET_ALLOC s (HDRP (NEXT_BLKP s p)) = 0
    · simp [hq0, hnx0, a, c, d]
    · simp [hq0, hnx0, a, d]

theorem WF.prev_info {s : Heap} {pre post : List Blk} {c : Blk} {fl : Nat → List Nat}
    (h : WF s (pre ++ c :: post) fl) :
    PREV_BLKP s c.bp = ((pre.getLast?.map Blk.bp).getD (s.seg_list_ptr + 104)) ∧
      PREV_BLKP s c.bp ≠ NULL ∧ PREV_BLKP s c.bp + 8 ≤ c.bp ∧
      s.seg_list_ptr + 104 ≤ PREV_BLKP s c.bp := by
  rcases list_nil_or_snoc pre with rfl | ⟨pre', a, rfl⟩
  · have := WF.prev_nil (by simpa using h : WF s (c :: post) fl)
    rw [this.1]
    refine ⟨by simp, by unfold NULL; omega, by omega, le_refl _⟩
  · have h' : WF s (pre' ++ a :: c :: post) fl := by simpa using h
    have := WF.prev_concat h'
    have hab := h'.bounds (b := a) (by simp)
    rw [this.1]
    refine ⟨by simp, by unfold NULL; omega, by omega, by omega⟩

theorem realloc_grow_prev (s X Y heap' : Heap) (p csize asize q psize NS : Nat)
    (hq : PREV_BLKP s p = q) (hq0 : q ≠ NULL) (hpa : GET_ALLOC s (HDRP q) = 0)
    (hps : GET_BLK_SIZE s q = psize) (hfit : u32 (psize + csize) ≥ asize)
    (hNS : (if u32 (csize + psize + 4294967296 - asize) > DSIZE then u32 (asize + DSIZE)
      else u32 (csize + psize + DSIZE)) = NS)
    (hX : PUT (remove_seglist s q) (HDRP q) (PACK NS 1) = X)
    (hY : X.setMem (memmove X.mem q p (u32 (csize + DSIZE))) = Y)
    (hh : PUT Y (FTRP Y q) (PACK NS 1) = heap')
    (hpost : GET_ALLOC heap' (HDRP q) ≠ 0) :
    realloc_grow s p csize asize =
      { heap := heap', new_ptr := q, realloced := true,
        padding := u32 (csize + psize + 4294967296 - asize) } := by
  subst hh hY hX hNS hps hq
  unfold realloc_grow
  simp only [hq0, hpa, ne_eq, not_false_eq_true, and_self, if_true, hfit, ge_iff_le]
  rw [if_neg (fun hc => hpost hc.1)]

theorem realloc_grow_both (s X Y heap' : Heap) (p csize asize q nx psize nsize NS : Nat)
    (hq : PREV_BLKP s p = q) (hnx : NEXT_BLKP s p = nx) (hq0 : q ≠ NULL) (hnx0 : nx ≠ NULL)
    (hpa : GET_ALLOC s (HDRP q) = 0) (hna : GET_ALLOC s (HDRP nx) = 0)
    (hps : GET_BLK_SIZE s q = psize) (hns : GET_BLK_SIZE s nx = nsize)
    (hnfit : ¬ u32 (psize + csize) ≥ asize) (hfit : u32 (psize + nsize + csize) ≥ asize)
    (hNS : (if u32 (csize + psize + nsize + 4294967296 - asize) > DSIZE
      then u32 (asize + DSIZE) else u32 (csize + psize + nsize + DSIZE)) = NS)
    (hX : PUT (remove_seglist (remove_seglist s nx) q) (HDRP q) (PACK NS 1) = X)
    (hY : X.setMem (memmove X.mem q p (u32 (csize + DSIZE))) = Y)
    (hh : PUT Y (FTRP Y q) (PACK NS 1) = heap') :
    realloc_grow s p csize asize =
      { heap := heap', new_ptr := q, realloced := true,
        padding := u32 (csize + psize + nsize + 4294967296 - asize) } := by
  subst hh hY hX hNS hps hns hq hnx
  unfold realloc_grow
  simp only [hq0, hnx0, hpa, hna, ne_eq, not_false_eq_true, and_self, if_true, if_false, hnfit,
    hfit, ge_iff_le]

/-- The path of `mm_realloc` that absorbs the free block after the block. -/
theorem realloc_next_spec {s : Heap} {pre r : List Blk} {c nx : Blk} {fl : Nat → List Nat}
    (h : Inv s (pre ++ c :: nx :: r) fl) (hca : c.alloc = true) (hna : nx.alloc = false)
    (hprev : ∀ a ∈ pre.getLast?, a.alloc = true) (m : Nat) (h0 : 0 < m)
    (hm : m ≤ 4294967280) (h1 : ALIGN m > c.size - 8)
    (hfit : ALIGN m ≤ nx.size + (c.size - 8)) (fuel : Nat) (hfuel : 1 ≤ fuel) :
    ∃ M' bl' fl', mm_realloc fuel s c.bp m = some (c.bp, s.setMem M') ∧
      WF (s.setMem M') bl' fl' ∧ Complete bl' fl' ∧ NoAdjFree bl' ∧
      (∀ a, InAlloc (pre ++ r) a → M' a = s.mem a) ∧
      (∀ d ∈ pre ++ r, d.alloc = true → d ∈ bl' ∧ d.bp ≠ c.bp) ∧
      (∃ c' ∈ bl', c'.bp = c.bp ∧ c'.alloc = true ∧ ALIGN m + 8 ≤ c'.size) ∧
      (∀ i, i < c.size - 8 → M' (c.bp + i) = s.mem (c.bp + i)) := by
  have hcm : c ∈ pre ++ c :: nx :: r := by simp
  have hnm : nx ∈ pre ++ c :: nx :: r := by simp
  have hcb := h.wf.bounds hcm
  have hnb := h.wf.bounds hnm
  obtain ⟨a8, am8, _, _, _⟩ := ALIGN_props m h0 hm
  obtain ⟨hlpre, hlpost, _, _⟩ := h.wf.split_layout
  obtain ⟨hnbp, _, _, hlr⟩ := Layout_cons.1 hlpost
  obtain ⟨pq, pq0, pq8, pqlo⟩ := h.wf.prev_info
  have G : Hid ((s.seg_list_ptr + 112 ≤ c.bp ∧ 16 ≤ c.size ∧ c.size % 8 = 0) ∧
      (nx.bp + nx.size ≤ s.mem_brk ∧ s.mem_brk < 4294967296 ∧ 16 ≤ nx.size ∧
        nx.size % 8 = 0) ∧ nx.bp = c.bp + c.size ∧ 8 ≤ ALIGN m ∧ ALIGN m % 8 = 0 ∧
      ALIGN m > c.size - 8 ∧ ALIGN m ≤ nx.size + (c.size - 8) ∧
      PREV_BLKP s c.bp + 8 ≤ c.bp ∧ s.seg_list_ptr + 104 ≤ PREV_BLKP s c.bp) :=
    ⟨⟨⟨hcb.1, hcb.2.2.2⟩, hnb.2, hnbp, a8, am8, h1, hfit, pq8, pqlo⟩⟩
  obtain ⟨M1, fl1, e1, w1, u1, m1⟩ := remove_seglist_frame h.wf hnm (h.complete nx hnm hna)
  have w1' : WF (s.setMem M1) (pre ++ [c, nx] ++ r) fl1 := by simpa using w1
  have hmid : Layout c.bp [c, nx] (c.bp + (c.size + nx.size)) := by
    have G' := G.out
    refine Layout_cons.2 ⟨rfl, G'.1.2.1, G'.1.2.2, Layout_cons.2 ⟨hnbp, G'.2.1.2.2.1,
      G'.2.1.2.2.2, Layout_nil.2 ?_⟩⟩
    clear * - G'; omega
  have hnomem : ∀ i, i < 24 → ∀ x ∈ fl1 i, ∀ b ∈ [c, nx], b.bp ≠ x := by
    intro i hi x hx d hd
    simp only [List.mem_cons, List.mem_singleton, List.not_mem_nil, or_false] at hd
    rcases hd with rfl | rfl
    · exact w1.alloc_not_listed hcm hca i hi x hx
    · exact fun e => ((m1 i hi x).1 hx).1 e.symm
  have hlr' : Layout (c.bp + (c.size + nx.size)) r s.mem_brk := by
    have e : c.bp + (c.size + nx.size) = c.bp + c.size + nx.size := by omega
    rw [e]; exact hlr
  have hcomp : ∀ d ∈ pre ++ r, d.alloc = false → d.bp ∈ fl1 (classOf d.size) := by
    intro d hd hdf
    have hne : d.bp ≠ nx.bp := outer_bp_ne hlpre hlr'
      ⟨by have G' := G.out; clear * - G'; omega, by have G' := G.out; clear * - G'; omega⟩ hd
    have hdm : d ∈ pre ++ c :: nx :: r := by
      rcases List.mem_append.1 hd with hd | hd
      · exact List.mem_append_left _ hd
      · exact List.mem_append_right _ (List.mem_cons_of_mem _ (List.mem_cons_of_mem _ hd))
    exact (m1 _ (classOf_lt _) _).2 ⟨hne, h.complete d hdm hdf⟩
  have hnx : NEXT_BLKP s c.bp = nx.bp := h.wf.next_cons.1
  have hnx0 : nx.bp ≠ NULL := by
    have G' := G.out; unfold NULL; clear * - G'; omega
  have hna' : GET_ALLOC s (HDRP nx.bp) = 0 := by rw [h.wf.blk_alloc hnm, hna]; rfl
  have hns : GET_BLK_SIZE s nx.bp = nx.size := h.wf.blk_size hnm
  have hpa : GET_ALLOC s (HDRP (PREV_BLKP s c.bp)) ≠ 0 := (coalesce_bits h.wf).1.2 hprev
  have hcs := csize_eq h.wf hcm
  obtain ⟨NS, hNS⟩ : ∃ NS, NS = (if c.size + nx.size - 8 - ALIGN m > 8 then ALIGN m + 8
      else c.size + nx.size) := ⟨_, rfl⟩
  have GN : Hid (16 ≤ NS ∧ NS % 8 = 0 ∧ NS ≤ c.size + nx.size ∧ ALIGN m + 8 ≤ NS) := by
    constructor
    have G' := G.out
    rw [hNS]
    clear * - G'
    split <;> omega
  have eNS : (if u32 (c.size - 8 + nx.size + 4294967296 - ALIGN m) > DSIZE
      then u32 (ALIGN m + DSIZE) else u32 (c.size - 8 + nx.size + DSIZE)) = NS := by
    have G' := G.out
    have v1 : u32 (c.size - 8 + nx.size + 4294967296 - ALIGN m)
        = c.size + nx.size - 8 - ALIGN m := by clear * - G'; unfold u32; omega
    have v2 : u32 (ALIGN m + DSIZE) = ALIGN m + 8 := by clear * - G'; unfold u32 DSIZE; omega
    have v3 : u32 (c.size - 8 + nx.size + DSIZE) = c.size + nx.size := by
      clear * - G'; unfold u32 DSIZE; omega
    rw [v1, v2, v3, hNS]; rfl
  have hput := (put_hdr_ftr (s.setMem M1) c.bp NS
    (by have G' := G.out; clear * - G'; omega) (by have G' := GN.out; clear * - G'; omega)
    (by have G' := G.out; have G2 := GN.out; clear * - G' G2; omega) GN.out.2.1).2
  simp only [setMem_mem, setMem_setMem] at hput
  have hpost : GET_ALLOC (s.setMem (wr32 (wr32 M1 (c.bp - 4) (NS + 1)) (c.bp + NS - 8) (NS + 1)))
      (HDRP (PREV_BLKP s c.bp)) ≠ 0 := by
    have hb1 := (coalesce_bits w1).1.2 hprev
    have e2 : PREV_BLKP (s.setMem M1) c.bp = PREV_BLKP s c.bp := by
      rw [(w1.prev_info).1, pq]; rfl
    rw [e2] at hb1
    have e3 : HDRP (PREV_BLKP s c.bp) = PREV_BLKP s c.bp - 4 :=
      HDRP_eq _ (by have G' := G.out; clear * - G'; omega)
        (by have G' := G.out; clear * - G'; omega)
    rw [e3] at hb1 ⊢
    unfold GET_ALLOC GET at hb1 ⊢
    simp only [setMem_mem] at hb1 ⊢
    have G' := G.out
    have G2 := GN.out
    rw [rd32_wr32_disj _ _ _ _ (by clear * - G' G2; omega),
      rd32_wr32_disj _ _ _ _ (by clear * - G' G2; omega)]
    exact hb1
  have hgrow := realloc_grow_next s _ c.bp (c.size - 8) (ALIGN m) (PREV_BLKP s c.bp) nx.bp
    nx.size rfl hnx hnx0 hpa hna' hns
    (by have G' := G.out; clear * - G'; unfold u32; omega)
    (by rw [eNS, e1]; exact hput) hpost
  have hp0 : c.bp ≠ NULL := by
    have G' := G.out; unfold NULL; clear * - G'; omega
  have hev := mm_realloc_grow_eval fuel s c.bp m (c.size - 8) hp0 (by omega) hcs h1
  obtain ⟨n1, n2⟩ := @noAdjFree_outer _ [c, nx] _ (by simpa using h.noadj)
  obtain ⟨M', bl', fl', f1, f2, f3, f4, f5, f6, f7, f8, _⟩ := resize_finish_spec w1' hlpre hmid
    hnomem hcomp n1 n2 (ALIGN m) (c.size + nx.size) am8 a8
    (by have G' := G.out; clear * - G'; omega) (by have G' := G.out; clear * - G'; omega)
    rfl (wr32 M1 (c.bp - 4) (NS + 1))
    (by
      intro a ha
      have G' := G.out
      exact wr32_outside _ _ _ _ (by clear * - G' ha; omega))
    (by
      rw [← hNS]
      exact rd32_wr32_same _ _ _ (by have G' := G.out; have G2 := GN.out; clear * - G' G2; omega))
    { heap := s.setMem (wr32 (wr32 M1 (c.bp - 4) (NS + 1)) (c.bp + NS - 8) (NS + 1)),
      new_ptr := c.bp, realloced := true,
      padding := u32 (c.size - 8 + nx.size + 4294967296 - ALIGN m) }
    (by rw [← hNS]; rfl) rfl rfl
    (by
      show u32 (c.size - 8 + nx.size + 4294967296 - ALIGN m) = c.size + nx.size - 8 - ALIGN m
      have G' := G.out; clear * - G'; unfold u32; omega)
    fuel hfuel c.bp m (c.size - 8)
  simp only [setMem_setMem, setMem_mem] at f1 f2 f5
  refine ⟨M', bl', fl', by rw [hev, hgrow]; exact f1, f2, f3, f4, fun a ha => ?_, f6, f7,
    fun i hi => ?_⟩
  · rw [f5 a ha]
    apply u1
    obtain ⟨d, hd, rr⟩ := ha
    refine ⟨d, ?_, rr⟩
    rcases List.mem_append.1 hd with hd | hd
    · exact List.mem_append_left _ hd
    · exact List.mem_append_right _ (List.mem_cons_of_mem _ (List.mem_cons_of_mem _ hd))
  · rw [f8 (c.bp + i) (by omega) (by omega),
      wr32_outside _ _ _ _ (by have G' := G.out; clear * - G'; omega)]
    exact u1 _ ⟨c, hcm, hca, by omega, by have G' := G.out; clear * - G' hi; omega⟩

theorem alloc_bit_one (s : Heap) (M : Nat → Nat) (q ns : Nat) (h4 : 4 ≤ q)
    (hlt : q < 4294967296) (h8 : ns % 8 = 0) (hr : rd32 M (q - 4) = ns + 1) :
    GET_ALLOC (s.setMem M) (HDRP q) ≠ 0 := by
  rw [HDRP_eq _ h4 hlt]
  unfold GET_ALLOC GET
  show rd32 M (q - 4) &&& 1 ≠ 0
  rw [hr, tag_and_one _ _ h8 (le_refl _)]
  decide

/-- The path of `mm_realloc` that absorbs the free block before the block and
moves the payload down. -/
theorem realloc_prev_spec {s : Heap} {pre post : List Blk} {a c : Blk} {fl : Nat → List Nat}
    (h : Inv s (pre ++ a :: c :: post) fl) (hca : c.alloc = true) (ha : a.alloc = false)
    (m : Nat) (h0 : 0 < m) (hm : m ≤ 4294967280) (h1 : ALIGN m > c.size - 8)
    (hfit : ALIGN m ≤ a.size + (c.size - 8)) (fuel : Nat) (hfuel : 1 ≤ fuel) :
    ∃ M' bl' fl', mm_realloc fuel s c.bp m = some (a.bp, s.setMem M') ∧
      WF (s.setMem M') bl' fl' ∧ Complete bl' fl' ∧ NoAdjFree bl' ∧
      (∀ x, InAlloc (pre ++ post) x → M' x = s.mem x) ∧
      (∀ d ∈ pre ++ post, d.alloc = true → d ∈ bl' ∧ d.bp ≠ a.bp) ∧
      (∃ c' ∈ bl', c'.bp = a.bp ∧ c'.alloc = true ∧ ALIGN m + 8 ≤ c'.size) ∧
      (∀ i, i < c.size - 8 → M' (a.bp + i) = s.mem (c.bp + i)) := by
  have hcm : c ∈ pre ++ a :: c :: post := by simp
  have ham : a ∈ pre ++ a :: c :: post := by simp
  have hcb := h.wf.bounds hcm
  have hab := h.wf.bounds ham
  obtain ⟨a8, am8, _, _, _⟩ := ALIGN_props m h0 hm
  obtain ⟨hlpre, hlpost, _, _⟩ := h.wf.split_layout
  obtain ⟨hcbp, _, _, hlr⟩ := Layout_cons.1 hlpost
  have G : Hid ((s.seg_list_ptr + 112 ≤ a.bp ∧ 16 ≤ a.size ∧ a.size % 8 = 0) ∧
      (c.bp + c.size ≤ s.mem_brk ∧ s.mem_brk < 4294967296 ∧ 16 ≤ c.size ∧
        c.size % 8 = 0) ∧ c.bp = a.bp + a.size ∧ 8 ≤ ALIGN m ∧ ALIGN m % 8 = 0 ∧
      ALIGN m > c.size - 8 ∧ ALIGN m ≤ a.size + (c.size - 8)) :=
    ⟨⟨⟨hab.1, hab.2.2.2⟩, hcb.2, hcbp, a8, am8, h1, hfit⟩⟩
  obtain ⟨M1, fl1, e1, w1, u1, m1⟩ := remove_seglist_frame h.wf ham (h.complete a ham ha)
  have w1' : WF (s.setMem M1) (pre ++ [a, c] ++ post) fl1 := by simpa using w1
  have hmid : Layout a.bp [a, c] (a.bp + (a.size + c.size)) := by
    have G' := G.out
    refine Layout_cons.2 ⟨rfl, G'.1.2.1, G'.1.2.2, Layout_cons.2 ⟨hcbp, G'.2.1.2.2.1,
      G'.2.1.2.2.2, Layout_nil.2 ?_⟩⟩
    clear * - G'; omega
  have hnomem : ∀ i, i < 24 → ∀ x ∈ fl1 i, ∀ b ∈ [a, c], b.bp ≠ x := by
    intro i hi x hx d hd
    simp only [List.mem_cons, List.mem_singleton, List.not_mem_nil, or_false] at hd
    rcases hd with rfl | rfl
    · exact fun e => ((m1 i hi x).1 hx).1 e.symm
    · exact w1.alloc_not_listed hcm hca i hi x hx
  have hlr' : Layout (a.bp + (a.size + c.size)) post s.mem_brk := by
    have e : a.bp + (a.size + c.size) = a.bp + a.size + c.size := by omega
    rw [e]; exact hlr
  have hcomp : ∀ d ∈ pre ++ post, d.alloc = false → d.bp ∈ fl1 (classOf d.size) := by
    intro d hd hdf
    have hne : d.bp ≠ a.bp := outer_bp_ne hlpre hlr'
      ⟨le_refl _, by have G' := G.out; clear * - G'; omega⟩ hd
    have hdm : d ∈ pre ++ a :: c :: post := by
      rcases List.mem_append.1 hd with hd | hd
      · exact List.mem_append_left _ hd
      · exact List.mem_append_right _ (List.mem_cons_of_mem _ (List.mem_cons_of_mem _ hd))
    exact (m1 _ (classOf_lt _) _).2 ⟨hne, h.complete d hdm hdf⟩
  have hq : PREV_BLKP s c.bp = a.bp := (WF.prev_concat h.wf).1
  have hq0 : a.bp ≠ NULL := by
    have G' := G.out; unfold NULL; clear * - G'; omega
  have hpa : GET_ALLOC s (HDRP a.bp) = 0 := by rw [h.wf.blk_alloc ham, ha]; rfl
  have hps : GET_BLK_SIZE s a.bp = a.size := h.wf.blk_size ham
  have hcs := csize_eq h.wf hcm
  obtain ⟨NS, hNS⟩ : ∃ NS, NS = (if a.size + c.size - 8 - ALIGN m > 8 then ALIGN m + 8
      else a.size + c.size) := ⟨_, rfl⟩
  have GN : Hid (16 ≤ NS ∧ NS % 8 = 0 ∧ NS ≤ a.size + c.size ∧ ALIGN m + 8 ≤ NS) := by
    constructor
    have G' := G.out
    rw [hNS]
    clear * - G'
    split <;> omega
  have eNS : (if u32 (c.size - 8 + a.size + 4294967296 - ALIGN m) > DSIZE
      then u32 (ALIGN m + DSIZE) else u32 (c.size - 8 + a.size + DSIZE)) = NS := by
    have G' := G.out
    have v1 : u32 (c.size - 8 + a.size + 4294967296 - ALIGN m)
        = a.size + c.size - 8 - ALIGN m := by clear * - G'; unfold u32; omega
    have v2 : u32 (ALIGN m + DSIZE) = ALIGN m + 8 := by clear * - G'; unfold u32 DSIZE; omega
    have v3 : u32 (c.size - 8 + a.size + DSIZE) = a.size + c.size := by
      clear * - G'; unfold u32 DSIZE; omega
    rw [v1, v2, v3, hNS]; rfl
  have hX : PUT (remove_seglist s a.bp) (HDRP a.bp) (PACK NS 1)
      = s.setMem (wr32 M1 (a.bp - 4) (NS + 1)) := by
    rw [e1, HDRP_eq _ (by have G' := G.out; clear * - G'; omega)
      (by have G' := G.out; clear * - G'; omega), PACK_one _ GN.out.2.1, PUT_eq]
    rfl
  have hY : (s.setMem (wr32 M1 (a.bp - 4) (NS + 1))).setMem
      (memmove (s.setMem (wr32 M1 (a.bp - 4) (NS + 1))).mem a.bp c.bp
        (u32 (c.size - 8 + DSIZE))) =
      s.setMem (memmove (wr32 M1 (a.bp - 4) (NS + 1)) a.bp c.bp c.size) := by
    have v : u32 (c.size - 8 + DSIZE) = c.size := by
      have G' := G.out; clear * - G'; unfold u32 DSIZE; omega
    rw [v]; rfl
  have hhdr : rd32 (memmove (wr32 M1 (a.bp - 4) (NS + 1)) a.bp c.bp c.size) (a.bp - 4)
      = NS + 1 := by
    have G' := G.out
    have G2 := GN.out
    rw [rd32_memmove_disj _ _ _ _ _ (by clear * - G'; omega),
      rd32_wr32_same _ _ _ (by clear * - G' G2; omega)]
  have hh := put_ftr_after s (memmove (wr32 M1 (a.bp - 4) (NS + 1)) a.bp c.bp c.size) a.bp NS
    (by have G' := G.out; clear * - G'; omega) (by have G' := GN.out; clear * - G'; omega)
    (by have G' := G.out; have G2 := GN.out; clear * - G' G2; omega) GN.out.2.1 hhdr
  have hpost : GET_ALLOC (s.setMem (wr32 (memmove (wr32 M1 (a.bp - 4) (NS + 1)) a.bp c.bp
      c.size) (a.bp + NS - 8) (NS + 1))) (HDRP a.bp) ≠ 0 := by
    refine alloc_bit_one _ _ a.bp NS (by have G' := G.out; clear * - G'; omega)
      (by have G' := G.out; clear * - G'; omega) GN.out.2.1 ?_
    rw [rd32_wr32_disj _ _ _ _ (by have G' := G.out; have G2 := GN.out; clear * - G' G2; omega)]
    exact hhdr
  have hgrow := realloc_grow_prev s _ _ _ c.bp (c.size - 8) (ALIGN m) a.bp a.size NS hq hq0
    hpa hps (by have G' := G.out; clear * - G'; unfold u32; omega) eNS hX hY hh hpost
  have hp0 : c.bp ≠ NULL := by
    have G' := G.out; unfold NULL; clear * - G'; omega
  have hev := mm_realloc_grow_eval fuel s c.bp m (c.size - 8) hp0 (by omega) hcs h1
  obtain ⟨n1, n2⟩ := @noAdjFree_outer _ [a, c] _ (by simpa using h.noadj)
  obtain ⟨M', bl', fl', f1, f2, f3, f4, f5, f6, f7, f8, _⟩ := resize_finish_spec w1' hlpre hmid
    hnomem hcomp n1 n2 (ALIGN m) (a.size + c.size) am8 a8
    (by have G' := G.out; clear * - G'; omega) (by have G' := G.out; clear * - G'; omega)
    rfl (memmove (wr32 M1 (a.bp - 4) (NS + 1)) a.bp c.bp c.size)
    (by
      intro x hx
      have G' := G.out
      rw [memmove_outside _ _ _ _ _ (by clear * - G' hx; omega)]
      exact wr32_outside _ _ _ _ (by clear * - G' hx; omega))
    (by rw [← hNS]; exact hhdr)
    { heap := s.setMem (wr32 (memmove (wr32 M1 (a.bp - 4) (NS + 1)) a.bp c.bp c.size)
        (a.bp + NS - 8) (NS + 1)),
      new_ptr := a.bp, realloced := true,
      padding := u32 (c.size - 8 + a.size + 4294967296 - ALIGN m) }
    (by rw [← hNS]; rfl) rfl rfl
    (by
      show u32 (c.size - 8 + a.size + 4294967296 - ALIGN m) = a.size + c.size - 8 - ALIGN m
      have G' := G.out; clear * - G'; unfold u32; omega)
    fuel hfuel c.bp m (c.size - 8)
  simp only [setMem_setMem, setMem_mem] at f1 f2 f5
  refine ⟨M', bl', fl', by rw [hev, hgrow]; exact f1, f2, f3, f4, fun x hx => ?_, f6, f7,
    fun i hi => ?_⟩
  · rw [f5 x hx]
    apply u1
    obtain ⟨d, hd, rr⟩ := hx
    refine ⟨d, ?_, rr⟩
    rcases List.mem_append.1 hd with hd | hd
    · exact List.mem_append_left _ hd
    · exact List.mem_append_right _ (List.mem_cons_of_mem _ (List.mem_cons_of_mem _ hd))
  · rw [f8 (a.bp + i) (by omega) (by omega),
      memmove_inside _ _ _ _ _ (by have G' := G.out; clear * - G' hi; omega),
      Nat.add_sub_cancel_left,
      wr32_outside _ _ _ _ (by have G' := G.out; clear * - G'; omega)]
    exact u1 _ ⟨c, hcm, hca, by omega, by have G' := G.out; clear * - G' hi; omega⟩

/-- The path of `mm_realloc` that absorbs both free neighbours and moves the
payload down. -/
theorem realloc_both_spec {s : Heap} {pre r : List Blk} {a c nx : Blk} {fl : Nat → List Nat}
    (h : Inv s (pre ++ a :: c :: nx :: r) fl) (hca : c.alloc = true) (ha : a.alloc = false)
    (hna : nx.alloc = false) (m : Nat) (h0 : 0 < m) (hm : m ≤ 4294967280)
    (h1 : ALIGN m > c.size - 8) (hnfit : ¬ ALIGN m ≤ a.size + (c.size - 8))
    (hfit : ALIGN m ≤ a.size + nx.size + (c.size - 8)) (fuel : Nat) (hfuel : 1 ≤ fuel) :
    ∃ M' bl' fl', mm_realloc fuel s c.bp m = some (a.bp, s.setMem M') ∧
      WF (s.setMem M') bl' fl' ∧ Complete bl' fl' ∧ NoAdjFree bl' ∧
      (∀ x, InAlloc (pre ++ r) x → M' x = s.mem x) ∧
      (∀ d ∈ pre ++ r, d.alloc = true → d ∈ bl' ∧ d.bp ≠ a.bp) ∧
      (∃ c' ∈ bl', c'.bp = a.bp ∧ c'.alloc = true ∧ ALIGN m + 8 ≤ c'.size) ∧
      (∀ i, i < c.size - 8 → M' (a.bp + i) = s.mem (c.bp + i)) := by
  have hcm : c ∈ pre ++ a :: c :: nx :: r := by simp
  have ham : a ∈ pre ++ a :: c :: nx :: r := by simp
  have hnm : nx ∈ pre ++ a :: c :: nx :: r := by simp
  have hcb := h.wf.bounds hcm
  have hab := h.wf.bounds ham
  have hnb := h.wf.bounds hnm
  obtain ⟨a8, am8, _, _, _⟩ := ALIGN_props m h0 hm
  obtain ⟨hlpre, hlpost, _, _⟩ := h.wf.split_layout
  obtain ⟨hcbp, _, _, hlr0⟩ := Layout_cons.1 hlpost
  obtain ⟨hnbp, _, _, hlr⟩ := Layout_cons.1 hlr0
  have G : Hid ((s.seg_list_ptr + 112 ≤ a.bp ∧ 16 ≤ a.size ∧ a.size % 8 = 0) ∧
      (16 ≤ c.size ∧ c.size % 8 = 0) ∧
      (nx.bp + nx.size ≤ s.mem_brk ∧ s.mem_brk < 4294967296 ∧ 16 ≤ nx.size ∧
        nx.size % 8 = 0) ∧ c.bp = a.bp + a.size ∧ nx.bp = a.bp + a.size + c.size ∧
      8 ≤ ALIGN m ∧ ALIGN m % 8 = 0 ∧
      ALIGN m > c.size - 8 ∧ ¬ ALIGN m ≤ a.size + (c.size - 8) ∧
      ALIGN m ≤ a.size + nx.size + (c.size - 8)) :=
    ⟨⟨⟨hab.1, hab.2.2.2⟩, hcb.2.2.2, hnb.2, hcbp, hnbp, a8, am8, h1, hnfit, hfit⟩⟩
  obtain ⟨M1, fl1, e1, w1, u1, m1⟩ := remove_seglist_frame h.wf hnm (h.complete nx hnm hna)
  have hain : a.bp ∈ fl1 (classOf a.size) :=
    (m1 _ (classOf_lt _) _).2 ⟨by have G' := G.out; clear * - G'; omega, h.complete a ham ha⟩
  obtain ⟨M2, fl2, e2, w2, u2, m2⟩ := remove_seglist_frame w1 ham hain
  simp only [setMem_setMem, setMem_mem] at e2 w2 u2
  have w2' : WF (s.setMem M2) (pre ++ [a, c, nx] ++ r) fl2 := by simpa using w2
  have hmid : Layout a.bp [a, c, nx] (a.bp + (a.size + c.size + nx.size)) := by
    have G' := G.out
    refine Layout_cons.2 ⟨rfl, G'.1.2.1, G'.1.2.2, Layout_cons.2 ⟨hcbp, G'.2.1.1,
      G'.2.1.2, Layout_cons.2 ⟨?_, G'.2.2.1.2.2.1, G'.2.2.1.2.2.2, Layout_nil.2 ?_⟩⟩⟩
    · clear * - G'; omega
    · clear * - G'; omega
  have hnomem : ∀ i, i < 24 → ∀ x ∈ fl2 i, ∀ b ∈ [a, c, nx], b.bp ≠ x := by
    intro i hi x hx d hd
    simp only [List.mem_cons, List.mem_singleton, List.not_mem_nil, or_false] at hd
    rcases hd with rfl | rfl | rfl
    · exact fun e => ((m2 i hi x).1 hx).1 e.symm
    · exact w2.alloc_not_listed hcm hca i hi x hx
    · exact fun e => ((m1 i hi x).1 ((m2 i hi x).1 hx).2).1 e.symm
  have hlr' : Layout (a.bp + (a.size + c.size + nx.size)) r s.mem_brk := by
    have e : a.bp + (a.size + c.size + nx.size) = a.bp + a.size + c.size + nx.size := by omega
    rw [e]; exact hlr
  have hcomp : ∀ d ∈ pre ++ r, d.alloc = false → d.bp ∈ fl2 (classOf d.size) := by
    intro d hd hdf
    have hne1 : d.bp ≠ a.bp := outer_bp_ne hlpre hlr'
      ⟨le_refl _, by have G' := G.out; clear * - G'; omega⟩ hd
    have hne2 : d.bp ≠ nx.bp := outer_bp_ne hlpre hlr'
      ⟨by have G' := G.out; clear * - G'; omega, by have G' := G.out; clear * - G'; omega⟩ hd
    have hdm : d ∈ pre ++ a :: c :: nx :: r := by
      rcases List.mem_append.1 hd with hd | hd
      · exact List.mem_append_left _ hd
      · exact List.mem_append_right _ (List.mem_cons_of_mem _ (List.mem_cons_of_mem _
          (List.mem_cons_of_mem _ hd)))
    exact (m2 _ (classOf_lt _) _).2 ⟨hne1, (m1 _ (classOf_lt _) _).2 ⟨hne2, h.complete d hdm hdf⟩⟩
  have hq : PREV_BLKP s c.bp = a.bp := (WF.prev_concat h.wf).1
  have hwn : WF s ((pre ++ [a]) ++ c :: nx :: r) fl := by simpa using h.wf
  have hnx : NEXT_BLKP s c.bp = nx.bp := hwn.next_cons.1
  have hq0 : a.bp ≠ NULL := by
    have G' := G.out; unfold NULL; clear * - G'; omega
  have hnx0 : nx.bp ≠ NULL := by
    have G' := G.out; unfold NULL; clear * - G'; omega
  have hpa : GET_ALLOC s (HDRP a.bp) = 0 := by rw [h.wf.blk_alloc ham, ha]; rfl
  have hna' : GET_ALLOC s (HDRP nx.bp) = 0 := by rw [h.wf.blk_alloc hnm, hna]; rfl
  have hps : GET_BLK_SIZE s a.bp = a.size := h.wf.blk_size ham
  have hns : GET_BLK_SIZE s nx.bp = nx.size := h.wf.blk_size hnm
  have hcs := csize_eq h.wf hcm
  obtain ⟨NS, hNS⟩ : ∃ NS, NS = (if a.size + c.size + nx.size - 8 - ALIGN m > 8
      then ALIGN m + 8 else a.size + c.size + nx.size) := ⟨_, rfl⟩
  have GN : Hid (16 ≤ NS ∧ NS % 8 = 0 ∧ NS ≤ a.size + c.size + nx.size ∧
      ALIGN m + 8 ≤ NS) := by
    constructor
    have G' := G.out
    rw [hNS]
    clear * - G'
    split <;> omega
  have eNS : (if u32 (c.size - 8 + a.size + nx.size + 4294967296 - ALIGN m) > DSIZE
      then u32 (ALIGN m + DSIZE) else u32 (c.size - 8 + a.size + nx.size + DSIZE)) = NS := by
    have G' := G.out
    have v1 : u32 (c.size - 8 + a.size + nx.size + 4294967296 - ALIGN m)
        = a.size + c.size + nx.size - 8 - ALIGN m := by clear * - G'; unfold u32; omega
    have v2 : u32 (ALIGN m + DSIZE) = ALIGN m + 8 := by clear * - G'; unfold u32 DSIZE; omega
    have v3 : u32 (c.size - 8 + a.size + nx.size + DSIZE) = a.size + c.size + nx.size := by
      clear * - G'; unfold u32 DSIZE; omega
    rw [v1, v2, v3, hNS]; rfl
  have hX : PUT (remove_seglist (remove_seglist s nx.bp) a.bp) (HDRP a.bp) (PACK NS 1)
      = s.setMem (wr32 M2 (a.bp - 4) (NS + 1)) := by
    rw [e1, e2, HDRP_eq _ (by have G' := G.out; clear * - G'; omega)
      (by have G' := G.out; clear * - G'; omega), PACK_one _ GN.out.2.1, PUT_eq]
    rfl
  have hY : (s.setMem (wr32 M2 (a.bp - 4) (NS + 1))).setMem
      (memmove (s.setMem (wr32 M2 (a.bp - 4) (NS + 1))).mem a.bp c.bp
        (u32 (c.size - 8 + DSIZE))) =
      s.setMem (memmove (wr32 M2 (a.bp - 4) (NS + 1)) a.bp c.bp c.size) := by
    have v : u32 (c.size - 8 + DSIZE) = c.size := by
      have G' := G.out; clear * - G'; unfold u32 DSIZE; omega
    rw [v]; rfl
  have hhdr : rd32 (memmove (wr32 M2 (a.bp - 4) (NS + 1)) a.bp c.bp c.size) (a.bp - 4)
      = NS + 1 := by
    have G' := G.out
    have G2 := GN.out
    rw [rd32_memmove_disj _ _ _ _ _ (by clear * - G'; omega),
      rd32_wr32_same _ _ _ (by clear * - G' G2; omega)]
  have hh := put_ftr_after s (memmove (wr32 M2 (a.bp - 4) (NS + 1)) a.bp c.bp c.size) a.bp NS
    (by have G' := G.out; clear * - G'; omega) (by have G' := GN.out; clear * - G'; omega)
    (by have G' := G.out; have G2 := GN.out; clear * - G' G2; omega) GN.out.2.1 hhdr
  have hgrow := realloc_grow_both s _ _ _ c.bp (c.size - 8) (ALIGN m) a.bp nx.bp a.size nx.size
    NS hq hnx hq0 hnx0 hpa hna' hps hns
    (by have G' := G.out; clear * - G'; unfold u32; omega)
    (by have G' := G.out; clear * - G'; unfold u32; omega) eNS hX hY hh
  have hp0 : c.bp ≠ NULL := by
    have G' := G.out; unfold NULL; clear * - G'; omega
  have hev := mm_realloc_grow_eval fuel s c.bp m (c.size - 8) hp0 (by omega) hcs h1
  obtain ⟨n1, n2⟩ := @noAdjFree_outer _ [a, c, nx] _ (by simpa using h.noadj)
  obtain ⟨M', bl', fl', f1, f2, f3, f4, f5, f6, f7, f8, _⟩ := resize_finish_spec w2' hlpre hmid
    hnomem hcomp n1 n2 (ALIGN m) (a.size + c.size + nx.size) am8 a8
    (by have G' := G.out; clear * - G'; omega) (by have G' := G.out; clear * - G'; omega)
    rfl (memmove (wr32 M2 (a.bp - 4) (NS + 1)) a.bp c.bp c.size)
    (by
      intro x hx
      have G' := G.out
      rw [memmove_outside _ _ _ _ _ (by clear * - G' hx; omega)]
      exact wr32_outside _ _ _ _ (by clear * - G' hx; omega))
    (by rw [← hNS]; exact hhdr)
    { heap := s.setMem (wr32 (memmove (wr32 M2 (a.bp - 4) (NS + 1)) a.bp c.bp c.size)
        (a.bp + NS - 8) (NS + 1)),
      new_ptr := a.bp, realloced := true,
      padding := u32 (c.size - 8 + a.size + nx.size + 4294967296 - ALIGN m) }
    (by rw [← hNS]; rfl) rfl rfl
    (by
      show u32 (c.size - 8 + a.size + nx.size + 4294967296 - ALIGN m)
        = a.size + c.size + nx.size - 8 - ALIGN m
      have G' := G.out; clear * - G'; unfold u32; omega)
    fuel hfuel c.bp m (c.size - 8)
  simp only [setMem_setMem, setMem_mem] at f1 f2 f5
  have hin : ∀ x, InAlloc (pre ++ r) x → InAlloc (pre ++ a :: c :: nx :: r) x := by
    intro x hx
    obtain ⟨d, hd, rr⟩ := hx
    refine ⟨d, ?_, rr⟩
    rcases List.mem_append.1 hd with hd | hd
    · exact List.mem_append_left _ hd
    · exact List.mem_append_right _ (List.mem_cons_of_mem _ (List.mem_cons_of_mem _
        (List.mem_cons_of_mem _ hd)))
  refine ⟨M', bl', fl', by rw [hev, hgrow]; exact f1, f2, f3, f4, fun x hx => ?_, f6, f7,
    fun i hi => ?_⟩
  · rw [f5 x hx, u2 x (hin x hx)]
    exact u1 x (hin x hx)
  · have hci : InAlloc (pre ++ a :: c :: nx :: r) (c.bp + i) :=
      ⟨c, hcm, hca, by omega, by have G' := G.out; clear * - G' hi; omega⟩
    rw [f8 (a.bp + i) (by omega) (by omega),
      memmove_inside _ _ _ _ _ (by have G' := G.out; clear * - G' hi; omega),
      Nat.add_sub_cancel_left,
      wr32_outside _ _ _ _ (by have G' := G.out; clear * - G'; omega), u2 _ hci]
    exact u1 _ hci

theorem Layout.length_le {l : List Blk} {a e : Nat} (h : Layout a l e) :
    a + 16 * l.length ≤ e := by
  induction l generalizing a with
  | nil => have := Layout_nil.1 h; simp; omega
  | cons b bs ih =>
    obtain ⟨h1, h2, h3, h4⟩ := Layout_cons.1 h
    have := ih h4
    simp only [List.length_cons]
    omega

theorem WF.fuel_ok {s : Heap} {bl : List Blk} {fl : Nat → List Nat} (h : WF s bl fl)
    {fuel : Nat} (hf : s.mem_brk < fuel) : bl.length + 1 < fuel := by
  have := Layout.length_le h.layout
  omega

theorem WF.outer_ne {s : Heap} {pre post : List Blk} {c : Blk} {fl : Nat → List Nat}
    (h : WF s (pre ++ c :: post) fl) {d : Blk} (hd : d ∈ pre ++ post) : d.bp ≠ c.bp := by
  obtain ⟨hlpre, hlpost, h16, _⟩ := h.split_layout
  exact outer_bp_ne hlpre hlpost ⟨le_refl _, by omega⟩ hd

theorem mem_outer_of_ne {pre post : List Blk} {c d : Blk} (hd : d ∈ pre ++ c :: post)
    (hne : d.bp ≠ c.bp) : d ∈ pre ++ post := by
  rcases List.mem_append.1 hd with h | h
  · exact List.mem_append.2 (Or.inl h)
  · rcases List.mem_cons.1 h with h | h
    · subst h; exact absurd rfl hne
    · exact List.mem_append.2 (Or.inr h)

theorem mem_of_mem_outer {pre post : List Blk} {c d : Blk} (hd : d ∈ pre ++ post) :
    d ∈ pre ++ c :: post := by
  rcases List.mem_append.1 hd with h | h
  · exact List.mem_append.2 (Or.inl h)
  · exact List.mem_append.2 (Or.inr (List.mem_cons_of_mem _ h))

theorem mem_coalesced_of_outer {pre post : List Blk} (b : Blk) {d : Blk} (hda : d.alloc = true)
    (hd : d ∈ pre ++ post) : d ∈ coalesced pre b post := by
  have := (@coalesced_alloc_mem pre post b d hda).2 hd
  unfold coalesced
  rcases List.mem_append.1 this with h | h
  · exact List.mem_append.2 (Or.inl h)
  · exact List.mem_append.2 (Or.inr (List.mem_cons_of_mem _ h))

/-- Storing into the payload of an allocated block keeps the invariant. -/
theorem Inv.write_payload {s : Heap} {pre post : List Blk} {c : Blk} {fl : Nat → List Nat}
    (h : Inv s (pre ++ c :: post) fl) (hca : c.alloc = true) (M : Nat → Nat)
    (hM : ∀ a, a < c.bp ∨ c.bp + c.size - 8 ≤ a → M a = s.mem a) :
    Inv (s.setMem M) (pre ++ c :: post) fl := by
  have hcm : c ∈ pre ++ c :: post := by simp
  have hcb := h.wf.bounds hcm
  obtain ⟨hlpre, hlpost, h16, h8⟩ := h.wf.split_layout
  have hmid : Layout c.bp [c] (c.bp + c.size) :=
    Layout_cons.2 ⟨rfl, h16, h8, Layout_nil.2 rfl⟩
  have hw : WF s (pre ++ [c] ++ post) fl := by simpa using h.wf
  have hh := hw.retag [c] hlpre hmid hmid M (fun a ha => hM a (by omega))
    (by
      intro b hb
      simp only [List.mem_singleton] at hb
      subst hb
      have t := h.wf.tags b hcm
      constructor
      · rw [← t.1]
        exact rd32_congr _ _ _ (fun i hi => hM _ (by omega))
      · rw [← t.2]
        exact rd32_congr _ _ _ (fun i hi => hM _ (by omega)))
    (by
      intro i hi x hx b hb
      simp only [List.mem_singleton] at hb
      subst hb
      exact h.wf.alloc_not_listed hcm hca i hi x hx)
  exact ⟨by simpa using hh, h.complete, h.noadj, h.aligned⟩

theorem malloc_asize_ge (m csz : Nat) (h0 : 0 < m) (hm : m ≤ 4294967280) (h8 : csz % 8 = 0)
    (h1 : ALIGN m > csz - 8) : csz + 8 ≤ malloc_asize m ∧ m + 8 ≤ malloc_asize m := by
  obtain ⟨a8, am8, hle, _, h16'⟩ := ALIGN_props m h0 hm
  obtain ⟨g24, _, g8, _⟩ := malloc_asize_props m h0 hm
  have e : ALIGN m = m + 7 - (m + 7) % 8 := by
    unfold ALIGN ALIGNMENT
    have e2 : u32 (m + (8 - 1)) = m + 7 := by unfold u32; omega
    rw [e2, and_MASK7 _ (by omega)]
  refine ⟨?_, g8⟩
  by_cases h : 16 < m
  · rw [h16' h]; omega
  · omega

/-- A successful in-place resize, in the form shared by all paths. -/
theorem realloc_ok_intro {s : Heap} {pre post : List Blk} {c : Blk} {fl : Nat → List Nat}
    {m q fuel : Nat} {out : List Blk} (h : Inv s (pre ++ c :: post) fl) (h0 : 0 < m)
    (hm : m ≤ 4294967280) (hout : ∀ d ∈ pre ++ post, d.alloc = true → d ∈ out)
    (hx : ∃ M' bl' fl', mm_realloc fuel s c.bp m = some (q, s.setMem M') ∧
      WF (s.setMem M') bl' fl' ∧ Complete bl' fl' ∧ NoAdjFree bl' ∧
      (∀ x, InAlloc out x → M' x = s.mem x) ∧
      (∀ d ∈ out, d.alloc = true → d ∈ bl' ∧ d.bp ≠ q) ∧
      (∃ c' ∈ bl', c'.bp = q ∧ c'.alloc = true ∧ ALIGN m + 8 ≤ c'.size) ∧
      (∀ i, i < c.size - 8 → i < ALIGN m → M' (q + i) = s.mem (c.bp + i))) :
    ∃ q s' bl' fl', mm_realloc fuel s c.bp m = some (q, s') ∧ Inv s' bl' fl' ∧
      (q = NULL → s' = s ∧ bl' = pre ++ c :: post ∧ fl' = fl ∧ ALIGN m > c.size - 8 ∧
        realloc_grow s c.bp (c.size - 8) (ALIGN m) =
          { heap := s, new_ptr := NULL, realloced := false, padding := 0 } ∧
        mm_malloc fuel s m = some (NULL, s)) ∧
      (q ≠ NULL → ReallocOK s pre post c m q s' bl') := by
  obtain ⟨M', bl', fl', e, w, cp, na, fr, kept, ⟨c', hc', hcq, hca', hsz⟩, pay⟩ := hx
  obtain ⟨_, _, hle, _, _⟩ := ALIGN_props m h0 hm
  refine ⟨q, s.setMem M', bl', fl', e, ⟨w, cp, na, h.aligned⟩, ?_, ?_⟩
  · intro hq
    have := w.bounds hc'
    simp only [setMem_seg] at this
    unfold NULL at hq
    omega
  · intro _
    refine ⟨?_, fun d hd hda => kept d (hout d hd hda) hda, ⟨c', hc', hcq, hca', by omega⟩,
      fun i hi him => pay i hi (by omega), rfl, rfl, le_refl _⟩
    rintro x ⟨d, hd, hda, h1, h2⟩
    exact fr x ⟨d, hout d hd hda, hda, h1, h2⟩

theorem getLast_shape {α : Type} {l : List α} {a : α} (h : a ∈ l.getLast?) :
    ∃ l', l = l' ++ [a] := by
  rcases list_nil_or_snoc l with rfl | ⟨l', b, rfl⟩
  · simp at h
  · refine ⟨l', ?_⟩
    simp at h
    rw [h]

theorem head_shape {α : Type} {l : List α} {a : α} (h : a ∈ l.head?) : ∃ r, l = a :: r := by
  cases l with
  | nil => simp at h
  | cons b r =>
    simp at h
    exact ⟨r, by rw [h]⟩

theorem mem_drop_free {l1 mid l2 : List Blk} (hmid : ∀ d ∈ mid, d.alloc = false) {d : Blk}
    (hd : d ∈ l1 ++ mid ++ l2) (hda : d.alloc = true) : d ∈ l1 ++ l2 := by
  rcases List.mem_append.1 hd with hd | hd
  · rcases List.mem_append.1 hd with hd | hd
    · exact List.mem_append_left _ hd
    · rw [hmid d hd] at hda; exact absurd hda (by simp)
  · exact List.mem_append_right _ hd

/-- No neighbour can be absorbed: `realloc_grow` leaves the heap alone. -/
theorem realloc_none_eval {s : Heap} {pre post : List Blk} {c : Blk} {fl : Nat → List Nat}
    (h : WF s (pre ++ c :: post) fl) (A : Nat)
    (hp : ∀ a ∈ pre.getLast?, a.alloc = false → ¬ A ≤ a.size + (c.size - 8) ∧
      ∀ nx ∈ post.head?, nx.alloc = false → ¬ A ≤ a.size + nx.size + (c.size - 8))
    (hn : (∀ a ∈ pre.getLast?, a.alloc = true) →
      ∀ nx ∈ post.head?, nx.alloc = false → ¬ A ≤ nx.size + (c.size - 8)) :
    realloc_grow s c.bp (c.size - 8) A =
      { heap := s, new_ptr := NULL, realloced := false, padding := 0 } := by
  have hcm : c ∈ pre ++ c :: post := by simp
  have hcb := h.bounds hcm
  obtain ⟨_, hq0, _, _⟩ := h.prev_info
  have N : NEXT_BLKP s c.bp ≠ NULL ∧ (GET_ALLOC s (HDRP (NEXT_BLKP s c.bp)) ≠ 0 ∨
      ∃ nx ∈ post.head?, nx.alloc = false ∧ GET_BLK_SIZE s (NEXT_BLKP s c.bp) = nx.size ∧
        c.bp + c.size + nx.size < 4294967296) := by
    rcases post with _ | ⟨nx, r⟩
    · have := h.next_nil
      refine ⟨by rw [this.1]; unfold NULL; omega, Or.inl (by rw [this.1, this.2.2.1]; decide)⟩
    · have hnm : nx ∈ pre ++ c :: nx :: r := by simp
      have hnb := h.bounds hnm
      have hc := h.next_cons
      refine ⟨by rw [hc.1]; unfold NULL; omega, ?_⟩
      cases hna : nx.alloc
      · right
        exact ⟨nx, by simp, hna, by rw [hc.1]; exact h.blk_size hnm, by omega⟩
      · left
        rw [next_bit_cons h, hna]; decide
  have P : (GET_ALLOC s (HDRP (PREV_BLKP s c.bp)) ≠ 0 ∧ ∀ a ∈ pre.getLast?, a.alloc = true) ∨
      (GET_ALLOC s (HDRP (PREV_BLKP s c.bp)) = 0 ∧ ∃ a ∈ pre.getLast?, a.alloc = false ∧
        GET_BLK_SIZE s (PREV_BLKP s c.bp) = a.size ∧ a.size ≤ c.bp) := by
    rcases list_nil_or_snoc pre with rfl | ⟨pre', a, rfl⟩
    · left
      exact ⟨prev_bit_nil h, by simp⟩
    · have h' : WF s (pre' ++ a :: c :: post) fl := by simpa using h
      have ham : a ∈ pre' ++ a :: c :: post := by simp
      have hpc := h'.prev_concat
      cases ha : a.alloc
      · right
        exact ⟨by rw [prev_bit_concat h, ha]; rfl, a, by simp, ha,
          by rw [hpc.1]; exact h'.blk_size ham, by omega⟩
      · left
        refine ⟨by rw [prev_bit_concat h, ha]; decide, ?_⟩
        intro x hx
        obtain ⟨l', e⟩ := getLast_shape hx
        have := List.append_inj_right' e rfl
        simp only [List.cons.injEq, and_true] at this
        rw [← this]; exact ha
  apply realloc_grow_none s c.bp (c.size - 8) A _ _ _ _ rfl rfl hq0 N.1 rfl rfl
  rcases P with ⟨pa, hall⟩ | ⟨pf, a, hal, haf, hps, hlo⟩
  · right
    refine ⟨pa, ?_⟩
    rcases N.2 with n1 | ⟨nx, hnx, hnf, hns, hb⟩
    · exact Or.inl n1
    · right
      rw [hns]
      have := hn hall nx hnx hnf
      have e : u32 (nx.size + (c.size - 8)) = nx.size + (c.size - 8) := by unfold u32; omega
      rw [e]; omega
  · left
    obtain ⟨f1, f2⟩ := hp a hal haf
    refine ⟨pf, ?_, ?_⟩
    · rw [hps]
      have e : u32 (a.size + (c.size - 8)) = a.size + (c.size - 8) := by unfold u32; omega
      rw [e]; omega
    · rcases N.2 with n1 | ⟨nx, hnx, hnf, hns, hb⟩
      · exact Or.inl n1
      · right
        rw [hps, hns]
        have := f2 nx hnx hnf
        have e : u32 (a.size + nx.size + (c.size - 8)) = a.size + nx.size + (c.size - 8) := by
          unfold u32; omega
        rw [e]; omega

/-- The path of `mm_realloc` that moves the block with `mm_malloc`, `memcpy`
and `mm_free`. -/
theorem realloc_fallback_spec {s : Heap} {pre post : List Blk} {c : Blk} {fl : Nat → List Nat}
    (h : Inv s (pre ++ c :: post) fl) (hca : c.alloc = true) (m : Nat) (h0 : 0 < m)
    (hm : m ≤ 4294967280) (h1 : ALIGN m > c.size - 8) (fuel : Nat)
    (hfuel : (pre ++ c :: post).length < fuel)
    (hgrow : realloc_grow s c.bp (c.size - 8) (ALIGN m) =
      { heap := s, new_ptr := NULL, realloced := false, padding := 0 }) :
    ∃ q s' bl' fl', mm_realloc fuel s c.bp m = some (q, s') ∧ Inv s' bl' fl' ∧
      (q = NULL → s' = s ∧ bl' = pre ++ c :: post ∧ fl' = fl ∧ ALIGN m > c.size - 8 ∧
        realloc_grow s c.bp (c.size - 8) (ALIGN m) =
          { heap := s, new_ptr := NULL, realloced := false, padding := 0 } ∧
        mm_malloc fuel s m = some (NULL, s)) ∧
      (q ≠ NULL → ReallocOK s pre post c m q s' bl') := by
  have hcm : c ∈ pre ++ c :: post := by simp
  have hcb := h.wf.bounds hcm
  have hp0 : c.bp ≠ NULL := by unfold NULL; clear * - hcb; omega
  have hev := mm_realloc_grow_eval fuel s c.bp m (c.size - 8) hp0 (by clear * - h0; omega)
    (csize_eq h.wf hcm) h1
  obtain ⟨p, s1, bl1, fl1, hmal, hinv1, hframe1, hkept1, hnull, hnn, hseg, hmax, hbrk⟩ :=
    mm_malloc_spec h m hm fuel hfuel
  have hu : u32 (c.size - 8 + DSIZE) = c.size := by unfold u32 DSIZE; clear * - hcb; omega
  rw [hev, hgrow]
  by_cases hp : p = NULL
  · obtain ⟨e1, e2, e3⟩ := hnull hp
    rw [hp, e1] at hmal
    rw [realloc_finish_null fuel s c.bp m (c.size - 8) hmal]
    exact ⟨NULL, s, _, _, rfl, h, fun _ => ⟨rfl, rfl, rfl, h1, rfl, hmal⟩,
      fun hq => absurd rfl hq⟩
  · rw [realloc_finish_move fuel s s1 c.bp m (c.size - 8) p hp hmal, hu]
    obtain ⟨_, c2, hc2, hc2p, hc2a, hc2s⟩ := hnn hp
    obtain ⟨hc1, hcp⟩ := hkept1 c hcm hca
    obtain ⟨g1, g2⟩ := malloc_asize_ge m c.size h0 hm hcb.2.2.2.2 h1
    have hc2b := hinv1.wf.bounds hc2
    have G : Hid (c.size + 8 ≤ c2.size ∧ m + 8 ≤ c2.size ∧ c2.bp = p ∧ 16 ≤ c.size) :=
      ⟨⟨le_trans g1 hc2s, le_trans g2 hc2s, hc2p, hcb.2.2.2.1⟩⟩
    have hinv2 : Inv (s1.setMem (memcpy s1.mem p c.bp c.size)) bl1 fl1 := by
      obtain ⟨pre2, post2, e2⟩ := List.append_of_mem hc2
      rw [e2] at hinv1 ⊢
      refine hinv1.write_payload hc2a _ ?_
      intro a ha
      unfold memcpy
      exact memmove_outside _ _ _ _ _ (by have G' := G.out; clear * - G' ha; omega)
    obtain ⟨pre1, post1, e1⟩ := List.append_of_mem hc1
    rw [e1] at hinv2
    obtain ⟨M', fl', hfree, hinv3, hframe3⟩ := mm_free_spec hinv2 hca fuel
      (by simp only [List.length_append, List.length_cons] at hfuel; clear * - hfuel; omega)
    rw [hfree]
    have hc2o : c2 ∈ pre1 ++ post1 :=
      mem_outer_of_ne (e1 ▸ hc2) (by rw [hc2p]; exact fun e => hcp e.symm)
    have houter : ∀ d ∈ pre ++ post, d.alloc = true →
        d ∈ pre1 ++ post1 ∧ d.bp ≠ p ∧ d ∈ bl1 := by
      intro d hd hda
      obtain ⟨hd1, hdp⟩ := hkept1 d (mem_of_mem_outer hd) hda
      exact ⟨mem_outer_of_ne (e1 ▸ hd1) (h.wf.outer_ne hd), hdp, hd1⟩
    refine ⟨p, _, _, fl', rfl, hinv3, fun hq => absurd hq hp, fun _ =>
      ⟨?_, ?_, ?_, ?_, hseg, hmax, hbrk⟩⟩
    · rintro x ⟨d, hd, hda, hx1, hx2⟩
      obtain ⟨hdo, hdp, hd1⟩ := houter d hd hda
      show M' x = s.mem x
      rw [hframe3 x ⟨d, hdo, hda, hx1, hx2⟩]
      simp only [setMem_mem]
      unfold memcpy
      have hdj := hinv1.wf.blk_disj hd1 hc2
      have hdb := hinv1.wf.bounds hd1
      rw [memmove_outside _ _ _ _ _ ?_]
      · exact hframe1 x ⟨d, mem_of_mem_outer hd, hda, hx1, hx2⟩
      · rcases hdj with e | e | e
        · rw [e] at hdp; exact absurd hc2p hdp
        · left
          have G' := G.out; clear * - G' e hx2 hdb; omega
        · right
          have G' := G.out; clear * - G' e hx1 hdb; omega
    · intro d hd hda
      obtain ⟨hdo, hdp, _⟩ := houter d hd hda
      exact ⟨mem_coalesced_of_outer _ hda hdo, hdp⟩
    · exact ⟨c2, mem_coalesced_of_outer _ hc2a hc2o, hc2p, hc2a, G.out.2.1⟩
    · intro i hi him
      show M' (p + i) = s.mem (c.bp + i)
      rw [hframe3 (p + i) ⟨c2, hc2o, hc2a, by rw [hc2p]; exact Nat.le_add_right _ _,
        by have G' := G.out; clear * - G' hi; omega⟩]
      simp only [setMem_mem]
      unfold memcpy
      rw [memmove_inside _ _ _ _ _ ⟨Nat.le_add_right _ _, by clear * - hi; omega⟩,
        Nat.add_sub_cancel_left]
      exact hframe1 _ ⟨c, hcm, hca, Nat.le_add_right _ _, by clear * - hi; omega⟩

/-- `mm_realloc` on a live block with a request of `1 .. 2^32 - 16` bytes
returns, keeps the invariant, and either fails without touching the heap or
hands out a block with the old contents. -/
theorem mm_realloc_spec {s : Heap} {pre post : List Blk} {c : Blk} {fl : Nat → List Nat}
    (h : Inv s (pre ++ c :: post) fl) (hca : c.alloc = true) (m : Nat) (h0 : 0 < m)
    (hm : m ≤ 4294967280) (fuel : Nat) (hfuel : (pre ++ c :: post).length < fuel) :
    ∃ q s' bl' fl', mm_realloc fuel s c.bp m = some (q, s') ∧ Inv s' bl' fl' ∧
      (q = NULL → s' = s ∧ bl' = pre ++ c :: post ∧ fl' = fl ∧ ALIGN m > c.size - 8 ∧
        realloc_grow s c.bp (c.size - 8) (ALIGN m) =
          { heap := s, new_ptr := NULL, realloced := false, padding := 0 } ∧
        mm_malloc fuel s m = some (NULL, s)) ∧
      (q ≠ NULL → ReallocOK s pre post c m q s' bl') := by
  have hcm : c ∈ pre ++ c :: post := by simp
  have hcb := h.wf.bounds hcm
  have hp0 : c.bp ≠ NULL := by unfold NULL; clear * - hcb; omega
  have h1f : 1 ≤ fuel := by
    simp only [List.length_append, List.length_cons] at hfuel
    clear * - hfuel; omega
  obtain ⟨a8, am8, hle, _, _⟩ := ALIGN_props m h0 hm
  by_cases hgt : ALIGN m > c.size - 8
  · by_cases cp : ∃ a ∈ pre.getLast?, a.alloc = false ∧ ALIGN m ≤ a.size + (c.size - 8)
    · obtain ⟨a, hal, haf, hfit⟩ := cp
      obtain ⟨pre', rfl⟩ := getLast_shape hal
      have h' : Inv s (pre' ++ a :: c :: post) fl := by simpa using h
      obtain ⟨M', bl', fl', e, w, cpl, na, fr, kept, hc', pay⟩ :=
        realloc_prev_spec h' hca haf m h0 hm hgt hfit fuel h1f
      exact realloc_ok_intro h h0 hm
        (fun d hd hda => @mem_drop_free _ [a] _ (by simp [haf]) _ hd hda)
        ⟨M', bl', fl', e, w, cpl, na, fr, kept, hc', fun i hi _ => pay i hi⟩
    · by_cases cb : ∃ a ∈ pre.getLast?, ∃ nx ∈ post.head?, a.alloc = false ∧ nx.alloc = false ∧
          ALIGN m ≤ a.size + nx.size + (c.size - 8)
      · obtain ⟨a, hal, nx, hnl, haf, hnf, hfit⟩ := cb
        have hnfit : ¬ ALIGN m ≤ a.size + (c.size - 8) := fun hf => cp ⟨a, hal, haf, hf⟩
        obtain ⟨pre', rfl⟩ := getLast_shape hal
        obtain ⟨r, rfl⟩ := head_shape hnl
        have h' : Inv s (pre' ++ a :: c :: nx :: r) fl := by simpa using h
        obtain ⟨M', bl', fl', e, w, cpl, na, fr, kept, hc', pay⟩ :=
          realloc_both_spec h' hca haf hnf m h0 hm hgt hnfit hfit fuel h1f
        refine realloc_ok_intro h h0 hm ?_
          ⟨M', bl', fl', e, w, cpl, na, fr, kept, hc', fun i hi _ => pay i hi⟩
        intro d hd hda
        have hd1 : d ∈ (pre' ++ [a]) ++ [nx] ++ r := by simpa using hd
        have hd2 : d ∈ pre' ++ [a] ++ r := @mem_drop_free _ [nx] _ (by simp [hnf]) _ hd1 hda
        exact @mem_drop_free _ [a] _ (by simp [haf]) _ hd2 hda
      · by_cases cn : (∀ a ∈ pre.getLast?, a.alloc = true) ∧
            ∃ nx ∈ post.head?, nx.alloc = false ∧ ALIGN m ≤ nx.size + (c.size - 8)
        · obtain ⟨hall, nx, hnl, hnf, hfit⟩ := cn
          obtain ⟨r, rfl⟩ := head_shape hnl
          obtain ⟨M', bl', fl', e, w, cpl, na, fr, kept, hc', pay⟩ :=
            realloc_next_spec h hca hnf hall m h0 hm hgt hfit fuel h1f
          refine realloc_ok_intro h h0 hm ?_
            ⟨M', bl', fl', e, w, cpl, na, fr, kept, hc', fun i hi _ => pay i hi⟩
          intro d hd hda
          have hd1 : d ∈ pre ++ [nx] ++ r := by simpa using hd
          exact @mem_drop_free _ [nx] _ (by simp [hnf]) _ hd1 hda
        · refine realloc_fallback_spec h hca m h0 hm hgt fuel hfuel
            (realloc_none_eval h.wf (ALIGN m) ?_ ?_)
          · intro a hal haf
            exact ⟨fun hf => cp ⟨a, hal, haf, hf⟩,
              fun nx hnl hnf hf => cb ⟨a, hal, nx, hnl, haf, hnf, hf⟩⟩
          · intro hall nx hnl hnf hf
            exact cn ⟨hall, nx, hnl, hnf, hf⟩
  · by_cases hkeep : c.size - 8 - ALIGN m ≤ 8
    · have e := mm_realloc_keep fuel s c.bp m (c.size - 8) hp0 (by clear * - h0; omega) (csize_eq h.wf hcm)
        (by clear * - hgt; omega) hkeep
      refine ⟨c.bp, s, _, fl, e, h, fun hq => absurd hq hp0, fun _ =>
        ⟨fun _ _ => rfl, fun d hd _ => ⟨mem_of_mem_outer hd, h.wf.outer_ne hd⟩,
          ⟨c, hcm, rfl, hca, by clear * - hgt hle hcb; omega⟩, fun _ _ _ => rfl, rfl, rfl, le_refl _⟩⟩
    · obtain ⟨M', bl', fl', e, w, cpl, na, fr, kept, hc', pay, _⟩ :=
        realloc_shrink_spec h hca m h0 hm (by clear * - hgt hkeep; omega) hkeep fuel h1f
      exact realloc_ok_intro h h0 hm (fun d hd _ => hd)
        ⟨M', bl', fl', e, w, cpl, na, fr, kept, hc', pay⟩

/-! ## The invariant holds in every reachable state -/

theorem LiveOK.mono {bl bl' : List Blk} {L : List (Nat × Nat)} (h : LiveOK bl L)
    (hk : ∀ d ∈ bl, d.alloc = true → d ∈ bl') : LiveOK bl' L :=
  ⟨h.1, fun e he => by
    obtain ⟨c, hc, e1, e2, e3⟩ := h.2 e he
    exact ⟨c, hk c hc e2, e1, e2, e3⟩⟩

theorem LiveOK.cons {bl : List Blk} {L : List (Nat × Nat)} {p n : Nat} (h : LiveOK bl L)
    (hne : ∀ e ∈ L, e.1 ≠ p)
    (hc : ∃ c ∈ bl, c.bp = p ∧ c.alloc = true ∧ n + 8 ≤ c.size) : LiveOK bl ((p, n) :: L) := by
  refine ⟨?_, ?_⟩
  · simp only [List.map_cons, List.nodup_cons]
    refine ⟨?_, h.1⟩
    intro hm
    obtain ⟨e, he, e1⟩ := List.mem_map.1 hm
    exact hne e he e1
  · intro e he
    rcases List.mem_cons.1 he with rfl | he
    · exact hc
    · exact h.2 e he

theorem mem_dropLive {L : List (Nat × Nat)} {p : Nat} {e : Nat × Nat} :
    e ∈ dropLive L p ↔ e ∈ L ∧ e.1 ≠ p := by
  unfold dropLive
  simp [List.mem_filter]

theorem LiveOK.drop {bl bl' : List Blk} {L : List (Nat × Nat)} {p : Nat} (h : LiveOK bl L)
    (hk : ∀ d ∈ bl, d.alloc = true → d.bp ≠ p → d ∈ bl') : LiveOK bl' (dropLive L p) := by
  refine ⟨?_, ?_⟩
  · exact h.1.sublist ((List.filter_sublist _).map _)
  · intro e he
    obtain ⟨he1, he2⟩ := mem_dropLive.1 he
    obtain ⟨c, hc, e1, e2, e3⟩ := h.2 e he1
    exact ⟨c, hk c hc e2 (by rw [e1]; exact he2), e1, e2, e3⟩

theorem LiveOK.block {bl : List Blk} {L : List (Nat × Nat)} {p : Nat} (h : LiveOK bl L)
    (hp : p ∈ L.map Prod.fst) :
    ∃ n, (p, n) ∈ L ∧ ∃ c ∈ bl, c.bp = p ∧ c.alloc = true ∧ n + 8 ≤ c.size := by
  obtain ⟨e, he, e1⟩ := List.mem_map.1 hp
  obtain ⟨c, hc, h1, h2, h3⟩ := h.2 e he
  subst e1
  exact ⟨e.2, he, c, hc, h1, h2, h3⟩

theorem mm_realloc_zero (fuel : Nat) (s : Heap) (p : Nat) (hp : p ≠ NULL) :
    mm_realloc fuel s p 0 = (mm_free fuel s p).map fun t => (p, t) := by
  unfold mm_realloc
  simp only [hp, if_false, if_true]

theorem mm_realloc_null (fuel : Nat) (s : Heap) (n : Nat) :
    mm_realloc fuel s NULL n = mm_malloc fuel s n := by
  unfold mm_realloc
  simp only [if_true]

theorem inv_malloc_step {s : Heap} {bl : List Blk} {fl : Nat → List Nat} {L : List (Nat × Nat)}
    (h : Inv s bl fl) (hl : LiveOK bl L) (n : Nat) (hn : n ≤ 4294967280) (fuel : Nat)
    (hf : s.mem_brk < fuel) :
    ∃ p s' bl' fl', mm_malloc fuel s n = some (p, s') ∧ Inv s' bl' fl' ∧
      LiveOK bl' (if p = NULL then L else (p, n) :: L) ∧ (p = NULL → s' = s) ∧
      (∀ a, InAlloc bl a → s'.mem a = s.mem a) ∧
      (p ≠ NULL → 0 < n ∧ ∃ c ∈ bl', c.bp = p ∧ c.alloc = true ∧ malloc_asize n ≤ c.size) := by
  have hfl : bl.length < fuel := by
    have := h.wf.fuel_ok hf
    clear * - this; omega
  obtain ⟨p, s', bl', fl', e, hinv, hfr, hkept, hnull, hnn, _, _, _⟩ :=
    mm_malloc_spec h n hn fuel hfl
  refine ⟨p, s', bl', fl', e, hinv, ?_, fun hp => (hnull hp).1, hfr, hnn⟩
  have hmono : LiveOK bl' L := hl.mono fun d hd hda => (hkept d hd hda).1
  by_cases hp : p = NULL
  · rw [if_pos hp]; exact hmono
  · rw [if_neg hp]
    obtain ⟨h0, c, hc, hcp, hca, hsz⟩ := hnn hp
    have g := (malloc_asize_props n h0 hn).2.2.1
    refine hmono.cons ?_ ⟨c, hc, hcp, hca, le_trans g hsz⟩
    intro e he
    obtain ⟨d, hd, e1, e2, _⟩ := hl.2 e he
    rw [← e1]
    exact (hkept d hd e2).2

theorem inv_free_step {s : Heap} {bl : List Blk} {fl : Nat → List Nat} {L : List (Nat × Nat)}
    {p : Nat} (h : Inv s bl fl) (hl : LiveOK bl L) (hp : p ∈ L.map Prod.fst) (fuel : Nat)
    (hf : 1 ≤ fuel) :
    ∃ s' bl' fl', mm_free fuel s p = some s' ∧ Inv s' bl' fl' ∧ LiveOK bl' (dropLive L p) := by
  obtain ⟨n, _, c, hc, hcp, hca, _⟩ := hl.block hp
  obtain ⟨pre, post, e⟩ := List.append_of_mem hc
  subst e hcp
  obtain ⟨M, fl', e1, hinv, _⟩ := mm_free_spec h hca fuel hf
  refine ⟨_, _, fl', e1, hinv, hl.drop ?_⟩
  intro d hd hda hne
  exact mem_coalesced_of_outer _ hda (mem_outer_of_ne hd hne)

theorem inv_realloc_step {s : Heap} {bl : List Blk} {fl : Nat → List Nat}
    {L : List (Nat × Nat)} {p : Nat} (h : Inv s bl fl) (hl : LiveOK bl L)
    (hp : p ∈ L.map Prod.fst) (m : Nat) (hm : m ≤ 4294967280) (fuel : Nat)
    (hf : s.mem_brk < fuel) :
    ∃ q s' bl' fl', mm_realloc fuel s p m = some (q, s') ∧ Inv s' bl' fl' ∧
      LiveOK bl' (if m = 0 then dropLive L p else if q = NULL then L
        else (q, m) :: dropLive L p) := by
  have hfl := h.wf.fuel_ok hf
  by_cases h0 : m = 0
  · obtain ⟨s', bl', fl', e, hinv, hl'⟩ :=
      inv_free_step h hl hp fuel (by clear * - hfl; omega)
    obtain ⟨n, _, c, hc, hcp, _, _⟩ := hl.block hp
    have hcb := h.wf.bounds hc
    have hp0 : p ≠ NULL := by rw [← hcp]; unfold NULL; clear * - hcb; omega
    refine ⟨p, s', bl', fl', ?_, hinv, by rw [if_pos h0]; exact hl'⟩
    rw [h0, mm_realloc_zero fuel s p hp0, e]; rfl
  · obtain ⟨n, _, c, hc, hcp, hca, _⟩ := hl.block hp
    obtain ⟨pre, post, e⟩ := List.append_of_mem hc
    subst e hcp
    obtain ⟨q, s', bl', fl', e1, hinv, hnull, hok⟩ :=
      mm_realloc_spec h hca m (Nat.pos_of_ne_zero h0) hm fuel (by clear * - hfl; omega)
    refine ⟨q, s', bl', fl', e1, hinv, ?_⟩
    rw [if_neg h0]
    by_cases hq : q = NULL
    · rw [if_pos hq]
      obtain ⟨_, e2, _⟩ := hnull hq
      rw [e2]; exact hl
    · rw [if_neg hq]
      obtain ⟨_, kept, hc', _, _, _, _⟩ := hok hq
      have hd : LiveOK bl' (dropLive L c.bp) :=
        hl.drop fun d hd hda hne => (kept d (mem_outer_of_ne hd hne) hda).1
      refine hd.cons ?_ hc'
      intro e he
      obtain ⟨he1, he2⟩ := mem_dropLive.1 he
      obtain ⟨d, hd', e1', e2', _⟩ := hl.2 e he1
      rw [← e1']
      exact (kept d (mem_outer_of_ne hd' (by rw [e1']; exact he2)) e2').2

/-- Every reachable state has an abstract view that satisfies the heap
invariant and in which every live allocation is an allocated block. -/
theorem Reachable.inv {s : Heap} {L : List (Nat × Nat)} (h : Reachable s L) :
    ∃ bl fl, Inv s bl fl ∧ LiveOK bl L := by
  induction h with
  | init s0 s fuel hfresh hfuel e =>
    by_cases hcap : s0.mem_brk + 176 ≤ s0.mem_max_addr
    · obtain ⟨s1, fl, e1, hinv, _⟩ := (mm_init_spec fuel hfuel s0 hfresh).1 hcap
      have := e.symm.trans e1
      simp only [Option.some.injEq, Prod.mk.injEq, true_and] at this
      subst this
      exact ⟨_, fl, hinv, List.nodup_nil, fun e he => absurd he (List.not_mem_nil _)⟩
    · exact absurd e ((mm_init_spec fuel hfuel s0 hfresh).2 hcap s)
  | malloc s s' L n p fuel _ hn hf e ih =>
    obtain ⟨bl, fl, hinv, hl⟩ := ih
    obtain ⟨p1, s1, bl', fl', e1, hinv', hl', _⟩ := inv_malloc_step hinv hl n hn fuel hf
    have := e.symm.trans e1
    simp only [Option.some.injEq, Prod.mk.injEq] at this
    obtain ⟨rfl, rfl⟩ := this
    exact ⟨bl', fl', hinv', hl'⟩
  | free s s' L p fuel _ hp hf e ih =>
    obtain ⟨bl, fl, hinv, hl⟩ := ih
    have hfl := hinv.wf.fuel_ok hf
    obtain ⟨s1, bl', fl', e1, hinv', hl'⟩ :=
      inv_free_step hinv hl hp fuel (by clear * - hfl; omega)
    have := e.symm.trans e1
    simp only [Option.some.injEq] at this
    subst this
    exact ⟨bl', fl', hinv', hl'⟩
  | realloc s s' L p m q fuel _ hp hm hf e ih =>
    obtain ⟨bl, fl, hinv, hl⟩ := ih
    obtain ⟨q1, s1, bl', fl', e1, hinv', hl'⟩ := inv_realloc_step hinv hl hp m hm fuel hf
    have := e.symm.trans e1
    simp only [Option.some.injEq, Prod.mk.injEq] at this
    obtain ⟨rfl, rfl⟩ := this
    exact ⟨bl', fl', hinv', hl'⟩
  | realloc_null s s' L n p fuel _ hn hf e ih =>
    obtain ⟨bl, fl, hinv, hl⟩ := ih
    obtain ⟨p1, s1, bl', fl', e1, hinv', hl', _⟩ := inv_malloc_step hinv hl n hn fuel hf
    rw [mm_realloc_null] at e
    have := e.symm.trans e1
    simp only [Option.some.injEq, Prod.mk.injEq] at this
    obtain ⟨rfl, rfl⟩ := this
    exact ⟨bl', fl', hinv', hl'⟩
  | write s L p n i v _ hp hi ih =>
    obtain ⟨bl, fl, hinv, hl⟩ := ih
    obtain ⟨c, hc, hcp, hca, hsz⟩ := hl.2 (p, n) hp
    obtain ⟨pre, post, e⟩ := List.append_of_mem hc
    subst e
    refine ⟨_, fl, hinv.write_payload hca _ ?_, hl⟩
    intro a ha
    have hne : a ≠ p + i := by
      simp only at hcp hsz
      clear * - ha hcp hsz hi; omega
    simp only [hne, if_false]

/-! ## The claims -/

/-! ## Properties read off the code -/

theorem GET_SIZE_lt (s : Heap) (p : Nat) : GET_SIZE s p < 4294967296 :=
  lt_of_le_of_lt Nat.and_le_left (rd32_lt _ _)

theorem ALIGN_lt (n : Nat) : ALIGN n < 4294967296 :=
  lt_of_le_of_lt Nat.and_le_left (Nat.mod_lt _ (by decide))

theorem seg_loop_log2 (k i s : Nat) : (seg_loop k i s).1 = i + min (Nat.log2 s) k := by
  induction k generalizing i s with
  | zero => simp [seg_loop]
  | succ k ih =>
    by_cases h : s ≤ 1
    · have e : Nat.log2 s = 0 := by
        rw [Nat.log2]; simp; omega
      simp [seg_loop, h, e]
    · have e : Nat.log2 s = Nat.log2 (s / 2) + 1 := by
        conv_lhs => rw [Nat.log2]
        simp; omega
      simp only [seg_loop, h, if_false, ih, e, Nat.shiftRight_eq_div_pow, pow_one]
      omega

/-- C15. For every block size `s ≥ 1` the class index computed by the shift
loop shared by `add_seglist` and `remove_seglist` is `min(floor(log2 s), 23)`. -/
theorem class_index_is_capped_log2 (s : Nat) (_hs : 1 ≤ s) :
    (seg_loop (SEG_SIZE - 1) 0 s).1 = min (Nat.log2 s) 23 := by
  rw [seg_loop_log2]; simp [SEG_SIZE]

theorem class_index_is_capped_log2_witness :
    1 ≤ 48 ∧ (seg_loop (SEG_SIZE - 1) 0 48).1 = min (Nat.log2 48) 23 :=
  ⟨by decide, class_index_is_capped_log2 48 (by decide)⟩

/-- C18. `mm_malloc(0)` returns `NULL` and leaves the whole state as it was. -/
theorem malloc_zero_is_null (fuel : Nat) (s : Heap) : mm_malloc fuel s 0 = some (NULL, s) := by
  simp [mm_malloc]

/-- C10. When `ALIGN(n)` equals the usable size of the block of `p` (its block
size minus 8), `mm_realloc(p, n)` returns `p` and the state is unchanged. -/
theorem realloc_same_size (fuel : Nat) (s : Heap) (p n : Nat) (hp : p ≠ NULL) (hn : 0 < n)
    (h : GET_BLK_SIZE s p = ALIGN n + 8) : mm_realloc fuel s p n = some (p, s) := by
  have hA := ALIGN_lt n
  have e : u32 (GET_BLK_SIZE s p + 4294967296 - DSIZE) = ALIGN n := by
    rw [h]; simp only [u32, DSIZE]; omega
  have hn' : n ≠ 0 := by omega
  simp [mm_realloc, hp, hn', e]

theorem realloc_same_size_witness :
    GET_BLK_SIZE oneBlockHeap 4224 = ALIGN 40 + 8 ∧
      mm_realloc 16 oneBlockHeap 4224 40 = some (4224, oneBlockHeap) :=
  ⟨rfl, realloc_same_size 16 oneBlockHeap 4224 40 (by decide) (by decide) rfl⟩

/-- C16. When `find_fit` finds no block and the region provider cannot grow
the heap by the amount `mm_malloc(n)` asks for, the call returns `NULL` and
the state is the one before the call. -/
theorem malloc_exhausted (fuel : Nat) (s : Heap) (n : Nat) (hn : 0 < n)
    (hfit : find_fit fuel s (malloc_asize n) (malloc_asize n) 0 = some NULL)
    (hfail : s.mem_brk + extend_heap_size (MAX (malloc_asize n) DCHUNKSIZE / WSIZE)
      > s.mem_max_addr) :
    mm_malloc fuel s n = some (NULL, s) := by
  have hn' : ¬ n ≤ 0 := by omega
  simp [mm_malloc, hn', hfit, extend_heap, mem_sbrk, hfail, NULL]

theorem malloc_exhausted_witness :
    find_fit 16 fullHeap (malloc_asize 100) (malloc_asize 100) 0 = some NULL ∧
      mm_malloc 16 fullHeap 100 = some (NULL, fullHeap) :=
  ⟨rfl, malloc_exhausted 16 fullHeap 100 (by decide) rfl (Nat.le_of_ble_eq_true rfl)⟩

/-- C7, the scenario as the code runs it: `p3` is not `p1`. -/
theorem reuse_scenario_p3_differs :
    reuseRun.map (fun r => decide (r.2.2 = r.1)) = some false := by rfl

/-- C7, amended. In the scenario on a fresh heap at address 4096 the three
results are `p1 = 4096 + 4160`, `p2 = 4096 + 112` and `p3 = p1 + 48`: the
64-byte block of `p3` is the tail of the former 112-byte block of `p1`. -/
theorem reuse_scenario_addresses :
    reuseRun = some (4096 + 4160, 4096 + 112, 4096 + 4160 + 48) := by rfl

/-- C12, a run in which `find_fit` misses a fitting block: class 23 holds the
free block at 4208 of 16777264 bytes, the adjusted size of a request for
`2^24` bytes is 16777224, and `find_fit` returns `NULL`. -/
theorem find_fit_misses_large_block :
    bigFreeRun.map (fun r => (r.1, GET_SEG_LIST_PTR r.2 r.2.seg_list_ptr 23,
      GET_BLK_SIZE r.2 r.1, GET_ALLOC r.2 (HDRP r.1), malloc_asize 16777216,
      find_fit 16 r.2 (malloc_asize 16777216) (malloc_asize 16777216) 0))
      = some (4208, 4208, 16777264, 0, 16777224, some NULL) := by rfl

/-- C13, a run in which `find_fit` does not return the best fit of the class:
class 6 holds the blocks at 8256 (112 bytes) and 8128 (64 bytes), and for the
adjusted size 64 `find_fit` returns the block of 112 bytes. -/
theorem find_fit_not_best_in_class :
    twoFreeRun.map (fun r => (r.1, r.2.1, GET_BLK_SIZE r.2.2 r.1, GET_BLK_SIZE r.2.2 r.2.1,
      classOf 112, classOf 64, find_fit 16 r.2.2 64 64 0))
      = some (8256, 8128, 112, 64, 6, 6, some 8256) := by rfl

/-- C14, a run after which a class list is not in non-decreasing size order:
`add_seglist` has put the block of 112 bytes at the head of class 6, before
the block of 64 bytes that was already there. -/
theorem add_seglist_list_not_sorted :
    twoFreeRun.map (fun r =>
      let s := r.2.2
      let head := GET_SEG_LIST_PTR s s.seg_list_ptr 6
      (head, GET_BLK_SIZE s head, SEG_PREV_BLKP s head,
        GET_BLK_SIZE s (SEG_PREV_BLKP s head), SEG_PREV_BLKP s (SEG_PREV_BLKP s head)))
      = some (8256, 112, 8128, 64, NULL) := by rfl

/-! ## From the abstract view back to the words of the heap -/

theorem WF.hdr_word {s : Heap} {bl : List Blk} {fl : Nat → List Nat} (h : WF s bl fl)
    {b : Blk} (hb : b ∈ bl) : GET s (HDRP b.bp) = b.tag := by
  have hbd := h.bounds hb
  unfold GET
  rw [HDRP_eq _ (by omega) (by omega)]
  exact (h.tags b hb).1

theorem WF.ftr_word {s : Heap} {bl : List Blk} {fl : Nat → List Nat} (h : WF s bl fl)
    {b : Blk} (hb : b ∈ bl) : GET s (FTRP s b.bp) = b.tag := by
  have hbd := h.bounds hb
  have hs : GET_SIZE s (HDRP b.bp) = b.size := h.blk_size hb
  unfold FTRP GET
  rw [hs]
  have e : u32 (b.bp + b.size + 4294967296 - DSIZE) = b.bp + b.size - 8 := by
    unfold u32 DSIZE; omega
  rw [e]
  exact (h.tags b hb).2

theorem WF.pro_words {s : Heap} {bl : List Blk} {fl : Nat → List Nat} (h : WF s bl fl) :
    GET s (HDRP s.heap_ptr) = 9 ∧ GET s (FTRP s s.heap_ptr) = 9 := by
  have hb := h.brk_ge
  have e : HDRP s.heap_ptr = s.seg_list_ptr + 100 := by
    rw [h.hp]; unfold HDRP u32 WSIZE; omega
  have g : GET s (s.seg_list_ptr + 100) = 9 := h.pro_h
  have e2 : FTRP s s.heap_ptr = s.seg_list_ptr + 104 := by
    unfold FTRP GET_SIZE
    rw [e, g, h.hp]
    have e3 : (9 : Nat) &&& MASK7 = 8 := by decide
    rw [e3]; unfold u32 DSIZE; omega
  exact ⟨by rw [e]; exact g, by rw [e2]; exact h.pro_f⟩

theorem WF.epi_word {s : Heap} {bl : List Blk} {fl : Nat → List Nat} (h : WF s bl fl) :
    GET s (HDRP s.mem_brk) = 1 := by
  have hb := h.brk_ge
  unfold GET
  rw [HDRP_eq _ (by omega) (by omega)]
  exact h.epi

theorem mem_chain {s : Heap} {bl : List Blk} {b : Nat} (hb : b ∈ s.heap_ptr :: bl.map Blk.bp) :
    b = s.heap_ptr ∨ ∃ d ∈ bl, d.bp = b := by
  rcases List.mem_cons.1 hb with h | h
  · exact Or.inl h
  · obtain ⟨d, hd, e⟩ := List.mem_map.1 h
    exact Or.inr ⟨d, hd, e⟩

theorem WF.pro_alloc {s : Heap} {bl : List Blk} {fl : Nat → List Nat} (h : WF s bl fl) :
    GET_ALLOC s (HDRP s.heap_ptr) = 1 := by
  unfold GET_ALLOC
  rw [h.pro_words.1]; decide

/-- A free block in the chain of a well-formed heap is a free block of the
abstract view. -/
theorem WF.chain_free {s : Heap} {bl : List Blk} {fl : Nat → List Nat} (h : WF s bl fl)
    {b : Nat} (hb : b ∈ s.heap_ptr :: bl.map Blk.bp) (hf : GET_ALLOC s (HDRP b) = 0) :
    ∃ d ∈ bl, d.bp = b ∧ d.alloc = false := by
  rcases mem_chain hb with rfl | ⟨d, hd, rfl⟩
  · rw [h.pro_alloc] at hf; exact absurd hf (by decide)
  · refine ⟨d, hd, rfl, ?_⟩
    rw [h.blk_alloc hd] at hf
    cases hda : d.alloc
    · rfl
    · rw [hda] at hf; exact absurd hf (by decide)

theorem noAdjFree_next {pre post : List Blk} {d : Blk} (h : NoAdjFree (pre ++ d :: post))
    (hd : d.alloc = false) : ∀ c ∈ post.head?, c.alloc = true := by
  unfold NoAdjFree at h
  have h2 := (List.chain'_append.1 h).2.1
  intro c hc
  obtain ⟨r, rfl⟩ := head_shape hc
  rcases (List.chain'_cons.1 h2).1 with h3 | h3
  · rw [hd] at h3; exact absurd h3 (by simp)
  · exact h3

theorem seg_chain_links {s : Heap} {t : Nat} {xs : List Nat} (hl : Links s.mem t xs)
    (hnz : ∀ x ∈ xs, x ≠ NULL) (fuel : Nat) (hf : xs.length < fuel) :
    seg_chain s fuel (xs.headD 0) = some xs := by
  induction xs generalizing t fuel with
  | nil =>
    obtain ⟨k, rfl⟩ : ∃ k, fuel = k + 1 := ⟨fuel - 1, by simp at hf; omega⟩
    simp [seg_chain, NULL]
  | cons x r ih =>
    obtain ⟨k, rfl⟩ : ∃ k, fuel = k + 1 := ⟨fuel - 1, by omega⟩
    obtain ⟨h1, h2, h3⟩ := Links_cons.1 hl
    have hx := hnz x (by simp)
    have e : SEG_PREV_BLKP s x = r.headD 0 := h2
    simp only [List.headD_cons, seg_chain, hx, ne_eq, not_false_eq_true, if_true, e]
    rw [ih h3 (fun y hy => hnz y (List.mem_cons_of_mem _ hy)) k
      (by simp only [List.length_cons] at hf; omega)]
    rfl

theorem WF.seg_chain_eq {s : Heap} {bl : List Blk} {fl : Nat → List Nat} (h : WF s bl fl)
    (i : Nat) (hi : i < 24) (fuel : Nat) (hf : bl.length < fuel) :
    seg_chain s fuel (GET_SEG_LIST_PTR s s.seg_list_ptr i) = some (fl i) := by
  have hb := h.brk_ge
  rw [GET_SEG_LIST_PTR_eq s i (by omega), h.heads i hi]
  refine seg_chain_links (h.links i hi) ?_ fuel (lt_of_le_of_lt (h.list_length_le i hi) hf)
  intro x hx
  obtain ⟨d, hd, e, _, _⟩ := h.member hi hx
  have := h.bounds hd
  unfold NULL; omega

theorem classOf_log2 (sz : Nat) : classOf sz = min (Nat.log2 sz) 23 := by
  unfold classOf
  rw [seg_loop_log2]; simp [SEG_SIZE]

theorem Inv.bp_aligned {s : Heap} {bl : List Blk} {fl : Nat → List Nat} (h : Inv s bl fl)
    {b : Blk} (hb : b ∈ bl) : b.bp % 8 = 0 :=
  Layout.aligned h.wf.layout (by have := h.aligned; omega) hb

theorem mergedBlk_mem (pre : List Blk) (b : Blk) (post : List Blk) :
    mergedBlk pre b post ∈ coalesced pre b post := by
  rw [coalesced_eq]
  exact List.mem_append_right _ (List.mem_cons_self _ _)

/-- The block that coalescing produces, in terms of the tags that `mm_free`
finds. -/
theorem mergedBlk_code {s : Heap} {pre post : List Blk} {c : Blk} {fl : Nat → List Nat}
    (h : WF s (pre ++ c :: post) fl) :
    (mergedBlk pre ⟨c.bp, c.size, false⟩ post).bp = mergedStart s c.bp ∧
      (mergedBlk pre ⟨c.bp, c.size, false⟩ post).size = mergedSize s c.bp ∧
      mergedStart s c.bp ≤ c.bp ∧
      c.bp + c.size ≤ mergedStart s c.bp + mergedSize s c.bp := by
  have hcm : c ∈ pre ++ c :: post := by simp
  have hsz := h.blk_size hcm
  have N : (mergeNext ⟨c.bp, c.size, false⟩ post).1 = ⟨c.bp, c.size +
      (if GET_ALLOC s (HDRP (NEXT_BLKP s c.bp)) = 0 then GET_BLK_SIZE s (NEXT_BLKP s c.bp)
        else 0), false⟩ := by
    rcases post with _ | ⟨nx, r⟩
    · have := next_bit_nil h
      simp [mergeNext, this]
    · have hb := next_bit_cons h
      have hn := (h.next_cons).1
      have hs := h.blk_size (b := nx) (by simp)
      rw [hn] at hb
      cases hna : nx.alloc
      · rw [hna] at hb
        simp only [Bool.false_eq_true, if_false] at hb
        simp [mergeNext, hna, hb, hn, hs]
      · rw [hna] at hb
        simp only [if_true] at hb
        simp [mergeNext, hna, hb, hn]
  unfold mergedBlk mergedStart mergedSize
  rw [N, hsz]
  rcases list_nil_or_snoc pre with rfl | ⟨pre', a, rfl⟩
  · have := prev_bit_nil h
    simp only [List.reverse_nil, mergePrev, this, if_false, Nat.add_zero, le_refl, true_and]
    omega
  · have hb := prev_bit_concat h
    have h' : WF s (pre' ++ a :: c :: post) fl := by simpa using h
    have hp := h'.prev_concat
    have hs := h'.blk_size (b := a) (by simp)
    rw [hp.1] at hb ⊢
    cases ha : a.alloc
    · rw [ha] at hb
      simp only [Bool.false_eq_true, if_false] at hb
      simp only [List.reverse_append, List.reverse_cons, List.reverse_nil, List.nil_append,
        List.singleton_append, mergePrev, ha, Bool.false_eq_true, if_false, hb, if_true, hs,
        true_and]
      have := hp.2
      refine ⟨?_, ?_, ?_⟩ <;> omega
    · rw [ha] at hb
      simp only [if_true] at hb
      have hb' : ¬ GET_ALLOC s (HDRP a.bp) = 0 := by rw [hb]; decide
      simp only [List.reverse_append, List.reverse_cons, List.reverse_nil, List.nil_append,
        List.singleton_append, mergePrev, ha, if_true, hb', if_false, Nat.add_zero,
        le_refl, true_and]
      omega

theorem WF.chain_last {s : Heap} {bl : List Blk} {fl : Nat → List Nat} (h : WF s bl fl) :
    ∀ b ∈ (s.heap_ptr :: bl.map Blk.bp).getLast?, NEXT_BLKP s b = s.mem_brk := by
  intro b hb
  rcases list_nil_or_snoc bl with rfl | ⟨pre, d, rfl⟩
  · simp only [List.map_nil, List.getLast?_singleton, Option.mem_def, Option.some.injEq] at hb
    rw [← hb]
    have hl : s.seg_list_ptr + 112 = s.mem_brk := Layout_nil.1 h.layout
    have hw := h.pro_words.1
    have hbr := h.brk_ge
    have e3 : (9 : Nat) &&& MASK7 = 8 := by decide
    show u32 (s.heap_ptr + GET_SIZE s (HDRP s.heap_ptr)) = s.mem_brk
    unfold GET_SIZE
    rw [hw, e3, h.hp]
    unfold u32; omega
  · have e : s.heap_ptr :: (pre ++ [d]).map Blk.bp = (s.heap_ptr :: pre.map Blk.bp) ++ [d.bp] := by
      simp
    rw [e, List.getLast?_append_of_ne_nil _ (by simp)] at hb
    simp only [List.getLast?_singleton, Option.mem_def, Option.some.injEq] at hb
    rw [← hb]
    exact h.next_nil.1

theorem Blk.tag_free (b : Blk) (h : b.alloc = false) : b.tag = PACK b.size 0 := by
  unfold Blk.tag
  rw [h, PACK_zero]
  simp

/-! ## Properties of the reachable states -/

theorem fresh_region : Fresh (emptyHeap 4096 1052672) := ⟨rfl, rfl, by decide, by decide⟩

theorem reach_init : Reachable reachInit [] :=
  Reachable.init (emptyHeap 4096 1052672) reachInit 16 fresh_region (by decide) rfl

theorem reach_big : Reachable reachBig [(4208, 300)] :=
  Reachable.malloc reachInit reachBig [] 300 4208 4273 reach_init (by decide)
    (Nat.le_of_ble_eq_true rfl) rfl

theorem reachBig_brk : reachBig.mem_brk < 8369 := Nat.le_of_ble_eq_true rfl

theorem live_mem : (4208 : Nat) ∈ [((4208 : Nat), (300 : Nat))].map Prod.fst := by decide

theorem reach_u1 : Reachable (afterMalloc reachInit 204) [(4208, 204)] :=
  Reachable.malloc reachInit _ [] 204 4208 8369 reach_init (by decide)
    (Nat.le_of_ble_eq_true rfl) rfl

theorem reach_u2 : Reachable (afterMalloc (afterMalloc reachInit 204) 300)
    [(4424, 300), (4208, 204)] :=
  Reachable.malloc _ _ _ 300 4424 8369 reach_u1 (by decide) (Nat.le_of_ble_eq_true rfl) rfl

/-- C1, the run that refutes the claim as stated: `mm_malloc(40)` and then
`mm_malloc(2^32 - 8)` return the same address 4224, so two live allocations
share their payload bytes. -/
theorem huge_request_overlaps_live_block : overlapRun = some (4224, 4224) := by rfl

/-- C1, amended. In every state reached from a fresh region that has room for
the class table, by requests of at most `2^32 - 16` bytes, the payload ranges
`[p, p + n)` of two live allocations are disjoint, and the payload range of a
live allocation is disjoint from the bytes `[b - 4, b + size - 4)` of every
free block `b` of the heap chain. -/
theorem live_payloads_exclusive {s : Heap} {L : List (Nat × Nat)} (h : Reachable s L)
    (fuel : Nat) (hf : s.mem_brk < fuel) :
    (∀ e ∈ L, ∀ e' ∈ L, e ≠ e' → e.1 + e.2 ≤ e'.1 ∨ e'.1 + e'.2 ≤ e.1) ∧
    ∃ chain, heap_chain s fuel s.heap_ptr = some chain ∧
      ∀ e ∈ L, ∀ b ∈ chain, GET_ALLOC s (HDRP b) = 0 →
        e.1 + e.2 ≤ b - 4 ∨ b + GET_BLK_SIZE s b - 4 ≤ e.1 := by
  obtain ⟨bl, fl, hinv, hl⟩ := h.inv
  constructor
  · intro e he e' he' hne
    obtain ⟨c, hc, hcp, _, hsz⟩ := hl.2 e he
    obtain ⟨c', hc', hcp', _, hsz'⟩ := hl.2 e' he'
    have hpne : e.1 ≠ e'.1 := fun heq => hne (List.inj_on_of_nodup_map hl.1 he he' heq)
    have hb := hinv.wf.bounds hc
    have hb' := hinv.wf.bounds hc'
    rcases hinv.wf.blk_disj hc hc' with e1 | e1 | e1
    · rw [e1] at hcp; exact absurd (hcp.symm.trans hcp') hpne
    · left; clear * - e1 hcp hcp' hsz hb; omega
    · right; clear * - e1 hcp hcp' hsz' hb'; omega
  · refine ⟨_, hinv.wf.heap_chain_eq fuel (hinv.wf.fuel_ok hf), ?_⟩
    intro e he b hb hfree
    obtain ⟨c, hc, hcp, hca, hsz⟩ := hl.2 e he
    obtain ⟨d, hd, hdb, hdf⟩ := hinv.wf.chain_free hb hfree
    have hs := hinv.wf.blk_size hd
    rw [hdb] at hs
    have hcb := hinv.wf.bounds hc
    have hdb' := hinv.wf.bounds hd
    rcases hinv.wf.blk_disj hc hd with e1 | e1 | e1
    · rw [e1, hdf] at hca; exact absurd hca (by simp)
    · left; clear * - e1 hcp hdb hsz hcb hdb'; omega
    · right; clear * - e1 hcp hdb hs hdb'; omega

theorem live_payloads_exclusive_witness :
    Reachable (afterMalloc (afterMalloc reachInit 204) 300) [(4424, 300), (4208, 204)] ∧
    (∀ e ∈ [((4424 : Nat), (300 : Nat)), (4208, 204)],
      ∀ e' ∈ [((4424 : Nat), (300 : Nat)), (4208, 204)], e ≠ e' →
      e.1 + e.2 ≤ e'.1 ∨ e'.1 + e'.2 ≤ e.1) ∧
    ∃ chain, heap_chain (afterMalloc (afterMalloc reachInit 204) 300) 8369
        (afterMalloc (afterMalloc reachInit 204) 300).heap_ptr = some chain ∧
      ∀ e ∈ [((4424 : Nat), (300 : Nat)), (4208, 204)], ∀ b ∈ chain,
        GET_ALLOC (afterMalloc (afterMalloc reachInit 204) 300) (HDRP b) = 0 →
        e.1 + e.2 ≤ b - 4 ∨
          b + GET_BLK_SIZE (afterMalloc (afterMalloc reachInit 204) 300) b - 4 ≤ e.1 :=
  ⟨reach_u2, live_payloads_exclusive reach_u2 8369 (Nat.le_of_ble_eq_true rfl)⟩

/-- C2, the run that refutes the claim as stated: after `mm_malloc(2^32 - 8)`
on a fresh heap the chain holds the block at 4208 whose header word is 64 and
whose footer word is 1. -/
theorem huge_request_breaks_tags :
    hugeRun.map (fun r => (r.1, heap_chain r.2 16 r.2.heap_ptr, GET r.2 (HDRP 4208),
      GET r.2 (FTRP r.2 4208))) = some (4272, some [4200, 4208], 64, 1) := by rfl

/-- C2, amended. In every state reached from a fresh region that has room for
the class table, by requests of at most `2^32 - 16` bytes, every block of the
chain from the first block to the epilogue has a header word equal to its
footer word. -/
theorem boundary_tags_agree {s : Heap} {L : List (Nat × Nat)} (h : Reachable s L)
    (fuel : Nat) (hf : s.mem_brk < fuel) :
    ∃ chain, heap_chain s fuel s.heap_ptr = some chain ∧
      ∀ b ∈ chain, GET s (HDRP b) = GET s (FTRP s b) := by
  obtain ⟨bl, fl, hinv, _⟩ := h.inv
  refine ⟨_, hinv.wf.heap_chain_eq fuel (hinv.wf.fuel_ok hf), ?_⟩
  intro b hb
  rcases mem_chain hb with rfl | ⟨d, hd, rfl⟩
  · rw [hinv.wf.pro_words.1, hinv.wf.pro_words.2]
  · rw [hinv.wf.hdr_word hd, hinv.wf.ftr_word hd]

theorem boundary_tags_agree_witness :
    Reachable reachBig [(4208, 300)] ∧
    ∃ chain, heap_chain reachBig 8369 reachBig.heap_ptr = some chain ∧
      ∀ b ∈ chain, GET reachBig (HDRP b) = GET reachBig (FTRP reachBig b) :=
  ⟨reach_big, boundary_tags_agree reach_big 8369 reachBig_brk⟩

/-- C3, the run that refutes the claim as stated: after `x = mm_malloc(40);
y = mm_realloc(x, 2^32 - 1); mm_free(y)` the block at 4208 is free, the block
after it starts at 4232, is the head of class list 5 and has the allocation
bit 0 as well. -/
theorem wrapped_realloc_leaves_adjacent_free :
    wrapFreeRun.map (fun r => (heap_chain r.2.2 16 r.2.2.heap_ptr,
      GET_ALLOC r.2.2 (HDRP 4208), NEXT_BLKP r.2.2 4208, GET_ALLOC r.2.2 (HDRP 4232),
      GET_SEG_LIST_PTR r.2.2 r.2.2.seg_list_ptr 5))
      = some (some [4200, 4208], 0, 4232, 0, 4232) := by rfl

/-- C3, amended. In every state reached from a fresh region that has room for
the class table, by requests of at most `2^32 - 16` bytes, a free block of the
chain is followed by a block whose allocation bit is set. -/
theorem no_adjacent_free_blocks {s : Heap} {L : List (Nat × Nat)} (h : Reachable s L)
    (fuel : Nat) (hf : s.mem_brk < fuel) :
    ∃ chain, heap_chain s fuel s.heap_ptr = some chain ∧
      ∀ b ∈ chain, GET_ALLOC s (HDRP b) = 0 → GET_ALLOC s (HDRP (NEXT_BLKP s b)) ≠ 0 := by
  obtain ⟨bl, fl, hinv, _⟩ := h.inv
  refine ⟨_, hinv.wf.heap_chain_eq fuel (hinv.wf.fuel_ok hf), ?_⟩
  intro b hb hfree
  obtain ⟨d, hd, rfl, hdf⟩ := hinv.wf.chain_free hb hfree
  obtain ⟨pre, post, e⟩ := List.append_of_mem hd
  subst e
  exact (coalesce_bits hinv.wf).2.2 (noAdjFree_next hinv.noadj hdf)

theorem no_adjacent_free_blocks_witness :
    Reachable reachBig [(4208, 300)] ∧
    ∃ chain, heap_chain reachBig 8369 reachBig.heap_ptr = some chain ∧
      ∀ b ∈ chain, GET_ALLOC reachBig (HDRP b) = 0 →
        GET_ALLOC reachBig (HDRP (NEXT_BLKP reachBig b)) ≠ 0 :=
  ⟨reach_big, no_adjacent_free_blocks reach_big 8369 reachBig_brk⟩

/-- C4, the run that refutes the claim as stated: after two allocations at
the same address, a release and two stores into the bytes of the allocation
that is still live, `mm_malloc` returns 4233, which is not a multiple of 8. -/
theorem unaligned_address_returned :
    unalignedRun = some (4224, 4224, 4224, 4233) := by rfl

/-- C4, amended. In every state reached from a fresh region at a multiple of
8 that has room for the class table, by requests of at most `2^32 - 16` bytes,
`mm_malloc(n)` and `mm_realloc(p, n)` on a live `p` return an address that is
a multiple of 8 (`NULL` included), for every `n ≤ 2^32 - 16`. -/
theorem returned_addresses_aligned {s : Heap} {L : List (Nat × Nat)} (h : Reachable s L)
    (n : Nat) (hn : n ≤ 4294967280) (fuel : Nat) (hf : s.mem_brk < fuel) :
    (∃ p s', mm_malloc fuel s n = some (p, s') ∧ p % 8 = 0) ∧
    ∀ p ∈ L.map Prod.fst, ∃ q s', mm_realloc fuel s p n = some (q, s') ∧ q % 8 = 0 := by
  obtain ⟨bl, fl, hinv, hl⟩ := h.inv
  constructor
  · obtain ⟨p, s', bl', fl', e, hinv', _, _, _, hnn⟩ := inv_malloc_step hinv hl n hn fuel hf
    refine ⟨p, s', e, ?_⟩
    by_cases hp : p = NULL
    · rw [hp]; rfl
    · obtain ⟨_, c, hc, hcp, _, _⟩ := hnn hp
      rw [← hcp]; exact hinv'.bp_aligned hc
  · intro p hp
    obtain ⟨q, s', bl', fl', e, hinv', hl'⟩ := inv_realloc_step hinv hl hp n hn fuel hf
    refine ⟨q, s', e, ?_⟩
    by_cases h0 : n = 0
    · obtain ⟨_, _, c, hc, hcp, _, _⟩ := hl.block hp
      have hcb := hinv.wf.bounds hc
      have hp0 : p ≠ NULL := by rw [← hcp]; unfold NULL; clear * - hcb; omega
      rw [h0, mm_realloc_zero fuel s p hp0] at e
      have hq : q = p := by
        cases hfree : mm_free fuel s p with
        | none => rw [hfree] at e; simp at e
        | some t =>
          rw [hfree] at e
          simp only [Option.map_some', Option.some.injEq, Prod.mk.injEq] at e
          exact e.1.symm
      rw [hq, ← hcp]; exact hinv.bp_aligned hc
    · rw [if_neg h0] at hl'
      by_cases hq : q = NULL
      · rw [hq]; rfl
      · rw [if_neg hq] at hl'
        obtain ⟨c, hc, hcq, _, _⟩ := hl'.2 (q, n) (List.mem_cons_self _ _)
        have hcq' : c.bp = q := hcq
        rw [← hcq']; exact hinv'.bp_aligned hc

theorem returned_addresses_aligned_witness :
    Reachable reachBig [(4208, 300)] ∧
    (∃ p s', mm_malloc 8369 reachBig 100 = some (p, s') ∧ p % 8 = 0) ∧
    ∀ p ∈ [((4208 : Nat), (300 : Nat))].map Prod.fst,
      ∃ q s', mm_realloc 8369 reachBig p 100 = some (q, s') ∧ q % 8 = 0 :=
  ⟨reach_big, returned_addresses_aligned reach_big 100 (by decide) 8369 reachBig_brk⟩

/-- C5, the request that refutes the claim as stated: for `n = 2^32 - 8` the
adjusted block size is 0. -/
theorem huge_request_adjusted_to_zero : malloc_asize 4294967288 = 0 := by decide

/-- C5, amended. For every request size `0 < n ≤ 2^32 - 16` the adjusted block
size is a multiple of 8, at least 24 and at least `n + 8`; in a reachable
state `mm_malloc(n)` returns, and a non-null result is the payload start of a
block marked allocated whose size minus 8 is at least `n`. -/
theorem malloc_block_holds_request {s : Heap} {L : List (Nat × Nat)} (h : Reachable s L)
    (n : Nat) (h0 : 0 < n) (hn : n ≤ 4294967280) (fuel : Nat) (hf : s.mem_brk < fuel) :
    malloc_asize n % 8 = 0 ∧ 24 ≤ malloc_asize n ∧ n + 8 ≤ malloc_asize n ∧
    ∃ p s', mm_malloc fuel s n = some (p, s') ∧
      (p ≠ NULL → GET_ALLOC s' (HDRP p) = 1 ∧ malloc_asize n ≤ GET_BLK_SIZE s' p ∧
        n ≤ GET_BLK_SIZE s' p - 8) := by
  obtain ⟨g24, g8, gn, _⟩ := malloc_asize_props n h0 hn
  obtain ⟨bl, fl, hinv, hl⟩ := h.inv
  obtain ⟨p, s', bl', fl', e, hinv', _, _, _, hnn⟩ := inv_malloc_step hinv hl n hn fuel hf
  refine ⟨g8, g24, gn, p, s', e, ?_⟩
  intro hp
  obtain ⟨_, c, hc, hcp, hca, hsz⟩ := hnn hp
  have ha := hinv'.wf.blk_alloc hc
  have hs := hinv'.wf.blk_size hc
  rw [hcp] at ha hs
  rw [hca] at ha
  refine ⟨ha, by rw [hs]; exact hsz, ?_⟩
  rw [hs]; clear * - hsz gn; omega

theorem malloc_block_holds_request_witness :
    Reachable reachBig [(4208, 300)] ∧
    malloc_asize 100 % 8 = 0 ∧ 24 ≤ malloc_asize 100 ∧ 100 + 8 ≤ malloc_asize 100 ∧
    ∃ p s', mm_malloc 8369 reachBig 100 = some (p, s') ∧
      (p ≠ NULL → GET_ALLOC s' (HDRP p) = 1 ∧ malloc_asize 100 ≤ GET_BLK_SIZE s' p ∧
        100 ≤ GET_BLK_SIZE s' p - 8) :=
  ⟨reach_big, malloc_block_holds_request reach_big 100 (by decide) (by decide) 8369
    reachBig_brk⟩

/-- C6, the run that refutes the claim as stated: `x = mm_malloc(40)`, the
byte 170 is stored at `x[0]`, and `mm_realloc(x, 2^32 - 1)` returns `x` with
the byte 9 at `x[0]`. -/
theorem wrapped_realloc_clobbers_payload :
    clobberRun = some (4224, 4224, 170, 9) := by rfl

/-- C6, amended. In a reachable state, for a live address `p` and a request
`0 < m ≤ 2^32 - 16`, `mm_realloc(p, m)` returns, and when the result `q` is not
`NULL` the first `min(m, c)` bytes at `q` are the bytes that were at `p`,
where `c` is the block size of `p` minus 8. -/
theorem realloc_keeps_payload {s : Heap} {L : List (Nat × Nat)} (h : Reachable s L) {p : Nat}
    (hp : p ∈ L.map Prod.fst) (m : Nat) (h0 : 0 < m) (hm : m ≤ 4294967280) (fuel : Nat)
    (hf : s.mem_brk < fuel) :
    ∃ q s', mm_realloc fuel s p m = some (q, s') ∧
      (q ≠ NULL → ∀ i, i < m → i < GET_BLK_SIZE s p - 8 → s'.mem (q + i) = s.mem (p + i)) := by
  obtain ⟨bl, fl, hinv, hl⟩ := h.inv
  have hfl := hinv.wf.fuel_ok hf
  obtain ⟨n, _, c, hc, hcp, hca, _⟩ := hl.block hp
  have hs := hinv.wf.blk_size hc
  obtain ⟨pre, post, e⟩ := List.append_of_mem hc
  subst e hcp
  obtain ⟨q, s', bl', fl', e1, _, _, hok⟩ :=
    mm_realloc_spec hinv hca m h0 hm fuel (by clear * - hfl; omega)
  refine ⟨q, s', e1, fun hq i him hic => ?_⟩
  rw [hs] at hic
  exact (hok hq).2.2.2.1 i hic him

theorem realloc_keeps_payload_witness :
    Reachable reachBig [(4208, 300)] ∧
    ∃ q s', mm_realloc 8369 reachBig 4208 1000 = some (q, s') ∧
      (q ≠ NULL → ∀ i, i < 1000 → i < GET_BLK_SIZE reachBig 4208 - 8 →
        s'.mem (q + i) = reachBig.mem (4208 + i)) :=
  ⟨reach_big, realloc_keeps_payload reach_big live_mem 1000 (by decide) (by decide) 8369
    reachBig_brk⟩

set_option maxRecDepth 100000 in
/-- C8, the run that refutes the claim as stated: both neighbours of the block
of `b = 4520` are free, the next block has 312 bytes, the usable size of `b`
is 304 and `ALIGN(400) = 400`, yet `mm_realloc(b, 400)` returns 4208, the
start of the previous block. -/
theorem realloc_prefers_previous_block :
    sandwichRun.map (fun r => (r.1, r.2.1, GET_ALLOC r.2.2 (HDRP (NEXT_BLKP r.2.2 r.2.1)),
      GET_BLK_SIZE r.2.2 (NEXT_BLKP r.2.2 r.2.1), GET_BLK_SIZE r.2.2 r.2.1 - 8, ALIGN 400,
      (mm_realloc 16 r.2.2 r.2.1 400).map Prod.fst))
      = some (4208, 4520, 0, 312, 304, 400, some 4208) := by rfl

/-- C8, amended. In a reachable state, for a live address `p` with usable size
`c` and a request `0 < m ≤ 2^32 - 16` with `ALIGN(m) > c`: if the previous
physical block is allocated, the next physical block is free with size `s`
and `c + s ≥ ALIGN(m)`, then `mm_realloc(p, m)` returns `p` and the first `c`
bytes at `p` are unchanged. -/
theorem realloc_grows_into_next {s : Heap} {L : List (Nat × Nat)} (h : Reachable s L)
    {p : Nat} (hp : p ∈ L.map Prod.fst) (m : Nat) (h0 : 0 < m) (hm : m ≤ 4294967280)
    (hgt : ALIGN m > GET_BLK_SIZE s p - 8)
    (hprev : GET_ALLOC s (HDRP (PREV_BLKP s p)) ≠ 0)
    (hnext : GET_ALLOC s (HDRP (NEXT_BLKP s p)) = 0)
    (hfit : ALIGN m ≤ GET_BLK_SIZE s (NEXT_BLKP s p) + (GET_BLK_SIZE s p - 8))
    (fuel : Nat) (hf : 1 ≤ fuel) :
    ∃ s', mm_realloc fuel s p m = some (p, s') ∧
      ∀ i, i < GET_BLK_SIZE s p - 8 → s'.mem (p + i) = s.mem (p + i) := by
  obtain ⟨bl, fl, hinv, hl⟩ := h.inv
  obtain ⟨n, _, c, hc, hcp, hca, _⟩ := hl.block hp
  have hs := hinv.wf.blk_size hc
  obtain ⟨pre, post, e⟩ := List.append_of_mem hc
  subst e hcp
  rw [hs] at hgt hfit ⊢
  have hall := (coalesce_bits hinv.wf).1.1 hprev
  rcases post with _ | ⟨nx, r⟩
  · exact absurd hnext (next_bit_nil hinv.wf)
  · have hnb := next_bit_cons hinv.wf
    have hnf : nx.alloc = false := by
      cases hna : nx.alloc
      · rfl
      · rw [hnb, hna] at hnext; exact absurd hnext (by decide)
    rw [hinv.wf.next_cons.1, hinv.wf.blk_size (b := nx) (by simp)] at hfit
    obtain ⟨M', bl', fl', e, _, _, _, _, _, _, pay⟩ :=
      realloc_next_spec hinv hca hnf hall m h0 hm hgt hfit fuel hf
    exact ⟨_, e, pay⟩

theorem realloc_grows_into_next_witness :
    Reachable reachBig [(4208, 300)] ∧
    ∃ s', mm_realloc 16 reachBig 4208 400 = some (4208, s') ∧
      ∀ i, i < GET_BLK_SIZE reachBig 4208 - 8 → s'.mem (4208 + i) = reachBig.mem (4208 + i) :=
  ⟨reach_big, realloc_grows_into_next reach_big live_mem 400 (by decide) (by decide)
    (Nat.le_of_ble_eq_true rfl)
    (fun hz => absurd ((rfl : GET_ALLOC reachBig (HDRP (PREV_BLKP reachBig 4208)) = 1).symm.trans
      hz) (by decide))
    rfl (Nat.le_of_ble_eq_true rfl) 16 (by decide)⟩

/-- C9, the run that refutes the claim as stated: after `x = mm_malloc(40);
y = mm_realloc(x, 2^32 - 1)` both neighbours of the block of `y = 4224` are
free, the expected merged block starts at 4208 and has 64 bytes, but after
`mm_free(y)` the header at 4208 carries the size 24. -/
theorem wrapped_realloc_breaks_coalescing :
    wrapFreeRun.map (fun r => (r.1, mergedStart r.2.1 r.1, mergedSize r.2.1 r.1,
      GET r.2.2 (HDRP (mergedStart r.2.1 r.1)))) = some (4224, 4208, 64, 24) := by rfl

/-- C9, amended. In a reachable state (requests of at most `2^32 - 16` bytes),
for a live address `p`, `mm_free(p)` returns and leaves a free block that
starts at the previous physical block if that block was free (else at `p`),
whose size is the size of the block of `p` plus the size of each physical
neighbour that was free, with that size and the free flag in both its header
and its footer; the block covers the former block of `p`. -/
theorem free_merges_free_neighbours {s : Heap} {L : List (Nat × Nat)} (h : Reachable s L)
    {p : Nat} (hp : p ∈ L.map Prod.fst) (fuel : Nat) (hf : 1 ≤ fuel) :
    ∃ s', mm_free fuel s p = some s' ∧
      GET s' (HDRP (mergedStart s p)) = PACK (mergedSize s p) 0 ∧
      GET s' (FTRP s' (mergedStart s p)) = PACK (mergedSize s p) 0 ∧
      mergedStart s p ≤ p ∧ p + GET_BLK_SIZE s p ≤ mergedStart s p + mergedSize s p := by
  obtain ⟨bl, fl, hinv, hl⟩ := h.inv
  obtain ⟨n, _, c, hc, hcp, hca, _⟩ := hl.block hp
  have hs := hinv.wf.blk_size hc
  obtain ⟨pre, post, e⟩ := List.append_of_mem hc
  subst e hcp
  obtain ⟨M, fl', e1, hinv', _⟩ := mm_free_spec hinv hca fuel hf
  obtain ⟨c1, c2, c3, c4⟩ := mergedBlk_code hinv.wf
  have hmb := mergedBlk_mem pre ⟨c.bp, c.size, false⟩ post
  have hfr := (mergedBlk_free pre ⟨c.bp, c.size, false⟩ post rfl).1
  have hh := hinv'.wf.hdr_word hmb
  have hft := hinv'.wf.ftr_word hmb
  rw [Blk.tag_free _ hfr, c1, c2] at hh hft
  exact ⟨_, e1, hh, hft, c3, by rw [hs]; exact c4⟩

theorem free_merges_free_neighbours_witness :
    Reachable reachBig [(4208, 300)] ∧
    ∃ s', mm_free 16 reachBig 4208 = some s' ∧
      GET s' (HDRP (mergedStart reachBig 4208)) = PACK (mergedSize reachBig 4208) 0 ∧
      GET s' (FTRP s' (mergedStart reachBig 4208)) = PACK (mergedSize reachBig 4208) 0 ∧
      mergedStart reachBig 4208 ≤ 4208 ∧
      4208 + GET_BLK_SIZE reachBig 4208 ≤
        mergedStart reachBig 4208 + mergedSize reachBig 4208 :=
  ⟨reach_big, free_merges_free_neighbours reach_big live_mem 16 (by decide)⟩

/-- C11, the run that refutes the claim as stated: after `x = mm_malloc(40);
y = mm_realloc(x, 2^32 - 1); mm_free(y)` class list 5 holds the address 4232,
which is not a block of the heap chain. -/
theorem wrapped_realloc_leaves_stale_member :
    wrapFreeRun.map (fun r => (heap_chain r.2.2 16 r.2.2.heap_ptr,
      seg_chain r.2.2 16 (GET_SEG_LIST_PTR r.2.2 r.2.2.seg_list_ptr 5)))
      = some (some [4200, 4208], some [4232]) := by rfl

/-- C11, amended. In every state reached from a fresh region that has room
for the class table, by requests of at most `2^32 - 16` bytes: each class list
is a finite list without repetition, a free block of the heap chain is a
member of class list `i` exactly when `i = min(floor(log2(size)), 23)`, and
every member of a class list is a block of the chain that is marked free. -/
theorem free_lists_agree_with_heap {s : Heap} {L : List (Nat × Nat)} (h : Reachable s L)
    (fuel : Nat) (hf : s.mem_brk < fuel) :
    ∃ (chain : List Nat) (fl : Nat → List Nat),
      heap_chain s fuel s.heap_ptr = some chain ∧
      (∀ i, i < SEG_SIZE →
        seg_chain s fuel (GET_SEG_LIST_PTR s s.seg_list_ptr i) = some (fl i) ∧ (fl i).Nodup) ∧
      (∀ b ∈ chain, GET_ALLOC s (HDRP b) = 0 → ∀ i, i < SEG_SIZE →
        (b ∈ fl i ↔ i = min (Nat.log2 (GET_BLK_SIZE s b)) 23)) ∧
      (∀ i, i < SEG_SIZE → ∀ x ∈ fl i, x ∈ chain ∧ GET_ALLOC s (HDRP x) = 0) := by
  obtain ⟨bl, fl, hinv, _⟩ := h.inv
  have hfl := hinv.wf.fuel_ok hf
  refine ⟨_, fl, hinv.wf.heap_chain_eq fuel hfl, ?_, ?_, ?_⟩
  · intro i hi
    exact ⟨hinv.wf.seg_chain_eq i hi fuel (by clear * - hfl; omega), hinv.wf.nodup i hi⟩
  · intro b hb hfree i hi
    obtain ⟨d, hd, rfl, hdf⟩ := hinv.wf.chain_free hb hfree
    rw [hinv.wf.blk_size hd, ← classOf_log2]
    constructor
    · intro hm
      obtain ⟨d', hd', e, _, hcl⟩ := hinv.wf.member hi hm
      have := Layout.bp_inj hinv.wf.layout hd' hd e
      rw [← hcl, this]
    · intro e
      rw [e]; exact hinv.complete d hd hdf
  · intro i hi x hx
    obtain ⟨d, hd, e, hdf, _⟩ := hinv.wf.member hi hx
    refine ⟨List.mem_cons_of_mem _ (List.mem_map.2 ⟨d, hd, e⟩), ?_⟩
    rw [← e, hinv.wf.blk_alloc hd, hdf]; rfl

theorem free_lists_agree_with_heap_witness :
    Reachable reachBig [(4208, 300)] ∧
    ∃ (chain : List Nat) (fl : Nat → List Nat),
      heap_chain reachBig 8369 reachBig.heap_ptr = some chain ∧
      (∀ i, i < SEG_SIZE →
        seg_chain reachBig 8369 (GET_SEG_LIST_PTR reachBig reachBig.seg_list_ptr i)
          = some (fl i) ∧ (fl i).Nodup) ∧
      (∀ b ∈ chain, GET_ALLOC reachBig (HDRP b) = 0 → ∀ i, i < SEG_SIZE →
        (b ∈ fl i ↔ i = min (Nat.log2 (GET_BLK_SIZE reachBig b)) 23)) ∧
      (∀ i, i < SEG_SIZE → ∀ x ∈ fl i, x ∈ chain ∧ GET_ALLOC reachBig (HDRP x) = 0) :=
  ⟨reach_big, free_lists_agree_with_heap reach_big 8369 reachBig_brk⟩

/-- C19. For every state and every non-null `p`, `mm_realloc(p, 0)` is
`mm_free(p)` with the result `p`; in a reachable state with `p` live the call
returns. -/
theorem realloc_zero_frees (s : Heap) (p fuel : Nat) (hp : p ≠ NULL) :
    mm_realloc fuel s p 0 = (mm_free fuel s p).map (fun t => (p, t)) ∧
    ∀ L, Reachable s L → p ∈ L.map Prod.fst → 1 ≤ fuel →
      ∃ t, mm_free fuel s p = some t ∧ mm_realloc fuel s p 0 = some (p, t) := by
  have e := mm_realloc_zero fuel s p hp
  refine ⟨e, fun L h hl hf => ?_⟩
  obtain ⟨bl, fl, hinv, hlive⟩ := h.inv
  obtain ⟨t, _, _, e1, _, _⟩ := inv_free_step hinv hlive hl fuel hf
  exact ⟨t, e1, by rw [e, e1]; rfl⟩

theorem realloc_zero_frees_witness :
    (4208 : Nat) ≠ NULL ∧
    mm_realloc 16 reachBig 4208 0 = (mm_free 16 reachBig 4208).map (fun t => (4208, t)) ∧
    ∀ L, Reachable reachBig L → 4208 ∈ L.map Prod.fst → 1 ≤ 16 →
      ∃ t, mm_free 16 reachBig 4208 = some t ∧ mm_realloc 16 reachBig 4208 0 = some (4208, t) :=
  ⟨by decide, realloc_zero_frees reachBig 4208 16 (by decide)⟩

/-- C20, the state that refutes the claim as stated: after `mm_init` the
prologue has the size 8, not 0 (the epilogue has the size 0). -/
theorem prologue_size_is_eight :
    (initHeap 4096 1052672).map (fun s => (GET_SIZE s (HDRP s.heap_ptr),
      GET_ALLOC s (HDRP s.heap_ptr), GET_SIZE s (HDRP s.mem_brk),
      GET_ALLOC s (HDRP s.mem_brk))) = some (8, 1, 0, 1) := by rfl

/-- C20, amended. In every state reached from a fresh region that has room
for the class table, by requests of at most `2^32 - 16` bytes, the heap chain
starts with the prologue, whose header and footer are `PACK(8, 1)`, and the
block after the last block of the chain is the epilogue at `mem_brk`, whose
header is `PACK(0, 1)`. -/
theorem sentinels_present {s : Heap} {L : List (Nat × Nat)} (h : Reachable s L)
    (fuel : Nat) (hf : s.mem_brk < fuel) :
    GET s (HDRP s.heap_ptr) = PACK DSIZE 1 ∧ GET s (FTRP s s.heap_ptr) = PACK DSIZE 1 ∧
    GET s (HDRP s.mem_brk) = PACK 0 1 ∧
    ∃ chain, heap_chain s fuel s.heap_ptr = some chain ∧ chain.head? = some s.heap_ptr ∧
      ∀ b ∈ chain.getLast?, NEXT_BLKP s b = s.mem_brk := by
  obtain ⟨bl, fl, hinv, _⟩ := h.inv
  have e9 : PACK DSIZE 1 = 9 := by decide
  have e1 : PACK 0 1 = 1 := by decide
  rw [e9, e1]
  exact ⟨hinv.wf.pro_words.1, hinv.wf.pro_words.2, hinv.wf.epi_word,
    _, hinv.wf.heap_chain_eq fuel (hinv.wf.fuel_ok hf), rfl, hinv.wf.chain_last⟩

theorem sentinels_present_witness :
    Reachable reachBig [(4208, 300)] ∧
    GET reachBig (HDRP reachBig.heap_ptr) = PACK DSIZE 1 ∧
    GET reachBig (FTRP reachBig reachBig.heap_ptr) = PACK DSIZE 1 ∧
    GET reachBig (HDRP reachBig.mem_brk) = PACK 0 1 ∧
    ∃ chain, heap_chain reachBig 8369 reachBig.heap_ptr = some chain ∧
      chain.head? = some reachBig.heap_ptr ∧
      ∀ b ∈ chain.getLast?, NEXT_BLKP reachBig b = reachBig.mem_brk :=
  ⟨reach_big, sentinels_present reach_big 8369 reachBig_brk⟩

/-! ## Well-formed states, class lists and sizes -/

theorem Reachable.wellFormed {s : Heap} {L : List (Nat × Nat)} (h : Reachable s L) :
    WellFormed s := by
  obtain ⟨bl, fl, hinv, _⟩ := h.inv
  exact ⟨bl, fl, hinv⟩

theorem WF.onList_iff {s : Heap} {bl : List Blk} {fl : Nat → List Nat} (h : WF s bl fl)
    {fuel : Nat} (hf : s.mem_brk < fuel) {i : Nat} (hi : i < 24) (x : Nat) :
    onList s fuel i x ↔ x ∈ fl i := by
  have hfl := h.fuel_ok hf
  have e := h.seg_chain_eq i hi fuel (by clear * - hfl; omega)
  unfold onList
  rw [e]
  constructor
  · rintro ⟨l, hl, hx⟩
    simp only [Option.some.injEq] at hl
    rw [hl]; exact hx
  · intro hx
    exact ⟨_, rfl, hx⟩

theorem Layout.sum_sizes {l : List Blk} {a e : Nat} (h : Layout a l e) :
    a + (l.map Blk.size).sum = e := by
  induction l generalizing a with
  | nil => simpa using Layout_nil.1 h
  | cons b bs ih =>
    obtain ⟨_, _, _, h4⟩ := Layout_cons.1 h
    have := ih h4
    simp only [List.map_cons, List.sum_cons]
    omega

theorem Blk.tag_used (b : Blk) (h : b.alloc = true) (h8 : b.size % 8 = 0) :
    b.tag = PACK b.size 1 := by
  unfold Blk.tag
  rw [h, PACK_one _ h8]
  simp

theorem WF.chain_unique {s : Heap} {bl : List Blk} {fl : Nat → List Nat} (h : WF s bl fl)
    {fuel : Nat} (hf : s.mem_brk < fuel) {chain : List Nat}
    (hch : heap_chain s fuel s.heap_ptr = some chain) : chain = s.heap_ptr :: bl.map Blk.bp := by
  rw [h.heap_chain_eq fuel (h.fuel_ok hf)] at hch
  simp only [Option.some.injEq] at hch
  exact hch.symm

/-- A member of a class list of a well-formed heap is a free block of the
abstract view. -/
theorem WF.onList_block {s : Heap} {bl : List Blk} {fl : Nat → List Nat} (h : WF s bl fl)
    {fuel : Nat} (hf : s.mem_brk < fuel) {i : Nat} (hi : i < 24) {x : Nat}
    (hx : onList s fuel i x) : ∃ b ∈ bl, b.bp = x ∧ b.alloc = false ∧ classOf b.size = i :=
  h.member hi ((h.onList_iff hf hi x).1 hx)

theorem reach_big_list : onList reachBig 8369 11 4520 := ⟨[4520], rfl, by decide⟩

/-- C21, a run in which the freed block is not reused: `p = mm_malloc(2^24);
mm_free(p); q = mm_malloc(2^24)` on a fresh heap moves the heap break from
16781496 to 33558720 in the second `mm_malloc`. -/
theorem large_block_not_reused :
    regrowRun = some (4208, 4208, 16781496, 33558720) := by rfl

/-- C22, a state in which `mm_check` misses an allocated block on a free
list: the member 4208 of class list 6 has the allocation bit set in its
header, and `mm_check` returns 0. -/
theorem check_misses_allocated_member :
    (seg_chain markedHeap 16 (GET_SEG_LIST_PTR markedHeap markedHeap.seg_list_ptr 6),
      GET_ALLOC markedHeap (HDRP 4208), mm_check 16 markedHeap) = (some [4208], 1, some 0) := by
  rfl

/-- C23, a state in which `mm_check` misses two adjacent free blocks: the
blocks at 4208 and 4224 follow each other in the chain, both are free and on
class lists (4 and 5), and `mm_check` returns 0. -/
theorem check_misses_adjacent_free :
    (heap_chain uncoalescedHeap 16 uncoalescedHeap.heap_ptr,
      GET_ALLOC uncoalescedHeap (HDRP 4208), GET_ALLOC uncoalescedHeap (HDRP 4224),
      seg_chain uncoalescedHeap 16 (GET_SEG_LIST_PTR uncoalescedHeap uncoalescedHeap.seg_list_ptr 4),
      seg_chain uncoalescedHeap 16 (GET_SEG_LIST_PTR uncoalescedHeap uncoalescedHeap.seg_list_ptr 5),
      mm_check 16 uncoalescedHeap)
      = (some [4200, 4208, 4224], 0, 0, some [4208], some [4224], some 0) := by rfl

/-- C24, a call that refutes the claim as stated: `place(4208, 0)` on the
free block of 16 bytes at 4208 returns 4224 and changes the header of the
allocated block at 4224, outside the extent of the free block, from 49 to 1. -/
theorem place_zero_clobbers_next_block :
    (place 16 oneBlockHeap 4208 0).map (fun r => (GET_BLK_SIZE oneBlockHeap 4208,
      GET_ALLOC oneBlockHeap (HDRP 4208), r.1, GET oneBlockHeap (HDRP 4224),
      GET r.2 (HDRP 4224))) = some (16, 0, 4224, 49, 1) := by rfl

/-- C26, a run in which the retry of `find_fit` misses: on a fresh heap
`find_fit(a, a, 0)` misses for `a = malloc_asize(2^24) = 16777224`,
`extend_heap` returns the free block at 4208 of 16777288 bytes, and
`find_fit(a, a, 0)` misses again. -/
theorem retry_misses_new_block : retryRun = some (0, 4208, 0, 16777288) := by rfl

/-- C29, the run that refutes the claim as stated: after `x = mm_malloc(40);
y = mm_realloc(x, 2^32 - 1)` the chain holds the block at 4224, whose size is
8. -/
theorem wrapped_realloc_leaves_small_block :
    wrapRun.map (fun r => (r.1, r.2.1, heap_chain r.2.2 16 r.2.2.heap_ptr,
      GET_BLK_SIZE r.2.2 4224)) = some (4224, 4224, some [4200, 4208, 4224, 4232], 8) := by rfl

/-- C29, amended. In every state reached from a fresh region that has room
for the class table, by requests of at most `2^32 - 16` bytes, the walk from
the prologue visits after it only blocks whose size is a multiple of 8 and at
least 16, the block after the last one is the epilogue header `PACK(0, 1)` in
the last word of the heap, and the block sizes sum to the bytes between the
first block (112 bytes after the start of the region) and the heap break. -/
theorem heap_is_tiled {s : Heap} {L : List (Nat × Nat)} (h : Reachable s L) (fuel : Nat)
    (hf : s.mem_brk < fuel) :
    ∃ chain, heap_chain s fuel s.heap_ptr = some chain ∧
      (∀ b ∈ chain.tail, GET_BLK_SIZE s b % 8 = 0 ∧ 16 ≤ GET_BLK_SIZE s b) ∧
      (∀ b ∈ chain.getLast?, NEXT_BLKP s b = s.mem_brk) ∧
      GET s (HDRP s.mem_brk) = PACK 0 1 ∧ HDRP s.mem_brk + 4 = s.mem_brk ∧
      s.mem_start_brk + 112 + (chain.tail.map (GET_BLK_SIZE s)).sum = s.mem_brk := by
  obtain ⟨bl, fl, hinv, _⟩ := h.inv
  have hbr := hinv.wf.brk_ge
  have e1 : PACK 0 1 = 1 := by decide
  refine ⟨_, hinv.wf.heap_chain_eq fuel (hinv.wf.fuel_ok hf), ?_, hinv.wf.chain_last,
    by rw [e1]; exact hinv.wf.epi_word, ?_, ?_⟩
  · intro b hb
    obtain ⟨d, hd, rfl⟩ := List.mem_map.1 hb
    have := hinv.wf.bounds hd
    rw [hinv.wf.blk_size hd]
    exact ⟨this.2.2.2.2, this.2.2.2.1⟩
  · rw [HDRP_eq _ (by omega) (by omega)]; omega
  · have hm : (bl.map Blk.bp).map (GET_BLK_SIZE s) = bl.map Blk.size := by
      rw [List.map_map]
      exact List.map_congr_left fun d hd => hinv.wf.blk_size hd
    have := Layout.sum_sizes hinv.wf.layout
    rw [List.tail_cons, hm, hinv.wf.start]
    exact this

theorem heap_is_tiled_witness :
    Reachable reachBig [(4208, 300)] ∧
    ∃ chain, heap_chain reachBig 8369 reachBig.heap_ptr = some chain ∧
      (∀ b ∈ chain.tail, GET_BLK_SIZE reachBig b % 8 = 0 ∧ 16 ≤ GET_BLK_SIZE reachBig b) ∧
      (∀ b ∈ chain.getLast?, NEXT_BLKP reachBig b = reachBig.mem_brk) ∧
      GET reachBig (HDRP reachBig.mem_brk) = PACK 0 1 ∧
      HDRP reachBig.mem_brk + 4 = reachBig.mem_brk ∧
      reachBig.mem_start_brk + 112 + (chain.tail.map (GET_BLK_SIZE reachBig)).sum
        = reachBig.mem_brk :=
  ⟨reach_big, heap_is_tiled reach_big 8369 reachBig_brk⟩

theorem shrink_rem_shape {s : Heap} {pre post : List Blk} {c : Blk} {fl : Nat → List Nat}
    (h : WF s (pre ++ c :: post) fl) (c1 : Blk) (hc1 : c1.alloc = true) (rb rs : Nat) :
    (mergedBlk (pre ++ [c1]) ⟨rb, rs, false⟩ post).bp = rb ∧
      (mergedBlk (pre ++ [c1]) ⟨rb, rs, false⟩ post).size = rs +
        (if GET_ALLOC s (HDRP (NEXT_BLKP s c.bp)) = 0 then GET_BLK_SIZE s (NEXT_BLKP s c.bp)
          else 0) := by
  have N : (mergeNext ⟨rb, rs, false⟩ post).1 = ⟨rb, rs +
      (if GET_ALLOC s (HDRP (NEXT_BLKP s c.bp)) = 0 then GET_BLK_SIZE s (NEXT_BLKP s c.bp)
        else 0), false⟩ := by
    rcases post with _ | ⟨nx, r⟩
    · have := next_bit_nil h
      simp [mergeNext, this]
    · have hb := next_bit_cons h
      have hn := (h.next_cons).1
      have hs := h.blk_size (b := nx) (by simp)
      rw [hn] at hb
      cases hna : nx.alloc
      · rw [hna] at hb
        simp only [Bool.false_eq_true, if_false] at hb
        simp [mergeNext, hna, hb, hn, hs]
      · rw [hna] at hb
        simp only [if_true] at hb
        simp [mergeNext, hna, hb, hn]
  unfold mergedBlk
  rw [N]
  simp [mergePrev, hc1]

/-- A miss of the recursion of `find_fit` means that no class it scans holds a
member that fits: the classes from `index` on at which the shifted copy of the
size is at most 1. -/
theorem find_fit_rec_complete {s : Heap} {bl : List Blk} {fl : Nat → List Nat} (h : WF s bl fl)
    (asize fuel : Nat) (hfuel : bl.length < fuel) :
    ∀ depth csize index, find_fit_rec fuel s asize depth csize index = some 0 →
      ∀ i, index ≤ i → i < 24 → csize >>> (i - index) ≤ 1 →
        ∀ x ∈ fl i, asize > GET_BLK_SIZE s x := by
  intro depth
  induction depth with
  | zero => intro _ _ h0; simp [find_fit_rec] at h0
  | succ depth ih =>
    intro csize index hres i hle hi hsh
    have hi' : ¬ index > SEG_SIZE := by simp only [SEG_SIZE]; clear * - hle hi; omega
    have hlt : index < 24 := by clear * - hle hi; omega
    have hbrk := h.brk_ge
    have hhead : GET_SEG_LIST_PTR s s.seg_list_ptr index = (fl index).headD 0 := by
      rw [GET_SEG_LIST_PTR_eq _ _ (by clear * - hbrk hlt h; have := h.max_lt; have := h.brk_le; omega)]
      exact h.heads index hlt
    have hnz : ∀ x ∈ fl index, x ≠ 0 := by
      intro x hx
      obtain ⟨b, hb, e, _, _⟩ := h.member hlt hx
      have := h.bounds hb
      clear * - this e; omega
    have step : ∀ j, index < j → j < 24 → csize >>> (j - index) ≤ 1 →
        find_fit_rec fuel s asize depth (csize >>> 1) (index + 1) = some 0 →
        ∀ x ∈ fl j, asize > GET_BLK_SIZE s x := by
      intro j hj hj24 hs hr
      have e : j - index = 1 + (j - (index + 1)) := by clear * - hj; omega
      rw [e, Nat.shiftRight_add] at hs
      exact ih (csize >>> 1) (index + 1) hr j (by clear * - hj; omega) hj24 hs
    by_cases hcond : csize ≤ 1 ∧ GET_SEG_LIST_PTR s s.seg_list_ptr index ≠ NULL
    · obtain ⟨r, hr, hsc⟩ := fit_scan_spec s asize (fl index) 0 fuel (h.links index hlt) hnz
        (lt_of_le_of_lt (h.list_length_le index hlt) hfuel)
      rw [← hhead] at hr
      by_cases hr0 : r = 0
      · subst hr0
        have hrec : find_fit_rec fuel s asize depth (csize >>> 1) (index + 1) = some 0 := by
          simpa [find_fit_rec, hi', hcond, hr, NULL] using hres
        rcases hsc with ⟨_, hall⟩ | ⟨hm, _⟩
        · rcases Nat.lt_or_ge index i with hlt' | hge
          · exact step i hlt' hi hsh hrec
          · have e : i = index := by clear * - hle hge; omega
            subst e
            exact hall
        · exact absurd rfl (hnz 0 hm)
      · have hsp : GET_SEG_LIST_PTR s s.seg_list_ptr index ≠ 0 := hcond.2
        simp [find_fit_rec, hi', hcond.1, hsp, hr, hr0, NULL] at hres
    · have hrec : find_fit_rec fuel s asize depth (csize >>> 1) (index + 1) = some 0 := by
        simpa only [find_fit_rec, hi', if_false, hcond] using hres
      rcases Nat.lt_or_ge index i with hlt' | hge
      · exact step i hlt' hi hsh hrec
      · have e : i = index := by clear * - hle hge; omega
        subst e
        have hc1 : csize ≤ 1 := by simpa using hsh
        have hnull : GET_SEG_LIST_PTR s s.seg_list_ptr i = NULL := by
          by_contra hne
          exact hcond ⟨hc1, hne⟩
        rw [hhead] at hnull
        intro x hx
        rcases hl : fl i with _ | ⟨y, ys⟩
        · rw [hl] at hx; simp at hx
        · rw [hl] at hnull
          have hy : y ∈ fl i := by rw [hl]; exact List.mem_cons_self _ _
          exact absurd hnull (hnz y hy)

/-- For an adjusted size below `2^24`, a miss of `find_fit(asize, asize, 0)`
means that no free block has `asize` bytes or more. -/
theorem find_fit_complete {s : Heap} {bl : List Blk} {fl : Nat → List Nat} (h : WF s bl fl)
    (hc : Complete bl fl) (asize fuel : Nat) (hfuel : bl.length < fuel) (ha : asize < 16777216)
    (hmiss : find_fit fuel s asize asize 0 = some NULL) :
    ∀ b ∈ bl, b.alloc = false → b.size < asize := by
  intro b hb hbf
  have hmem := hc b hb hbf
  have hsh : asize >>> (classOf b.size - 0) ≤ 1 ∨ b.size < asize := by
    by_cases hlt : b.size < asize
    · exact Or.inr hlt
    · left
      obtain ⟨j, hj, he, hor, _⟩ := seg_loop_spec (SEG_SIZE - 1) 0 b.size
      have hcj : classOf b.size = j := by simp [classOf, he]
      rw [hcj, Nat.sub_zero, Nat.shiftRight_eq_div_pow]
      rcases hor with h23 | h1
      · have e : j = 23 := by simpa [SEG_SIZE] using h23
        rw [e]
        clear * - ha; omega
      · rw [Nat.shiftRight_eq_div_pow] at h1
        exact le_trans (Nat.div_le_div_right (by clear * - hlt; omega)) h1
  rcases hsh with hsh | hlt
  · have := find_fit_rec_complete h asize fuel hfuel (SEG_SIZE + 2 - 0) asize 0 hmiss
      (classOf b.size) (Nat.zero_le _) (classOf_lt _) hsh b.bp hmem
    rw [h.blk_size hb] at this
    exact this
  · exact hlt

theorem mem_coalesced_last {pre : List Blk} {b d : Blk} (hd : d ∈ coalesced pre b []) :
    d = mergedBlk pre b [] ∨ d ∈ pre := by
  rw [coalesced_eq] at hd
  rcases List.mem_append.1 hd with h | h
  · right
    have h' := List.mem_reverse.1 h
    have hsub : ∀ (m : Blk) (l : List Blk), d ∈ (mergePrev m l).1 → d ∈ l := by
      intro m l hm
      rcases l with _ | ⟨a, r⟩
      · simp [mergePrev] at hm
      · cases ha : a.alloc
        · simp only [mergePrev, ha, Bool.false_eq_true, if_false] at hm
          exact List.mem_cons_of_mem _ hm
        · simpa only [mergePrev, ha, if_true] using hm
    exact List.mem_reverse.1 (hsub _ _ h')
  · rcases List.mem_cons.1 h with h | h
    · exact Or.inl h
    · simp [mergeNext] at h

/-- C21, for adjusted sizes below `2^24`. In a reachable state, for a request
`0 < n` whose adjusted size is below `2^24`, `mm_malloc(n)` returns, and if
its result `p` is not `NULL` then `mm_free(p)` returns and the `mm_malloc(n)`
that follows succeeds and leaves the heap break where it was. -/
theorem freed_block_is_reused {s : Heap} {L : List (Nat × Nat)} (h : Reachable s L) (n : Nat)
    (h0 : 0 < n) (hn : n ≤ 4294967280) (ha : malloc_asize n < 16777216) (fuel : Nat)
    (hf : s.mem_max_addr < fuel) :
    ∃ p s1, mm_malloc fuel s n = some (p, s1) ∧
      (p ≠ NULL → ∃ s2 q s3, mm_free fuel s1 p = some s2 ∧ s2.mem_brk = s1.mem_brk ∧
        mm_malloc fuel s2 n = some (q, s3) ∧ q ≠ NULL ∧ s3.mem_brk = s2.mem_brk) := by
  obtain ⟨bl, fl, hinv, _⟩ := h.inv
  have hf0 : s.mem_brk < fuel := lt_of_le_of_lt hinv.wf.brk_le hf
  have hfl := hinv.wf.fuel_ok hf0
  obtain ⟨p, s1, bl1, fl1, e1, hinv1, _, _, _, hnn, _, hmax, _⟩ :=
    mm_malloc_spec hinv n hn fuel (by clear * - hfl; omega)
  refine ⟨p, s1, e1, fun hp => ?_⟩
  obtain ⟨_, c, hc, hcp, hca, hcs⟩ := hnn hp
  obtain ⟨pre, post, e⟩ := List.append_of_mem hc
  subst e hcp
  have hf1 : s1.mem_brk < fuel := by
    have := hinv1.wf.brk_le
    clear * - this hmax hf; omega
  have hfl1 := hinv1.wf.fuel_ok hf1
  obtain ⟨M, fl2, e2, hinv2, _⟩ := mm_free_spec hinv1 hca fuel (by clear * - hfl1; omega)
  have hf2 : (s1.setMem M).mem_brk < fuel := hf1
  have hfl2 := hinv2.wf.fuel_ok hf2
  have hfuel2 : (coalesced pre ⟨c.bp, c.size, false⟩ post).length < fuel := by
    clear * - hfl2; omega
  obtain ⟨mf, ms⟩ := mergedBlk_free pre (⟨c.bp, c.size, false⟩ : Blk) post rfl
  have hmm := mergedBlk_mem pre (⟨c.bp, c.size, false⟩ : Blk) post
  obtain ⟨a24, a8, _, _⟩ := malloc_asize_props n h0 hn
  obtain ⟨r, hr, hres⟩ := find_fit_spec hinv2.wf (malloc_asize n) (malloc_asize n) fuel hfuel2
  have hn0 : ¬ n ≤ 0 := by clear * - h0; omega
  rcases hres with hr0 | ⟨b, hb, hbp, hbf, hbs⟩
  · subst hr0
    have := find_fit_complete hinv2.wf hinv2.complete (malloc_asize n) fuel hfuel2 ha hr _ hmm mf
    have hcs' : malloc_asize n ≤ (mergedBlk pre (⟨c.bp, c.size, false⟩ : Blk) post).size :=
      le_trans hcs ms
    exact absurd this (by clear * - hcs'; omega)
  · obtain ⟨pre2, post2, e⟩ := List.append_of_mem hb
    rw [e] at hinv2
    obtain ⟨q, M2, bl3, fl3, e3, hinv3, _, _, c3, hc3, hc3p, _, _⟩ := place_inv hinv2 hbf
      (malloc_asize n) (by clear * - a24; omega) a8 hbs fuel (by clear * - hfl2; omega)
    have hr1 : r ≠ NULL := by
      have := hinv2.wf.bounds (b := b) (by simp)
      rw [← hbp]; unfold NULL; clear * - this; omega
    have hq : q ≠ NULL := by
      have := hinv3.wf.bounds hc3
      rw [← hc3p]; unfold NULL; clear * - this; omega
    refine ⟨s1.setMem M, q, (s1.setMem M).setMem M2, e2, rfl, ?_, hq, rfl⟩
    simp only [mm_malloc, hn0, if_false, hr, hr1, ne_eq, not_false_eq_true, if_true]
    rw [← hbp]; exact e3

theorem freed_block_is_reused_witness :
    Reachable reachBig [(4208, 300)] ∧
    ∃ p s1, mm_malloc 1052673 reachBig 5000 = some (p, s1) ∧
      (p ≠ NULL → ∃ s2 q s3, mm_free 1052673 s1 p = some s2 ∧ s2.mem_brk = s1.mem_brk ∧
        mm_malloc 1052673 s2 5000 = some (q, s3) ∧ q ≠ NULL ∧ s3.mem_brk = s2.mem_brk) :=
  ⟨reach_big, freed_block_is_reused reach_big 5000 (by decide) (by decide)
    (Nat.le_of_ble_eq_true rfl) 1052673 (Nat.le_of_ble_eq_true rfl)⟩

/-- C26, for adjusted sizes below `2^24`. In a reachable state, for a request
`0 < n` whose adjusted size `a` is below `2^24`: if `find_fit(a, a, 0)` misses
and the region has room for `max(a, 4096)` more bytes, then
`extend_heap(max(a, 4096) / 4)` returns a block `bp`, not `NULL`, of at least
`a` bytes, the retry `find_fit(a, a, 0)` returns exactly `bp`, and
`mm_malloc(n)` is `place(bp, a)` in the extended heap. -/
theorem retry_finds_new_block {s : Heap} {L : List (Nat × Nat)} (h : Reachable s L) (n : Nat)
    (h0 : 0 < n) (hn : n ≤ 4294967280) (ha : malloc_asize n < 16777216) (fuel : Nat)
    (hf : s.mem_max_addr < fuel)
    (hmiss : find_fit fuel s (malloc_asize n) (malloc_asize n) 0 = some NULL)
    (hcap : s.mem_brk + MAX (malloc_asize n) DCHUNKSIZE ≤ s.mem_max_addr) :
    ∃ bp s1, extend_heap fuel s (MAX (malloc_asize n) DCHUNKSIZE / WSIZE) = some (bp, s1) ∧
      bp ≠ NULL ∧ find_fit fuel s1 (malloc_asize n) (malloc_asize n) 0 = some bp ∧
      malloc_asize n ≤ GET_BLK_SIZE s1 bp ∧
      mm_malloc fuel s n = place fuel s1 bp (malloc_asize n) := by
  obtain ⟨bl, fl, hinv, _⟩ := h.inv
  have hf0 : s.mem_brk < fuel := lt_of_le_of_lt hinv.wf.brk_le hf
  have hfl := hinv.wf.fuel_ok hf0
  have hfuel : bl.length < fuel := by clear * - hfl; omega
  obtain ⟨_, a8, _, alt⟩ := malloc_asize_props n h0 hn
  obtain ⟨x1, x2, x3, x4⟩ := extend_size_max (malloc_asize n) a8 alt
  obtain ⟨M1, fl1, e1, w1, c1, _⟩ := extend_heap_spec hinv.wf hinv.complete
    (MAX (malloc_asize n) DCHUNKSIZE / WSIZE) (MAX (malloc_asize n) DCHUNKSIZE) x1 x3 x4
    hcap fuel (by clear * - hfl; omega)
  obtain ⟨mf, ms⟩ := mergedBlk_free bl
    (⟨s.mem_brk, MAX (malloc_asize n) DCHUNKSIZE, false⟩ : Blk) [] rfl
  have hmem := mergedBlk_mem bl (⟨s.mem_brk, MAX (malloc_asize n) DCHUNKSIZE, false⟩ : Blk) []
  have hsz : malloc_asize n ≤
      (mergedBlk bl (⟨s.mem_brk, MAX (malloc_asize n) DCHUNKSIZE, false⟩ : Blk) []).size :=
    le_trans x2 ms
  have hbnz : (mergedBlk bl (⟨s.mem_brk, MAX (malloc_asize n) DCHUNKSIZE, false⟩ : Blk) []).bp
      ≠ 0 := by
    have := w1.bounds hmem
    have e : ((s.setBrk (s.mem_brk + MAX (malloc_asize n) DCHUNKSIZE)).setMem M1).seg_list_ptr
      = s.seg_list_ptr := rfl
    rw [e] at this
    clear * - this; omega
  have hf1 : ((s.setBrk (s.mem_brk + MAX (malloc_asize n) DCHUNKSIZE)).setMem M1).mem_brk
      < fuel := by
    show s.mem_brk + MAX (malloc_asize n) DCHUNKSIZE < fuel
    clear * - hcap hf; omega
  have hfl1 := w1.fuel_ok hf1
  have hfuel1 : (coalesced bl
      (⟨s.mem_brk, MAX (malloc_asize n) DCHUNKSIZE, false⟩ : Blk) []).length < fuel := by
    clear * - hfl1; omega
  have hold := find_fit_complete hinv.wf hinv.complete (malloc_asize n) fuel hfuel ha hmiss
  obtain ⟨r, hr, hres⟩ := find_fit_spec w1 (malloc_asize n) (malloc_asize n) fuel hfuel1
  have hn0 : ¬ n ≤ 0 := by clear * - h0; omega
  have hrbp : r = (mergedBlk bl
      (⟨s.mem_brk, MAX (malloc_asize n) DCHUNKSIZE, false⟩ : Blk) []).bp := by
    rcases hres with hr0 | ⟨b, hb, hbp, hbf, hbs⟩
    · subst hr0
      have := find_fit_complete w1 c1 (malloc_asize n) fuel hfuel1 ha hr _ hmem mf
      exact absurd this (by clear * - hsz; omega)
    · rcases mem_coalesced_last hb with e | hbl
      · rw [← hbp, e]
      · have := hold b hbl hbf
        exact absurd this (by clear * - hbs; omega)
  refine ⟨_, _, e1, hbnz, by rw [hr, hrbp], ?_, ?_⟩
  · rw [w1.blk_size hmem]; exact hsz
  · simp only [mm_malloc, hn0, if_false, hmiss, NULL, ne_eq, not_true_eq_false, e1]
    simp only [hbnz, if_false]

theorem retry_finds_new_block_witness :
    Reachable reachBig [(4208, 300)] ∧
    ∃ bp s1, extend_heap 1052673 reachBig (MAX (malloc_asize 5000) DCHUNKSIZE / WSIZE)
        = some (bp, s1) ∧
      bp ≠ NULL ∧ find_fit 1052673 s1 (malloc_asize 5000) (malloc_asize 5000) 0 = some bp ∧
      malloc_asize 5000 ≤ GET_BLK_SIZE s1 bp ∧
      mm_malloc 1052673 reachBig 5000 = place 1052673 s1 bp (malloc_asize 5000) :=
  ⟨reach_big, retry_finds_new_block reach_big 5000 (by decide) (by decide)
    (Nat.le_of_ble_eq_true rfl) 1052673 (Nat.le_of_ble_eq_true rfl) (by rfl)
    (Nat.le_of_ble_eq_true rfl)⟩

/-- The first loop of `mm_check` keeps `errno` when every block of the walk
has a header word equal to its footer word. -/
theorem check_heap_of_chain (s : Heap) : ∀ (fuel curr : Nat) (l : List Nat) (e : Int),
    heap_chain s fuel curr = some l → (∀ b ∈ l, GET s (HDRP b) = GET s (FTRP s b)) →
    check_heap s fuel curr e = some e
  | 0, _, _, _, h, _ => by simp [heap_chain] at h
  | fuel + 1, curr, l, e, h, hall => by
    by_cases hc : curr ≠ NULL ∧ GET_SIZE s (HDRP curr) ≠ 0
    · rw [heap_chain, if_pos hc] at h
      obtain ⟨l', hl', rfl⟩ := Option.map_eq_some'.1 h
      have hw := hall curr (List.mem_cons_self _ _)
      have ha : GET_ALLOC s (HDRP curr) = GET_ALLOC s (FTRP s curr) := by
        unfold GET_ALLOC; rw [hw]
      have hs : GET_SIZE s (HDRP curr) = GET_SIZE s (FTRP s curr) := by
        unfold GET_SIZE; rw [hw]
      have ih := check_heap_of_chain s fuel (NEXT_BLKP s curr) l' e hl'
        (fun b hb => hall b (List.mem_cons_of_mem _ hb))
      rw [check_heap, if_pos hc]
      simp only [ne_eq, ha, hs, not_true_eq_false, if_false]
      exact ih
    · rw [check_heap, if_neg hc]

/-- The list loop of `mm_check` keeps `errno` when no test fires on a member
of the walk. -/
theorem check_list_of_chain (s : Heap) : ∀ (fuel blkp : Nat) (l : List Nat) (e : Int),
    seg_chain s fuel blkp = some l →
    (∀ x ∈ l, ¬ (x < mem_heap_lo s ∨ x > mem_heap_hi s) ∧ GET_ALLOC s x = 0 ∧
      GET_SIZE s (HDRP x) = GET_SIZE s (FTRP s x) ∧ x % DSIZE = 0 ∧
      u32 (HDRP x + 4294967296 - FTRP s x) ≠ DSIZE) →
    check_list s fuel blkp e = some e
  | 0, _, _, _, h, _ => by simp [seg_chain] at h
  | fuel + 1, blkp, l, e, h, hall => by
    by_cases hc : blkp ≠ NULL
    · rw [seg_chain, if_pos hc] at h
      obtain ⟨l', hl', rfl⟩ := Option.map_eq_some'.1 h
      obtain ⟨h1, h2, h3, h4, h5⟩ := hall blkp (List.mem_cons_self _ _)
      have ih := check_list_of_chain s fuel (SEG_PREV_BLKP s blkp) l' e hl'
        (fun b hb => hall b (List.mem_cons_of_mem _ hb))
      rw [check_list, if_pos hc]
      simp only [h1, h2, h3, h4, h5, ne_eq, not_true_eq_false, if_false, and_false]
      exact ih
    · rw [check_list, if_neg hc]

theorem check_lists_ok (fuel : Nat) (s : Heap)
    (h : ∀ i, i < 24 → check_list s fuel (GET_SEG_LIST_PTR s s.seg_list_ptr i) 0 = some 0) :
    ∀ k i, i + k = 24 → check_lists fuel s k i 0 = some 0
  | 0, _, _ => rfl
  | k + 1, i, hk => by
    rw [check_lists, h i (by clear * - hk; omega)]
    exact check_lists_ok fuel s h k (i + 1) (by clear * - hk; omega)

/-- The link word of a list member holds `NULL` or a member of the list. -/
theorem Links.next_mem {m : Nat → Nat} {t : Nat} {l : List Nat} (h : Links m t l) {x : Nat}
    (hx : x ∈ l) : rd32 m x = 0 ∨ rd32 m x ∈ l := by
  induction l generalizing t with
  | nil => simp at hx
  | cons y ys ih =>
    obtain ⟨_, h2, h3⟩ := Links_cons.1 h
    rcases List.mem_cons.1 hx with rfl | hx'
    · rcases ys with _ | ⟨z, zs⟩
      · exact Or.inl h2
      · right
        rw [h2]
        simp
    · rcases ih h3 hx' with h0 | hm
      · exact Or.inl h0
      · exact Or.inr (List.mem_cons_of_mem _ hm)

/-- In a state that satisfies the heap invariant no test of `mm_check` fires. -/
theorem Inv.check_ok {s : Heap} {bl : List Blk} {fl : Nat → List Nat} (h : Inv s bl fl)
    (fuel : Nat) (hf : s.mem_brk < fuel) : mm_check fuel s = some 0 := by
  have hfl := h.wf.fuel_ok hf
  have hfl' : bl.length < fuel := by clear * - hfl; omega
  have hchain := h.wf.heap_chain_eq fuel hfl
  have hheap : check_heap s fuel s.heap_ptr 0 = some 0 := by
    refine check_heap_of_chain s fuel s.heap_ptr _ 0 hchain ?_
    intro b hb
    rcases mem_chain hb with e | ⟨d, hd, e⟩
    · rw [e, h.wf.pro_words.1, h.wf.pro_words.2]
    · rw [← e, h.wf.hdr_word hd, h.wf.ftr_word hd]
  have hlist : ∀ i, i < 24 →
      check_list s fuel (GET_SEG_LIST_PTR s s.seg_list_ptr i) 0 = some 0 := by
    intro i hi
    refine check_list_of_chain s fuel _ (fl i) 0 (h.wf.seg_chain_eq i hi fuel hfl') ?_
    intro x hx
    obtain ⟨b, hb, e, _, _⟩ := h.wf.member hi hx
    have hbd := h.wf.bounds hb
    have hal := h.bp_aligned hb
    have hst := h.wf.start
    subst e
    refine ⟨?_, ?_, ?_, ?_, ?_⟩
    · unfold mem_heap_lo mem_heap_hi
      clear * - hbd hst; omega
    · have hn := (h.wf.links i hi).next_mem hx
      have e1 : GET_ALLOC s b.bp = rd32 s.mem b.bp % 2 := by
        unfold GET_ALLOC GET
        exact Nat.and_one_is_mod _
      rw [e1]
      rcases hn with h0 | hm
      · rw [h0]
      · obtain ⟨d, hd, e, _, _⟩ := h.wf.member hi hm
        have := h.bp_aligned hd
        rw [e] at this
        clear * - this; omega
    · unfold GET_SIZE
      rw [h.wf.hdr_word hb, h.wf.ftr_word hb]
    · unfold DSIZE
      exact hal
    · have e1 : HDRP b.bp = b.bp - 4 := HDRP_eq _ (by clear * - hbd; omega)
        (by clear * - hbd; omega)
      have e2 : FTRP s b.bp = b.bp + b.size - 8 :=
        FTRP_eq s b.bp b.size (by clear * - hbd; omega) (by clear * - hbd; omega)
          (by clear * - hbd; omega) (h.wf.blk_size hb)
      rw [e1, e2]
      unfold u32 DSIZE
      clear * - hbd; omega
  unfold mm_check
  rw [hheap]
  exact check_lists_ok fuel s hlist 24 0 rfl

/-- A class list without repeated members, all of them `x`, that holds `x`
is the list `[x]`. -/
theorem list_eq_singleton {l : List Nat} {x : Nat} (hn : l.Nodup) (hx : x ∈ l)
    (hall : ∀ y ∈ l, y = x) : l = [x] := by
  rcases l with _ | ⟨a, r⟩
  · simp at hx
  · have ha : a = x := hall a (List.mem_cons_self _ _)
    subst ha
    rcases r with _ | ⟨b, r'⟩
    · rfl
    · have hb : b = a := hall b (by simp)
      subst hb
      simp at hn

/-- A miss of `find_fit`, started at any index up to 25, has read every slot
from that index up to slot 24. -/
theorem find_fit_reads_miss (fuel : Nat) (s : Heap) (asize : Nat) :
    ∀ depth csize index, find_fit_rec fuel s asize depth csize index = some NULL →
      find_fit_reads_rec fuel s asize depth csize index = some (List.range' index (25 - index))
  | 0, _, _, h => by simp [find_fit_rec] at h
  | depth + 1, csize, index, h => by
    by_cases hi : index > SEG_SIZE
    · have e : 25 - index = 0 := by simp only [SEG_SIZE] at hi; clear * - hi; omega
      rw [find_fit_reads_rec, if_pos hi, e]
      rfl
    · have e : 25 - index = (25 - (index + 1)) + 1 := by
        simp only [SEG_SIZE] at hi; clear * - hi; omega
      rw [find_fit_rec, if_neg hi] at h
      rw [find_fit_reads_rec, if_neg hi, e, List.range'_succ]
      by_cases hcond : csize ≤ 1 ∧ GET_SEG_LIST_PTR s s.seg_list_ptr index ≠ NULL
      · dsimp only at h ⊢
        rw [if_pos hcond] at h ⊢
        rcases hsc : fit_scan s asize fuel (GET_SEG_LIST_PTR s s.seg_list_ptr index) with _ | r
        · rw [hsc] at h; simp at h
        · rw [hsc] at h
          dsimp only at h ⊢
          by_cases hr : r ≠ NULL
          · rw [if_pos hr] at h
            exact absurd (Option.some.inj h) hr
          · rw [if_neg hr] at h ⊢
            rw [find_fit_reads_miss fuel s asize depth (csize >>> 1) (index + 1) h]
            rfl
      · dsimp only at h ⊢
        rw [if_neg hcond] at h ⊢
        rw [find_fit_reads_miss fuel s asize depth (csize >>> 1) (index + 1) h]
        rfl

/-- Every slot `find_fit` reads has an index of at most 24. -/
theorem find_fit_reads_le (fuel : Nat) (s : Heap) (asize : Nat) :
    ∀ depth csize index l, find_fit_reads_rec fuel s asize depth csize index = some l →
      ∀ i ∈ l, index ≤ i ∧ i ≤ 24
  | 0, _, _, _, h => by simp [find_fit_reads_rec] at h
  | depth + 1, csize, index, l, h => by
    by_cases hi : index > SEG_SIZE
    · rw [find_fit_reads_rec, if_pos hi] at h
      cases h
      intro i hi'
      simp at hi'
    · have hi24 : index ≤ 24 := by simp only [SEG_SIZE] at hi; clear * - hi; omega
      rw [find_fit_reads_rec, if_neg hi] at h
      have tail : ∀ l, (find_fit_reads_rec fuel s asize depth (csize >>> 1) (index + 1)).map
          (fun l => index :: l) = some l → ∀ i ∈ l, index ≤ i ∧ i ≤ 24 := by
        intro l hl i hil
        obtain ⟨l', hl', rfl⟩ := Option.map_eq_some'.1 hl
        rcases List.mem_cons.1 hil with rfl | hm
        · exact ⟨le_refl _, hi24⟩
        · have := find_fit_reads_le fuel s asize depth (csize >>> 1) (index + 1) l' hl' i hm
          exact ⟨by clear * - this; omega, this.2⟩
      by_cases hcond : csize ≤ 1 ∧ GET_SEG_LIST_PTR s s.seg_list_ptr index ≠ NULL
      · dsimp only at h
        rw [if_pos hcond] at h
        rcases hsc : fit_scan s asize fuel (GET_SEG_LIST_PTR s s.seg_list_ptr index) with _ | r
        · rw [hsc] at h; simp at h
        · rw [hsc] at h
          dsimp only at h
          by_cases hr : r ≠ NULL
          · rw [if_pos hr] at h
            cases h
            intro i hi'
            have : i = index := by simpa using hi'
            rw [this]
            exact ⟨le_refl _, hi24⟩
          · rw [if_neg hr] at h
            exact tail l h
      · dsimp only at h
        rw [if_neg hcond] at h
        exact tail l h

/-- C31. On an empty region that starts at a multiple of 8 and has room for
the 176 bytes `mm_init` asks for (96 for the class table, 16 for the padding
word, the prologue and the epilogue, 64 for the first block), `mm_init`
returns 0 and leaves: the class table at the start of the region, the padding
word 0 behind it, the prologue with header and footer `PACK(8, 1)`, one block
behind the prologue, free and of 64 bytes, the epilogue header `PACK(0, 1)` in
the last word of the heap, and every class list empty except the list of
class 6, which holds exactly that block. -/
theorem init_state (s0 : Heap) (hf : Fresh s0) (hroom : s0.mem_brk + 176 ≤ s0.mem_max_addr)
    (fuel : Nat) (h3 : 3 ≤ fuel) :
    ∃ s, mm_init fuel s0 = some (0, s) ∧
      s.seg_list_ptr = s0.mem_brk ∧ s.heap_ptr = s0.mem_brk + 104 ∧
      s.mem_brk = s0.mem_brk + 176 ∧
      GET s (s0.mem_brk + 96) = 0 ∧
      GET s (HDRP s.heap_ptr) = PACK 8 1 ∧ GET s (FTRP s s.heap_ptr) = PACK 8 1 ∧
      heap_chain s fuel s.heap_ptr = some [s.heap_ptr, s0.mem_brk + 112] ∧
      GET s (HDRP (s0.mem_brk + 112)) = PACK 64 0 ∧
      GET s (FTRP s (s0.mem_brk + 112)) = PACK 64 0 ∧
      GET s (HDRP s.mem_brk) = PACK 0 1 ∧ HDRP s.mem_brk + 4 = s.mem_brk ∧
      ∀ i, i < 24 →
        GET_SEG_LIST_PTR s s.seg_list_ptr i = (if i = 6 then s0.mem_brk + 112 else NULL) ∧
        seg_chain s fuel (GET_SEG_LIST_PTR s s.seg_list_ptr i) =
          some (if i = 6 then [s0.mem_brk + 112] else []) := by
  obtain ⟨s, fl, e, hinv, hseg, hbrk, _⟩ := (mm_init_spec fuel (by clear * - h3; omega) s0 hf).1 hroom
  have hmem : (⟨s0.mem_brk + 112, 64, false⟩ : Blk) ∈ [(⟨s0.mem_brk + 112, 64, false⟩ : Blk)] :=
    List.mem_cons_self _ _
  have hb := hinv.wf.brk_ge
  have c6 : classOf 64 = 6 := by decide
  have hfl : ∀ i, i < 24 → fl i = if i = 6 then [s0.mem_brk + 112] else [] := by
    intro i hi
    have hall : ∀ x ∈ fl i, x = s0.mem_brk + 112 ∧ i = 6 := by
      intro x hx
      obtain ⟨d, hd, e1, _, e2⟩ := hinv.wf.member hi hx
      have hd' : d = ⟨s0.mem_brk + 112, 64, false⟩ := by simpa using hd
      subst hd'
      exact ⟨e1.symm, by rw [← e2]; exact c6⟩
    by_cases h6 : i = 6
    · subst h6
      rw [if_pos rfl]
      have hin : s0.mem_brk + 112 ∈ fl 6 := by
        have := hinv.complete _ hmem rfl
        rw [c6] at this
        exact this
      exact list_eq_singleton (hinv.wf.nodup 6 hi) hin (fun y hy => (hall y hy).1)
    · rw [if_neg h6]
      exact List.eq_nil_iff_forall_not_mem.2 (fun x hx => h6 (hall x hx).2)
  have t1 := hinv.wf.hdr_word hmem
  have t2 := hinv.wf.ftr_word hmem
  rw [Blk.tag_free ⟨s0.mem_brk + 112, 64, false⟩ rfl] at t1 t2
  have e9 : PACK 8 1 = 9 := by decide
  have e1 : PACK 0 1 = 1 := by decide
  have hpad : GET s (s0.mem_brk + 96) = 0 := by
    have := hinv.wf.pad
    rw [hseg] at this
    exact this
  have hhp : s.heap_ptr = s0.mem_brk + 104 := by rw [hinv.wf.hp, hseg]
  have hch := hinv.wf.heap_chain_eq fuel (by simpa using h3)
  refine ⟨s, e, hseg, hhp, hbrk, hpad, by rw [e9]; exact hinv.wf.pro_words.1,
    by rw [e9]; exact hinv.wf.pro_words.2, by simpa using hch, t1, t2,
    by rw [e1]; exact hinv.wf.epi_word, ?_, ?_⟩
  · rw [HDRP_eq _ (by clear * - hb; omega) hb.2]
    clear * - hb; omega
  · intro i hi
    have hsc := hinv.wf.seg_chain_eq i hi fuel (by simpa using (by clear * - h3; omega : 1 < fuel))
    rw [hfl i hi] at hsc
    refine ⟨?_, hsc⟩
    rw [GET_SEG_LIST_PTR_eq s i (by clear * - hb hi; omega), hinv.wf.heads i hi, hfl i hi]
    by_cases h6 : i = 6
    · rw [if_pos h6, if_pos h6]; rfl
    · rw [if_neg h6, if_neg h6]; rfl

theorem init_state_witness :
    Fresh (emptyHeap 4096 1052672) ∧
    ∃ s, mm_init 16 (emptyHeap 4096 1052672) = some (0, s) ∧
      s.seg_list_ptr = (emptyHeap 4096 1052672).mem_brk ∧
      s.heap_ptr = (emptyHeap 4096 1052672).mem_brk + 104 ∧
      s.mem_brk = (emptyHeap 4096 1052672).mem_brk + 176 ∧
      GET s ((emptyHeap 4096 1052672).mem_brk + 96) = 0 ∧
      GET s (HDRP s.heap_ptr) = PACK 8 1 ∧ GET s (FTRP s s.heap_ptr) = PACK 8 1 ∧
      heap_chain s 16 s.heap_ptr = some [s.heap_ptr, (emptyHeap 4096 1052672).mem_brk + 112] ∧
      GET s (HDRP ((emptyHeap 4096 1052672).mem_brk + 112)) = PACK 64 0 ∧
      GET s (FTRP s ((emptyHeap 4096 1052672).mem_brk + 112)) = PACK 64 0 ∧
      GET s (HDRP s.mem_brk) = PACK 0 1 ∧ HDRP s.mem_brk + 4 = s.mem_brk ∧
      ∀ i, i < 24 →
        GET_SEG_LIST_PTR s s.seg_list_ptr i =
          (if i = 6 then (emptyHeap 4096 1052672).mem_brk + 112 else NULL) ∧
        seg_chain s 16 (GET_SEG_LIST_PTR s s.seg_list_ptr i) =
          some (if i = 6 then [(emptyHeap 4096 1052672).mem_brk + 112] else []) :=
  ⟨fresh_region, init_state (emptyHeap 4096 1052672) fresh_region (by decide) 16 (by decide)⟩

set_option maxRecDepth 100000 in
/-- C32, a run that refutes the claim as stated: after `mm_init()` on the
empty region at 4096, `mm_malloc(2^32 - 8)` returns 4272 and leaves the block
at 4208 with header 64 and footer 1, and `mm_check` returns -1. -/
theorem huge_request_trips_check :
    ((mm_malloc 8369 reachInit 4294967288).map Prod.fst, GET hugeHeap (HDRP 4208),
      GET hugeHeap (FTRP hugeHeap 4208), mm_check 16 hugeHeap) = (some 4272, 64, 1, some (-1)) := by
  rfl

/-- C32, amended. In every state reached from a fresh region that has room
for the class table, by requests of at most `2^32 - 16` bytes, `mm_check`
returns 0. -/
theorem check_passes {s : Heap} {L : List (Nat × Nat)} (h : Reachable s L) (fuel : Nat)
    (hf : s.mem_brk < fuel) : mm_check fuel s = some 0 := by
  obtain ⟨bl, fl, hinv, _⟩ := h.inv
  exact hinv.check_ok fuel hf

theorem check_passes_witness :
    Reachable reachBig [(4208, 300)] ∧ mm_check 8369 reachBig = some 0 :=
  ⟨reach_big, check_passes reach_big 8369 reachBig_brk⟩

/-- C33, a call that reads past the class table: in the state after
`mm_init()` on the empty region at 4096 (table at 4096, 24 slots of 4 bytes),
`find_fit(a, a, 0)` for `a = malloc_asize(5000) = 5008` misses and has read
the slots 0 to 24; slot 24 is the word at 4192, the padding word behind the
table. -/
theorem find_fit_reads_slot_24 :
    (find_fit 16 reachInit (malloc_asize 5000) (malloc_asize 5000) 0,
      find_fit_reads 16 reachInit (malloc_asize 5000) (malloc_asize 5000) 0,
      reachInit.seg_list_ptr, u32 (reachInit.seg_list_ptr + WSIZE * 24))
      = (some NULL, some [0, 1, 2, 3, 4, 5, 6, 7, 8, 9, 10, 11, 12, 13, 14, 15, 16, 17, 18, 19,
          20, 21, 22, 23, 24], 4096, 4192) := by rfl

/-- C33, what holds instead. In every state and for every size, a call
`find_fit(asize, csize, 0)` that misses has read every slot from 0 to 24,
slot 24 included, and no slot with a larger index. -/
theorem find_fit_miss_reads_past_table (fuel : Nat) (s : Heap) (asize csize : Nat)
    (h : find_fit fuel s asize csize 0 = some NULL) :
    ∃ l, find_fit_reads fuel s asize csize 0 = some l ∧ 24 ∈ l ∧ ∀ i ∈ l, i ≤ 24 := by
  have e := find_fit_reads_miss fuel s asize (SEG_SIZE + 2 - 0) csize 0 h
  refine ⟨_, e, by decide, fun i hi => ?_⟩
  exact (find_fit_reads_le fuel s asize (SEG_SIZE + 2 - 0) csize 0 _ e i hi).2

theorem find_fit_miss_reads_past_table_witness :
    find_fit 16 reachInit 5008 5008 0 = some NULL ∧
    ∃ l, find_fit_reads 16 reachInit 5008 5008 0 = some l ∧ 24 ∈ l ∧ ∀ i ∈ l, i ≤ 24 :=
  ⟨by rfl, find_fit_miss_reads_past_table 16 reachInit 5008 5008 (by rfl)⟩

theorem WF.listsOK {s : Heap} {bl : List Blk} {fl : Nat → List Nat} (h : WF s bl fl) :
    ListsOK s.mem s.seg_list_ptr fl where
  heads := h.heads
  links := h.links
  nodup := h.nodup
  sep := fun _ _ hi hj _ hx _ hy => h.member_sep hi hj hx hy
  bnd := by
    intro i hi x hx
    obtain ⟨b, hb, e, _, _⟩ := h.member hi hx
    have := h.bounds hb
    clear * - this e; omega

/-- Writes outside the table and outside the link words of the members leave
the lists as they are. -/
theorem ListsOK.frame_lists {M M' : Nat → Nat} {seg : Nat} {fl : Nat → List Nat}
    (h : ListsOK M seg fl) (hT : ∀ a, seg ≤ a → a < seg + 96 → M' a = M a)
    (hL : ∀ i, i < 24 → ∀ x ∈ fl i, ∀ a, x ≤ a → a < x + 8 → M' a = M a) :
    ListsOK M' seg fl where
  heads := by
    intro i hi
    rw [← h.heads i hi]
    apply rd32_congr
    intro k hk
    exact hT _ (by clear * - hi hk; omega) (by clear * - hi hk; omega)
  links := by
    intro i hi
    refine (h.links i hi).frame fun y hy => ⟨?_, ?_⟩
    · apply rd32_congr
      intro k hk
      exact hL i hi y hy _ (by clear * - hk; omega) (by clear * - hk; omega)
    · apply rd32_congr
      intro k hk
      exact hL i hi y hy _ (by clear * - hk; omega) (by clear * - hk; omega)
  nodup := h.nodup
  sep := h.sep
  bnd := h.bnd

/-- The lists after a list operation that wrote only the head slot of class
`i` and link words of the members of the new list `l'` of that class. -/
theorem ListsOK.write {M : Nat → Nat} {seg : Nat} {fl : Nat → List Nat} (h : ListsOK M seg fl)
    (i : Nat) (hi : i < 24) (l' : List Nat) (hnodup : l'.Nodup) (M' : Nat → Nat) (W : List Nat)
    (hA : ∀ a, (∀ p ∈ W, a < p ∨ p + 4 ≤ a) → M' a = M a)
    (hW : ∀ p ∈ W, p = seg + 4 * i ∨ ∃ z ∈ l', p = z ∨ p = z + 4)
    (hslot : rd32 M' (seg + 4 * i) = l'.headD 0) (hlinks : Links M' 0 l')
    (hb : ∀ z ∈ l', seg + 112 ≤ z ∧ z + 16 < 4294967296)
    (hsep : ∀ z ∈ l', ∀ j, j < 24 → j ≠ i → ∀ y ∈ fl j, z + 16 ≤ y ∨ y + 16 ≤ z)
    (hsepl : ∀ u ∈ l', ∀ v ∈ l', u = v ∨ u + 16 ≤ v ∨ v + 16 ≤ u) :
    ListsOK M' seg (Function.update fl i l') where
  heads := by
    intro j hj
    by_cases hji : j = i
    · subst hji; simpa using hslot
    · rw [Function.update_noteq hji, ← h.heads j hj]
      apply rd32_congr
      intro k hk
      apply hA
      intro p hp
      rcases hW p hp with rfl | ⟨z, hz, hpz⟩
      · clear * - hji hk; omega
      · have := hb z hz
        clear * - this hpz hj hk; omega
  links := by
    intro j hj
    by_cases hji : j = i
    · subst hji; simpa using hlinks
    · rw [Function.update_noteq hji]
      have key : ∀ y ∈ fl j, ∀ a, y ≤ a → a < y + 8 → M' a = M a := by
        intro y hy a h1 h2
        apply hA
        intro p hp
        rcases hW p hp with rfl | ⟨z, hz, hpz⟩
        · have := h.bnd j hj y hy
          clear * - this h1 hi; omega
        · have := hsep z hz j hj hji y hy
          clear * - this hpz h1 h2; omega
      refine (h.links j hj).frame fun y hy => ⟨?_, ?_⟩
      · apply rd32_congr
        intro k hk
        exact key y hy _ (by clear * - hk; omega) (by clear * - hk; omega)
      · apply rd32_congr
        intro k hk
        exact key y hy _ (by clear * - hk; omega) (by clear * - hk; omega)
  nodup := by
    intro j hj
    by_cases hji : j = i
    · subst hji; simpa using hnodup
    · rw [Function.update_noteq hji]; exact h.nodup j hj
  sep := by
    intro j1 j2 h1 h2 x hx y hy
    by_cases e1 : j1 = i
    · by_cases e2 : j2 = i
      · subst e1
        subst e2
        simp only [Function.update_same] at hx hy
        rcases hsepl x hx y hy with g | g | g
        · exact Or.inl ⟨g, rfl⟩
        · exact Or.inr (Or.inl g)
        · exact Or.inr (Or.inr g)
      · subst e1
        simp only [Function.update_same] at hx
        rw [Function.update_noteq e2] at hy
        exact Or.inr (hsep x hx j2 h2 e2 y hy)
    · by_cases e2 : j2 = i
      · subst e2
        simp only [Function.update_same] at hy
        rw [Function.update_noteq e1] at hx
        rcases hsep y hy j1 h1 e1 x hx with g | g
        · exact Or.inr (Or.inr g)
        · exact Or.inr (Or.inl g)
      · rw [Function.update_noteq e1] at hx
        rw [Function.update_noteq e2] at hy
        exact h.sep j1 j2 h1 h2 x hx y hy
  bnd := by
    intro j hj x hx
    by_cases hji : j = i
    · subst hji
      simp only [Function.update_same] at hx
      exact hb x hx
    · rw [Function.update_noteq hji] at hx
      exact h.bnd j hj x hx

/-- `add_seglist` on lists that satisfy `ListsOK`: the block becomes the head
of the list of its class. -/
theorem ListsOK.add {t : Heap} {fl : Nat → List Nat} (h : ListsOK t.mem t.seg_list_ptr fl)
    (x size : Nat) (hx : t.seg_list_ptr + 112 ≤ x ∧ x + 16 < 4294967296)
    (hsepx : ∀ i, i < 24 → ∀ z ∈ fl i, z + 16 ≤ x ∨ x + 16 ≤ z)
    (hstop : ∀ c, (fl (classOf size)).head? = some c →
      size >>> classOf size ≤ GET_BLK_SIZE t c)
    (fuel : Nat) (hfuel : 1 ≤ fuel) :
    ∃ M', add_seglist fuel t x size = some (t.setMem M') ∧
      ListsOK M' t.seg_list_ptr (Function.update fl (classOf size) (x :: fl (classOf size))) ∧
      ∀ a, (a < x ∨ x + 8 ≤ a) → (a < t.seg_list_ptr ∨ t.seg_list_ptr + 96 ≤ a) →
        (∀ i, i < 24 → ∀ z ∈ fl i, a < z ∨ z + 8 ≤ a) → M' a = t.mem a := by
  have hi := classOf_lt size
  have hnotx : x ∉ fl (classOf size) := fun hm => by
    have := hsepx _ hi x hm
    clear * - this; omega
  have hnd : (x :: fl (classOf size)).Nodup := List.nodup_cons.2 ⟨hnotx, h.nodup _ hi⟩
  have hb' : ∀ z ∈ x :: fl (classOf size), t.seg_list_ptr + 112 ≤ z ∧ z + 16 < 4294967296 := by
    intro z hz
    rcases List.mem_cons.1 hz with rfl | hz
    · exact hx
    · exact h.bnd _ hi z hz
  have hsep' : ∀ z ∈ x :: fl (classOf size), ∀ j, j < 24 → j ≠ classOf size → ∀ y ∈ fl j,
      z + 16 ≤ y ∨ y + 16 ≤ z := by
    intro z hz j hj hji y hy
    rcases List.mem_cons.1 hz with rfl | hz
    · rcases hsepx j hj y hy with g | g
      · exact Or.inr g
      · exact Or.inl g
    · rcases h.sep _ j hi hj z hz y hy with g | g | g
      · exact absurd g.2.symm hji
      · exact Or.inl g
      · exact Or.inr g
  have hsepl : ∀ u ∈ x :: fl (classOf size), ∀ v ∈ x :: fl (classOf size),
      u = v ∨ u + 16 ≤ v ∨ v + 16 ≤ u := by
    intro u hu v hv
    rcases List.mem_cons.1 hu with eu | hu'
    · rcases List.mem_cons.1 hv with ev | hv'
      · exact Or.inl (eu.trans ev.symm)
      · rcases hsepx _ hi v hv' with g | g
        · exact Or.inr (Or.inr (by rw [eu]; exact g))
        · exact Or.inr (Or.inl (by rw [eu]; exact g))
    · rcases List.mem_cons.1 hv with ev | hv'
      · rcases hsepx _ hi u hu' with g | g
        · exact Or.inr (Or.inl (by rw [ev]; exact g))
        · exact Or.inr (Or.inr (by rw [ev]; exact g))
      · rcases h.sep _ _ hi hi u hu' v hv' with g | g | g
        · exact Or.inl g.1
        · exact Or.inr (Or.inl g)
        · exact Or.inr (Or.inr g)
  have hhead := h.heads _ hi
  have hlk := h.links _ hi
  have hndl := h.nodup _ hi
  have hbl := h.bnd _ hi
  have hframe : ∀ (M' : Nat → Nat) (W : List Nat),
      (∀ a, (∀ p ∈ W, a < p ∨ p + 4 ≤ a) → M' a = t.mem a) →
      (∀ p ∈ W, p = t.seg_list_ptr + 4 * classOf size ∨
        ∃ z ∈ x :: fl (classOf size), p = z ∨ p = z + 4) →
      ∀ a, (a < x ∨ x + 8 ≤ a) → (a < t.seg_list_ptr ∨ t.seg_list_ptr + 96 ≤ a) →
        (∀ i, i < 24 → ∀ z ∈ fl i, a < z ∨ z + 8 ≤ a) → M' a = t.mem a := by
    intro M' W hA hW a h1 h2 h3
    apply hA
    intro p hp
    rcases hW p hp with rfl | ⟨z, hz, hpz⟩
    · clear * - h2 hi; omega
    · rcases List.mem_cons.1 hz with rfl | hz
      · clear * - h1 hpz; omega
      · have := h3 _ hi z hz
        clear * - this hpz; omega
  generalize hl : fl (classOf size) = l at *
  cases l with
  | nil =>
    have heq := add_seglist_eq fuel t x size 0 hfuel hhead (by clear * - hx hi; omega)
      (Or.inl rfl) (by clear * - hx; omega) (by decide)
    have hW : ∀ p ∈ [x + 4, x, t.seg_list_ptr + 4 * classOf size],
        p = t.seg_list_ptr + 4 * classOf size ∨ ∃ z ∈ [x], p = z ∨ p = z + 4 := by
      intro p hp
      simp only [List.mem_cons, List.mem_singleton, List.not_mem_nil, or_false] at hp
      rcases hp with rfl | rfl | rfl
      · exact Or.inr ⟨x, by simp, Or.inr rfl⟩
      · exact Or.inr ⟨p, by simp, Or.inl rfl⟩
      · exact Or.inl rfl
    refine ⟨wr32 (wr32 (wr32 t.mem (x + 4) 0) x 0) (t.seg_list_ptr + 4 * classOf size) x,
      by rw [heq]; simp, ?_, hframe _ _ (agree_three _ _ _ _ _ _ _) hW⟩
    apply h.write _ hi [x] hnd _ [x + 4, x, t.seg_list_ptr + 4 * classOf size]
      (agree_three _ _ _ _ _ _ _) hW
    · rw [rd32_wr32_same _ _ _ (by clear * - hx; omega)]; rfl
    · refine Links_cons.2 ⟨?_, ?_, trivial⟩
      · rw [rd32_wr32_disj _ _ _ _ (by clear * - hx hi; omega),
          rd32_wr32_disj _ _ _ _ (by clear * - hx; omega), rd32_wr32_same _ _ _ (by decide)]
      · rw [rd32_wr32_disj _ _ _ _ (by clear * - hx hi; omega),
          rd32_wr32_same _ _ _ (by decide)]; rfl
    · exact hb'
    · exact hsep'
    · exact hsepl
  | cons c r =>
    have hcb := hbl c (by simp)
    have hcx := hsepx _ hi c (by rw [hl]; simp)
    have hst : c = 0 ∨ size >>> classOf size ≤ GET_BLK_SIZE t c :=
      Or.inr (hstop c (by simp))
    have heq := add_seglist_eq fuel t x size c hfuel hhead (by clear * - hx hi; omega) hst
      (by clear * - hx; omega) (by clear * - hcb; omega)
    have hc0 : c ≠ 0 := by clear * - hcb; omega
    have hW : ∀ p ∈ [c + 4, x, x + 4, t.seg_list_ptr + 4 * classOf size],
        p = t.seg_list_ptr + 4 * classOf size ∨ ∃ z ∈ x :: c :: r, p = z ∨ p = z + 4 := by
      intro p hp
      simp only [List.mem_cons, List.mem_singleton, List.not_mem_nil, or_false] at hp
      rcases hp with rfl | rfl | rfl | rfl
      · exact Or.inr ⟨c, by simp, Or.inr rfl⟩
      · exact Or.inr ⟨p, by simp, Or.inl rfl⟩
      · exact Or.inr ⟨x, by simp, Or.inr rfl⟩
      · exact Or.inl rfl
    refine ⟨wr32 (wr32 (wr32 (wr32 t.mem (c + 4) x) x c) (x + 4) 0)
      (t.seg_list_ptr + 4 * classOf size) x, by rw [heq]; simp [hc0], ?_,
      hframe _ _ (agree_four _ _ _ _ _ _ _ _ _) hW⟩
    apply h.write _ hi (x :: c :: r) hnd _
      [c + 4, x, x + 4, t.seg_list_ptr + 4 * classOf size] (agree_four _ _ _ _ _ _ _ _ _) hW
    · rw [rd32_wr32_same _ _ _ (by clear * - hx; omega)]; rfl
    · refine Links_cons.2 ⟨?_, ?_, ?_⟩
      · rw [rd32_wr32_disj _ _ _ _ (by clear * - hx hi; omega),
          rd32_wr32_same _ _ _ (by decide)]
      · rw [rd32_wr32_disj _ _ _ _ (by clear * - hx hi; omega),
          rd32_wr32_disj _ _ _ _ (by clear * - hx; omega),
          rd32_wr32_same _ _ _ (by clear * - hcb; omega)]
        rfl
      · apply hlk.retarget
        · intro z hz
          have hzb := hbl z hz
          have hzx := hsepx _ hi z (by rw [hl]; exact hz)
          have hzc := hsepl z (List.mem_cons_of_mem _ hz) c (by simp)
          rw [rd32_wr32_disj _ _ _ _ (by clear * - hzb hi; omega),
            rd32_wr32_disj _ _ _ _ (by clear * - hzx; omega),
            rd32_wr32_disj _ _ _ _ (by clear * - hzx; omega),
            rd32_wr32_disj _ _ _ _ (by clear * - hzc; omega)]
        · intro z hz
          simp only [List.tail_cons] at hz
          have hzm : z ∈ c :: r := List.mem_cons_of_mem _ hz
          have hzb := hbl z hzm
          have hzx := hsepx _ hi z (by rw [hl]; exact hzm)
          have hzc := hsepl z (List.mem_cons_of_mem _ hzm) c (by simp)
          have hzne : z ≠ c := fun e => by
            subst e
            exact (List.nodup_cons.1 hndl).1 hz
          rw [rd32_wr32_disj _ _ _ _ (by clear * - hzb hi; omega),
            rd32_wr32_disj _ _ _ _ (by clear * - hzx; omega),
            rd32_wr32_disj _ _ _ _ (by clear * - hzx; omega),
            rd32_wr32_disj _ _ _ _ (by clear * - hzc hzne; omega)]
        · intro z hz
          simp only [List.head?_cons, Option.some.injEq] at hz
          subst hz
          rw [rd32_wr32_disj _ _ _ _ (by clear * - hcb hi; omega),
            rd32_wr32_disj _ _ _ _ (by clear * - hcx; omega),
            rd32_wr32_disj _ _ _ _ (by clear * - hcx; omega),
            rd32_wr32_same _ _ _ (by clear * - hx; omega)]
    · exact hb'
    · exact hsep'
    · exact hsepl

theorem ListsOK.seg_chain_lists {t : Heap} {fl : Nat → List Nat}
    (h : ListsOK t.mem t.seg_list_ptr fl) (hseg : t.seg_list_ptr + 96 < 4294967296) (i : Nat)
    (hi : i < 24) (fuel : Nat) (hf : (fl i).length < fuel) :
    seg_chain t fuel (GET_SEG_LIST_PTR t t.seg_list_ptr i) = some (fl i) := by
  rw [GET_SEG_LIST_PTR_eq t i (by clear * - hseg hi; omega), h.heads i hi]
  refine seg_chain_links (h.links i hi) ?_ fuel hf
  intro x hx
  have := h.bnd i hi x hx
  unfold NULL; clear * - this; omega

/-- Writing the header of a block and then its footer through `FTRP`, for
every size that is a multiple of 8. -/
theorem put_hdr_ftr_any (s : Heap) (bp size : Nat) (h4 : 4 ≤ bp) (h8 : 8 ≤ bp + size)
    (hlt : bp + size < 4294967296) (hsz : size % 8 = 0) :
    (PUT (PUT s (HDRP bp) (PACK size 0)) (FTRP (PUT s (HDRP bp) (PACK size 0)) bp)
        (PACK size 0) = (s.setMem (wr32 (wr32 s.mem (bp - 4) size) (bp + size - 8) size))) ∧
    (PUT (PUT s (HDRP bp) (PACK size 1)) (FTRP (PUT s (HDRP bp) (PACK size 1)) bp)
        (PACK size 1) =
      (s.setMem (wr32 (wr32 s.mem (bp - 4) (size + 1)) (bp + size - 8) (size + 1)))) := by
  have e : HDRP bp = bp - 4 := HDRP_eq _ h4 (by clear * - hlt; omega)
  constructor
  · rw [PACK_zero, e]
    have := GET_SIZE_wr s.mem s (bp - 4) size 0 hsz (by decide) (by clear * - hlt; omega)
    rw [FTRP_eq _ bp size h4 h8 hlt (by rw [e]; exact this)]
    rfl
  · rw [PACK_one _ hsz, e]
    have := GET_SIZE_wr s.mem s (bp - 4) size 1 hsz (by decide) (by clear * - hlt h4; omega)
    rw [FTRP_eq _ bp size h4 h8 hlt (by rw [e]; exact this)]
    rfl

/-- A free block that is not the block `b` lies before `b` or behind the
allocated block that follows `b`. -/
theorem Inv.free_far {s : Heap} {pre post : List Blk} {b : Blk} {fl : Nat → List Nat}
    (h : Inv s (pre ++ b :: post) fl) (hb : b.alloc = false) :
    ∀ d ∈ pre ++ b :: post, d ≠ b → d.alloc = false →
      d.bp + d.size ≤ b.bp ∨ b.bp + b.size + 16 ≤ d.bp := by
  obtain ⟨hlpre, hlpost, _, _⟩ := h.wf.split_layout
  intro d hd hne hdf
  rcases List.mem_append.1 hd with hd | hd
  · left
    exact (Layout.mem_bounds hlpre hd).2.1
  · rcases List.mem_cons.1 hd with hd | hd
    · exact absurd hd hne
    · right
      rcases post with _ | ⟨n, r⟩
      · simp at hd
      · have hn := noAdjFree_next h.noadj hb n (by simp)
        obtain ⟨e1, e16, _, hr⟩ := Layout_cons.1 hlpost
        rcases List.mem_cons.1 hd with hd | hd
        · rw [hd, hn] at hdf
          exact absurd hdf (by simp)
        · have := (Layout.mem_bounds hr hd).1
          clear * - this e16; omega

/-- The call `place(bp, a)` for `a = 0` or `a = 8` on a free block that is
split: the words it leaves. -/
theorem place_small {s : Heap} {pre post : List Blk} {b : Blk} {fl : Nat → List Nat}
    (h : Inv s (pre ++ b :: post) fl) (hb : b.alloc = false) (a : Nat) (ha : a < 16)
    (h8 : a % 8 = 0) (hpad : 16 ≤ b.size - a) (fuel : Nat) (hfuel : 1 ≤ fuel) :
    ∃ M fl', place fuel s b.bp a = some (b.bp + (b.size - a), s.setMem M) ∧
      ListsOK M s.seg_list_ptr fl' ∧
      (∀ j, j < 24 → ∀ x, x ∈ fl' j ↔
        (x = b.bp ∧ j = classOf (b.size - a)) ∨ (x ≠ b.bp ∧ x ∈ fl j)) ∧
      (∀ j, j < 24 → (fl' j).length ≤ (pre ++ b :: post).length + 1) ∧
      rd32 M (b.bp - 4) = b.size - a ∧
      rd32 M (b.bp + (b.size - a) - 4) = a + 1 ∧
      rd32 M (b.bp + b.size - 8) = a + 1 ∧
      (a = 8 → rd32 M (b.bp + (b.size - a) - 8) = b.size - a) ∧
      (∀ x, Untouched s (pre ++ b :: post) x →
        (x < b.bp - 4 ∨ b.bp + b.size ≤ x ∨ (a = 8 ∧ b.bp + b.size - 4 ≤ x)) →
        M x = s.mem x) := by
  have hbm : b ∈ pre ++ b :: post := by simp
  have hbd := h.wf.bounds hbm
  have hfar := h.free_far hb
  obtain ⟨M1, fl1, e1, w1, u1, c1⟩ := remove_seglist_mem h.wf hbm (h.complete b hbm hb)
  have G : Hid (s.seg_list_ptr + 112 ≤ b.bp ∧ b.bp + b.size ≤ s.mem_brk ∧
      s.mem_brk < 4294967296 ∧ 16 ≤ b.size ∧ b.size % 8 = 0 ∧ a < 16 ∧ a % 8 = 0 ∧
      16 ≤ b.size - a) := ⟨⟨hbd.1, hbd.2.1, hbd.2.2.1, hbd.2.2.2.1, hbd.2.2.2.2, ha, h8, hpad⟩⟩
  have hcs : GET_BLK_SIZE s b.bp = b.size := h.wf.blk_size hbm
  have hpd : u32 (b.size + 4294967296 - a) = b.size - a := by
    have G' := G.out; clear * - G'; unfold u32; omega
  have hput1 := (put_hdr_ftr_any (s.setMem M1) b.bp (b.size - a)
    (by have G' := G.out; clear * - G'; omega) (by have G' := G.out; clear * - G'; omega)
    (by have G' := G.out; clear * - G'; omega) (by have G' := G.out; clear * - G'; omega)).1
  simp only [setMem_setMem, setMem_mem] at hput1
  have hn : NEXT_BLKP (s.setMem (wr32 (wr32 M1 (b.bp - 4) (b.size - a))
      (b.bp + (b.size - a) - 8) (b.size - a))) b.bp = b.bp + (b.size - a) :=
    NEXT_BLKP_tag _ _ (b.size - a) 0 (by have G' := G.out; clear * - G'; omega)
      (by have G' := G.out; clear * - G'; omega) (by have G' := G.out; clear * - G'; omega)
      (by decide)
      (by
        show rd32 (wr32 (wr32 M1 (b.bp - 4) (b.size - a)) (b.bp + (b.size - a) - 8)
          (b.size - a)) (b.bp - 4) = b.size - a + 0
        have G' := G.out
        rw [rd32_wr32_disj _ _ _ _ (by clear * - G'; omega),
          rd32_wr32_same _ _ _ (by clear * - G'; omega)]
        rfl)
  have hput2 := (put_hdr_ftr_any (s.setMem (wr32 (wr32 M1 (b.bp - 4) (b.size - a))
    (b.bp + (b.size - a) - 8) (b.size - a))) (b.bp + (b.size - a)) a
    (by have G' := G.out; clear * - G'; omega) (by have G' := G.out; clear * - G'; omega)
    (by have G' := G.out; clear * - G'; omega) h8).2
  simp only [setMem_setMem, setMem_mem] at hput2
  have hev := place_eval3 fuel s _ _ _ b.bp a b.size (b.size - a)
    (b.bp + (b.size - a)) hcs hpd (by have G' := G.out; clear * - G'; omega)
    (by clear * - ha; omega) e1 hput1 hn hput2
  -- the members of the lists after the removal
  have hmemb : ∀ j, j < 24 → ∀ z ∈ fl1 j, ∃ d ∈ pre ++ b :: post, d.bp = z ∧ d.alloc = false ∧
      d ≠ b ∧ classOf d.size = j := by
    intro j hj z hz
    obtain ⟨d, hd, e, hdf, hdc⟩ := w1.member hj hz
    refine ⟨d, hd, e, hdf, fun hdb => ?_, hdc⟩
    have := ((c1 j hj z).1 hz).1
    rw [← e, hdb] at this
    exact this rfl
  have hsepz : ∀ j, j < 24 → ∀ z ∈ fl1 j, z + 16 ≤ b.bp ∨ b.bp + b.size + 16 ≤ z := by
    intro j hj z hz
    obtain ⟨d, hd, e, hdf, hne, _⟩ := hmemb j hj z hz
    have h16 := (h.wf.bounds hd).2.2.2.1
    rcases hfar d hd hne hdf with g | g
    · left; clear * - g e h16; omega
    · right; clear * - g e; omega
  have hout : ∀ x, (x < b.bp - 4 ∨ b.bp + b.size ≤ x ∨ (a = 8 ∧ b.bp + b.size - 4 ≤ x)) →
      wr32 (wr32 (wr32 (wr32 M1 (b.bp - 4) (b.size - a)) (b.bp + (b.size - a) - 8)
        (b.size - a)) (b.bp + (b.size - a) - 4) (a + 1)) (b.bp + (b.size - a) + a - 8) (a + 1) x
        = M1 x := by
    intro x hx
    have G' := G.out
    rw [wr32_outside _ _ _ _ (by clear * - G' hx; omega),
      wr32_outside _ _ _ _ (by clear * - G' hx; omega),
      wr32_outside _ _ _ _ (by clear * - G' hx; omega),
      wr32_outside _ _ _ _ (by clear * - G' hx; omega)]
  have L3 : ListsOK (s.setMem (wr32 (wr32 (wr32 (wr32 M1 (b.bp - 4) (b.size - a))
      (b.bp + (b.size - a) - 8) (b.size - a)) (b.bp + (b.size - a) - 4) (a + 1))
      (b.bp + (b.size - a) + a - 8) (a + 1))).mem
      (s.setMem (wr32 (wr32 (wr32 (wr32 M1 (b.bp - 4) (b.size - a))
      (b.bp + (b.size - a) - 8) (b.size - a)) (b.bp + (b.size - a) - 4) (a + 1))
      (b.bp + (b.size - a) + a - 8) (a + 1))).seg_list_ptr fl1 := by
    refine w1.listsOK.frame_lists ?_ ?_
    · intro x h1 h2
      have G' := G.out
      exact hout x (Or.inl (by
        have e : (s.setMem M1).seg_list_ptr = s.seg_list_ptr := rfl
        rw [e] at h2
        clear * - G' h2; omega))
    · intro j hj z hz x h1 h2
      have := hsepz j hj z hz
      have G' := G.out
      exact hout x (by clear * - this h1 h2 G'; omega)
  have hstop : ∀ c0, (fl1 (classOf (b.size - a))).head? = some c0 →
      (b.size - a) >>> classOf (b.size - a) ≤
        GET_BLK_SIZE (s.setMem (wr32 (wr32 (wr32 (wr32 M1 (b.bp - 4) (b.size - a))
          (b.bp + (b.size - a) - 8) (b.size - a)) (b.bp + (b.size - a) - 4) (a + 1))
          (b.bp + (b.size - a) + a - 8) (a + 1))) c0 := by
    intro c0 hc0
    have hc0m : c0 ∈ fl1 (classOf (b.size - a)) := List.mem_of_mem_head? hc0
    obtain ⟨d, hd, e, hdf, hne, hdc⟩ := hmemb _ (classOf_lt _) c0 hc0m
    have hdb := h.wf.bounds hd
    have hz := hsepz _ (classOf_lt _) c0 hc0m
    have G' := G.out
    have e2 : GET_BLK_SIZE (s.setMem (wr32 (wr32 (wr32 (wr32 M1 (b.bp - 4) (b.size - a))
          (b.bp + (b.size - a) - 8) (b.size - a)) (b.bp + (b.size - a) - 4) (a + 1))
          (b.bp + (b.size - a) + a - 8) (a + 1))) c0 = d.size := by
      rw [← w1.blk_size hd, e]
      unfold GET_BLK_SIZE
      apply GET_SIZE_congr
      rw [HDRP_eq _ (by clear * - hdb e; omega) (by clear * - hdb e; omega)]
      apply rd32_congr
      intro i hi
      exact hout _ (by clear * - hz hi G' hdb e; omega)
    rw [e2]
    exact shifted_le _ _ (by clear * - G'; omega) hdb.2.2.2.1 hdc
  obtain ⟨M', a1, L', fr'⟩ := L3.add b.bp (b.size - a)
    (by have G' := G.out; exact ⟨G'.1, by clear * - G'; omega⟩)
    (by
      intro j hj z hz
      have := hsepz j hj z hz
      have G' := G.out
      clear * - this G'; omega)
    hstop fuel hfuel
  simp only [setMem_setMem, setMem_mem] at a1 fr'
  have hseg : (s.setMem (wr32 (wr32 (wr32 (wr32 M1 (b.bp - 4) (b.size - a))
      (b.bp + (b.size - a) - 8) (b.size - a)) (b.bp + (b.size - a) - 4) (a + 1))
      (b.bp + (b.size - a) + a - 8) (a + 1))).seg_list_ptr = s.seg_list_ptr := rfl
  rw [hseg] at L' fr'
  -- reading a word of the extent of the block after the insertion
  have hin : ∀ x, b.bp - 4 ≤ x → x + 4 ≤ b.bp + b.size → (x + 4 ≤ b.bp ∨ b.bp + 8 ≤ x) →
      rd32 M' x = rd32 (wr32 (wr32 (wr32 (wr32 M1 (b.bp - 4) (b.size - a))
        (b.bp + (b.size - a) - 8) (b.size - a)) (b.bp + (b.size - a) - 4) (a + 1))
        (b.bp + (b.size - a) + a - 8) (a + 1)) x := by
    intro x h1 h2 h3
    apply rd32_congr
    intro i hi
    have G' := G.out
    refine fr' _ (by clear * - h3 hi; omega) (by clear * - h1 G'; omega) ?_
    intro j hj z hz
    have := hsepz j hj z hz
    clear * - this h1 h2 hi G'; omega
  refine ⟨M', _, by rw [hev, a1]; rfl, L', ?_, ?_, ?_, ?_, ?_, ?_, ?_⟩
  · intro j hj x
    by_cases hjk : j = classOf (b.size - a)
    · subst hjk
      simp only [Function.update_same, List.mem_cons]
      rw [c1 _ hj x]
      constructor
      · rintro (g | g)
        · exact Or.inl ⟨g, trivial⟩
        · exact Or.inr g
      · rintro (g | g)
        · exact Or.inl g.1
        · exact Or.inr g
    · rw [Function.update_noteq hjk, c1 j hj x]
      constructor
      · exact fun g => Or.inr g
      · rintro (g | g)
        · exact absurd g.2 hjk
        · exact g
  · intro j hj
    have := w1.list_length_le j hj
    by_cases hjk : j = classOf (b.size - a)
    · subst hjk
      simp only [Function.update_same, List.length_cons]
      clear * - this; omega
    · rw [Function.update_noteq hjk]
      clear * - this; omega
  · have G' := G.out
    rw [hin _ (le_refl _) (by clear * - G'; omega) (Or.inl (by clear * - G'; omega)),
      rd32_wr32_disj _ _ _ _ (by clear * - G'; omega),
      rd32_wr32_disj _ _ _ _ (by clear * - G'; omega),
      rd32_wr32_disj _ _ _ _ (by clear * - G'; omega),
      rd32_wr32_same _ _ _ (by clear * - G'; omega)]
  · have G' := G.out
    rw [hin _ (by clear * - G'; omega) (by clear * - G'; omega) (Or.inr (by clear * - G'; omega)),
      rd32_wr32_disj _ _ _ _ (by clear * - G'; omega),
      rd32_wr32_same _ _ _ (by clear * - G'; omega)]
  · have G' := G.out
    have e : b.bp + b.size - 8 = b.bp + (b.size - a) + a - 8 := by clear * - G'; omega
    rw [e, hin _ (by clear * - G'; omega) (by clear * - G'; omega)
        (Or.inr (by clear * - G'; omega)),
      rd32_wr32_same _ _ _ (by clear * - G'; omega)]
  · intro ha8
    have G' := G.out
    rw [hin _ (by clear * - G'; omega) (by clear * - G'; omega)
        (Or.inr (by clear * - G'; omega)),
      rd32_wr32_disj _ _ _ _ (by clear * - G' ha8; omega),
      rd32_wr32_disj _ _ _ _ (by clear * - G'; omega),
      rd32_wr32_same _ _ _ (by clear * - G'; omega)]
  · intro x hU hx
    have G' := G.out
    rw [fr' x (by clear * - hx G'; omega) hU.1 ?_, hout x hx]
    · exact u1 x hU
    · intro j hj z hz
      obtain ⟨d, hd, e, hdf, _, _⟩ := hmemb j hj z hz
      rw [← e]
      exact hU.2 d hd hdf

/-- The header word, the footer word and the size of a block, read from the
bytes of its two tags. -/
theorem tag_words (t : Heap) (p sz al v : Nat) (h4 : 4 ≤ p) (h8 : 8 ≤ p + sz)
    (hlt : p + sz < 4294967296) (hsz : sz % 8 = 0) (hal : al ≤ 1)
    (hh : rd32 t.mem (p - 4) = sz + al) (hft : rd32 t.mem (p + sz - 8) = v) :
    GET t (HDRP p) = sz + al ∧ GET t (FTRP t p) = v ∧ GET_BLK_SIZE t p = sz := by
  have e : HDRP p = p - 4 := HDRP_eq _ h4 (by clear * - hlt; omega)
  have hs : GET_SIZE t (HDRP p) = sz := by
    rw [e]; unfold GET_SIZE GET
    rw [hh]
    exact tag_and_MASK7 _ _ hsz hal (by clear * - hlt h4 hal; omega)
  refine ⟨by rw [e]; exact hh, ?_, hs⟩
  rw [FTRP_eq t p sz h4 h8 hlt hs]
  exact hft

/-- The tags of a block whose header and footer bytes are the same in two
memories. -/
theorem frame_tags (s : Heap) (M : Nat → Nat) (p : Nat)
    (hh : rd32 M (HDRP p) = rd32 s.mem (HDRP p))
    (hf : rd32 M (FTRP s p) = rd32 s.mem (FTRP s p)) :
    GET (s.setMem M) (HDRP p) = GET s (HDRP p) ∧
      GET (s.setMem M) (FTRP (s.setMem M) p) = GET s (FTRP s p) := by
  have e : FTRP (s.setMem M) p = FTRP s p := by
    unfold FTRP
    rw [GET_SIZE_congr s (s.setMem M) (HDRP p) hh]
  rw [e]
  exact ⟨hh, hf⟩

theorem WF.tag_bytes_untouched {s : Heap} {bl : List Blk} {fl : Nat → List Nat} (h : WF s bl fl)
    {c : Blk} (hc : c ∈ bl) (p : Nat) (h1 : c.bp - 4 ≤ p) (h2 : p < c.bp + c.size - 4)
    (h4 : p < c.bp ∨ c.bp + c.size - 8 ≤ p) : Untouched s bl p := by
  have hcb := h.bounds hc
  refine ⟨by clear * - hcb h1; omega, ?_⟩
  intro d hd _
  have hdb := h.bounds hd
  rcases h.blk_disj hc hd with h3 | h3 | h3
  · subst h3; clear * - h4 hcb; omega
  · clear * - h3 h2 hdb hcb; omega
  · clear * - h3 h1 hdb hcb; omega

theorem WF.fixed_bytes_untouched {s : Heap} {bl : List Blk} {fl : Nat → List Nat}
    (h : WF s bl fl) (p : Nat) (h1 : s.seg_list_ptr + 96 ≤ p) (h2 : p < s.seg_list_ptr + 112) :
    Untouched s bl p := by
  refine ⟨Or.inr h1, ?_⟩
  intro d hd _
  have hdb := h.bounds hd
  clear * - hdb h2; omega

theorem ListsOK.onList_lists_iff {t : Heap} {fl : Nat → List Nat}
    (h : ListsOK t.mem t.seg_list_ptr fl) (hseg : t.seg_list_ptr + 96 < 4294967296) {i : Nat}
    (hi : i < 24) {fuel : Nat} (hf : (fl i).length < fuel) (x : Nat) :
    onList t fuel i x ↔ x ∈ fl i := by
  have e := h.seg_chain_lists hseg i hi fuel hf
  unfold onList
  rw [e]
  constructor
  · rintro ⟨l, hl, hx⟩
    simp only [Option.some.injEq] at hl
    rw [hl]; exact hx
  · intro hx
    exact ⟨_, rfl, hx⟩

/-- The effect of `place` on the abstract view, for an adjusted size of at
least 16 and for every call that takes the whole block. -/
theorem place_spec_any {s : Heap} {pre post : List Blk} {b : Blk} {fl : Nat → List Nat}
    (h : WF s (pre ++ b :: post) fl) (hcomp : Complete (pre ++ b :: post) fl)
    (hb : b.alloc = false) (asize : Nat) (h16 : 16 ≤ asize ∨ b.size - asize < 16)
    (h8 : asize % 8 = 0) (hle : asize ≤ b.size) (fuel : Nat) (hfuel : 1 ≤ fuel) :
    ∃ M fl', place fuel s b.bp asize = some ((placeBlocks b asize).2, s.setMem M) ∧
      WF (s.setMem M) (pre ++ (placeBlocks b asize).1 ++ post) fl' ∧
      Complete (pre ++ (placeBlocks b asize).1 ++ post) fl' := by
  by_cases hpad : b.size - asize < 16
  · obtain ⟨M, fl', e, w, c, _⟩ := place_whole h hcomp hb asize hle hpad fuel
    have epb : placeBlocks b asize = ([⟨b.bp, b.size, true⟩], b.bp) := by
      unfold placeBlocks; rw [if_pos hpad]
    rw [epb]
    exact ⟨M, fl', e, w, c⟩
  · rcases h16 with h16 | h16
    · obtain ⟨M, fl', e, w, c, _⟩ := place_spec h hcomp hb asize h16 h8 hle fuel hfuel
      exact ⟨M, fl', e, w, c⟩
    · exact absurd h16 hpad

/-- What `place(bp, a)` leaves behind, for every adjusted size `a ≤ c` that is
a multiple of 8: the returned address, the class lists, the tags of the
pieces, and the tags of the other blocks. -/
theorem place_outcome {s : Heap} {pre post : List Blk} {b : Blk} {fl : Nat → List Nat}
    (h : Inv s (pre ++ b :: post) fl) (hb : b.alloc = false) (a : Nat)
    (h8 : a % 8 = 0) (hle : a ≤ b.size) (fuel : Nat) (hf : s.mem_brk < fuel) :
    ∃ p s', place fuel s b.bp a = some (p, s') ∧ s'.mem_brk = s.mem_brk ∧
      p = (if b.size - a < 16 then b.bp else if a > MINSIZE then b.bp
        else b.bp + (b.size - a)) ∧
      (16 ≤ a ∨ b.size - a < 16 → WellFormed s') ∧
      (∀ j, j < SEG_SIZE → ¬ onList s' fuel j p) ∧
      (∀ j, j < SEG_SIZE → (onList s' fuel j b.bp ↔ p ≠ b.bp ∧ j = classOf (b.size - a))) ∧
      (b.size - a < 16 →
        GET s' (HDRP b.bp) = PACK b.size 1 ∧ GET s' (FTRP s' b.bp) = PACK b.size 1) ∧
      (¬ b.size - a < 16 → GET s' (HDRP p) = PACK a 1 ∧ GET s' (FTRP s' p) = PACK a 1 ∧
        ∃ r, (p = b.bp ∧ r = b.bp + a ∨ r = b.bp ∧ p = b.bp + (b.size - a)) ∧
          GET s' (HDRP r) = PACK (b.size - a) 0 ∧
          (8 ≤ a → GET s' (FTRP s' r) = PACK (b.size - a) 0) ∧
          onList s' fuel (classOf (b.size - a)) r) ∧
      (8 ≤ a → ∀ d ∈ pre ++ post, GET s' (HDRP d.bp) = GET s (HDRP d.bp) ∧
        GET s' (FTRP s' d.bp) = GET s (FTRP s d.bp)) ∧
      (8 ≤ a → GET s' (HDRP s.heap_ptr) = GET s (HDRP s.heap_ptr) ∧
        GET s' (FTRP s' s.heap_ptr) = GET s (FTRP s s.heap_ptr)) := by
  have hbm : b ∈ pre ++ b :: post := by simp
  have hbd := h.wf.bounds hbm
  have hfl := h.wf.fuel_ok hf
  have hfuel1 : 1 ≤ fuel := by clear * - hfl; omega
  by_cases hcase : 16 ≤ a ∨ b.size - a < 16
  · -- the abstract view describes the result
    obtain ⟨M, fl', e1, w, cpl⟩ := place_spec_any h.wf h.complete hb a hcase h8 hle fuel hfuel1
    have hinv' : Inv (s.setMem M) (pre ++ (placeBlocks b a).1 ++ post) fl' :=
      ⟨w, cpl, noAdjFree_place a h.noadj hb, h.aligned⟩
    have hf' : (s.setMem M).mem_brk < fuel := hf
    obtain ⟨cb, hcb, hcp, hca, _, _, _⟩ := placeBlocks_ret2 b a hle
    have hcbm : cb ∈ pre ++ (placeBlocks b a).1 ++ post :=
      List.mem_append_left _ (List.mem_append_right _ hcb)
    have ha8 : (b.size - a) % 8 = 0 := by clear * - hbd h8 hle; omega
    have hp2 : (placeBlocks b a).2 = (if b.size - a < 16 then b.bp else if a > MINSIZE then b.bp
        else b.bp + (b.size - a)) := by
      unfold placeBlocks MINSIZE
      split
      · rfl
      · split <;> rfl
    refine ⟨_, _, e1, rfl, hp2, fun _ => ⟨_, _, hinv'⟩, ?_, ?_, ?_, ?_, ?_, ?_⟩
    · intro j hj hon
      have hj' : j < 24 := hj
      exact w.alloc_not_listed hcbm hca j hj' _ ((w.onList_iff hf' hj' _).1 hon) hcp
    · intro j hj
      have hj' : j < 24 := hj
      rw [w.onList_iff hf' hj' _]
      by_cases hpad : b.size - a < 16
      · have epb : placeBlocks b a = ([⟨b.bp, b.size, true⟩], b.bp) := by
          unfold placeBlocks; rw [if_pos hpad]
        rw [epb] at w ⊢
        have hm : (⟨b.bp, b.size, true⟩ : Blk) ∈ pre ++ [⟨b.bp, b.size, true⟩] ++ post := by
          simp
        constructor
        · intro hx
          exact absurd rfl (w.alloc_not_listed hm rfl j hj' _ hx)
        · intro hx
          exact absurd rfl hx.1
      · by_cases hgt : a > 200
        · have epb : placeBlocks b a =
              ([⟨b.bp, a, true⟩, ⟨b.bp + a, b.size - a, false⟩], b.bp) := by
            unfold placeBlocks; rw [if_neg hpad, if_pos hgt]
          rw [epb] at w ⊢
          have hm : (⟨b.bp, a, true⟩ : Blk) ∈
              pre ++ [⟨b.bp, a, true⟩, ⟨b.bp + a, b.size - a, false⟩] ++ post := by simp
          constructor
          · intro hx
            exact absurd rfl (w.alloc_not_listed hm rfl j hj' _ hx)
          · intro hx
            exact absurd rfl hx.1
        · have epb : placeBlocks b a =
              ([⟨b.bp, b.size - a, false⟩, ⟨b.bp + (b.size - a), a, true⟩],
                b.bp + (b.size - a)) := by
            unfold placeBlocks; rw [if_neg hpad, if_neg hgt]
          rw [epb] at w cpl ⊢
          have hm : (⟨b.bp, b.size - a, false⟩ : Blk) ∈
              pre ++ [⟨b.bp, b.size - a, false⟩, ⟨b.bp + (b.size - a), a, true⟩] ++ post := by
            simp
          constructor
          · intro hx
            obtain ⟨d, hd, hdx, hdf, hdc⟩ := w.member hj' hx
            have := Layout.bp_inj w.layout hd hm hdx
            subst this
            exact ⟨by show b.bp + (b.size - a) ≠ b.bp; clear * - hpad; omega, hdc.symm⟩
          · intro hx
            rw [hx.2]
            exact cpl _ hm rfl
    · intro hpad
      have epb : placeBlocks b a = ([⟨b.bp, b.size, true⟩], b.bp) := by
        unfold placeBlocks; rw [if_pos hpad]
      rw [epb] at w
      have hm : (⟨b.bp, b.size, true⟩ : Blk) ∈ pre ++ [⟨b.bp, b.size, true⟩] ++ post := by simp
      have t1 := w.hdr_word hm
      have t2 := w.ftr_word hm
      rw [Blk.tag_used ⟨b.bp, b.size, true⟩ rfl hbd.2.2.2.2] at t1 t2
      exact ⟨t1, t2⟩
    · intro hpad
      by_cases hgt : a > 200
      · have epb : placeBlocks b a =
            ([⟨b.bp, a, true⟩, ⟨b.bp + a, b.size - a, false⟩], b.bp) := by
          unfold placeBlocks; rw [if_neg hpad, if_pos hgt]
        rw [epb] at w cpl ⊢
        have hm1 : (⟨b.bp, a, true⟩ : Blk) ∈
            pre ++ [⟨b.bp, a, true⟩, ⟨b.bp + a, b.size - a, false⟩] ++ post := by simp
        have hm2 : (⟨b.bp + a, b.size - a, false⟩ : Blk) ∈
            pre ++ [⟨b.bp, a, true⟩, ⟨b.bp + a, b.size - a, false⟩] ++ post := by simp
        have t1 := w.hdr_word hm1
        have t2 := w.ftr_word hm1
        rw [Blk.tag_used ⟨b.bp, a, true⟩ rfl h8] at t1 t2
        have t3 := w.hdr_word hm2
        have t4 := w.ftr_word hm2
        rw [Blk.tag_free ⟨b.bp + a, b.size - a, false⟩ rfl] at t3 t4
        exact ⟨t1, t2, b.bp + a, Or.inl ⟨rfl, rfl⟩, t3, fun _ => t4,
          (w.onList_iff hf' (classOf_lt _) _).2 (cpl _ hm2 rfl)⟩
      · have epb : placeBlocks b a =
            ([⟨b.bp, b.size - a, false⟩, ⟨b.bp + (b.size - a), a, true⟩],
              b.bp + (b.size - a)) := by
          unfold placeBlocks; rw [if_neg hpad, if_neg hgt]
        rw [epb] at w cpl ⊢
        have hm1 : (⟨b.bp + (b.size - a), a, true⟩ : Blk) ∈
            pre ++ [⟨b.bp, b.size - a, false⟩, ⟨b.bp + (b.size - a), a, true⟩] ++ post := by
          simp
        have hm2 : (⟨b.bp, b.size - a, false⟩ : Blk) ∈
            pre ++ [⟨b.bp, b.size - a, false⟩, ⟨b.bp + (b.size - a), a, true⟩] ++ post := by
          simp
        have t1 := w.hdr_word hm1
        have t2 := w.ftr_word hm1
        rw [Blk.tag_used ⟨b.bp + (b.size - a), a, true⟩ rfl h8] at t1 t2
        have t3 := w.hdr_word hm2
        have t4 := w.ftr_word hm2
        rw [Blk.tag_free ⟨b.bp, b.size - a, false⟩ rfl] at t3 t4
        exact ⟨t1, t2, b.bp, Or.inr ⟨rfl, rfl⟩, t3, fun _ => t4,
          (w.onList_iff hf' (classOf_lt _) _).2 (cpl _ hm2 rfl)⟩
    · intro _ d hd
      have hd0 : d ∈ pre ++ b :: post := mem_of_mem_outer hd
      have hd' : d ∈ pre ++ (placeBlocks b a).1 ++ post := by
        rcases List.mem_append.1 hd with h1 | h1
        · exact List.mem_append_left _ (List.mem_append_left _ h1)
        · exact List.mem_append_right _ h1
      exact ⟨(w.hdr_word hd').trans (h.wf.hdr_word hd0).symm,
        (w.ftr_word hd').trans (h.wf.ftr_word hd0).symm⟩
    · intro _
      exact ⟨w.pro_words.1.trans h.wf.pro_words.1.symm,
        w.pro_words.2.trans h.wf.pro_words.2.symm⟩
  · -- an adjusted size of 0 or 8 with a split
    have ha : a < 16 := by clear * - hcase; omega
    have hpad : 16 ≤ b.size - a := by clear * - hcase; omega
    have hfar := h.free_far hb
    obtain ⟨M, fl', e1, L, hmem, hlen, t1, t2, t3, t4, hfr⟩ :=
      place_small h hb a ha h8 hpad fuel hfuel1
    have hseg : (s.setMem M).seg_list_ptr + 96 < 4294967296 := by
      show s.seg_list_ptr + 96 < 4294967296
      clear * - hbd; omega
    have hon : ∀ j, j < 24 → ∀ x, onList (s.setMem M) fuel j x ↔ x ∈ fl' j := by
      intro j hj x
      have := hlen j hj
      exact ListsOK.onList_lists_iff (t := s.setMem M) L hseg hj (by clear * - this hfl; omega) x
    have hp1 : (if b.size - a < 16 then b.bp else if a > MINSIZE then b.bp
        else b.bp + (b.size - a)) = b.bp + (b.size - a) := by
      unfold MINSIZE
      rw [if_neg (by clear * - hpad; omega), if_neg (by clear * - ha; omega)]
    have hfrtag : ∀ d ∈ pre ++ post, 8 ≤ a →
        rd32 M (d.bp - 4) = rd32 s.mem (d.bp - 4) ∧
        rd32 M (d.bp + d.size - 8) = rd32 s.mem (d.bp + d.size - 8) := by
      intro d hd ha8
      have hd0 : d ∈ pre ++ b :: post := mem_of_mem_outer hd
      have hdb := h.wf.bounds hd0
      have hne : d ≠ b := fun e => h.wf.outer_ne hd (by rw [e])
      have hdj : d.bp + d.size ≤ b.bp ∨ b.bp + b.size ≤ d.bp := by
        rcases h.wf.blk_disj hd0 hbm with g | g | g
        · exact absurd g hne
        · exact Or.inl g
        · exact Or.inr g
      constructor
      · apply rd32_congr
        intro i hi
        exact hfr _ (h.wf.tag_bytes_untouched hd0 _ (by clear * - hi; omega)
          (by clear * - hi hdb; omega) (Or.inl (by clear * - hi hdb; omega)))
          (by clear * - hdj hi hdb hbd ha8 ha h8; omega)
      · apply rd32_congr
        intro i hi
        exact hfr _ (h.wf.tag_bytes_untouched hd0 _ (by clear * - hi hdb; omega)
          (by clear * - hi hdb; omega) (Or.inr (by clear * - hi hdb; omega)))
          (by clear * - hdj hi hdb hbd ha8 ha h8; omega)
    refine ⟨b.bp + (b.size - a), s.setMem M, e1, rfl, hp1.symm, fun hc => absurd hc hcase,
      ?_, ?_, fun hc => absurd hc (by clear * - hpad; omega), ?_, ?_, ?_⟩
    · intro j hj hx
      have hj' : j < 24 := hj
      rcases (hmem j hj' _).1 ((hon j hj' _).1 hx) with g | g
      · have := g.1; clear * - this hpad; omega
      · obtain ⟨d, hd, hdx, hdf, _⟩ := h.wf.member hj' g.2
        have hne : d ≠ b := fun e => g.1 (by rw [← hdx, e])
        have hdb := h.wf.bounds hd
        rcases hfar d hd hne hdf with g2 | g2
        · clear * - g2 hdx hdb hpad; omega
        · clear * - g2 hdx hle; omega
    · intro j hj
      have hj' : j < 24 := hj
      rw [hon j hj' _, hmem j hj' _]
      constructor
      · rintro (g | g)
        · exact ⟨by clear * - hpad; omega, g.2⟩
        · exact absurd rfl g.1
      · intro g
        exact Or.inl ⟨rfl, g.2⟩
    · intro _
      have e3 : b.bp + (b.size - a) + a - 8 = b.bp + b.size - 8 := by clear * - hle; omega
      obtain ⟨g1, g2, _⟩ := tag_words (s.setMem M) (b.bp + (b.size - a)) a 1 (a + 1)
        (by clear * - hbd; omega) (by clear * - hbd; omega) (by clear * - hbd hle; omega) h8
        (le_refl _) t2 (by rw [e3]; exact t3)
      rw [PACK_one a h8, PACK_zero]
      refine ⟨g1, g2, b.bp, Or.inr ⟨rfl, rfl⟩, ?_, ?_, ?_⟩
      · exact (tag_words (s.setMem M) b.bp (b.size - a) 0 _ (by clear * - hbd; omega)
          (by clear * - hbd; omega) (by clear * - hbd; omega) (by clear * - hbd h8 hle; omega)
          (by decide) t1 rfl).1
      · intro ha8
        exact (tag_words (s.setMem M) b.bp (b.size - a) 0 _ (by clear * - hbd; omega)
          (by clear * - hbd; omega) (by clear * - hbd; omega) (by clear * - hbd h8 hle; omega)
          (by decide) t1 (t4 (by clear * - ha8 ha h8; omega))).2.1
      · exact (hon _ (classOf_lt _) _).2 ((hmem _ (classOf_lt _) _).2 (Or.inl ⟨rfl, rfl⟩))
    · intro ha8 d hd
      have hd0 : d ∈ pre ++ b :: post := mem_of_mem_outer hd
      have hdb := h.wf.bounds hd0
      obtain ⟨g1, g2⟩ := hfrtag d hd ha8
      have e1 : HDRP d.bp = d.bp - 4 := HDRP_eq _ (by clear * - hdb; omega)
        (by clear * - hdb; omega)
      have e2 : FTRP s d.bp = d.bp + d.size - 8 := FTRP_eq s d.bp d.size
        (by clear * - hdb; omega) (by clear * - hdb; omega) (by clear * - hdb; omega)
        (h.wf.blk_size hd0)
      exact frame_tags s M d.bp (by rw [e1]; exact g1) (by rw [e2]; exact g2)
    · intro ha8
      have ehp : HDRP s.heap_ptr = s.seg_list_ptr + 100 := by
        rw [h.wf.hp]; unfold HDRP u32 WSIZE; clear * - hbd; omega
      have q1 : rd32 M (s.seg_list_ptr + 100) = rd32 s.mem (s.seg_list_ptr + 100) := by
        apply rd32_congr
        intro i hi
        exact hfr _ (h.wf.fixed_bytes_untouched _ (by clear * - hi; omega)
          (by clear * - hi; omega)) (Or.inl (by clear * - hi hbd; omega))
      have q2 : rd32 M (s.seg_list_ptr + 104) = rd32 s.mem (s.seg_list_ptr + 104) := by
        apply rd32_congr
        intro i hi
        exact hfr _ (h.wf.fixed_bytes_untouched _ (by clear * - hi; omega)
          (by clear * - hi; omega)) (Or.inl (by clear * - hi hbd; omega))
      have efp : FTRP s s.heap_ptr = s.seg_list_ptr + 104 := by
        have g : GET s (s.seg_list_ptr + 100) = 9 := h.wf.pro_h
        unfold FTRP GET_SIZE
        rw [ehp, g, h.wf.hp]
        have e3 : (9 : Nat) &&& MASK7 = 8 := by decide
        rw [e3]; unfold u32 DSIZE; clear * - hbd; omega
      exact frame_tags s M s.heap_ptr (by rw [ehp]; exact q1) (by rw [efp]; exact q2)

/-- C30. In a well-formed state, for a member `bp` of a class list with block
size `c` and every adjusted size `a`, a multiple of 8 (0 and 8 included), with
`c - a ≥ 16`, `place(bp, a)` returns. When `a > MINSIZE = 200` it returns
`bp`: the block at `bp` is tagged allocated with size `a`, and the block at
`bp + a` is tagged free with size `c - a` and is on the class list of `c - a`.
When `a ≤ 200` it returns `bp + (c - a)`: the block at `bp` has the header of a
free block of size `c - a` (and, for `a ≥ 8`, the footer) and is on the class
list of `c - a`, and the block at `bp + (c - a)` is tagged allocated with size
`a`. -/
theorem place_split_policy {s : Heap} (hw : WellFormed s) (fuel : Nat) (hf : s.mem_brk < fuel)
    (i bp : Nat) (hi : i < SEG_SIZE) (hbp : onList s fuel i bp) (a : Nat)
    (h8 : a % 8 = 0) (hpad : 16 ≤ GET_BLK_SIZE s bp - a) :
    ∃ s', place fuel s bp a =
        some (if a > MINSIZE then bp else bp + (GET_BLK_SIZE s bp - a), s') ∧
      (a > MINSIZE → GET s' (HDRP bp) = PACK a 1 ∧ GET s' (FTRP s' bp) = PACK a 1 ∧
        GET s' (HDRP (bp + a)) = PACK (GET_BLK_SIZE s bp - a) 0 ∧
        GET s' (FTRP s' (bp + a)) = PACK (GET_BLK_SIZE s bp - a) 0 ∧
        onList s' fuel (classOf (GET_BLK_SIZE s bp - a)) (bp + a)) ∧
      (¬ a > MINSIZE → GET s' (HDRP bp) = PACK (GET_BLK_SIZE s bp - a) 0 ∧
        (8 ≤ a → GET s' (FTRP s' bp) = PACK (GET_BLK_SIZE s bp - a) 0) ∧
        onList s' fuel (classOf (GET_BLK_SIZE s bp - a)) bp ∧
        GET s' (HDRP (bp + (GET_BLK_SIZE s bp - a))) = PACK a 1 ∧
        GET s' (FTRP s' (bp + (GET_BLK_SIZE s bp - a))) = PACK a 1) := by
  obtain ⟨bl, fl, hinv⟩ := hw
  have hi' : i < 24 := hi
  obtain ⟨b, hb, hbb, hbf, _⟩ := hinv.wf.onList_block hf hi' hbp
  have hsz := hinv.wf.blk_size hb
  obtain ⟨pre, post, e⟩ := List.append_of_mem hb
  subst e hbb
  rw [hsz] at hpad ⊢
  obtain ⟨p, s', e1, _, hp, _, _, _, _, hsplit, _⟩ := place_outcome hinv hbf a h8
    (by clear * - hpad; omega) fuel hf
  have hnp : ¬ b.size - a < 16 := by clear * - hpad; omega
  rw [if_neg hnp] at hp
  obtain ⟨t1, t2, r, hr, t3, t4, t5⟩ := hsplit hnp
  refine ⟨s', by rw [e1, hp], fun hgt => ?_, fun hgt => ?_⟩
  · rw [if_pos hgt] at hp
    rcases hr with ⟨_, hr⟩ | ⟨_, hr⟩
    · subst hr hp
      exact ⟨t1, t2, t3, t4 (by unfold MINSIZE at hgt; clear * - hgt; omega), t5⟩
    · rw [hp] at hr
      exact absurd hr (by clear * - hpad; omega)
  · rw [if_neg hgt] at hp
    rcases hr with ⟨hr, _⟩ | ⟨hr, _⟩
    · rw [hp] at hr
      exact absurd hr (by clear * - hpad; omega)
    · subst hr hp
      exact ⟨t3, t4, t5, t1, t2⟩

theorem place_split_policy_witness :
    WellFormed reachBig ∧ onList reachBig 8369 11 4520 ∧
    ∃ s', place 8369 reachBig 4520 8 =
        some (if 8 > MINSIZE then 4520 else 4520 + (GET_BLK_SIZE reachBig 4520 - 8), s') ∧
      (8 > MINSIZE → GET s' (HDRP 4520) = PACK 8 1 ∧ GET s' (FTRP s' 4520) = PACK 8 1 ∧
        GET s' (HDRP (4520 + 8)) = PACK (GET_BLK_SIZE reachBig 4520 - 8) 0 ∧
        GET s' (FTRP s' (4520 + 8)) = PACK (GET_BLK_SIZE reachBig 4520 - 8) 0 ∧
        onList s' 8369 (classOf (GET_BLK_SIZE reachBig 4520 - 8)) (4520 + 8)) ∧
      (¬ 8 > MINSIZE → GET s' (HDRP 4520) = PACK (GET_BLK_SIZE reachBig 4520 - 8) 0 ∧
        (8 ≤ 8 → GET s' (FTRP s' 4520) = PACK (GET_BLK_SIZE reachBig 4520 - 8) 0) ∧
        onList s' 8369 (classOf (GET_BLK_SIZE reachBig 4520 - 8)) 4520 ∧
        GET s' (HDRP (4520 + (GET_BLK_SIZE reachBig 4520 - 8))) = PACK 8 1 ∧
        GET s' (FTRP s' (4520 + (GET_BLK_SIZE reachBig 4520 - 8))) = PACK 8 1) :=
  ⟨reach_big.wellFormed, reach_big_list,
    place_split_policy reach_big.wellFormed 8369 reachBig_brk 11 4520 (by decide)
      reach_big_list 8 (by decide) (Nat.le_of_ble_eq_true rfl)⟩

/-- C24, amended. In a well-formed state, for a member `bp` of a class list
with block size `c` and an adjusted size `8 ≤ a ≤ c`, a multiple of 8: the
first step of `place(bp, a)`, `remove_seglist(bp)`, takes `bp` off every class
list, and `place(bp, a)` returns an address `p`. In the state it leaves, `p` is
on no class list, and `bp` is on a class list only when it is the free
remainder (`p ≠ bp`), and then on the list of `c - a` alone. If `c - a < 16`
then `p = bp` and the whole block is tagged allocated with size `c`; otherwise
the block at `p` is tagged allocated with size `a`, and the rest of the extent
(at `bp + a` when `p = bp`, else at `bp`) is a free block of size `c - a` on
the class list of `c - a`. Every other block of the chain keeps its header and
footer. The state is well formed again when `a ≥ 16` or the whole block is
taken. -/
theorem place_postcondition {s : Heap} (hw : WellFormed s) (fuel : Nat) (hf : s.mem_brk < fuel)
    (i bp : Nat) (hi : i < SEG_SIZE) (hbp : onList s fuel i bp) (a : Nat) (ha : 8 ≤ a)
    (h8 : a % 8 = 0) (hle : a ≤ GET_BLK_SIZE s bp) :
    (∀ j, j < SEG_SIZE → ¬ onList (remove_seglist s bp) fuel j bp) ∧
    ∃ p s', place fuel s bp a = some (p, s') ∧
      (16 ≤ a ∨ GET_BLK_SIZE s bp - a < 16 → WellFormed s') ∧
      (∀ j, j < SEG_SIZE → ¬ onList s' fuel j p) ∧
      (∀ j, j < SEG_SIZE →
        (onList s' fuel j bp ↔ p ≠ bp ∧ j = classOf (GET_BLK_SIZE s bp - a))) ∧
      (GET_BLK_SIZE s bp - a < 16 → p = bp ∧ GET s' (HDRP bp) = PACK (GET_BLK_SIZE s bp) 1 ∧
        GET s' (FTRP s' bp) = PACK (GET_BLK_SIZE s bp) 1) ∧
      (¬ GET_BLK_SIZE s bp - a < 16 → GET s' (HDRP p) = PACK a 1 ∧
        GET s' (FTRP s' p) = PACK a 1 ∧
        ∃ r, (p = bp ∧ r = bp + a ∨ r = bp ∧ p = bp + (GET_BLK_SIZE s bp - a)) ∧
          GET s' (HDRP r) = PACK (GET_BLK_SIZE s bp - a) 0 ∧
          GET s' (FTRP s' r) = PACK (GET_BLK_SIZE s bp - a) 0 ∧
          onList s' fuel (classOf (GET_BLK_SIZE s bp - a)) r) ∧
      (∀ chain, heap_chain s fuel s.heap_ptr = some chain → ∀ b ∈ chain, b ≠ bp →
        GET s' (HDRP b) = GET s (HDRP b) ∧ GET s' (FTRP s' b) = GET s (FTRP s b)) := by
  obtain ⟨bl, fl, hinv⟩ := hw
  have hi' : i < 24 := hi
  obtain ⟨b, hb, hbb, hbf, _⟩ := hinv.wf.onList_block hf hi' hbp
  have hsz := hinv.wf.blk_size hb
  obtain ⟨pre, post, e⟩ := List.append_of_mem hb
  subst e hbb
  rw [hsz] at hle ⊢
  obtain ⟨M1, fl1, e1, w1, _, c1⟩ := remove_seglist_mem hinv.wf hb (hinv.complete b hb hbf)
  obtain ⟨p, s', e2, _, hp, hwf, hnl, hbl, hwhole, hsplit, hfr, hpro⟩ :=
    place_outcome hinv hbf a h8 hle fuel hf
  refine ⟨?_, p, s', e2, hwf, hnl, hbl, ?_, ?_, ?_⟩
  · intro j hj hon
    have hj' : j < 24 := hj
    rw [e1] at hon
    have hf' : (s.setMem M1).mem_brk < fuel := hf
    exact ((c1 j hj' _).1 ((w1.onList_iff hf' hj' _).1 hon)).1 rfl
  · intro hpad
    rw [if_pos hpad] at hp
    exact ⟨hp, hwhole hpad⟩
  · intro hpad
    obtain ⟨t1, t2, r, hr, t3, t4, t5⟩ := hsplit hpad
    exact ⟨t1, t2, r, hr, t3, t4 ha, t5⟩
  · intro chain hch x hx hne
    rw [hinv.wf.chain_unique hf hch] at hx
    rcases mem_chain hx with rfl | ⟨d, hd, rfl⟩
    · exact hpro ha
    · exact hfr ha d (mem_outer_of_ne hd hne)

theorem place_postcondition_witness :
    WellFormed reachBig ∧ onList reachBig 8369 11 4520 ∧
    (∀ j, j < SEG_SIZE → ¬ onList (remove_seglist reachBig 4520) 8369 j 4520) ∧
    ∃ p s', place 8369 reachBig 4520 8 = some (p, s') ∧
      (16 ≤ 8 ∨ GET_BLK_SIZE reachBig 4520 - 8 < 16 → WellFormed s') ∧
      (∀ j, j < SEG_SIZE → ¬ onList s' 8369 j p) ∧
      (∀ j, j < SEG_SIZE →
        (onList s' 8369 j 4520 ↔ p ≠ 4520 ∧ j = classOf (GET_BLK_SIZE reachBig 4520 - 8))) ∧
      (GET_BLK_SIZE reachBig 4520 - 8 < 16 → p = 4520 ∧
        GET s' (HDRP 4520) = PACK (GET_BLK_SIZE reachBig 4520) 1 ∧
        GET s' (FTRP s' 4520) = PACK (GET_BLK_SIZE reachBig 4520) 1) ∧
      (¬ GET_BLK_SIZE reachBig 4520 - 8 < 16 → GET s' (HDRP p) = PACK 8 1 ∧
        GET s' (FTRP s' p) = PACK 8 1 ∧
        ∃ r, (p = 4520 ∧ r = 4520 + 8 ∨
            r = 4520 ∧ p = 4520 + (GET_BLK_SIZE reachBig 4520 - 8)) ∧
          GET s' (HDRP r) = PACK (GET_BLK_SIZE reachBig 4520 - 8) 0 ∧
          GET s' (FTRP s' r) = PACK (GET_BLK_SIZE reachBig 4520 - 8) 0 ∧
          onList s' 8369 (classOf (GET_BLK_SIZE reachBig 4520 - 8)) r) ∧
      (∀ chain, heap_chain reachBig 8369 reachBig.heap_ptr = some chain → ∀ b ∈ chain,
        b ≠ 4520 → GET s' (HDRP b) = GET reachBig (HDRP b) ∧
          GET s' (FTRP s' b) = GET reachBig (FTRP reachBig b)) :=
  ⟨reach_big.wellFormed, reach_big_list,
    place_postcondition reach_big.wellFormed 8369 reachBig_brk 11 4520 (by decide)
      reach_big_list 8 (by decide) (by decide) (Nat.le_of_ble_eq_true rfl)⟩

/-- `remove_seglist` on lists that satisfy `ListsOK`: the block leaves the
list of its class. -/
theorem ListsOK.remove {t : Heap} {fl : Nat → List Nat} (h : ListsOK t.mem t.seg_list_ptr fl)
    (x k : Nat) (hk : classOf (GET_BLK_SIZE t x) = k) (hx : x ∈ fl k) :
    ∃ M, remove_seglist t x = t.setMem M ∧
      ListsOK M t.seg_list_ptr (Function.update fl k ((fl k).erase x)) ∧
      ∀ a, (a < t.seg_list_ptr ∨ t.seg_list_ptr + 96 ≤ a) →
        (∀ i, i < 24 → ∀ z ∈ fl i, a < z ∨ z + 8 ≤ a) → M a = t.mem a := by
  have hi : k < 24 := by rw [← hk]; exact classOf_lt _
  obtain ⟨pre, post, hl⟩ := List.append_of_mem hx
  have hnd : (pre ++ x :: post).Nodup := hl ▸ h.nodup _ hi
  have hlk : Links t.mem 0 (pre ++ x :: post) := hl ▸ h.links _ hi
  obtain ⟨hpostL, hprev, hnext⟩ := hlk.read
  have hnotpre : x ∉ pre := fun hm => by
    have := (List.nodup_append.1 hnd).2.2 hm (List.mem_cons_self _ _)
    exact this
  have herase : (fl k).erase x = pre ++ post := by
    rw [hl, List.erase_append_right _ hnotpre, List.erase_cons_head]
  have hmem : ∀ y ∈ pre ++ x :: post, y ∈ fl k := fun y hy => hl ▸ hy
  have hsub : ∀ y ∈ pre ++ post, y ∈ pre ++ x :: post := by
    intro y hy
    rcases List.mem_append.1 hy with hy | hy
    · exact List.mem_append_left _ hy
    · exact List.mem_append_right _ (List.mem_cons_of_mem _ hy)
  have hnd' : (pre ++ post).Nodup := by
    have := List.nodup_middle.1 hnd
    exact (List.nodup_cons.1 this).2
  have hsep : ∀ u ∈ pre ++ x :: post, ∀ v ∈ pre ++ x :: post,
      u = v ∨ u + 16 ≤ v ∨ v + 16 ≤ u := by
    intro u hu v hv
    rcases h.sep k k hi hi u (hmem u hu) v (hmem v hv) with h1 | h1 | h1
    · exact Or.inl h1.1
    · exact Or.inr (Or.inl h1)
    · exact Or.inr (Or.inr h1)
  have hbnd : ∀ y ∈ pre ++ x :: post, t.seg_list_ptr + 112 ≤ y ∧ y + 16 < 4294967296 :=
    fun y hy => h.bnd k hi y (hmem y hy)
  have hprevlt : post.headD 0 + 4 < 4294967296 := by
    cases post with
    | nil => simp
    | cons y r =>
      have := hbnd y (by simp)
      simp only [List.headD_cons]; omega
  have hxb := hbnd x (by simp)
  have heq := remove_seglist_eq t x _ _ _ hprev hnext (by omega) hk (by omega) hprevlt
  have hb' : ∀ z ∈ pre ++ post, t.seg_list_ptr + 112 ≤ z ∧ z + 16 < 4294967296 :=
    fun z hz => hbnd z (hsub z hz)
  have hsep' : ∀ z ∈ pre ++ post, ∀ j, j < 24 → j ≠ k → ∀ y ∈ fl j,
      z + 16 ≤ y ∨ y + 16 ≤ z := by
    intro z hz j hj hjk y hy
    rcases h.sep k j hi hj z (hmem z (hsub z hz)) y hy with g | g | g
    · exact absurd g.2.symm hjk
    · exact Or.inl g
    · exact Or.inr g
  have hsepl' : ∀ u ∈ pre ++ post, ∀ v ∈ pre ++ post, u = v ∨ u + 16 ≤ v ∨ v + 16 ≤ u :=
    fun u hu v hv => hsep u (hsub u hu) v (hsub v hv)
  have fr : ∀ (M' : Nat → Nat) (W : List Nat),
      (∀ a, (∀ p ∈ W, a < p ∨ p + 4 ≤ a) → M' a = t.mem a) →
      (∀ p ∈ W, p = t.seg_list_ptr + 4 * k ∨ ∃ z ∈ pre ++ post, p = z ∨ p = z + 4) →
      ∀ a, (a < t.seg_list_ptr ∨ t.seg_list_ptr + 96 ≤ a) →
        (∀ i, i < 24 → ∀ z ∈ fl i, a < z ∨ z + 8 ≤ a) → M' a = t.mem a := by
    intro M' W hA hW a ha1 ha2
    apply hA
    intro p hp
    rcases hW p hp with rfl | ⟨z, hz, hpz⟩
    · clear * - ha1 hi; omega
    · have := ha2 k hi z (hmem z (hsub z hz))
      clear * - this hpz; omega
  rw [herase]
  rcases List.eq_nil_or_concat pre with rfl | ⟨pre', nx, rfl⟩
  · -- the block is the head of its list
    cases post with
    | nil =>
      have hW : ∀ p ∈ [t.seg_list_ptr + 4 * k],
          p = t.seg_list_ptr + 4 * k ∨ ∃ z ∈ ([] : List Nat) ++ [], p = z ∨ p = z + 4 := by
        intro p hp
        simp only [List.mem_singleton] at hp
        exact Or.inl hp
      refine ⟨wr32 t.mem (t.seg_list_ptr + 4 * k) 0, by rw [heq]; simp,
        h.write k hi [] (by simp) _ [t.seg_list_ptr + 4 * k] (agree_one _ _ _) hW ?_ ?_
          hb' hsep' hsepl', fr _ _ (agree_one _ _ _) hW⟩
      · rw [rd32_wr32_same _ _ _ (by simp)]; rfl
      · trivial
    | cons y r =>
      have hy := hbnd y (by simp)
      have hyb := hsep y (by simp) x (by simp)
      have hyne : y ≠ x := fun e => by
        rw [e] at hnd
        simp at hnd
      have hy0 : y ≠ 0 := by omega
      have hW : ∀ p ∈ [t.seg_list_ptr + 4 * k, y + 4],
          p = t.seg_list_ptr + 4 * k ∨ ∃ z ∈ ([] : List Nat) ++ y :: r, p = z ∨ p = z + 4 := by
        intro p hp
        simp only [List.mem_cons, List.mem_singleton, List.not_mem_nil, or_false] at hp
        rcases hp with rfl | rfl
        · exact Or.inl rfl
        · exact Or.inr ⟨y, by simp, Or.inr rfl⟩
      refine ⟨wr32 (wr32 t.mem (t.seg_list_ptr + 4 * k) y) (y + 4) 0,
        by rw [heq]; simp [hy0],
        h.write k hi (y :: r) hnd' _ [t.seg_list_ptr + 4 * k, y + 4] (agree_two _ _ _ _ _) hW
          ?_ ?_ hb' hsep' hsepl', fr _ _ (agree_two _ _ _ _ _) hW⟩
      · rw [rd32_wr32_disj _ _ _ _ (by omega), rd32_wr32_same _ _ _ (by omega)]
        rfl
      · apply hpostL.retarget
        · intro z hz
          have hzm : z ∈ [] ++ x :: y :: r := List.mem_cons_of_mem _ hz
          have hzb := hbnd z hzm
          have hzy := hsep z hzm y (by simp)
          rw [rd32_wr32_disj _ _ _ _ (by omega), rd32_wr32_disj _ _ _ _ (by omega)]
        · intro z hz
          simp only [List.tail_cons] at hz
          have hzm : z ∈ [] ++ x :: y :: r :=
            List.mem_cons_of_mem _ (List.mem_cons_of_mem _ hz)
          have hzb := hbnd z hzm
          have hzy := hsep z hzm y (by simp)
          have hzne : z ≠ y := fun e => by
            rw [e] at hz
            simp only [List.nil_append, List.nodup_cons] at hnd'
            exact hnd'.1 hz
          rw [rd32_wr32_disj _ _ _ _ (by omega), rd32_wr32_disj _ _ _ _ (by omega)]
        · intro z hz
          simp only [List.head?_cons, Option.some.injEq] at hz
          subst hz
          rw [rd32_wr32_same _ _ _ (by omega)]
  · -- the block has a predecessor `nx` in its list
    simp only [List.concat_eq_append, List.append_assoc, List.singleton_append] at *
    have hnxv : (pre' ++ [nx]).getLastD 0 = nx := List.getLastD_concat _ _ _
    rw [hnxv] at heq hnext
    have hnxb := hbnd nx (by simp)
    have hnx0 : nx ≠ 0 := by omega
    have hnxne : nx ≠ x := fun e => hnotpre (by simp [e])
    have hslot0 : rd32 t.mem (t.seg_list_ptr + 4 * k) = (pre' ++ nx :: post).headD 0 := by
      rw [h.heads _ hi, hl]
      cases pre' <;> rfl
    have hpre' : ∀ z ∈ pre', z ≠ nx ∧ z ∈ pre' ++ nx :: x :: post := by
      intro z hz
      refine ⟨fun e => ?_, by simp [hz]⟩
      subst e
      exact (List.nodup_append.1 hnd).2.2 hz (List.mem_cons_self _ _)
    cases post with
    | nil =>
      have hW : ∀ p ∈ [nx],
          p = t.seg_list_ptr + 4 * k ∨ ∃ z ∈ pre' ++ [nx], p = z ∨ p = z + 4 := by
        intro p hp
        simp only [List.mem_singleton] at hp
        subst hp
        exact Or.inr ⟨p, by simp, Or.inl rfl⟩
      refine ⟨wr32 t.mem nx 0, by rw [heq]; simp [hnx0],
        h.write k hi (pre' ++ [nx]) hnd' _ [nx] (agree_one _ _ _) hW ?_ ?_ hb' hsep' hsepl',
        fr _ _ (agree_one _ _ _) hW⟩
      · rw [rd32_wr32_disj _ _ _ _ (by omega)]
        exact hslot0
      · apply hlk.unlink
        · intro z hz
          have hzb := hbnd z (hpre' z hz).2
          have hzn := hsep z (hpre' z hz).2 nx (by simp)
          have := (hpre' z hz).1
          rw [rd32_wr32_disj _ _ _ _ (by omega), rd32_wr32_disj _ _ _ _ (by omega)]
          exact ⟨rfl, rfl⟩
        · rw [rd32_wr32_disj _ _ _ _ (by omega)]
        · rw [rd32_wr32_same _ _ _ (by omega)]; rfl
        · trivial
    | cons y r =>
      have hy := hbnd y (by simp)
      have hy0 : y ≠ 0 := by omega
      have hynx := hsep y (by simp) nx (by simp)
      have hynx' : y ≠ nx := fun e => by
        subst e
        exact (List.nodup_cons.1 (List.nodup_append.1 hnd').2.1).1 (by simp)
      have hW : ∀ p ∈ [nx, y + 4],
          p = t.seg_list_ptr + 4 * k ∨ ∃ z ∈ pre' ++ nx :: y :: r, p = z ∨ p = z + 4 := by
        intro p hp
        simp only [List.mem_cons, List.mem_singleton, List.not_mem_nil, or_false] at hp
        rcases hp with rfl | rfl
        · exact Or.inr ⟨p, by simp, Or.inl rfl⟩
        · exact Or.inr ⟨y, by simp, Or.inr rfl⟩
      refine ⟨wr32 (wr32 t.mem nx y) (y + 4) nx, by rw [heq]; simp [hnx0, hy0],
        h.write k hi (pre' ++ nx :: y :: r) hnd' _ [nx, y + 4] (agree_two _ _ _ _ _) hW ?_ ?_
          hb' hsep' hsepl', fr _ _ (agree_two _ _ _ _ _) hW⟩
      · rw [rd32_wr32_disj _ _ _ _ (by omega), rd32_wr32_disj _ _ _ _ (by omega)]
        rw [hslot0]
      · apply hlk.unlink
        · intro z hz
          have hzb := hbnd z (hpre' z hz).2
          have hzn := hsep z (hpre' z hz).2 nx (by simp)
          have hzy := hsep z (hpre' z hz).2 y (by simp)
          have := (hpre' z hz).1
          have hzy' : z ≠ y := fun e => by
            subst e
            exact (List.nodup_append.1 hnd').2.2 hz
              (List.mem_cons_of_mem _ (List.mem_cons_self _ _))
          rw [rd32_wr32_disj _ _ _ _ (by omega), rd32_wr32_disj _ _ _ _ (by omega),
            rd32_wr32_disj _ _ _ _ (by omega), rd32_wr32_disj _ _ _ _ (by omega)]
          exact ⟨rfl, rfl⟩
        · rw [rd32_wr32_disj _ _ _ _ (by omega), rd32_wr32_disj _ _ _ _ (by omega)]
        · rw [rd32_wr32_disj _ _ _ _ (by omega), rd32_wr32_same _ _ _ (by omega)]; rfl
        · apply hpostL.retarget
          · intro z hz
            have hzm : z ∈ pre' ++ nx :: x :: y :: r :=
              List.mem_append_right _ (List.mem_cons_of_mem _ (List.mem_cons_of_mem _ hz))
            have hzb := hbnd z hzm
            have hzy := hsep z hzm y (by simp)
            have hzn := hsep z hzm nx (by simp)
            have hzne : z ≠ nx := fun e => by
              subst e
              have := List.nodup_append.1 hnd'
              have h2 := List.nodup_cons.1 this.2.1
              exact h2.1 hz
            rw [rd32_wr32_disj _ _ _ _ (by omega), rd32_wr32_disj _ _ _ _ (by omega)]
          · intro z hz
            simp only [List.tail_cons] at hz
            have hzm : z ∈ pre' ++ nx :: x :: y :: r :=
              List.mem_append_right _ (List.mem_cons_of_mem _ (List.mem_cons_of_mem _
                (List.mem_cons_of_mem _ hz)))
            have hzb := hbnd z hzm
            have hzy := hsep z hzm y (by simp)
            have hzn := hsep z hzm nx (by simp)
            have hnd3 := List.nodup_append.1 hnd'
            have h2 := List.nodup_cons.1 hnd3.2.1
            have h3 := List.nodup_cons.1 h2.2
            have hzne : z ≠ nx := fun e => by
              subst e
              exact h2.1 (List.mem_cons_of_mem _ hz)
            have hzne' : z ≠ y := fun e => by
              subst e
              exact h3.1 hz
            rw [rd32_wr32_disj _ _ _ _ (by omega), rd32_wr32_disj _ _ _ _ (by omega)]
          · intro z hz
            simp only [List.head?_cons, Option.some.injEq] at hz
            subst hz
            rw [rd32_wr32_same _ _ _ (by omega)]

theorem PREV_BLKP_word (t : Heap) (bp sz al : Nat) (h8 : 8 ≤ bp) (hlt : bp < 4294967296)
    (hsz : sz % 8 = 0) (hal : al ≤ 1) (hle : sz ≤ bp) (hr : rd32 t.mem (bp - 8) = sz + al) :
    PREV_BLKP t bp = bp - sz := by
  unfold PREV_BLKP
  have e : u32 (bp + 4294967296 - DSIZE) = bp - 8 := by
    unfold u32 DSIZE; clear * - h8 hlt; omega
  rw [e]
  unfold GET_SIZE GET
  rw [hr, tag_and_MASK7 _ _ hsz hal (by rw [← hr]; exact rd32_lt _ _)]
  unfold u32; clear * - hle hlt; omega

theorem GET_ALLOC_word (t : Heap) (q sz al : Nat) (hsz : sz % 8 = 0) (hal : al ≤ 1)
    (hr : rd32 t.mem q = sz + al) : GET_ALLOC t q = al := by
  unfold GET_ALLOC GET
  rw [hr]
  exact tag_and_one _ _ hsz hal

/-- The first part of `mm_realloc(p, n)` for `ALIGN(n) = 0` on a block of at
least 24 bytes: the block is cut down to a stub of 8 bytes, the rest is tagged
free and put on its class list, and `coalesce` is called on it. -/
theorem realloc_stub_eval {s : Heap} {pre post : List Blk} {b : Blk} {fl : Nat → List Nat}
    (h : Inv s (pre ++ b :: post) fl) (hb : b.alloc = true) (n : Nat) (h0 : n ≠ 0)
    (hA : ALIGN n = 0) (h24 : 24 ≤ b.size) (fuel : Nat) (hfuel1 : 1 ≤ fuel) :
    ∃ M5, mm_realloc fuel s b.bp n =
        (coalesce fuel (s.setMem M5) (b.bp + 8)).map (fun c => (b.bp, c.2)) ∧
      ListsOK M5 s.seg_list_ptr
        (Function.update fl (classOf (b.size - 8)) ((b.bp + 8) :: fl (classOf (b.size - 8)))) ∧
      rd32 M5 (b.bp - 4) = 9 ∧ rd32 M5 b.bp = 9 ∧ rd32 M5 (b.bp + 4) = b.size - 8 ∧
      rd32 M5 (b.bp + b.size - 8) = b.size - 8 ∧
      ∀ a, (a < s.seg_list_ptr ∨ s.seg_list_ptr + 96 ≤ a) →
        (∀ i, i < 24 → ∀ z ∈ fl i, a < z ∨ z + 8 ≤ a) →
        (a < b.bp - 4 ∨ b.bp + b.size - 4 ≤ a) → M5 a = s.mem a := by
  have hbm : b ∈ pre ++ b :: post := by simp
  have hbd := h.wf.bounds hbm
  have G : Hid (s.seg_list_ptr + 112 ≤ b.bp ∧ b.bp + b.size ≤ s.mem_brk ∧
      s.mem_brk < 4294967296 ∧ 24 ≤ b.size ∧ b.size % 8 = 0) :=
    ⟨⟨hbd.1, hbd.2.1, hbd.2.2.1, h24, hbd.2.2.2.2⟩⟩
  have hp0 : b.bp ≠ NULL := by unfold NULL; clear * - hbd; omega
  have hsepz : ∀ j, j < 24 → ∀ z ∈ fl j, ∃ d ∈ pre ++ b :: post, d.bp = z ∧ d.alloc = false ∧
      16 ≤ d.size ∧ classOf d.size = j ∧ (d.bp + d.size ≤ b.bp ∨ b.bp + b.size ≤ d.bp) := by
    intro j hj z hz
    obtain ⟨d, hd, e, hdf, hdc⟩ := h.wf.member hj hz
    have hdb := h.wf.bounds hd
    refine ⟨d, hd, e, hdf, hdb.2.2.2.1, hdc, ?_⟩
    rcases h.wf.blk_disj hd hbm with g | g | g
    · rw [g, hb] at hdf; exact absurd hdf (by simp)
    · exact Or.inl g
    · exact Or.inr g
  -- the evaluation of the resize step
  have hcs := csize_eq h.wf hbm
  have hev := mm_realloc_shrink_eval fuel s b.bp n (b.size - 8) hp0 h0 hcs
    (by rw [hA]; clear * - h24; omega) (by rw [hA]; clear * - h24; omega)
  rw [hA] at hev
  have e88 : b.bp + 8 - 8 = b.bp := by clear * - hbd; omega
  have hput1 : PUT (PUT s (HDRP b.bp) (PACK 8 1))
      (FTRP (PUT s (HDRP b.bp) (PACK 8 1)) b.bp) (PACK 8 1) =
      s.setMem (wr32 (wr32 s.mem (b.bp - 4) 9) b.bp 9) := by
    have := (put_hdr_ftr_any s b.bp 8 (by have G' := G.out; clear * - G'; omega)
      (by have G' := G.out; clear * - G'; omega) (by have G' := G.out; clear * - G'; omega)
      (by decide)).2
    rw [e88] at this
    exact this
  have hshr : realloc_shrink s b.bp (b.size - 8) 0 =
      { heap := s.setMem (wr32 (wr32 s.mem (b.bp - 4) 9) b.bp 9), new_ptr := b.bp,
        realloced := true, padding := b.size - 8 } := by
    have hu1 : u32 (0 + DSIZE) = 8 := by decide
    have hu2 : u32 (b.size - 8 + 4294967296 - 0) = b.size - 8 := by
      unfold u32; clear * - hbd; omega
    unfold realloc_shrink
    simp only [hu1, hu2, hput1]
  have hn : NEXT_BLKP (s.setMem (wr32 (wr32 s.mem (b.bp - 4) 9) b.bp 9)) b.bp = b.bp + 8 :=
    NEXT_BLKP_tag _ _ 8 1 (by have G' := G.out; clear * - G'; omega)
      (by have G' := G.out; clear * - G'; omega) (by decide) (by decide)
      (by
        show rd32 (wr32 (wr32 s.mem (b.bp - 4) 9) b.bp 9) (b.bp - 4) = 8 + 1
        have G' := G.out
        rw [rd32_wr32_disj _ _ _ _ (by clear * - G'; omega),
          rd32_wr32_same _ _ _ (by decide)])
  have e84 : b.bp + 8 - 4 = b.bp + 4 := by clear * - hbd; omega
  have e8c : b.bp + 8 + (b.size - 8) - 8 = b.bp + b.size - 8 := by
    have G' := G.out; clear * - G'; omega
  have hput2 := (put_hdr_ftr_any (s.setMem (wr32 (wr32 s.mem (b.bp - 4) 9) b.bp 9)) (b.bp + 8)
    (b.size - 8) (by have G' := G.out; clear * - G'; omega)
    (by have G' := G.out; clear * - G'; omega) (by have G' := G.out; clear * - G'; omega)
    (by have G' := G.out; clear * - G'; omega)).1
  simp only [setMem_setMem, setMem_mem] at hput2
  rw [e84, e8c] at hput2
  -- the words of the memory after the four writes
  obtain ⟨M4, hM4⟩ : ∃ M, M = wr32 (wr32 (wr32 (wr32 s.mem (b.bp - 4) 9) b.bp 9) (b.bp + 4)
      (b.size - 8)) (b.bp + b.size - 8) (b.size - 8) := ⟨_, rfl⟩
  rw [← hM4] at hput2
  have m1 : rd32 M4 (b.bp - 4) = 9 := by
    have G' := G.out
    rw [hM4, rd32_wr32_disj _ _ _ _ (by clear * - G'; omega),
      rd32_wr32_disj _ _ _ _ (by clear * - G'; omega),
      rd32_wr32_disj _ _ _ _ (by clear * - G'; omega), rd32_wr32_same _ _ _ (by decide)]
  have m2 : rd32 M4 b.bp = 9 := by
    have G' := G.out
    rw [hM4, rd32_wr32_disj _ _ _ _ (by clear * - G'; omega),
      rd32_wr32_disj _ _ _ _ (by clear * - G'; omega), rd32_wr32_same _ _ _ (by decide)]
  have m3 : rd32 M4 (b.bp + 4) = b.size - 8 := by
    have G' := G.out
    rw [hM4, rd32_wr32_disj _ _ _ _ (by clear * - G'; omega),
      rd32_wr32_same _ _ _ (by clear * - G'; omega)]
  have m4 : rd32 M4 (b.bp + b.size - 8) = b.size - 8 := by
    have G' := G.out
    rw [hM4, rd32_wr32_same _ _ _ (by clear * - G'; omega)]
  have hout4 : ∀ a, (a < b.bp - 4 ∨ b.bp + b.size - 4 ≤ a) → M4 a = s.mem a := by
    intro a ha
    have G' := G.out
    rw [hM4, wr32_outside _ _ _ _ (by clear * - G' ha; omega),
      wr32_outside _ _ _ _ (by clear * - G' ha; omega),
      wr32_outside _ _ _ _ (by clear * - G' ha; omega),
      wr32_outside _ _ _ _ (by clear * - G' ha; omega)]
  clear hM4
  have L4 : ListsOK (s.setMem M4).mem (s.setMem M4).seg_list_ptr fl := by
    refine h.wf.listsOK.frame_lists ?_ ?_
    · intro a h1 h2
      have G' := G.out
      have h2' : a < s.seg_list_ptr + 96 := h2
      exact hout4 a (Or.inl (by clear * - G' h2'; omega))
    · intro j hj z hz a h1 h2
      obtain ⟨d, _, e, _, h16, _, hd⟩ := hsepz j hj z hz
      have G' := G.out
      exact hout4 a (by clear * - hd e h16 h1 h2 G'; omega)
  have hsz4 : GET_BLK_SIZE (s.setMem M4) (b.bp + 8) = b.size - 8 :=
    (tag_words (s.setMem M4) (b.bp + 8) (b.size - 8) 0 _
      (by have G' := G.out; clear * - G'; omega) (by have G' := G.out; clear * - G'; omega)
      (by have G' := G.out; clear * - G'; omega) (by have G' := G.out; clear * - G'; omega)
      (by decide) (by rw [e84]; exact m3) rfl).2.2
  have hstop : ∀ c0, (fl (classOf (b.size - 8))).head? = some c0 →
      (b.size - 8) >>> classOf (b.size - 8) ≤ GET_BLK_SIZE (s.setMem M4) c0 := by
    intro c0 hc0
    have hc0m : c0 ∈ fl (classOf (b.size - 8)) := List.mem_of_mem_head? hc0
    obtain ⟨d, hd, e, _, h16, hdc, hdj⟩ := hsepz _ (classOf_lt _) c0 hc0m
    have hdb := h.wf.bounds hd
    have G' := G.out
    have e2 : GET_BLK_SIZE (s.setMem M4) c0 = d.size := by
      rw [← h.wf.blk_size hd, e]
      unfold GET_BLK_SIZE
      apply GET_SIZE_congr
      rw [HDRP_eq _ (by clear * - hdb e; omega) (by clear * - hdb e; omega)]
      apply rd32_congr
      intro i hi
      exact hout4 _ (by clear * - hdj hi G' hdb e; omega)
    rw [e2]
    exact shifted_le _ _ (by clear * - G'; omega) h16 hdc
  obtain ⟨M5, a5, L5, fr5⟩ := L4.add (b.bp + 8) (b.size - 8)
    (by
      have G' := G.out
      exact ⟨by
        show s.seg_list_ptr + 112 ≤ b.bp + 8
        clear * - G'; omega, by clear * - G'; omega⟩)
    (by
      intro j hj z hz
      obtain ⟨d, _, e, _, h16, _, hd⟩ := hsepz j hj z hz
      have G' := G.out
      clear * - hd e h16 G'; omega)
    hstop fuel hfuel1
  simp only [setMem_setMem, setMem_mem] at a5 fr5
  have hseg : (s.setMem M4).seg_list_ptr = s.seg_list_ptr := rfl
  rw [hseg] at L5 fr5
  have hfin := realloc_finish_rem fuel
    { heap := s.setMem (wr32 (wr32 s.mem (b.bp - 4) 9) b.bp 9), new_ptr := b.bp,
      realloced := true, padding := b.size - 8 } (s.setMem M4) (s.setMem M5)
    b.bp n (b.size - 8) b.bp (b.size - 8) (b.bp + 8) rfl rfl
    (by clear * - h24; omega) rfl hn hput2 hsz4 a5
  -- the words inside the block after the insertion
  have hNL : ∀ a, b.bp - 4 ≤ a → a < b.bp + b.size →
      (a < s.seg_list_ptr ∨ s.seg_list_ptr + 96 ≤ a) ∧
        ∀ i, i < 24 → ∀ z ∈ fl i, a < z ∨ z + 8 ≤ a := by
    intro a h1 h2
    have G' := G.out
    refine ⟨Or.inr (by clear * - G' h1; omega), ?_⟩
    intro j hj z hz
    obtain ⟨d, _, e, _, h16, _, hd⟩ := hsepz j hj z hz
    clear * - hd e h16 h1 h2 G'; omega
  have hin5 : ∀ x, b.bp - 4 ≤ x → x + 4 ≤ b.bp + b.size → (x + 4 ≤ b.bp + 8 ∨ b.bp + 16 ≤ x) →
      rd32 M5 x = rd32 M4 x := by
    intro x h1 h2 h3
    apply rd32_congr
    intro i hi
    obtain ⟨g1, g2⟩ := hNL (x + i) (by clear * - h1; omega) (by clear * - h2 hi; omega)
    exact fr5 _ (by clear * - h3 hi; omega) g1 g2
  refine ⟨M5, by rw [hev, hshr]; exact hfin, L5, ?_, ?_, ?_, ?_, ?_⟩
  · have G' := G.out
    rw [hin5 _ (le_refl _) (by clear * - G'; omega) (Or.inl (by clear * - G'; omega)), m1]
  · have G' := G.out
    rw [hin5 _ (by clear * - G'; omega) (by clear * - G'; omega)
      (Or.inl (by clear * - G'; omega)), m2]
  · have G' := G.out
    rw [hin5 _ (by clear * - G'; omega) (by clear * - G'; omega)
      (Or.inl (by clear * - G'; omega)), m3]
  · have G' := G.out
    rw [hin5 _ (by clear * - G'; omega) (by clear * - G'; omega)
      (Or.inr (by clear * - G'; omega)), m4]
  · intro a ha1 ha2 ha3
    have G' := G.out
    rw [fr5 a (by clear * - ha3 G'; omega) ha1 ha2]
    exact hout4 a ha3


/-- The tags and the class list after `mm_realloc(p, n)` for `ALIGN(n) = 0`,
when the block after the block of `p` is allocated. -/
theorem realloc_stub_next_used {s : Heap} {pre post : List Blk} {b : Blk} {fl : Nat → List Nat}
    (h : Inv s (pre ++ b :: post) fl) (hb : b.alloc = true) (n : Nat) (h0 : n ≠ 0)
    (hA : ALIGN n = 0) (h24 : 24 ≤ b.size) (fuel : Nat) (hf : s.mem_brk < fuel)
    (hnext : NEXT_BLKP s b.bp = b.bp + b.size)
    (hna : GET_ALLOC s (HDRP (NEXT_BLKP s b.bp)) ≠ 0) :
    ∃ s', mm_realloc fuel s b.bp n = some (b.bp, s') ∧
      GET s' (HDRP b.bp) = 9 ∧ GET s' (FTRP s' b.bp) = 9 ∧
      GET s' (HDRP (b.bp + 8)) = b.size - 8 ∧ GET s' (FTRP s' (b.bp + 8)) = b.size - 8 ∧
      onList s' fuel (classOf (b.size - 8)) (b.bp + 8) := by
  have hbm : b ∈ pre ++ b :: post := by simp
  have hbd := h.wf.bounds hbm
  have hfl := h.wf.fuel_ok hf
  have hfuel1 : 1 ≤ fuel := by clear * - hfl; omega
  have G : Hid (s.seg_list_ptr + 112 ≤ b.bp ∧ b.bp + b.size ≤ s.mem_brk ∧
      s.mem_brk < 4294967296 ∧ 24 ≤ b.size ∧ b.size % 8 = 0) :=
    ⟨⟨hbd.1, hbd.2.1, hbd.2.2.1, h24, hbd.2.2.2.2⟩⟩
  obtain ⟨M5, hev, L5, w1, w2, w3, w4, fr5⟩ := realloc_stub_eval h hb n h0 hA h24 fuel hfuel1
  have e88 : b.bp + 8 - 8 = b.bp := by clear * - hbd; omega
  have e84 : b.bp + 8 - 4 = b.bp + 4 := by clear * - hbd; omega
  have e8c : b.bp + 8 + (b.size - 8) = b.bp + b.size := by
    have G' := G.out; clear * - G'; omega
  have e8f : b.bp + 8 + (b.size - 8) - 8 = b.bp + b.size - 8 := by
    have G' := G.out; clear * - G'; omega
  have hprev5 : PREV_BLKP (s.setMem M5) (b.bp + 8) = b.bp := by
    have := PREV_BLKP_word (s.setMem M5) (b.bp + 8) 8 1 (by clear * - hbd; omega)
      (by have G' := G.out; clear * - G'; omega) (by decide) (by decide)
      (by clear * - hbd; omega) (by rw [e88]; exact w2)
    rw [this, e88]
  have hpa : GET_ALLOC (s.setMem M5) (HDRP (PREV_BLKP (s.setMem M5) (b.bp + 8))) ≠ 0 := by
    rw [hprev5, HDRP_eq _ (by clear * - hbd; omega) (by clear * - hbd; omega),
      GET_ALLOC_word (s.setMem M5) (b.bp - 4) 8 1 (by decide) (by decide) w1]
    decide
  have hnx5 : NEXT_BLKP (s.setMem M5) (b.bp + 8) = b.bp + b.size := by
    have := NEXT_BLKP_tag (s.setMem M5) (b.bp + 8) (b.size - 8) 0 (by clear * - hbd; omega)
      (by have G' := G.out; clear * - G'; omega) (by have G' := G.out; clear * - G'; omega)
      (by decide) (by rw [e84]; exact w3)
    rw [this, e8c]
  have hw : rd32 M5 (b.bp + b.size - 4) = rd32 s.mem (b.bp + b.size - 4) := by
    apply rd32_congr
    intro i hi
    have G' := G.out
    refine fr5 _ (Or.inr (by clear * - G'; omega)) ?_ (Or.inr (by clear * - G'; omega))
    intro j hj z hz
    obtain ⟨d, hd, e, hdf, _⟩ := h.wf.member hj hz
    have hdb := h.wf.bounds hd
    rcases h.wf.blk_disj hd hbm with g | g | g
    · rw [g, hb] at hdf; exact absurd hdf (by simp)
    · clear * - g e hdb hi G'; omega
    · clear * - g e hi G'; omega
  have hna5 : GET_ALLOC (s.setMem M5) (HDRP (NEXT_BLKP (s.setMem M5) (b.bp + 8))) ≠ 0 := by
    rw [hnx5]
    rw [hnext] at hna
    have e : HDRP (b.bp + b.size) = b.bp + b.size - 4 :=
      HDRP_eq _ (by clear * - hbd; omega) (by clear * - hbd; omega)
    rw [e] at hna ⊢
    unfold GET_ALLOC GET at hna ⊢
    rw [setMem_mem, hw]
    exact hna
  have hco := coalesce_eval1 fuel (s.setMem M5) (b.bp + 8) hpa hna5
  rw [hco] at hev
  have hseg : (s.setMem M5).seg_list_ptr + 96 < 4294967296 := by
    show s.seg_list_ptr + 96 < 4294967296
    clear * - hbd; omega
  obtain ⟨g1, g2, _⟩ := tag_words (s.setMem M5) b.bp 8 1 9 (by clear * - hbd; omega)
    (by clear * - hbd; omega) (by clear * - hbd; omega) (by decide) (by decide) w1
    (by rw [e88]; exact w2)
  obtain ⟨g3, g4, _⟩ := tag_words (s.setMem M5) (b.bp + 8) (b.size - 8) 0 (b.size - 8)
    (by clear * - hbd; omega) (by clear * - hbd; omega)
    (by have G' := G.out; clear * - G'; omega) (by have G' := G.out; clear * - G'; omega)
    (by decide) (by rw [e84]; exact w3) (by rw [e8f]; exact w4)
  refine ⟨s.setMem M5, by rw [hev]; rfl, g1, g2, g3, g4, ?_⟩
  have hlen := h.wf.list_length_le (classOf (b.size - 8)) (classOf_lt _)
  refine (ListsOK.onList_lists_iff (t := s.setMem M5) L5 hseg (classOf_lt _) ?_ _).2 ?_
  · rw [Function.update_same, List.length_cons]
    clear * - hlen hfl; omega
  · rw [Function.update_same]
    exact List.mem_cons_self _ _

/-- The tags and the class list after `mm_realloc(p, n)` for `ALIGN(n) = 0`,
when the block after the block of `p` is free: the rest of the block is merged
with it. -/
theorem realloc_stub_next_free {s : Heap} {pre r : List Blk} {b nx : Blk} {fl : Nat → List Nat}
    (h : Inv s (pre ++ b :: nx :: r) fl) (hb : b.alloc = true) (hnf : nx.alloc = false)
    (n : Nat) (h0 : n ≠ 0) (hA : ALIGN n = 0) (h24 : 24 ≤ b.size) (fuel : Nat)
    (hf : s.mem_brk < fuel) :
    ∃ s', mm_realloc fuel s b.bp n = some (b.bp, s') ∧
      GET s' (HDRP b.bp) = 9 ∧ GET s' (FTRP s' b.bp) = 9 ∧
      GET s' (HDRP (b.bp + 8)) = b.size - 8 + nx.size ∧
      GET s' (FTRP s' (b.bp + 8)) = b.size - 8 + nx.size ∧
      onList s' fuel (classOf (b.size - 8 + nx.size)) (b.bp + 8) := by
  have hbm : b ∈ pre ++ b :: nx :: r := by simp
  have hnm : nx ∈ pre ++ b :: nx :: r := by simp
  have hbd := h.wf.bounds hbm
  have hnd := h.wf.bounds hnm
  have hnb : nx.bp = b.bp + b.size := (h.wf.next_cons).2
  have hfl := h.wf.fuel_ok hf
  have hfuel1 : 1 ≤ fuel := by clear * - hfl; omega
  have G : Hid (s.seg_list_ptr + 112 ≤ b.bp ∧ b.bp + b.size + nx.size ≤ s.mem_brk ∧
      s.mem_brk < 4294967296 ∧ 24 ≤ b.size ∧ b.size % 8 = 0 ∧ 16 ≤ nx.size ∧
      nx.size % 8 = 0) :=
    ⟨⟨hbd.1, by clear * - hnd hnb; omega, hbd.2.2.1, h24, hbd.2.2.2.2, hnd.2.2.2.1,
      hnd.2.2.2.2⟩⟩
  obtain ⟨M5, hev, L5, w1, w2, w3, w4, fr5⟩ := realloc_stub_eval h hb n h0 hA h24 fuel hfuel1
  have e88 : b.bp + 8 - 8 = b.bp := by clear * - hbd; omega
  have e84 : b.bp + 8 - 4 = b.bp + 4 := by clear * - hbd; omega
  have e8c : b.bp + 8 + (b.size - 8) = b.bp + b.size := by
    have G' := G.out; clear * - G'; omega
  have e9f : b.bp + 8 + (b.size - 8 + nx.size) - 8 = b.bp + b.size + nx.size - 8 := by
    have G' := G.out; clear * - G'; omega
  -- where the members of the lists lie
  have hmemf : ∀ j, j < 24 → ∀ z ∈ fl j, ∃ d ∈ pre ++ b :: nx :: r, d.bp = z ∧ 16 ≤ d.size ∧
      classOf d.size = j ∧
      (z + 16 ≤ b.bp ∨ z = nx.bp ∨ b.bp + b.size + nx.size ≤ z) := by
    intro j hj z hz
    obtain ⟨d, hd, e, hdf, hdc⟩ := h.wf.member hj hz
    have hdb := h.wf.bounds hd
    refine ⟨d, hd, e, hdb.2.2.2.1, hdc, ?_⟩
    rcases h.wf.blk_disj hd hbm with g | g | g
    · rw [g, hb] at hdf; exact absurd hdf (by simp)
    · left; clear * - g e hdb; omega
    · rcases h.wf.blk_disj hd hnm with g2 | g2 | g2
      · right; left; rw [← e, g2]
      · exfalso; clear * - g g2 hnb hdb; omega
      · right; right; clear * - g2 e hnb; omega
  have hNLa : ∀ a, b.bp - 4 ≤ a → a < b.bp + b.size + nx.size - 4 →
      (a < b.bp + b.size ∨ b.bp + b.size + 8 ≤ a) →
      (a < s.seg_list_ptr ∨ s.seg_list_ptr + 96 ≤ a) ∧
        ∀ i, i < 24 → ∀ z ∈ fl i, a < z ∨ z + 8 ≤ a := by
    intro a h1 h2 h3
    have G' := G.out
    refine ⟨Or.inr (by clear * - G' h1; omega), ?_⟩
    intro j hj z hz
    obtain ⟨_, _, _, _, _, hd⟩ := hmemf j hj z hz
    clear * - hd h1 h2 h3 hnb G'; omega
  have hU : ∀ a, Untouched s (pre ++ b :: nx :: r) a →
      (a < s.seg_list_ptr ∨ s.seg_list_ptr + 96 ≤ a) ∧
        ∀ i, i < 24 → ∀ z ∈ fl i, a < z ∨ z + 8 ≤ a := by
    intro a ha
    refine ⟨ha.1, ?_⟩
    intro j hj z hz
    obtain ⟨d, hd, e, hdf, _⟩ := h.wf.member hj hz
    rw [← e]
    exact ha.2 d hd hdf
  -- the neighbours of the remainder
  have hprev5 : PREV_BLKP (s.setMem M5) (b.bp + 8) = b.bp := by
    have := PREV_BLKP_word (s.setMem M5) (b.bp + 8) 8 1 (by clear * - hbd; omega)
      (by have G' := G.out; clear * - G'; omega) (by decide) (by decide)
      (by clear * - hbd; omega) (by rw [e88]; exact w2)
    rw [this, e88]
  have hpa : GET_ALLOC (s.setMem M5) (HDRP (PREV_BLKP (s.setMem M5) (b.bp + 8))) ≠ 0 := by
    rw [hprev5, HDRP_eq _ (by clear * - hbd; omega) (by clear * - hbd; omega),
      GET_ALLOC_word (s.setMem M5) (b.bp - 4) 8 1 (by decide) (by decide) w1]
    decide
  have hnx5 : NEXT_BLKP (s.setMem M5) (b.bp + 8) = nx.bp := by
    have := NEXT_BLKP_tag (s.setMem M5) (b.bp + 8) (b.size - 8) 0 (by clear * - hbd; omega)
      (by have G' := G.out; clear * - G'; omega) (by have G' := G.out; clear * - G'; omega)
      (by decide) (by rw [e84]; exact w3)
    rw [this, e8c, hnb]
  have ehn : HDRP nx.bp = b.bp + b.size - 4 := by
    rw [hnb]
    exact HDRP_eq _ (by clear * - hbd; omega) (by have G' := G.out; clear * - G'; omega)
  have hw5 : rd32 M5 (b.bp + b.size - 4) = rd32 s.mem (b.bp + b.size - 4) := by
    apply rd32_congr
    intro i hi
    have G' := G.out
    obtain ⟨g1, g2⟩ := hNLa (b.bp + b.size - 4 + i) (by clear * - G'; omega)
      (by clear * - G' hi; omega) (Or.inl (by clear * - G' hi; omega))
    exact fr5 _ g1 g2 (Or.inr (by clear * - G'; omega))
  have hna5 : GET_ALLOC (s.setMem M5) (HDRP (NEXT_BLKP (s.setMem M5) (b.bp + 8))) = 0 := by
    have := h.wf.blk_alloc hnm
    rw [hnf, ehn] at this
    rw [hnx5, ehn]
    unfold GET_ALLOC GET at this ⊢
    rw [setMem_mem, hw5]
    exact this
  obtain ⟨_, _, hsz5⟩ := tag_words (s.setMem M5) (b.bp + 8) (b.size - 8) 0 (b.size - 8)
    (by clear * - hbd; omega) (by clear * - hbd; omega)
    (by have G' := G.out; clear * - G'; omega) (by have G' := G.out; clear * - G'; omega)
    (by decide) (by rw [e84]; exact w3) (by
      have e : b.bp + 8 + (b.size - 8) - 8 = b.bp + b.size - 8 := by
        have G' := G.out; clear * - G'; omega
      rw [e]; exact w4)
  -- the first removal: the remainder leaves its list again
  obtain ⟨M6, e6, L6, fr6⟩ := ListsOK.remove (t := s.setMem M5) L5 (b.bp + 8)
    (classOf (b.size - 8)) (by rw [hsz5]) (by rw [Function.update_same]; exact List.mem_cons_self _ _)
  simp only [setMem_setMem, setMem_mem] at e6 fr6
  simp only [Function.update_same, List.erase_cons_head, Function.update_idem,
    Function.update_eq_self] at L6
  have hseg5 : (s.setMem M5).seg_list_ptr = s.seg_list_ptr := rfl
  rw [hseg5] at L6 fr6
  have fr6' : ∀ a, (a < s.seg_list_ptr ∨ s.seg_list_ptr + 96 ≤ a) →
      (∀ i, i < 24 → ∀ z ∈ fl i, a < z ∨ z + 8 ≤ a) → (a < b.bp + 8 ∨ b.bp + 16 ≤ a) →
      M6 a = M5 a := by
    intro a ha1 ha2 ha3
    refine fr6 a ha1 ?_
    intro i hi z hz
    by_cases hik : i = classOf (b.size - 8)
    · subst hik
      rw [Function.update_same] at hz
      rcases List.mem_cons.1 hz with e | hz'
      · rw [e]; clear * - ha3; omega
      · exact ha2 _ hi z hz'
    · rw [Function.update_noteq hik] at hz
      exact ha2 i hi z hz
  have hw6 : rd32 M6 (b.bp + b.size - 4) = rd32 s.mem (b.bp + b.size - 4) := by
    rw [← hw5]
    apply rd32_congr
    intro i hi
    have G' := G.out
    obtain ⟨g1, g2⟩ := hNLa (b.bp + b.size - 4 + i) (by clear * - G'; omega)
      (by clear * - G' hi; omega) (Or.inl (by clear * - G' hi; omega))
    exact fr6' _ g1 g2 (Or.inr (by clear * - G'; omega))
  have hw6b : rd32 M6 (b.bp + 4) = b.size - 8 := by
    rw [← w3]
    apply rd32_congr
    intro i hi
    have G' := G.out
    obtain ⟨g1, g2⟩ := hNLa (b.bp + 4 + i) (by clear * - G'; omega)
      (by clear * - G' hi; omega) (Or.inl (by clear * - G' hi; omega))
    exact fr6' _ g1 g2 (Or.inl (by clear * - hi; omega))
  have hnx6 : NEXT_BLKP (s.setMem M6) (b.bp + 8) = nx.bp := by
    have := NEXT_BLKP_tag (s.setMem M6) (b.bp + 8) (b.size - 8) 0 (by clear * - hbd; omega)
      (by have G' := G.out; clear * - G'; omega) (by have G' := G.out; clear * - G'; omega)
      (by decide) (by rw [e84]; exact hw6b)
    rw [this, e8c, hnb]
  have hsz6 : GET_BLK_SIZE (s.setMem M6) nx.bp = nx.size := by
    rw [← h.wf.blk_size hnm]
    unfold GET_BLK_SIZE
    apply GET_SIZE_congr
    rw [ehn]
    exact hw6
  have hsz : u32 (GET_SIZE (s.setMem M5) (HDRP (b.bp + 8)) + GET_SIZE (s.setMem M6) (HDRP nx.bp))
      = b.size - 8 + nx.size := by
    have a1 : GET_SIZE (s.setMem M5) (HDRP (b.bp + 8)) = b.size - 8 := hsz5
    have a2 : GET_SIZE (s.setMem M6) (HDRP nx.bp) = nx.size := hsz6
    rw [a1, a2]
    have G' := G.out
    unfold u32; clear * - G'; omega
  -- the second removal: the next block leaves its list
  obtain ⟨M7, e7, L7, fr7⟩ := ListsOK.remove (t := s.setMem M6) L6 nx.bp (classOf nx.size)
    (by rw [hsz6]) (h.complete nx hnm hnf)
  simp only [setMem_setMem, setMem_mem] at e7 fr7
  have hseg6 : (s.setMem M6).seg_list_ptr = s.seg_list_ptr := rfl
  rw [hseg6] at L7 fr7
  have hmem7 : ∀ j, j < 24 → ∀ z ∈ Function.update fl (classOf nx.size)
      ((fl (classOf nx.size)).erase nx.bp) j, z ∈ fl j ∧ z ≠ nx.bp := by
    intro j hj z hz
    by_cases hjk : j = classOf nx.size
    · subst hjk
      rw [Function.update_same] at hz
      have := (List.Nodup.mem_erase_iff (h.wf.nodup _ hj)).1 hz
      exact ⟨this.2, this.1⟩
    · rw [Function.update_noteq hjk] at hz
      refine ⟨hz, fun e => ?_⟩
      rcases h.wf.member_sep hj (classOf_lt nx.size) hz (h.complete nx hnm hnf) with g | g | g
      · exact hjk g.2
      · clear * - g e; omega
      · clear * - g e; omega
  have hsep7 : ∀ j, j < 24 → ∀ z ∈ Function.update fl (classOf nx.size)
      ((fl (classOf nx.size)).erase nx.bp) j,
      z + 16 ≤ b.bp ∨ b.bp + b.size + nx.size ≤ z := by
    intro j hj z hz
    obtain ⟨g1, g2⟩ := hmem7 j hj z hz
    obtain ⟨_, _, _, _, _, hd⟩ := hmemf j hj z g1
    rcases hd with g | g | g
    · exact Or.inl g
    · exact absurd g g2
    · exact Or.inr g
  -- the tags of the merged block
  have hput9 := (put_hdr_ftr_any (s.setMem M7) (b.bp + 8) (b.size - 8 + nx.size)
    (by clear * - hbd; omega) (by clear * - hbd; omega)
    (by have G' := G.out; clear * - G'; omega) (by have G' := G.out; clear * - G'; omega)).1
  simp only [setMem_setMem, setMem_mem] at hput9
  rw [e84, e9f] at hput9
  obtain ⟨M9, hM9⟩ : ∃ M, M = wr32 (wr32 M7 (b.bp + 4) (b.size - 8 + nx.size))
      (b.bp + b.size + nx.size - 8) (b.size - 8 + nx.size) := ⟨_, rfl⟩
  rw [← hM9] at hput9
  have m9a : rd32 M9 (b.bp + 4) = b.size - 8 + nx.size := by
    have G' := G.out
    rw [hM9, rd32_wr32_disj _ _ _ _ (by clear * - G'; omega),
      rd32_wr32_same _ _ _ (by clear * - G'; omega)]
  have m9b : rd32 M9 (b.bp + b.size + nx.size - 8) = b.size - 8 + nx.size := by
    have G' := G.out
    rw [hM9, rd32_wr32_same _ _ _ (by clear * - G'; omega)]
  have hout9 : ∀ a, (a < b.bp + 4 ∨ b.bp + 8 ≤ a) →
      (a < b.bp + b.size + nx.size - 8 ∨ b.bp + b.size + nx.size - 4 ≤ a) → M9 a = M7 a := by
    intro a ha1 ha2
    have G' := G.out
    rw [hM9, wr32_outside _ _ _ _ (by clear * - ha2 G'; omega),
      wr32_outside _ _ _ _ (by clear * - ha1; omega)]
  clear hM9
  have hco := coalesce_eval2 fuel (s.setMem M5) (s.setMem M6) (s.setMem M7)
    (PUT (s.setMem M7) (HDRP (b.bp + 8)) (PACK (b.size - 8 + nx.size) 0)) (s.setMem M9)
    (b.bp + 8) nx.bp (b.size - 8 + nx.size) hpa hna5 e6 hnx6 hsz e7 rfl hput9
  have hfar7 : ∀ a, (a < s.seg_list_ptr ∨ s.seg_list_ptr + 96 ≤ a) →
      (∀ i, i < 24 → ∀ z ∈ fl i, a < z ∨ z + 8 ≤ a) →
      (a < b.bp - 4 ∨ b.bp + b.size - 4 ≤ a) → M7 a = s.mem a := by
    intro a ha1 ha2 ha3
    have G' := G.out
    rw [fr7 a ha1 ha2, fr6' a ha1 ha2 (by clear * - ha3 G'; omega)]
    exact fr5 a ha1 ha2 ha3
  have L9 : ListsOK (s.setMem M9).mem (s.setMem M9).seg_list_ptr
      (Function.update fl (classOf nx.size) ((fl (classOf nx.size)).erase nx.bp)) := by
    refine L7.frame_lists ?_ ?_
    · intro a h1 h2
      have G' := G.out
      have h2' : a < s.seg_list_ptr + 96 := h2
      exact hout9 a (Or.inl (by clear * - G' h2'; omega)) (Or.inl (by clear * - G' h2'; omega))
    · intro j hj z hz a h1 h2
      have := hsep7 j hj z hz
      have G' := G.out
      exact hout9 a (by clear * - this h1 h2 G'; omega) (by clear * - this h1 h2 G'; omega)
  have hstop : ∀ c0, (Function.update fl (classOf nx.size)
      ((fl (classOf nx.size)).erase nx.bp) (classOf (b.size - 8 + nx.size))).head? = some c0 →
      (b.size - 8 + nx.size) >>> classOf (b.size - 8 + nx.size) ≤
        GET_BLK_SIZE (s.setMem M9) c0 := by
    intro c0 hc0
    have hc0m := List.mem_of_mem_head? hc0
    obtain ⟨g1, g2⟩ := hmem7 _ (classOf_lt _) c0 hc0m
    have hpos := hsep7 _ (classOf_lt _) c0 hc0m
    obtain ⟨d, hd, e, h16, hdc, _⟩ := hmemf _ (classOf_lt _) c0 g1
    have hdb := h.wf.bounds hd
    have G' := G.out
    have e2 : GET_BLK_SIZE (s.setMem M9) c0 = d.size := by
      rw [← h.wf.blk_size hd, e]
      unfold GET_BLK_SIZE
      apply GET_SIZE_congr
      rw [HDRP_eq _ (by clear * - hdb e; omega) (by clear * - hdb e; omega)]
      apply rd32_congr
      intro i hi
      obtain ⟨u1, u2⟩ := hU (c0 - 4 + i) (h.wf.tag_bytes_untouched hd _
        (by clear * - e hi; omega) (by clear * - e hi hdb; omega)
        (Or.inl (by clear * - e hi hdb; omega)))
      show M9 (c0 - 4 + i) = s.mem (c0 - 4 + i)
      rw [hout9 _ (by clear * - hpos hi G'; omega) (by clear * - hpos hi G'; omega)]
      exact hfar7 _ u1 u2 (by clear * - hpos hi G'; omega)
    rw [e2]
    exact shifted_le _ _ (by clear * - G'; omega) h16 hdc
  obtain ⟨M10, a10, L10, fr10⟩ := L9.add (b.bp + 8) (b.size - 8 + nx.size)
    (by
      have G' := G.out
      exact ⟨by
        show s.seg_list_ptr + 112 ≤ b.bp + 8
        clear * - G'; omega, by clear * - G'; omega⟩)
    (by
      intro j hj z hz
      have := hsep7 j hj z hz
      have G' := G.out
      clear * - this G'; omega)
    hstop fuel hfuel1
  simp only [setMem_setMem, setMem_mem] at a10 fr10
  have hseg9 : (s.setMem M9).seg_list_ptr = s.seg_list_ptr := rfl
  rw [hseg9] at L10 fr10
  rw [hco, a10] at hev
  -- the words of the final memory
  have fr10' : ∀ a, (a < s.seg_list_ptr ∨ s.seg_list_ptr + 96 ≤ a) →
      (∀ i, i < 24 → ∀ z ∈ fl i, a < z ∨ z + 8 ≤ a) → (a < b.bp + 8 ∨ b.bp + 16 ≤ a) →
      M10 a = M9 a := by
    intro a ha1 ha2 ha3
    refine fr10 a (by clear * - ha3; omega) ha1 ?_
    intro i hi z hz
    exact ha2 i hi z (hmem7 i hi z hz).1
  have hstubw : ∀ x, b.bp - 4 ≤ x → x + 4 ≤ b.bp + 4 → rd32 M10 x = rd32 M5 x := by
    intro x h1 h2
    apply rd32_congr
    intro i hi
    have G' := G.out
    obtain ⟨g1, g2⟩ := hNLa (x + i) (by clear * - h1; omega) (by clear * - h2 hi G'; omega)
      (Or.inl (by clear * - h2 hi G'; omega))
    rw [fr10' _ g1 g2 (Or.inl (by clear * - h2 hi; omega)),
      hout9 _ (Or.inl (by clear * - h2 hi; omega)) (Or.inl (by clear * - h2 hi G'; omega)),
      fr7 _ g1 g2]
    exact fr6' _ g1 g2 (Or.inl (by clear * - h2 hi; omega))
  have t1 : rd32 M10 (b.bp - 4) = 9 := by
    rw [hstubw _ (le_refl _) (by clear * - hbd; omega), w1]
  have t2 : rd32 M10 b.bp = 9 := by
    rw [hstubw _ (by clear * - hbd; omega) (le_refl _), w2]
  have t3 : rd32 M10 (b.bp + 4) = b.size - 8 + nx.size := by
    rw [← m9a]
    apply rd32_congr
    intro i hi
    have G' := G.out
    obtain ⟨g1, g2⟩ := hNLa (b.bp + 4 + i) (by clear * - G'; omega)
      (by clear * - G' hi; omega) (Or.inl (by clear * - G' hi; omega))
    exact fr10' _ g1 g2 (Or.inl (by clear * - hi; omega))
  have t4 : rd32 M10 (b.bp + b.size + nx.size - 8) = b.size - 8 + nx.size := by
    rw [← m9b]
    apply rd32_congr
    intro i hi
    have G' := G.out
    obtain ⟨g1, g2⟩ := hNLa (b.bp + b.size + nx.size - 8 + i) (by clear * - G'; omega)
      (by clear * - G' hi; omega) (Or.inr (by clear * - G' hi; omega))
    exact fr10' _ g1 g2 (Or.inr (by clear * - G'; omega))
  have hseg : (s.setMem M10).seg_list_ptr + 96 < 4294967296 := by
    show s.seg_list_ptr + 96 < 4294967296
    clear * - hbd; omega
  obtain ⟨g1, g2, _⟩ := tag_words (s.setMem M10) b.bp 8 1 9 (by clear * - hbd; omega)
    (by clear * - hbd; omega) (by clear * - hbd; omega) (by decide) (by decide) t1
    (by rw [e88]; exact t2)
  obtain ⟨g3, g4, _⟩ := tag_words (s.setMem M10) (b.bp + 8) (b.size - 8 + nx.size) 0
    (b.size - 8 + nx.size)
    (by clear * - hbd; omega) (by clear * - hbd; omega)
    (by have G' := G.out; clear * - G'; omega) (by have G' := G.out; clear * - G'; omega)
    (by decide) (by rw [e84]; exact t3) (by rw [e9f]; exact t4)
  refine ⟨s.setMem M10, by rw [hev]; rfl, g1, g2, g3, g4, ?_⟩
  refine (ListsOK.onList_lists_iff (t := s.setMem M10) L10 hseg (classOf_lt _) ?_ _).2 ?_
  · rw [Function.update_same, List.length_cons]
    have hlen : (Function.update fl (classOf nx.size) ((fl (classOf nx.size)).erase nx.bp)
        (classOf (b.size - 8 + nx.size))).length ≤ (pre ++ b :: nx :: r).length := by
      by_cases hjk : classOf (b.size - 8 + nx.size) = classOf nx.size
      · rw [hjk, Function.update_same]
        have := h.wf.list_length_le _ (classOf_lt nx.size)
        have h2 := List.length_erase_le nx.bp (fl (classOf nx.size))
        clear * - this h2; omega
      · rw [Function.update_noteq hjk]
        exact h.wf.list_length_le _ (classOf_lt _)
    clear * - hlen hfl; omega
  · rw [Function.update_same]
    exact List.mem_cons_self _ _

theorem ALIGN_mod8 (n : Nat) : ALIGN n % 8 = 0 := by
  unfold ALIGN
  have hlt : u32 (n + (ALIGNMENT - 1)) < 4294967296 := by unfold u32; omega
  rw [and_MASK7 _ hlt]
  omega

theorem ALIGN_idem (m : Nat) (h8 : m % 8 = 0) (hm : m ≤ 4294967280) : ALIGN m = m := by
  unfold ALIGN ALIGNMENT
  have e2 : u32 (m + (8 - 1)) = m + 7 := by unfold u32; omega
  rw [e2, and_MASK7 _ (by omega)]
  omega

/-- After a resize in place the request size plays no part. -/
theorem realloc_finish_size (fuel : Nat) (r : Resize) (old n m c : Nat)
    (hr : r.realloced = true) : realloc_finish fuel r old n c = realloc_finish fuel r old m c := by
  unfold realloc_finish
  simp only [hr, if_true]

/-- The shrinking path of `mm_realloc` that leaves a remainder, for a request
of at most `2^32 - 16` bytes: the tags and the class list it leaves. -/
theorem shrink_outcome {s : Heap} {pre post : List Blk} {c : Blk} {fl : Nat → List Nat}
    (hinv : Inv s (pre ++ c :: post) fl) (hca : c.alloc = true) (m : Nat) (h0 : 0 < m)
    (hm : m ≤ 4294967280) (hlt : ALIGN m < c.size - 8) (hk : ¬ c.size - 8 - ALIGN m ≤ 8)
    (fuel : Nat) (hf : s.mem_brk < fuel) :
    ∃ s', mm_realloc fuel s c.bp m = some (c.bp, s') ∧
      GET s' (HDRP c.bp) = PACK (ALIGN m + 8) 1 ∧ GET s' (FTRP s' c.bp) = PACK (ALIGN m + 8) 1 ∧
      GET s' (HDRP (c.bp + (ALIGN m + 8))) = PACK (c.size - 8 - ALIGN m +
        (if GET_ALLOC s (HDRP (NEXT_BLKP s c.bp)) = 0 then GET_BLK_SIZE s (NEXT_BLKP s c.bp)
          else 0)) 0 ∧
      GET s' (FTRP s' (c.bp + (ALIGN m + 8))) = PACK (c.size - 8 - ALIGN m +
        (if GET_ALLOC s (HDRP (NEXT_BLKP s c.bp)) = 0 then GET_BLK_SIZE s (NEXT_BLKP s c.bp)
          else 0)) 0 ∧
      onList s' fuel (classOf (c.size - 8 - ALIGN m +
        (if GET_ALLOC s (HDRP (NEXT_BLKP s c.bp)) = 0 then GET_BLK_SIZE s (NEXT_BLKP s c.bp)
          else 0))) (c.bp + (ALIGN m + 8)) := by
  have hfl := hinv.wf.fuel_ok hf
  obtain ⟨a8, am8, _, _, _⟩ := ALIGN_props m h0 hm
  obtain ⟨M', bl', fl', e, w, cpl, _, _, _, _, _, ebl⟩ :=
    realloc_shrink_spec hinv hca m h0 hm hlt hk fuel (by clear * - hfl; omega)
  subst ebl
  refine ⟨s.setMem M', e, ?_⟩
  have hf' : (s.setMem M').mem_brk < fuel := hf
  have hc1 : (⟨c.bp, ALIGN m + 8, true⟩ : Blk) ∈ coalesced (pre ++ [⟨c.bp, ALIGN m + 8, true⟩])
      ⟨c.bp + (ALIGN m + 8), c.size - 8 - ALIGN m, false⟩ post :=
    mem_coalesced_of_outer _ rfl (by simp)
  have hmb := mergedBlk_mem (pre ++ [⟨c.bp, ALIGN m + 8, true⟩])
    ⟨c.bp + (ALIGN m + 8), c.size - 8 - ALIGN m, false⟩ post
  have hfr := (mergedBlk_free (pre ++ [⟨c.bp, ALIGN m + 8, true⟩])
    ⟨c.bp + (ALIGN m + 8), c.size - 8 - ALIGN m, false⟩ post rfl).1
  obtain ⟨sh1, sh2⟩ := shrink_rem_shape hinv.wf ⟨c.bp, ALIGN m + 8, true⟩ rfl
    (c.bp + (ALIGN m + 8)) (c.size - 8 - ALIGN m)
  have t1 := w.hdr_word hc1
  have t2 := w.ftr_word hc1
  rw [Blk.tag_used ⟨c.bp, ALIGN m + 8, true⟩ rfl (by show (ALIGN m + 8) % 8 = 0; omega)]
    at t1 t2
  have t3 := w.hdr_word hmb
  have t4 := w.ftr_word hmb
  have t5 := (w.onList_iff hf' (classOf_lt _) _).2 (cpl _ hmb hfr)
  rw [Blk.tag_free _ hfr, sh1, sh2] at t3 t4
  rw [sh1, sh2] at t5
  exact ⟨t1, t2, t3, t4, t5⟩

/-- The shrinking path of `mm_realloc` in a reachable state, for every request
size: the call returns `p`, keeps the state when at most 8 bytes would be left
over, and otherwise retags the block and frees the rest. -/
theorem realloc_shrink_all {s : Heap} {L : List (Nat × Nat)} (h : Reachable s L)
    {p : Nat} (hp : p ∈ L.map Prod.fst) (n : Nat) (h0 : 0 < n)
    (hlt : ALIGN n < GET_BLK_SIZE s p - 8) (fuel : Nat) (hf : s.mem_brk < fuel) :
    ∃ s', mm_realloc fuel s p n = some (p, s') ∧
      (GET_BLK_SIZE s p - 8 - ALIGN n ≤ 8 → s' = s) ∧
      (¬ GET_BLK_SIZE s p - 8 - ALIGN n ≤ 8 →
        GET s' (HDRP p) = PACK (ALIGN n + 8) 1 ∧ GET s' (FTRP s' p) = PACK (ALIGN n + 8) 1 ∧
        GET s' (HDRP (p + (ALIGN n + 8))) = PACK (GET_BLK_SIZE s p - 8 - ALIGN n +
          (if GET_ALLOC s (HDRP (NEXT_BLKP s p)) = 0 then GET_BLK_SIZE s (NEXT_BLKP s p)
            else 0)) 0 ∧
        GET s' (FTRP s' (p + (ALIGN n + 8))) = PACK (GET_BLK_SIZE s p - 8 - ALIGN n +
          (if GET_ALLOC s (HDRP (NEXT_BLKP s p)) = 0 then GET_BLK_SIZE s (NEXT_BLKP s p)
            else 0)) 0 ∧
        onList s' fuel (classOf (GET_BLK_SIZE s p - 8 - ALIGN n +
          (if GET_ALLOC s (HDRP (NEXT_BLKP s p)) = 0 then GET_BLK_SIZE s (NEXT_BLKP s p)
            else 0))) (p + (ALIGN n + 8))) := by
  obtain ⟨bl, fl, hinv, hl⟩ := h.inv
  obtain ⟨_, _, c, hc, hcp, hca, _⟩ := hl.block hp
  have hs := hinv.wf.blk_size hc
  have hcb := hinv.wf.bounds hc
  obtain ⟨pre, post, e⟩ := List.append_of_mem hc
  subst e hcp
  rw [hs] at hlt ⊢
  have hp0 : c.bp ≠ NULL := by unfold NULL; clear * - hcb; omega
  have hn0 : n ≠ 0 := by clear * - h0; omega
  have a8 := ALIGN_mod8 n
  by_cases hk : c.size - 8 - ALIGN n ≤ 8
  · have e := mm_realloc_keep fuel s c.bp n (c.size - 8) hp0 hn0
      (csize_eq hinv.wf hc) (le_of_lt hlt) hk
    exact ⟨s, e, fun _ => rfl, fun hnk => absurd hk hnk⟩
  · by_cases hz : ALIGN n = 0
    · -- the block is cut down to a stub of 8 bytes
      have h24 : 24 ≤ c.size := by rw [hz] at hk; clear * - hk hcb; omega
      have e9 : PACK (0 + 8) 1 = 9 := by decide
      rw [hz] at hk ⊢
      simp only [e9, PACK_zero, Nat.sub_zero, Nat.zero_add]
      rcases post with _ | ⟨nx, r⟩
      · have hna := next_bit_nil hinv.wf
        have hnx := hinv.wf.next_nil
        obtain ⟨s', g0, g1, g2, g3, g4, g5⟩ := realloc_stub_next_used hinv hca n hn0 hz h24
          fuel hf (by rw [hnx.1, hnx.2.1]) hna
        refine ⟨s', g0, fun hk' => absurd hk' hk, fun _ => ?_⟩
        rw [if_neg hna, Nat.add_zero]
        exact ⟨g1, g2, g3, g4, g5⟩
      · have hnb := next_bit_cons hinv.wf
        have hnx := hinv.wf.next_cons
        have hsn := hinv.wf.blk_size (b := nx) (by simp)
        cases hnal : nx.alloc
        · rw [hnal] at hnb
          simp only [Bool.false_eq_true, if_false] at hnb
          obtain ⟨s', g0, g1, g2, g3, g4, g5⟩ := realloc_stub_next_free hinv hca hnal n hn0 hz
            h24 fuel hf
          refine ⟨s', g0, fun hk' => absurd hk' hk, fun _ => ?_⟩
          rw [if_pos hnb, hnx.1, hsn]
          exact ⟨g1, g2, g3, g4, g5⟩
        · rw [hnal] at hnb
          simp only [if_true] at hnb
          have hna : GET_ALLOC s (HDRP (NEXT_BLKP s c.bp)) ≠ 0 := by rw [hnb]; decide
          obtain ⟨s', g0, g1, g2, g3, g4, g5⟩ := realloc_stub_next_used hinv hca n hn0 hz h24
            fuel hf (by rw [hnx.1, hnx.2]) hna
          refine ⟨s', g0, fun hk' => absurd hk' hk, fun _ => ?_⟩
          rw [if_neg hna, Nat.add_zero]
          exact ⟨g1, g2, g3, g4, g5⟩
    · -- the request behaves like the request of `ALIGN n` bytes
      have hm : ALIGN n ≤ 4294967280 := by clear * - hlt hcb a8; omega
      have hid := ALIGN_idem (ALIGN n) a8 hm
      have hlt' : ALIGN (ALIGN n) < c.size - 8 := by rw [hid]; exact hlt
      have hk' : ¬ c.size - 8 - ALIGN (ALIGN n) ≤ 8 := by rw [hid]; exact hk
      obtain ⟨s', g0, g⟩ := shrink_outcome hinv hca (ALIGN n) (by clear * - hz; omega) hm
        hlt' hk' fuel hf
      rw [hid] at g
      refine ⟨s', ?_, fun hk2 => absurd hk2 hk, fun _ => g⟩
      have hcs := csize_eq hinv.wf hc
      rw [mm_realloc_shrink_eval fuel s c.bp n (c.size - 8) hp0 hn0 hcs hlt hk,
        realloc_finish_size fuel _ c.bp n (ALIGN n) (c.size - 8) rfl]
      rw [mm_realloc_shrink_eval fuel s c.bp (ALIGN n) (c.size - 8) hp0 hz hcs hlt' hk',
        hid] at g0
      exact g0

/-! ## The result of `mm_realloc` in every state -/

set_option maxRecDepth 100000 in
/-- C28, a run that refutes the claim as stated: `mm_init(); x = mm_malloc(8);
y = mm_malloc(100); z = mm_realloc(y, 2^32 - 8); mm_realloc(z, 100)` on the
empty region at 4096 gives `x = 4248`, `y = 8256`, `z = 4248` (the adjusted
size of the fallback `mm_malloc(2^32 - 8)` wraps to 0 and `place(bp, 0)` hands
out the address of the live block `x`) and leaves the block of 4248 with the
header 113 (112 bytes, usable size 104), laid over the stale member 4272 of
class list 6, and followed at 4360 by a header that is tagged free with size
`2^32 - 112`. Now `mm_realloc(4248, 24)`, with `ALIGN(24) = 24 < 104` and
`104 - 24 > 8`, returns 4248 and retags the block with `PACK(32, 1) = 33`, and
writes `PACK(80, 0)` into the header (4276) and the footer (4352) of the
remainder 4280; but `add_seglist(4280, 80)` links 4280 in front of the head
4272 of class list 6 and stores 4280 in the link word of 4272 at 4276, which is
the header of the remainder, and `coalesce` then reads a block that is neither
of 80 bytes nor merged with the block at 4360: the header of the remainder is
left as 4280 and the header at 4356 as it was. -/
theorem wrapped_realloc_breaks_shrink :
    ((mm_malloc 8369 reachInit 8).map Prod.fst,
      (mm_malloc 8369 (afterMalloc reachInit 8) 100).map Prod.fst,
      (mm_realloc 8369 (afterMalloc (afterMalloc reachInit 8) 100) 8256 4294967288).map Prod.fst,
      (mm_realloc 8369 (afterRealloc (afterMalloc (afterMalloc reachInit 8) 100) 8256
        4294967288) 4248 100).map Prod.fst,
      GET_BLK_SIZE wrappedHeap 4248, ALIGN 24,
      GET_ALLOC wrappedHeap (HDRP (NEXT_BLKP wrappedHeap 4248)),
      GET_BLK_SIZE wrappedHeap (NEXT_BLKP wrappedHeap 4248),
      GET_SEG_LIST_PTR wrappedHeap wrappedHeap.seg_list_ptr 6,
      (mm_realloc 8369 wrappedHeap 4248 24).map
        (fun r => (r.1, GET r.2 (HDRP 4248), GET r.2 (HDRP (4248 + (ALIGN 24 + 8))),
          GET r.2 (HDRP (NEXT_BLKP wrappedHeap 4248)),
          GET_SEG_LIST_PTR r.2 r.2.seg_list_ptr 6)))
      = (some 4248, some 8256, some 4248, some 4248, 112, 24, 0, 4294967184, 4272,
        some (4248, 33, 4280, 4294967184, 4280)) := by rfl

/-- C28, amended. In a reachable state (requests of at most `2^32 - 16`
bytes), for a live address `p` with usable size `c` and every request `n > 0`
with `a = ALIGN(n) < c`, `mm_realloc(p, n)` returns `p`; if `c - a ≤ 8` the
state is unchanged; otherwise the block of `p` is tagged allocated with size
`a + 8`, and the block behind it, at `p + a + 8`, is free, on the class list
of its size, and its size is `c - a` plus the size of the next physical block
when that block was free. -/
theorem realloc_shrinks_in_place {s : Heap} {L : List (Nat × Nat)} (h : Reachable s L)
    {p : Nat} (hp : p ∈ L.map Prod.fst) (n : Nat) (h0 : 0 < n)
    (hlt : ALIGN n < GET_BLK_SIZE s p - 8) (fuel : Nat) (hf : s.mem_brk < fuel) :
    ∃ s', mm_realloc fuel s p n = some (p, s') ∧
      (GET_BLK_SIZE s p - 8 - ALIGN n ≤ 8 → s' = s) ∧
      (¬ GET_BLK_SIZE s p - 8 - ALIGN n ≤ 8 →
        GET s' (HDRP p) = PACK (ALIGN n + 8) 1 ∧ GET s' (FTRP s' p) = PACK (ALIGN n + 8) 1 ∧
        GET s' (HDRP (p + (ALIGN n + 8))) = PACK (GET_BLK_SIZE s p - 8 - ALIGN n +
          (if GET_ALLOC s (HDRP (NEXT_BLKP s p)) = 0 then GET_BLK_SIZE s (NEXT_BLKP s p)
            else 0)) 0 ∧
        GET s' (FTRP s' (p + (ALIGN n + 8))) = PACK (GET_BLK_SIZE s p - 8 - ALIGN n +
          (if GET_ALLOC s (HDRP (NEXT_BLKP s p)) = 0 then GET_BLK_SIZE s (NEXT_BLKP s p)
            else 0)) 0 ∧
        onList s' fuel (classOf (GET_BLK_SIZE s p - 8 - ALIGN n +
          (if GET_ALLOC s (HDRP (NEXT_BLKP s p)) = 0 then GET_BLK_SIZE s (NEXT_BLKP s p)
            else 0))) (p + (ALIGN n + 8))) :=
  realloc_shrink_all h hp n h0 hlt fuel hf

theorem realloc_shrinks_in_place_witness :
    Reachable reachBig [(4208, 300)] ∧
    ∃ s', mm_realloc 8369 reachBig 4208 4294967295 = some (4208, s') ∧
      (GET_BLK_SIZE reachBig 4208 - 8 - ALIGN 4294967295 ≤ 8 → s' = reachBig) ∧
      (¬ GET_BLK_SIZE reachBig 4208 - 8 - ALIGN 4294967295 ≤ 8 →
        GET s' (HDRP 4208) = PACK (ALIGN 4294967295 + 8) 1 ∧
        GET s' (FTRP s' 4208) = PACK (ALIGN 4294967295 + 8) 1 ∧
        GET s' (HDRP (4208 + (ALIGN 4294967295 + 8))) =
          PACK (GET_BLK_SIZE reachBig 4208 - 8 - ALIGN 4294967295 +
          (if GET_ALLOC reachBig (HDRP (NEXT_BLKP reachBig 4208)) = 0
            then GET_BLK_SIZE reachBig (NEXT_BLKP reachBig 4208) else 0)) 0 ∧
        GET s' (FTRP s' (4208 + (ALIGN 4294967295 + 8))) =
          PACK (GET_BLK_SIZE reachBig 4208 - 8 - ALIGN 4294967295 +
          (if GET_ALLOC reachBig (HDRP (NEXT_BLKP reachBig 4208)) = 0
            then GET_BLK_SIZE reachBig (NEXT_BLKP reachBig 4208) else 0)) 0 ∧
        onList s' 8369 (classOf (GET_BLK_SIZE reachBig 4208 - 8 - ALIGN 4294967295 +
          (if GET_ALLOC reachBig (HDRP (NEXT_BLKP reachBig 4208)) = 0
            then GET_BLK_SIZE reachBig (NEXT_BLKP reachBig 4208) else 0)))
          (4208 + (ALIGN 4294967295 + 8))) :=
  ⟨reach_big, realloc_shrinks_in_place reach_big live_mem 4294967295 (by decide)
    (Nat.le_of_ble_eq_true rfl) 8369 reachBig_brk⟩

end MM
